import Mathlib

/-!
# gdbc: token-buffer codec and Variant marshalling

A shallow embedding of

* `src/io/marshalls.cpp` (`_encode_string`, `godot::encode_variant`),
* `src/gdscript/gdscript_tokenizer_buffer.cpp` (`_token_to_binary`,
  `parse_code_string`, `scan`, the indented-block stack operations),

followed by theorems about them.

Conventions of the embedding

* Machine integers are `Nat`/`Int`.  `encode_uint32`/`encode_uint64` reduce their
  argument modulo `2^32`/`2^64`, which is the C++ conversion to the unsigned type.
  `int` accumulators such as `r_len` are not wrapped: signed overflow is undefined
  behaviour in the source and outside the model.
* A byte buffer (`Vector<uint8_t>`, or the memory a `uint8_t *` points into) is a
  `List Nat`; a `uint8_t *` is an `Option Nat` (`none` is `nullptr`, `some p` is the
  byte offset `p` into the memory that is threaded through the function).
* Floating-point numbers are carried by their IEEE bit patterns.
* Enumerations declared outside the repository's sources (`Variant::Type`,
  `Token::Type`) are inductive types; their integer values are taken as parameters
  (`BuildConfig`).
-/

namespace godot

/-! ## Bytes and buffers -/

/-- The C++ conversion of an integer to `uint32_t`. -/
def to_uint32 (x : Int) : Nat := (x % (2 ^ 32 : Int)).toNat

/-- The C++ conversion of a non-negative integer to `uint32_t`. -/
def uint32_t (n : Nat) : Nat := n % 4294967296

/-- The C++ conversion of an integer to `uint64_t`. -/
def to_uint64 (x : Int) : Nat := (x % (2 ^ 64 : Int)).toNat

/-- Modelled from the spec: `encode_uint32` (declared in `io/marshalls.h`) stores an
integer as four bytes, little-endian. -/
def encode_uint32 (p_uint : Nat) : List Nat :=
  [p_uint % 256, p_uint / 256 % 256, p_uint / 65536 % 256, p_uint / 16777216 % 256]

/-- Modelled from the spec: `encode_uint64` (declared in `io/marshalls.h`) stores an
integer as eight bytes, little-endian. -/
def encode_uint64 (p_uint : Nat) : List Nat :=
  encode_uint32 (p_uint % 4294967296) ++ encode_uint32 (p_uint / 4294967296 % 4294967296)

/-- Store `bytes` into `mem` from offset `off` on (`memcpy`, or successive byte
stores).  A store outside the memory is dropped: in the source it is undefined. -/
def poke : List Nat → Nat → List Nat → List Nat
  | mem, _, [] => mem
  | mem, off, b :: bs => poke (mem.set off b) (off + 1) bs

/-- `Vector::resize`: truncate, or extend (here with zero bytes) to exactly `n`. -/
def resize (v : List Nat) (n : Nat) : List Nat :=
  v.take n ++ List.replicate (n - v.length) 0

/-! ## The value model (`Variant`) -/

/-- A `real_t` component, by its bit pattern (32 or 64 bits wide, per build). -/
abbrev real_t := Nat

/-- A Godot `String`: its UTF-32 code units, and the bytes `String::utf8()` returns
for it (that conversion lives outside the repository). -/
structure GString where
  chars : List Nat
  utf8 : List Nat
deriving DecidableEq, Repr

/-- `StringName` converts to and from `String` without change of content. -/
abbrev StringName := GString

/-- The ASCII string literal `s` as a Godot string. -/
def GString.ascii (s : String) : GString :=
  ⟨s.toList.map Char.toNat, s.toList.map Char.toNat⟩

/-- `String::is_empty`. -/
def GString.is_empty (s : GString) : Bool := s.chars.isEmpty

/-- `String::begins_with`. -/
def GString.begins_with (s p : GString) : Bool := p.chars.isPrefixOf s.chars

/-- A `double` held by a FLOAT variant: its 64-bit pattern, the 32-bit pattern of
`float f = d`, and whether `double(f) == d`. -/
structure GDouble where
  bits : Nat
  float_bits : Nat
  float_exact : Bool
deriving DecidableEq, Repr

structure Vector2 where
  x : real_t
  y : real_t
deriving DecidableEq, Repr

structure Vector2i where
  x : Int
  y : Int
deriving DecidableEq, Repr

structure Rect2 where
  position : Vector2
  size : Vector2
deriving DecidableEq, Repr

structure Rect2i where
  position : Vector2i
  size : Vector2i
deriving DecidableEq, Repr

structure Vector3 where
  x : real_t
  y : real_t
  z : real_t
deriving DecidableEq, Repr

structure Vector3i where
  x : Int
  y : Int
  z : Int
deriving DecidableEq, Repr

/-- `Transform2D::columns[3]`. -/
structure Transform2D where
  columns0 : Vector2
  columns1 : Vector2
  columns2 : Vector2
deriving DecidableEq, Repr

structure Vector4 where
  x : real_t
  y : real_t
  z : real_t
  w : real_t
deriving DecidableEq, Repr

structure Vector4i where
  x : Int
  y : Int
  z : Int
  w : Int
deriving DecidableEq, Repr

structure Plane where
  normal : Vector3
  d : real_t
deriving DecidableEq, Repr

structure Quaternion where
  x : real_t
  y : real_t
  z : real_t
  w : real_t
deriving DecidableEq, Repr

structure AABB where
  position : Vector3
  size : Vector3
deriving DecidableEq, Repr

/-- `Basis::rows[3]`. -/
structure Basis where
  rows0 : Vector3
  rows1 : Vector3
  rows2 : Vector3
deriving DecidableEq, Repr

structure Transform3D where
  basis : Basis
  origin : Vector3
deriving DecidableEq, Repr

/-- `Projection::columns[4]`. -/
structure Projection where
  columns0 : Vector4
  columns1 : Vector4
  columns2 : Vector4
  columns3 : Vector4
deriving DecidableEq, Repr

/-- A colour: four single-precision components, by bit pattern. -/
structure Color where
  r : Nat
  g : Nat
  b : Nat
  a : Nat
deriving DecidableEq, Repr

structure NodePath where
  names : List StringName
  subnames : List StringName
  absolute : Bool
deriving DecidableEq, Repr

structure Signal where
  name : StringName
  object_id : Nat
deriving DecidableEq, Repr

/-- A valid script reference (`Ref<RefCounted>` with `is_valid()`), by the resource
path `get_path()` returns for it. -/
structure ScriptRef where
  path : GString
deriving DecidableEq, Repr

/-- The element typing of an `Array`: `is_typed`, `get_typed_script` (`none` when the
reference is not valid), `get_typed_class_name`, `get_typed_builtin`. -/
structure ArrayTyping where
  is_typed : Bool
  typed_script : Option ScriptRef
  typed_class_name : StringName
  typed_builtin : Nat
deriving DecidableEq, Repr

/-- The untyped array typing. -/
def ArrayTyping.untyped : ArrayTyping := ⟨false, none, ⟨[], []⟩, 0⟩

/-- One entry of `get_property_list()`: the name and `usage & PROPERTY_USAGE_STORAGE`. -/
structure PropertyInfo where
  name : StringName
  usage_storage : Bool
deriving DecidableEq, Repr

/-- A live object as `encode_variant` sees it, over the type `α` of property values:
`get_class()`, `ClassDB::can_instantiate` of that class, `get_instance_id()`,
`get_script()` (`none` when not valid) and the property list, each entry paired with
the value `get(name)` returns. -/
structure ObjectData (α : Type) where
  class_name : GString
  can_instantiate : Bool
  instance_id : Nat
  script : Option ScriptRef
  property_list : List (PropertyInfo × α)

/-- `Variant::Type`. -/
inductive VariantType where
  | NIL | BOOL | INT | FLOAT | STRING
  | VECTOR2 | VECTOR2I | RECT2 | RECT2I | VECTOR3 | VECTOR3I | TRANSFORM2D
  | VECTOR4 | VECTOR4I | PLANE | QUATERNION | AABB | BASIS | TRANSFORM3D | PROJECTION
  | COLOR | STRING_NAME | NODE_PATH | RID | OBJECT | CALLABLE | SIGNAL
  | DICTIONARY | ARRAY
  | PACKED_BYTE_ARRAY | PACKED_INT32_ARRAY | PACKED_INT64_ARRAY
  | PACKED_FLOAT32_ARRAY | PACKED_FLOAT64_ARRAY | PACKED_STRING_ARRAY
  | PACKED_VECTOR2_ARRAY | PACKED_VECTOR3_ARRAY | PACKED_COLOR_ARRAY
  | PACKED_VECTOR4_ARRAY
deriving DecidableEq, Repr

/-- The dynamic value.  `OBJECT none` is the null object pointer; a `CALLABLE` has no
content the codec reads. -/
inductive Variant where
  | NIL
  | BOOL (b : Bool)
  | INT (val : Int)
  | FLOAT (d : GDouble)
  | STRING (s : GString)
  | VECTOR2 (v : Vector2)
  | VECTOR2I (v : Vector2i)
  | RECT2 (r : Rect2)
  | RECT2I (r : Rect2i)
  | VECTOR3 (v : Vector3)
  | VECTOR3I (v : Vector3i)
  | TRANSFORM2D (t : Transform2D)
  | VECTOR4 (v : Vector4)
  | VECTOR4I (v : Vector4i)
  | PLANE (p : Plane)
  | QUATERNION (q : Quaternion)
  | AABB (a : AABB)
  | BASIS (b : Basis)
  | TRANSFORM3D (t : Transform3D)
  | PROJECTION (p : Projection)
  | COLOR (c : Color)
  | STRING_NAME (s : StringName)
  | NODE_PATH (np : NodePath)
  | RID (id : Nat)
  | OBJECT (obj : Option (ObjectData Variant))
  | CALLABLE
  | SIGNAL (s : Signal)
  | DICTIONARY (d : List (Variant × Variant))
  | ARRAY (typing : ArrayTyping) (elems : List Variant)
  | PACKED_BYTE_ARRAY (data : List Nat)
  | PACKED_INT32_ARRAY (data : List Int)
  | PACKED_INT64_ARRAY (data : List Int)
  | PACKED_FLOAT32_ARRAY (data : List Nat)
  | PACKED_FLOAT64_ARRAY (data : List Nat)
  | PACKED_STRING_ARRAY (data : List GString)
  | PACKED_VECTOR2_ARRAY (data : List Vector2)
  | PACKED_VECTOR3_ARRAY (data : List Vector3)
  | PACKED_COLOR_ARRAY (data : List Color)
  | PACKED_VECTOR4_ARRAY (data : List Vector4)

/-- `Variant::get_type`. -/
def Variant.get_type : Variant → VariantType
  | .NIL => .NIL
  | .BOOL _ => .BOOL
  | .INT _ => .INT
  | .FLOAT _ => .FLOAT
  | .STRING _ => .STRING
  | .VECTOR2 _ => .VECTOR2
  | .VECTOR2I _ => .VECTOR2I
  | .RECT2 _ => .RECT2
  | .RECT2I _ => .RECT2I
  | .VECTOR3 _ => .VECTOR3
  | .VECTOR3I _ => .VECTOR3I
  | .TRANSFORM2D _ => .TRANSFORM2D
  | .VECTOR4 _ => .VECTOR4
  | .VECTOR4I _ => .VECTOR4I
  | .PLANE _ => .PLANE
  | .QUATERNION _ => .QUATERNION
  | .AABB _ => .AABB
  | .BASIS _ => .BASIS
  | .TRANSFORM3D _ => .TRANSFORM3D
  | .PROJECTION _ => .PROJECTION
  | .COLOR _ => .COLOR
  | .STRING_NAME _ => .STRING_NAME
  | .NODE_PATH _ => .NODE_PATH
  | .RID _ => .RID
  | .OBJECT _ => .OBJECT
  | .CALLABLE => .CALLABLE
  | .SIGNAL _ => .SIGNAL
  | .DICTIONARY _ => .DICTIONARY
  | .ARRAY _ _ => .ARRAY
  | .PACKED_BYTE_ARRAY _ => .PACKED_BYTE_ARRAY
  | .PACKED_INT32_ARRAY _ => .PACKED_INT32_ARRAY
  | .PACKED_INT64_ARRAY _ => .PACKED_INT64_ARRAY
  | .PACKED_FLOAT32_ARRAY _ => .PACKED_FLOAT32_ARRAY
  | .PACKED_FLOAT64_ARRAY _ => .PACKED_FLOAT64_ARRAY
  | .PACKED_STRING_ARRAY _ => .PACKED_STRING_ARRAY
  | .PACKED_VECTOR2_ARRAY _ => .PACKED_VECTOR2_ARRAY
  | .PACKED_VECTOR3_ARRAY _ => .PACKED_VECTOR3_ARRAY
  | .PACKED_COLOR_ARRAY _ => .PACKED_COLOR_ARRAY
  | .PACKED_VECTOR4_ARRAY _ => .PACKED_VECTOR4_ARRAY

/-! ## `io/marshalls.cpp` -/

/-- Godot's `Error` codes that `encode_variant` returns. -/
inductive Error where
  | OK | ERR_OUT_OF_MEMORY | ERR_INVALID_PARAMETER | ERR_UNAVAILABLE | ERR_BUG
deriving DecidableEq, Repr

/-- What the build fixes: whether `REAL_T_IS_DOUBLE` is defined, and the integer
values of the `Variant::Type` enumerators (declared by the host bindings). -/
structure BuildConfig where
  real_t_is_double : Bool
  type_id : VariantType → Nat

def HEADER_TYPE_MASK : Nat := 0xFF
def HEADER_DATA_FLAG_64 : Nat := 1 <<< 16
def HEADER_DATA_FLAG_OBJECT_AS_ID : Nat := 1 <<< 16
def HEADER_DATA_FIELD_TYPED_ARRAY_MASK : Nat := 0b11 <<< 16
def HEADER_DATA_FIELD_TYPED_ARRAY_NONE : Nat := 0b00 <<< 16
def HEADER_DATA_FIELD_TYPED_ARRAY_BUILTIN : Nat := 0b01 <<< 16
def HEADER_DATA_FIELD_TYPED_ARRAY_CLASS_NAME : Nat := 0b10 <<< 16
def HEADER_DATA_FIELD_TYPED_ARRAY_SCRIPT : Nat := 0b11 <<< 16
def VARIANT_MAX_RECURSION_DEPTH : Nat := 1024
def INT_MAX : Int := 2147483647
def INT_MIN : Int := -2147483648

/-- `ENCODED_OBJECT_ID_NAME`. -/
def ENCODED_OBJECT_ID_NAME : GString := GString.ascii "EncodedObjectAsID"

/-- `sizeof(real_t)`. -/
def sizeof_real_t (cfg : BuildConfig) : Nat := if cfg.real_t_is_double then 8 else 4

/-- Modelled from the spec: `encode_float` (declared in `io/marshalls.h`) stores the
four bytes of a single-precision number. -/
def encode_float (bits : Nat) : List Nat := encode_uint32 (bits % 4294967296)

/-- Modelled from the spec: `encode_double` (declared in `io/marshalls.h`) stores the
eight bytes of a double-precision number. -/
def encode_double (bits : Nat) : List Nat := encode_uint64 bits

/-- Modelled from the spec: `encode_real` (declared in `io/marshalls.h`) stores a
component at the width fixed by the build, `sizeof(real_t)` bytes.  A `memcpy` of a
`real_t` stores the same bytes. -/
def encode_real (cfg : BuildConfig) (x : real_t) : List Nat :=
  if cfg.real_t_is_double then encode_double x else encode_float x

/-- The locals `buf` and `r_len` of `encode_variant`, with the memory `buf` points
into. -/
structure Cursor where
  buf : Option Nat
  r_len : Nat
  mem : List Nat
deriving DecidableEq, Repr

/-- `if (buf) { store bytes at buf + off }`. -/
def Cursor.store (c : Cursor) (off : Nat) (bytes : List Nat) : Cursor :=
  match c.buf with
  | none => c
  | some p => { c with mem := poke c.mem (p + off) bytes }

/-- `if (buf) { buf += n; }`. -/
def Cursor.advance (c : Cursor) (n : Nat) : Cursor :=
  { c with buf := c.buf.map (· + n) }

/-- `r_len += n;`. -/
def Cursor.add_len (c : Cursor) (n : Nat) : Cursor :=
  { c with r_len := c.r_len + n }

/-- `while (r_len % 4) { r_len++; if (buf) { *(buf++) = 0; } }`, run for at most
`fuel` iterations.  Three iterations always finish the loop (`pad_loop_aligned`). -/
def pad_loop : Nat → Cursor → Cursor
  | 0, c => c
  | fuel + 1, c =>
    if c.r_len % 4 ≠ 0 then
      pad_loop fuel (((c.add_len 1).store 0 [0]).advance 1)
    else c

/-- `_encode_string`. -/
def _encode_string (p_string : GString) (c : Cursor) : Cursor :=
  let utf8 := p_string.utf8
  let c := (((c.store 0 (encode_uint32 utf8.length)).advance 4).store 0 utf8).advance utf8.length
  let c := c.add_len (4 + utf8.length)
  pad_loop 3 c

/-- What `encode_variant` hands back: the returned `Error`, the final value of the
reference `r_len`, and the memory after the stores. -/
structure EncodeResult where
  err : Error
  r_len : Nat
  mem : List Nat
deriving DecidableEq, Repr

/-- The first `switch` of `encode_variant`: the header word, or `none` where the
function returns early from the `OBJECT` case. -/
def encode_header (cfg : BuildConfig) (p_variant : Variant) (p_full_objects : Bool) :
    Option Nat :=
  let header := cfg.type_id p_variant.get_type
  match p_variant with
  | .INT val =>
    if val > INT_MAX ∨ val < INT_MIN then some (header ||| HEADER_DATA_FLAG_64) else some header
  | .FLOAT d =>
    if ¬ d.float_exact then some (header ||| HEADER_DATA_FLAG_64) else some header
  | .OBJECT obj =>
    if obj.isSome then none
    else if ¬ p_full_objects then some (header ||| HEADER_DATA_FLAG_OBJECT_AS_ID)
    else some header
  | .ARRAY array _ =>
    if array.is_typed then
      match array.typed_script with
      | some _ =>
        some (header ||| (if p_full_objects then HEADER_DATA_FIELD_TYPED_ARRAY_SCRIPT
                          else HEADER_DATA_FIELD_TYPED_ARRAY_CLASS_NAME))
      | none =>
        if array.typed_class_name.chars ≠ [] then
          some (header ||| HEADER_DATA_FIELD_TYPED_ARRAY_CLASS_NAME)
        else some (header ||| HEADER_DATA_FIELD_TYPED_ARRAY_BUILTIN)
    else some header
  | .VECTOR2 _ | .VECTOR3 _ | .VECTOR4 _
  | .PACKED_VECTOR2_ARRAY _ | .PACKED_VECTOR3_ARRAY _ | .PACKED_VECTOR4_ARRAY _
  | .TRANSFORM2D _ | .TRANSFORM3D _ | .PROJECTION _ | .QUATERNION _ | .PLANE _
  | .BASIS _ | .RECT2 _ | .AABB _ =>
    if cfg.real_t_is_double then some (header ||| HEADER_DATA_FLAG_64) else some header
  | _ => some header

/-- `return OK;` with the locals as they stand. -/
def Cursor.ok (c : Cursor) : EncodeResult := ⟨.OK, c.r_len, c.mem⟩

/-- `ERR_FAIL_..._V(..., e)`: return `e` with the locals as they stand. -/
def Cursor.fail (c : Cursor) (e : Error) : EncodeResult := ⟨e, c.r_len, c.mem⟩

/-- Successive `encode_real(x_k, &buf[k * sizeof(real_t)])` stores, as one run of
bytes. -/
def encode_reals (cfg : BuildConfig) (xs : List real_t) : List Nat :=
  (xs.map (encode_real cfg)).flatten

/-- Successive `encode_uint32(x_k, &buf[k * 4])` stores of `int32_t` values. -/
def encode_int32s (xs : List Int) : List Nat :=
  (xs.map fun x => encode_uint32 (to_uint32 x)).flatten

def Vector2.components (v : Vector2) : List real_t := [v.x, v.y]
def Vector3.components (v : Vector3) : List real_t := [v.x, v.y, v.z]
def Vector4.components (v : Vector4) : List real_t := [v.x, v.y, v.z, v.w]

/-- The string loop of the `NODE_PATH` case, over the names followed by the
subnames.  The `pad` bytes are skipped, not written. -/
def encode_node_path_strings : List GString → Cursor → Cursor
  | [], c => c
  | str :: rest, c =>
    let utf8 := str.utf8
    let pad := if utf8.length % 4 ≠ 0 then 4 - utf8.length % 4 else 0
    let c := ((c.store 0 (encode_uint32 utf8.length)).advance 4).store 0 utf8
    let c := c.advance (pad + utf8.length)
    encode_node_path_strings rest (c.add_len (4 + utf8.length + pad))

/-- The string loop of the `PACKED_STRING_ARRAY` case: each string is stored with its
terminating zero byte, then padded. -/
def encode_packed_strings : List GString → Cursor → Cursor
  | [], c => c
  | str :: rest, c =>
    let utf8 := str.utf8
    let c := (((c.store 0 (encode_uint32 (utf8.length + 1))).advance 4).store 0
      (utf8 ++ [0])).advance (utf8.length + 1)
    let c := c.add_len (4 + utf8.length + 1)
    encode_packed_strings rest (pad_loop 3 c)

/-- The tail shared by every nested `encode_variant` call site:
`ERR_FAIL_COND_V(err, err); ERR_FAIL_COND_V(len % 4, ERR_BUG); r_len += len;
if (buf) { buf += len; }`.  Returns the error to return, or the cursor to go on with. -/
def after_nested (c : Cursor) (r : EncodeResult) : Except EncodeResult Cursor :=
  let c : Cursor := { c with mem := r.mem }
  if r.err ≠ .OK then .error (c.fail r.err)
  else if r.r_len % 4 ≠ 0 then .error (c.fail .ERR_BUG)
  else .ok ((c.add_len r.r_len).advance r.r_len)

/-- The element loop of the `ARRAY` case.  `enc` is the nested call
`encode_variant(var, buf, len, p_full_objects, p_depth + 1)`, given the value, `buf`
and the memory. -/
def encode_array_elements (enc : Variant → Option Nat → List Nat → EncodeResult) :
    List Variant → Cursor → Except EncodeResult Cursor
  | [], c => .ok c
  | var :: rest, c =>
    match after_nested c (enc var c.buf c.mem) with
    | .error e => .error e
    | .ok c => encode_array_elements enc rest c

/-- The key/value loop of the `DICTIONARY` case, over the keys in iteration order,
each with the value `d.get(key)` returns. -/
def encode_dictionary_pairs (enc : Variant → Option Nat → List Nat → EncodeResult) :
    List (Variant × Variant) → Cursor → Except EncodeResult Cursor
  | [], c => .ok c
  | (E, v) :: rest, c =>
    match after_nested c (enc E c.buf c.mem) with
    | .error e => .error e
    | .ok c =>
      match after_nested c (enc v c.buf c.mem) with
      | .error e => .error e
      | .ok c => encode_dictionary_pairs enc rest c

/-- The second property loop of the full-object case of `OBJECT`. -/
def encode_object_properties (enc : Variant → Option Nat → List Nat → EncodeResult)
    (script : Option ScriptRef) :
    List (PropertyInfo × Variant) → Cursor → Except EncodeResult Cursor
  | [], c => .ok c
  | (E, got) :: rest, c =>
    if ¬ E.usage_storage then encode_object_properties enc script rest c
    else
      let c := _encode_string E.name c
      let value : Except Error Variant :=
        if E.name.chars = (GString.ascii "script").chars then
          match script with
          | some res =>
            if res.path.is_empty || !res.path.begins_with (GString.ascii "res://") then
              .error .ERR_UNAVAILABLE
            else .ok (.STRING res.path)
          | none => .ok .NIL
        else .ok got
      match value with
      | .error e => .error (c.fail e)
      | .ok value =>
        match after_nested c (enc value c.buf c.mem) with
        | .error e => .error e
        | .ok c => encode_object_properties enc script rest c

/-- The block `if (array.is_typed()) { ... }` that opens the `ARRAY` case of the second
`switch`: the element type, as a script path, a class name or a builtin type tag. -/
def encode_array_typing (array : ArrayTyping) (p_full_objects : Bool) (c : Cursor) :
    Except EncodeResult Cursor :=
  if array.is_typed then
    match array.typed_script with
    | some res =>
      if p_full_objects then
        if res.path.is_empty || !res.path.begins_with (GString.ascii "res://") then
          .error (c.fail .ERR_UNAVAILABLE)
        else .ok (_encode_string res.path c)
      else .ok (_encode_string ENCODED_OBJECT_ID_NAME c)
    | none =>
      if array.typed_class_name.chars ≠ [] then
        .ok (_encode_string
          (if p_full_objects then array.typed_class_name else ENCODED_OBJECT_ID_NAME) c)
      else .ok (((c.store 0 (encode_uint32 array.typed_builtin)).advance 4).add_len 4)
  else .ok c

/-- The body of `godot::encode_variant`, by recursion on `fuel`, the number of call
levels still allowed.  `encode_variant` starts it with the levels the depth guard
leaves, `VARIANT_MAX_RECURSION_DEPTH + 1 - p_depth`, so that `fuel = 0` is reached
exactly where the guard `p_depth > VARIANT_MAX_RECURSION_DEPTH` fires, and returns
what the guard returns.  `r_len` is the value the reference holds on entry; the
`int len;` of a nested call site is uninitialised in the source and enters as `0`.
The `default:` label of the second `switch` is not reachable for a value of the
`Variant::Type` enumeration and has no case here. -/
def encode_variant_fuel (cfg : BuildConfig) :
    Nat → Variant → Option Nat → List Nat → Nat → Bool → Nat → EncodeResult
  | 0, _, _, mem, r_len, _, _ => ⟨.ERR_OUT_OF_MEMORY, r_len, mem⟩
  | fuel + 1, p_variant, r_buffer, mem, r_len, p_full_objects, p_depth =>
    if p_depth > VARIANT_MAX_RECURSION_DEPTH then ⟨.ERR_OUT_OF_MEMORY, r_len, mem⟩
    else
      let enc : Variant → Option Nat → List Nat → EncodeResult := fun v b m =>
        encode_variant_fuel cfg fuel v b m 0 p_full_objects (p_depth + 1)
      let real := sizeof_real_t cfg
      match encode_header cfg p_variant p_full_objects with
      | none =>
        -- `if (obj) { ... encode_uint32(Variant::NIL, buf); r_len += 4; return OK; }`
        (((Cursor.mk r_buffer 0 mem).store 0 (encode_uint32 (cfg.type_id .NIL))).add_len 4).ok
      | some header =>
        let c := (((Cursor.mk r_buffer 0 mem).store 0 (encode_uint32 header)).advance 4).add_len 4
        match p_variant with
        | .NIL => c.ok
        | .BOOL b => ((c.store 0 (encode_uint32 (if b then 1 else 0))).add_len 4).ok
        | .INT val =>
          if header &&& HEADER_DATA_FLAG_64 ≠ 0 then
            ((c.store 0 (encode_uint64 (to_uint64 val))).add_len 8).ok
          else
            ((c.store 0 (encode_uint32 (to_uint32 val))).add_len 4).ok
        | .FLOAT d =>
          if header &&& HEADER_DATA_FLAG_64 ≠ 0 then
            ((c.store 0 (encode_double d.bits)).add_len 8).ok
          else
            ((c.store 0 (encode_float d.float_bits)).add_len 4).ok
        | .NODE_PATH np =>
          let c := c.store 0 (encode_uint32 (np.names.length % 4294967296 ||| 0x80000000))
          let c := c.store 4 (encode_uint32 np.subnames.length)
          let np_flags := if np.absolute then 1 else 0
          let c := ((c.store 8 (encode_uint32 np_flags)).advance 12).add_len 12
          (encode_node_path_strings (np.names ++ np.subnames) c).ok
        | .STRING s => (_encode_string s c).ok
        | .STRING_NAME s => (_encode_string s c).ok
        | .VECTOR2 v2 => ((c.store 0 (encode_reals cfg v2.components)).add_len (2 * real)).ok
        | .VECTOR2I v2 => ((c.store 0 (encode_int32s [v2.x, v2.y])).add_len (2 * 4)).ok
        | .RECT2 r2 =>
          ((c.store 0 (encode_reals cfg (r2.position.components ++ r2.size.components))).add_len
            (4 * real)).ok
        | .RECT2I r2 =>
          ((c.store 0 (encode_int32s [r2.position.x, r2.position.y, r2.size.x, r2.size.y])).add_len
            (4 * 4)).ok
        | .VECTOR3 v3 => ((c.store 0 (encode_reals cfg v3.components)).add_len (3 * real)).ok
        | .VECTOR3I v3 => ((c.store 0 (encode_int32s [v3.x, v3.y, v3.z])).add_len (3 * 4)).ok
        | .TRANSFORM2D val =>
          ((c.store 0 (encode_reals cfg (val.columns0.components ++ val.columns1.components ++
            val.columns2.components))).add_len (6 * real)).ok
        | .VECTOR4 v4 => ((c.store 0 (encode_reals cfg v4.components)).add_len (4 * real)).ok
        | .VECTOR4I v4 =>
          ((c.store 0 (encode_int32s [v4.x, v4.y, v4.z, v4.w])).add_len (4 * 4)).ok
        | .PLANE p =>
          ((c.store 0 (encode_reals cfg (p.normal.components ++ [p.d]))).add_len (4 * real)).ok
        | .QUATERNION q =>
          ((c.store 0 (encode_reals cfg [q.x, q.y, q.z, q.w])).add_len (4 * real)).ok
        | .AABB aabb =>
          ((c.store 0 (encode_reals cfg (aabb.position.components ++ aabb.size.components))).add_len
            (6 * real)).ok
        | .BASIS val =>
          ((c.store 0 (encode_reals cfg (val.rows0.components ++ val.rows1.components ++
            val.rows2.components))).add_len (9 * real)).ok
        | .TRANSFORM3D val =>
          ((c.store 0 (encode_reals cfg (val.basis.rows0.components ++ val.basis.rows1.components ++
            val.basis.rows2.components ++ val.origin.components))).add_len (12 * real)).ok
        | .PROJECTION val =>
          ((c.store 0 (encode_reals cfg (val.columns0.components ++ val.columns1.components ++
            val.columns2.components ++ val.columns3.components))).add_len (16 * real)).ok
        | .COLOR col =>
          ((c.store 0 (encode_float col.r ++ encode_float col.g ++ encode_float col.b ++
            encode_float col.a)).add_len (4 * 4)).ok
        | .RID id => ((c.store 0 (encode_uint64 id)).add_len 8).ok
        | .OBJECT obj =>
          if p_full_objects then
            match obj with
            | none => ((c.store 0 (encode_uint32 0)).add_len 4).ok
            | some o =>
              if ¬ o.can_instantiate then c.fail .ERR_INVALID_PARAMETER
              else
                let c := _encode_string o.class_name c
                let pc := (o.property_list.filter fun E => E.1.usage_storage).length
                let c := ((c.store 0 (encode_uint32 pc)).advance 4).add_len 4
                match encode_object_properties enc o.script o.property_list c with
                | .error e => e
                | .ok c => c.ok
          else
            let id := match obj with
              | some o => o.instance_id
              | none => 0
            ((c.store 0 (encode_uint64 id)).add_len 8).ok
        | .CALLABLE => c.ok
        | .SIGNAL signal =>
          let c := _encode_string signal.name c
          ((c.store 0 (encode_uint64 signal.object_id)).add_len 8).ok
        | .DICTIONARY d =>
          let c := ((c.store 0 (encode_uint32 d.length)).advance 4).add_len 4
          match encode_dictionary_pairs enc d c with
          | .error e => e
          | .ok c => c.ok
        | .ARRAY array elems =>
          match encode_array_typing array p_full_objects c with
          | .error e => e
          | .ok c =>
            let c := ((c.store 0 (encode_uint32 elems.length)).advance 4).add_len 4
            match encode_array_elements enc elems c with
            | .error e => e
            | .ok c => c.ok
        | .PACKED_BYTE_ARRAY data =>
          let datalen := data.length
          let c := (((c.store 0 (encode_uint32 datalen)).advance 4).store 0 data).advance datalen
          (pad_loop 3 (c.add_len (4 + datalen * 1))).ok
        | .PACKED_INT32_ARRAY data =>
          let c := ((c.store 0 (encode_uint32 data.length)).advance 4).store 0 (encode_int32s data)
          (c.add_len (4 + data.length * 4)).ok
        | .PACKED_INT64_ARRAY data =>
          let c := ((c.store 0 (encode_uint32 data.length)).advance 4).store 0
            (data.map fun x => encode_uint64 (to_uint64 x)).flatten
          (c.add_len (4 + data.length * 8)).ok
        | .PACKED_FLOAT32_ARRAY data =>
          let c := ((c.store 0 (encode_uint32 data.length)).advance 4).store 0
            (data.map encode_float).flatten
          (c.add_len (4 + data.length * 4)).ok
        | .PACKED_FLOAT64_ARRAY data =>
          let c := ((c.store 0 (encode_uint32 data.length)).advance 4).store 0
            (data.map encode_double).flatten
          (c.add_len (4 + data.length * 8)).ok
        | .PACKED_STRING_ARRAY data =>
          let c := ((c.store 0 (encode_uint32 data.length)).advance 4).add_len 4
          (encode_packed_strings data c).ok
        | .PACKED_VECTOR2_ARRAY data =>
          let c := ((c.store 0 (encode_uint32 data.length)).advance 4).add_len 4
          let c := c.store 0 (data.map fun v => encode_reals cfg v.components).flatten
          (c.add_len (real * 2 * data.length)).ok
        | .PACKED_VECTOR3_ARRAY data =>
          let c := ((c.store 0 (encode_uint32 data.length)).advance 4).add_len 4
          let c := c.store 0 (data.map fun v => encode_reals cfg v.components).flatten
          (c.add_len (real * 3 * data.length)).ok
        | .PACKED_COLOR_ARRAY data =>
          let c := ((c.store 0 (encode_uint32 data.length)).advance 4).add_len 4
          let c := c.store 0 (data.map fun col =>
            encode_float col.r ++ encode_float col.g ++ encode_float col.b ++ encode_float col.a).flatten
          (c.add_len (4 * 4 * data.length)).ok
        | .PACKED_VECTOR4_ARRAY data =>
          let c := ((c.store 0 (encode_uint32 data.length)).advance 4).add_len 4
          let c := c.store 0 (data.map fun v => encode_reals cfg v.components).flatten
          (c.add_len (real * 4 * data.length)).ok

/-- `godot::encode_variant(p_variant, r_buffer, r_len, p_full_objects, p_depth)`. -/
def encode_variant (cfg : BuildConfig) (p_variant : Variant) (r_buffer : Option Nat)
    (mem : List Nat) (r_len : Nat) (p_full_objects : Bool) (p_depth : Nat) : EncodeResult :=
  encode_variant_fuel cfg (VARIANT_MAX_RECURSION_DEPTH + 1 - p_depth) p_variant r_buffer mem
    r_len p_full_objects p_depth

/-- The `Variant::Type` enumerators as the host declares them: in the order of
`VariantType`, counted from 0 (`NIL`). -/
def host_type_id (t : VariantType) : Nat := t.toCtorIdx

/-- A single-precision build of the host. -/
def host_config : BuildConfig := ⟨false, host_type_id⟩

/-- The observable outcome of a call of `encode_variant` apart from the stores: the
returned `Error` and the final `r_len`. -/
def EncodeResult.code (r : EncodeResult) : Error × Nat := (r.err, r.r_len)

/-- The outcome of one of the nested-call loops apart from the stores. -/
def loop_code : Except EncodeResult Cursor → Except (Error × Nat) Nat
  | .error e => .error e.code
  | .ok c => .ok c.r_len

mutual
/-- The number of levels of nested `encode_variant` calls a call on the value makes:
one more than that of the deepest element of an array, or key or value of a
dictionary, and 0 for a value on which no nested call is made. -/
def Variant.nesting : Variant → Nat
  | .ARRAY _ elems => nesting_elements elems
  | .DICTIONARY d => nesting_pairs d
  | _ => 0
/-- The levels of nested calls the element loop makes. -/
def nesting_elements : List Variant → Nat
  | [] => 0
  | x :: rest => max (x.nesting + 1) (nesting_elements rest)
/-- The levels of nested calls the key/value loop makes. -/
def nesting_pairs : List (Variant × Variant) → Nat
  | [] => 0
  | (k, v) :: rest => max (max (k.nesting + 1) (v.nesting + 1)) (nesting_pairs rest)
end

/-- The values on which a call of `encode_variant` on an array or a dictionary makes its
nested calls, in the order it makes them: the elements of the array; the keys of the
dictionary, each followed by its value. -/
def Variant.nested_values : Variant → List Variant
  | .ARRAY _ elems => elems
  | .DICTIONARY d => d.flatMap fun kv => [kv.1, kv.2]
  | _ => []

/-- The condition of the `ERR_FAIL_COND_V_MSG` in the typed-array block of the `ARRAY`
case: a script-typed array, encoded with full objects, whose script path is empty or
not under `res://`. -/
def typed_script_path_invalid (array : ArrayTyping) (p_full_objects : Bool) : Bool :=
  array.is_typed && p_full_objects &&
    match array.typed_script with
    | some res => res.path.is_empty || !res.path.begins_with (GString.ascii "res://")
    | none => false

/-- An untyped array nested `n + 1` levels deep: `n + 1` arrays, each the sole element
of the enclosing one, the innermost empty. -/
def nested_arrays : Nat → Variant
  | 0 => .ARRAY .untyped []
  | n + 1 => .ARRAY .untyped [nested_arrays n]

/-! ## `gdscript/gdscript_tokenizer_buffer.cpp` -/

/-- `GDScriptTokenizer::Token::Type`: the tags this file's code names, and `OTHER k`
for the k-th of the remaining punctuation, keyword and constant tags. -/
inductive TokenType where
  | EMPTY | ANNOTATION | IDENTIFIER | LITERAL | ERROR
  | NEWLINE | INDENT | DEDENT | TK_EOF
  | OTHER (k : Nat)
deriving DecidableEq, Repr

/-- Modelled from the spec: `GDScriptTokenizer::Token` (declared in
`gdscript_tokenizer.h`) is a type tag, a source line/column span and, for
IDENTIFIER/ANNOTATION, an identifier string (`get_identifier()`), or for
LITERAL/ERROR, one dynamic value (`literal`).  A default-constructed token has tag
`EMPTY`, a nil literal and a zero span. -/
structure Token where
  type : TokenType := .EMPTY
  literal : Variant := .NIL
  identifier : StringName := ⟨[], []⟩
  start_line : Nat := 0
  end_line : Nat := 0
  start_column : Nat := 0
  end_column : Nat := 0

/-- `Token::get_identifier`. -/
def Token.get_identifier (t : Token) : StringName := t.identifier

/-- Godot's `HashMap<K, V>`: the entries in insertion order (its iteration order),
with the key equality `eq` it was instantiated with. -/
abbrev HashMap (κ ν : Type) := List (κ × ν)

/-- `HashMap::has`. -/
def HashMap.has {κ ν : Type} (eq : κ → κ → Bool) (m : HashMap κ ν) (k : κ) : Bool :=
  m.any fun e => eq e.1 k

/-- `HashMap::operator[]` as an rvalue; `dflt` is the default-constructed value returned
for a key that is not there. -/
def HashMap.get {κ ν : Type} (eq : κ → κ → Bool) (m : HashMap κ ν) (k : κ) (dflt : ν) : ν :=
  match m.find? fun e => eq e.1 k with
  | some e => e.2
  | none => dflt

/-- The map after `m[k]` was evaluated: a key that is not there is inserted with the
default-constructed value. -/
def HashMap.touch {κ ν : Type} (eq : κ → κ → Bool) (m : HashMap κ ν) (k : κ) (dflt : ν) :
    HashMap κ ν :=
  if HashMap.has eq m k then m else m ++ [(k, dflt)]

/-- `m[k] = v;`. -/
def HashMap.set {κ ν : Type} (eq : κ → κ → Bool) (m : HashMap κ ν) (k : κ) (v : ν) :
    HashMap κ ν :=
  if HashMap.has eq m k then m.map fun e => if eq e.1 k then (e.1, v) else e
  else m ++ [(k, v)]

/-- `HashMap::erase`. -/
def HashMap.erase {κ ν : Type} (eq : κ → κ → Bool) (m : HashMap κ ν) (k : κ) : HashMap κ ν :=
  m.filter fun e => !eq e.1 k

/-- Key equality of the maps keyed by integers. -/
def int_eq (a b : Nat) : Bool := a == b

/-- Key equality of the identifier map. -/
def name_eq (a b : StringName) : Bool := a.chars == b.chars

def TOKENIZER_VERSION : Nat := 100
def HEADER_SIZE : Nat := 12
def TOKEN_BYTE_MASK : Nat := 0x80
def TOKEN_BITS : Nat := 8
def TOKEN_MASK : Nat := (1 <<< (TOKEN_BITS - 1)) - 1

/-- `GDScriptTokenizerBuffer::CompressMode`. -/
inductive CompressMode where
  | COMPRESS_NONE | COMPRESS_ZSTD
deriving DecidableEq, Repr

/-- What `gdscript_tokenizer_buffer.cpp` takes from outside the repository's sources:
the integer values of the `Token::Type` enumerators, the key equality of the constant
map (`VariantComparator`), and the zstd library behind `Compression`
(`ZSTD_compressBound`, and `ZSTD_compressCCtx` as the value it returns, converted to
`int`, with the bytes it stores at the destination). -/
structure Collaborators where
  token_code : TokenType → Nat
  variant_eq : Variant → Variant → Bool
  compress_bound : Nat → Nat
  zstd_compress : List Nat → Int × List Nat

/-- What changes in a call of `_token_to_binary`: the returned length, and the three
arguments passed by reference. -/
structure TokenToBinary where
  token_len : Nat
  r_buffer : List Nat
  r_identifiers_map : HashMap StringName Nat
  r_constants_map : HashMap Variant Nat

/-- The `switch (p_token.type)` of `_token_to_binary`, on the local `token_type` and the
two maps: an identifier or a constant is looked up, or added with the next index, and
the index is merged into `token_type` above the tag bits. -/
def intern_token (env : Collaborators) (p_token : Token) (token_type : Nat)
    (r_identifiers_map : HashMap StringName Nat) (r_constants_map : HashMap Variant Nat) :
    Nat × HashMap StringName Nat × HashMap Variant Nat :=
  match p_token.type with
  | .ANNOTATION | .IDENTIFIER =>
    -- Add identifier to map.
    let id := p_token.get_identifier
    if HashMap.has name_eq r_identifiers_map id then
      let identifier_pos := HashMap.get name_eq r_identifiers_map id 0
      (token_type ||| (identifier_pos <<< TOKEN_BITS), r_identifiers_map, r_constants_map)
    else
      let identifier_pos := r_identifiers_map.length
      (token_type ||| (identifier_pos <<< TOKEN_BITS),
        HashMap.set name_eq r_identifiers_map id identifier_pos, r_constants_map)
  | .ERROR | .LITERAL =>
    -- Add literal to map.
    if HashMap.has env.variant_eq r_constants_map p_token.literal then
      let constant_pos := HashMap.get env.variant_eq r_constants_map p_token.literal 0
      (token_type ||| (constant_pos <<< TOKEN_BITS), r_identifiers_map, r_constants_map)
    else
      let constant_pos := r_constants_map.length
      (token_type ||| (constant_pos <<< TOKEN_BITS), r_identifiers_map,
        HashMap.set env.variant_eq r_constants_map p_token.literal constant_pos)
  | _ => (token_type, r_identifiers_map, r_constants_map)

/-- `GDScriptTokenizerBuffer::_token_to_binary`. -/
def _token_to_binary (env : Collaborators) (p_token : Token) (r_buffer : List Nat)
    (p_start : Nat) (r_identifiers_map : HashMap StringName Nat)
    (r_constants_map : HashMap Variant Nat) : TokenToBinary :=
  let pos := p_start
  let token_type := env.token_code p_token.type &&& TOKEN_MASK
  let interned := intern_token env p_token token_type r_identifiers_map r_constants_map
  let token_type := interned.1
  -- Encode token.
  if token_type &&& TOKEN_MASK ≠ 0 then
    let token_len := 8
    let r_buffer := resize r_buffer (pos + token_len)
    let r_buffer := poke r_buffer pos (encode_uint32 (token_type ||| TOKEN_BYTE_MASK))
    let pos := pos + 4
    ⟨token_len, poke r_buffer pos (encode_uint32 p_token.start_line), interned.2.1,
      interned.2.2⟩
  else
    let token_len := 5
    let r_buffer := resize r_buffer (pos + token_len)
    let r_buffer := r_buffer.set pos (token_type % 256)
    let pos := pos + 1
    ⟨token_len, poke r_buffer pos (encode_uint32 p_token.start_line), interned.2.1,
      interned.2.2⟩

/-- What the text tokenizer (outside the repository's sources) supplies to
`parse_code_string` for a source text: the tokens its successive `scan()` calls return,
and `get_continuation_lines()`. -/
structure Lexed where
  tokens : List Token
  continuation_lines : List Nat

/-- The locals the token loop of `parse_code_string` updates. -/
structure EncodePass where
  identifier_map : HashMap StringName Nat := []
  constant_map : HashMap Variant Nat := []
  token_buffer : List Nat := []
  token_lines : HashMap Nat Nat := []
  token_columns : HashMap Nat Nat := []
  token_pos : Nat := 0
  last_token_line : Nat := 0
  token_counter : Nat := 0

/-- The body of the loop `while (current.type != Token::TK_EOF)` of
`parse_code_string`, for the token `current`. -/
def token_step (env : Collaborators) (current : Token) (st : EncodePass) : EncodePass :=
  let r := _token_to_binary env current st.token_buffer st.token_pos st.identifier_map
    st.constant_map
  let token_pos := st.token_pos + r.token_len
  { identifier_map := r.r_identifiers_map
    constant_map := r.r_constants_map
    token_buffer := r.r_buffer
    token_lines :=
      if st.token_counter > 0 ∧ current.start_line > st.last_token_line then
        HashMap.set int_eq st.token_lines st.token_counter current.start_line
      else st.token_lines
    token_columns :=
      if st.token_counter > 0 ∧ current.start_line > st.last_token_line then
        HashMap.set int_eq st.token_columns st.token_counter current.start_column
      else st.token_columns
    token_pos := token_pos
    last_token_line := current.end_line
    token_counter := st.token_counter + 1 }

/-- The loop `while (current.type != Token::TK_EOF)` of `parse_code_string`, over the
tokens the tokenizer returns. -/
def token_loop (env : Collaborators) : List Token → EncodePass → EncodePass
  | [], st => st
  | current :: rest, st =>
    if current.type = .TK_EOF then st
    else token_loop env rest (token_step env current st)

/-- The reversal of an intern map into a vector: `rev.resize(map.size());` and
`rev.set(E.value, E.key)` for every entry. -/
def reverse_map {κ : Type} (dflt : κ) (m : HashMap κ Nat) : List κ :=
  m.foldl (fun rev E => rev.set E.2 E.1) (List.replicate m.length dflt)

/-- `rev_token_lines[E.value] = E.key` for every entry of `token_lines`. -/
def reverse_token_lines (token_lines : HashMap Nat Nat) : HashMap Nat Nat :=
  token_lines.foldl (fun rev E => HashMap.set int_eq rev E.2 E.1) []

/-- The loop "Remove continuation lines from map", on the pair of maps
`(token_lines, token_columns)`. -/
def remove_continuation_lines (rev_token_lines : HashMap Nat Nat) :
    List Nat → HashMap Nat Nat × HashMap Nat Nat → HashMap Nat Nat × HashMap Nat Nat
  | [], maps => maps
  | line :: rest, (token_lines, token_columns) =>
    if HashMap.has int_eq rev_token_lines line then
      let ordinal := HashMap.get int_eq rev_token_lines line 0
      remove_continuation_lines rev_token_lines rest
        (HashMap.erase int_eq token_lines ordinal, HashMap.erase int_eq token_columns ordinal)
    else remove_continuation_lines rev_token_lines rest (token_lines, token_columns)

/-- The inner loop of "Save identifiers": every code unit, each of its four bytes
XORed with `0xb6`. -/
def save_identifier_chars : List Nat → List Nat → Nat → List Nat × Nat
  | [], contents, buf_pos => (contents, buf_pos)
  | ch :: rest, contents, buf_pos =>
    let tmp := encode_uint32 ch
    let contents := poke contents buf_pos (tmp.map fun b => b ^^^ 0xb6)
    save_identifier_chars rest contents (buf_pos + 4)

/-- The loop "Save identifiers", on `(contents, buf_pos)`. -/
def save_identifiers : List StringName → List Nat → Nat → List Nat × Nat
  | [], contents, buf_pos => (contents, buf_pos)
  | id :: rest, contents, buf_pos =>
    let s := id.chars
    let len := s.length
    let contents := resize contents (buf_pos + (len + 1) * 4)
    let contents := poke contents buf_pos (encode_uint32 len)
    let (contents, buf_pos) := save_identifier_chars s contents (buf_pos + 4)
    save_identifiers rest contents buf_pos

/-- The loop "Save constants", on `(contents, buf_pos)`; `none` where
`ERR_FAIL_COND_V_MSG(err != OK, Vector<uint8_t>(), ...)` returns.  Both calls of
`encode_variant` leave `p_depth` to its default, 0. -/
def save_constants (cfg : BuildConfig) : List Variant → List Nat → Nat → Option (List Nat × Nat)
  | [], contents, buf_pos => some (contents, buf_pos)
  | v :: rest, contents, buf_pos =>
    let sized := encode_variant cfg v none contents 0 false 0
    if sized.err ≠ .OK then none
    else
      let len := sized.r_len
      let contents := resize contents (buf_pos + len)
      let written := encode_variant cfg v (some buf_pos) contents len false 0
      save_constants cfg rest written.mem (buf_pos + written.r_len)

/-- One of the two loops of "Save lines and columns": key and value of every entry. -/
def save_pairs : HashMap Nat Nat → List Nat → Nat → List Nat × Nat
  | [], contents, buf_pos => (contents, buf_pos)
  | e :: rest, contents, buf_pos =>
    let contents := poke contents buf_pos (encode_uint32 e.1)
    let contents := poke contents (buf_pos + 4) (encode_uint32 e.2)
    save_pairs rest contents (buf_pos + 8)

/-- The payload `contents` of `parse_code_string`, as it stands before the header is
built; `none` where the function has returned the empty vector. -/
def parse_code_string_contents (cfg : BuildConfig) (env : Collaborators) (lexed : Lexed) :
    Option (List Nat) :=
  let st := token_loop env lexed.tokens {}
  let rev_identifier_map := reverse_map (⟨[], []⟩ : StringName) st.identifier_map
  let rev_constant_map := reverse_map Variant.NIL st.constant_map
  let rev_token_lines := reverse_token_lines st.token_lines
  let (token_lines, token_columns) :=
    remove_continuation_lines rev_token_lines lexed.continuation_lines
      (st.token_lines, st.token_columns)
  let contents := resize [] 20
  let contents := poke contents 0 (encode_uint32 st.identifier_map.length)
  let contents := poke contents 4 (encode_uint32 st.constant_map.length)
  let contents := poke contents 8 (encode_uint32 token_lines.length)
  let contents := poke contents 16 (encode_uint32 st.token_counter)
  let buf_pos := 20
  let (contents, buf_pos) := save_identifiers rev_identifier_map contents buf_pos
  match save_constants cfg rev_constant_map contents buf_pos with
  | none => none
  | some (contents, buf_pos) =>
    let contents := resize contents (buf_pos + token_lines.length * 16)
    let (contents, buf_pos) := save_pairs token_lines contents buf_pos
    let (contents, _) := save_pairs token_columns contents buf_pos
    some (contents ++ st.token_buffer)

/-- `GDScriptTokenizerBuffer::parse_code_string`, from the tokens of `p_code`. -/
def parse_code_string (cfg : BuildConfig) (env : Collaborators) (lexed : Lexed)
    (p_compress_mode : CompressMode) : List Nat :=
  match parse_code_string_contents cfg env lexed with
  | none => []
  | some contents =>
    let buf := resize [] HEADER_SIZE
    let buf := buf.set 0 'G'.toNat
    let buf := buf.set 1 'D'.toNat
    let buf := buf.set 2 'S'.toNat
    let buf := buf.set 3 'C'.toNat
    let buf := poke buf 4 (encode_uint32 TOKENIZER_VERSION)
    match p_compress_mode with
    | .COMPRESS_NONE =>
      let buf := poke buf 8 (encode_uint32 0)
      buf ++ contents
    | .COMPRESS_ZSTD =>
      let buf := poke buf 8 (encode_uint32 contents.length)
      let max_size := env.compress_bound contents.length
      let compressed := resize [] max_size
      let (compressed_size, stored) := env.zstd_compress contents
      if compressed_size < 0 then []
      else
        let compressed := resize (poke compressed 0 stored) compressed_size.toNat
        buf ++ compressed

/-- A sample numbering of the token tags, for concrete evaluations: the first four
enumerators, then the `OTHER` tags from 4 on, and five values for the remaining tags
this file names. -/
def sample_token_code : TokenType → Nat
  | .EMPTY => 0
  | .ANNOTATION => 1
  | .IDENTIFIER => 2
  | .LITERAL => 3
  | .OTHER k => 4 + k
  | .NEWLINE => 120
  | .INDENT => 121
  | .DEDENT => 122
  | .ERROR => 123
  | .TK_EOF => 124

/-- The part of a value the sample key equality compares: the type, and the payload
of a boolean, an integer or a string. -/
def sample_variant_key : Variant → VariantType × Int × List Nat
  | .BOOL b => (.BOOL, if b then 1 else 0, [])
  | .INT n => (.INT, n, [])
  | .STRING s => (.STRING, 0, s.chars)
  | v => (v.get_type, 0, [])

/-- A sample key equality for the constant map, for concrete evaluations: an
equivalence, structural on nil, booleans, integers and strings, and by type on the
other values. -/
def sample_variant_eq (a b : Variant) : Bool := sample_variant_key a == sample_variant_key b

/-- Sample collaborators, for concrete evaluations; the compressor stores its input
unchanged. -/
def sample_env : Collaborators :=
  ⟨sample_token_code, sample_variant_eq, fun n => n + 8, fun src => (src.length, src)⟩

/-- The constant table `rev_constant_map` that `parse_code_string` serializes. -/
def interned_constants (env : Collaborators) (lexed : Lexed) : List Variant :=
  reverse_map Variant.NIL (token_loop env lexed.tokens {}).constant_map

/-! ### The decoder -/

/-- The data members of `GDScriptTokenizerBuffer` the decoder uses.  `indent_stack`
(and each saved stack) is held top first: its head is `indent_stack.back()`, and it
holds the 32-bit patterns of its `int` elements.  `indent_stack_stack` is held most
recently saved first. -/
structure GDScriptTokenizerBuffer where
  token_lines : HashMap Nat Nat := []
  token_columns : HashMap Nat Nat := []
  tokens : List Token := []
  current : Nat := 0
  current_line : Nat := 1
  multiline_mode : Bool := false
  indent_stack : List Nat := []
  indent_stack_stack : List (List Nat) := []
  pending_indents : Int := 0
  last_token_was_newline : Bool := false

namespace GDScriptTokenizerBuffer

/-- `set_multiline_mode`. -/
def set_multiline_mode (d : GDScriptTokenizerBuffer) (p_state : Bool) : GDScriptTokenizerBuffer :=
  { d with multiline_mode := p_state }

/-- `push_expression_indented_block`. -/
def push_expression_indented_block (d : GDScriptTokenizerBuffer) : GDScriptTokenizerBuffer :=
  { d with indent_stack_stack := d.indent_stack :: d.indent_stack_stack }

/-- `pop_expression_indented_block`; `ERR_FAIL_COND` returns without a change. -/
def pop_expression_indented_block (d : GDScriptTokenizerBuffer) : GDScriptTokenizerBuffer :=
  match d.indent_stack_stack with
  | [] => d
  | back :: rest => { d with indent_stack := back, indent_stack_stack := rest }

/-- The loop `while (current_column - 1 < previous_indent)` of `scan`, on
`(indent_stack, pending_indents)`; `column` is `current_column - 1`, computed in
`uint32_t`. -/
def dedent_loop (column : Nat) : Nat → List Nat → Int → List Nat × Int
  | previous_indent, indent_stack, pending_indents =>
    if column < previous_indent then
      match indent_stack with
      | [] => ([], pending_indents - 1)
      | _ :: popped =>
        match popped with
        | [] => ([], pending_indents - 1)
        | back :: _ => dedent_loop column back popped (pending_indents - 1)
    else (indent_stack, pending_indents)

/-- The body of `scan`, with `fuel` calls of `scan` allowed (itself and the calls it
makes to itself); `none` when they are used up.  Two are always enough
(`scan_total`).  `tokens[current]` is read only below `tokens.size()`. -/
def scan_fuel : Nat → GDScriptTokenizerBuffer → Option (Token × GDScriptTokenizerBuffer)
  | 0, _ => none
  | fuel + 1, d =>
    -- Add final newline.
    if d.current ≥ d.tokens.length ∧ ¬ d.last_token_was_newline then
      some ({ type := .NEWLINE, start_line := d.current_line, end_line := d.current_line },
        { d with last_token_was_newline := true })
    -- Resolve pending indentation change.
    else if d.pending_indents > 0 then
      some ({ type := .INDENT, start_line := d.current_line, end_line := d.current_line },
        { d with pending_indents := d.pending_indents - 1 })
    else if d.pending_indents < 0 then
      some ({ type := .DEDENT, start_line := d.current_line, end_line := d.current_line },
        { d with pending_indents := d.pending_indents + 1 })
    else if h : d.current ≥ d.tokens.length then
      if ¬ d.indent_stack.isEmpty then
        scan_fuel fuel
          { d with pending_indents := d.pending_indents - d.indent_stack.length, indent_stack := [] }
      else some ({ type := .TK_EOF }, d)
    else
      have hlt : d.current < d.tokens.length := Nat.lt_of_not_le h
      let line_changed := !d.last_token_was_newline && HashMap.has int_eq d.token_lines d.current
      let current_line :=
        if line_changed then uint32_t (HashMap.get int_eq d.token_lines d.current 0)
        else d.current_line
      let token_columns :=
        if line_changed then HashMap.touch int_eq d.token_columns d.current 0
        else d.token_columns
      let current_column := uint32_t (HashMap.get int_eq d.token_columns d.current 0)
      if line_changed && !d.multiline_mode then
        -- Check if there's a need to indent/dedent.
        let column := uint32_t (current_column + 4294967295)
        let previous_indent := match d.indent_stack with
          | [] => 0
          | back :: _ => back
        let indented :=
          if column > previous_indent then (column :: d.indent_stack, d.pending_indents + 1)
          else dedent_loop column previous_indent d.indent_stack d.pending_indents
        some ({ type := .NEWLINE, start_line := current_line, end_line := current_line },
          { d with
            current_line := current_line
            token_columns := token_columns
            indent_stack := indented.1
            pending_indents := indented.2
            last_token_was_newline := true })
      else
        some (d.tokens[d.current],
          { d with
            current_line := current_line
            token_columns := token_columns
            last_token_was_newline := false
            current := d.current + 1 })

/-- `GDScriptTokenizerBuffer::scan`: the returned token and the decoder after the call. -/
def scan (d : GDScriptTokenizerBuffer) : Option (Token × GDScriptTokenizerBuffer) :=
  scan_fuel 2 d

/-- The first `n` calls of `scan` on a decoder: every returned token, paired with
whether the call advanced the record cursor (the token was read from the store), and
the decoder after them.  The run stops early if a call does not return. -/
def scan_calls : Nat → GDScriptTokenizerBuffer → List (Token × Bool) × GDScriptTokenizerBuffer
  | 0, d => ([], d)
  | n + 1, d =>
    match scan d with
    | none => ([], d)
    | some (t, d1) =>
      let r := scan_calls n d1
      ((t, d1.current != d.current) :: r.1, r.2)

/-- The tokens of a run that were read from the store, in order. -/
def stored_tokens (out : List (Token × Bool)) : List Token :=
  (out.filter fun e => e.2).map fun e => e.1

/-- A run of `scan` calls from `d` that returns `out` and ends in `d2`. -/
def Run (d : GDScriptTokenizerBuffer) (out : List (Token × Bool)) (d2 : GDScriptTokenizerBuffer) :
    Prop :=
  scan_calls out.length d = (out, d2)

/-- Every token of the run was synthesized: the cursor did not move, and the token is
a NEWLINE, an INDENT or a DEDENT. -/
def Synthesized (out : List (Token × Bool)) : Prop :=
  ∀ e ∈ out, e.2 = false ∧ (e.1.type = .NEWLINE ∨ e.1.type = .INDENT ∨ e.1.type = .DEDENT)

/-- The run is over: the cursor is at the end and nothing is left to synthesize. -/
def AtEof (d : GDScriptTokenizerBuffer) : Prop :=
  d.tokens.length ≤ d.current ∧ d.last_token_was_newline = true ∧ d.pending_indents = 0 ∧
    d.indent_stack = []

/-- The types of the tokens of a run that `scan` synthesized (the cursor did not
move), in order. -/
def synthesized_types (out : List (Token × Bool)) : List TokenType :=
  (out.filter fun e => !e.2).map fun e => e.1.type

/-- A decoder in its initial state (multiline mode off, empty indent stack) over six
stored records on the lines 1 to 6.  The records 1 to 5 each start a line, at the
1-based columns 1, 5, 5, 9, 1: the indentation columns `current_column - 1` that `scan`
compares are 0, 4, 4, 8, 0. -/
def indent_example : GDScriptTokenizerBuffer :=
  { token_lines := [(1, 2), (2, 3), (3, 4), (4, 5), (5, 6)]
    token_columns := [(1, 1), (2, 5), (3, 5), (4, 9), (5, 1)]
    tokens := [{ type := .OTHER 0 }, { type := .OTHER 1 }, { type := .OTHER 2 },
      { type := .OTHER 3 }, { type := .OTHER 4 }, { type := .OTHER 5 }] }

/-- A decoder in multiline mode about to read record 1, which starts line 2 at the
1-based column 5, after record 0 was read from line 1. -/
def multiline_example : GDScriptTokenizerBuffer :=
  { token_lines := [(1, 2)]
    token_columns := [(1, 5)]
    tokens := [{ type := .OTHER 0 }, { type := .OTHER 1 }]
    current := 1
    multiline_mode := true }

/-- The condition of the `ERR_FAIL_COND` of `pop_expression_indented_block`: the call is
reported as an error and returns at once. -/
def pop_expression_indented_block_fails (d : GDScriptTokenizerBuffer) : Bool :=
  d.indent_stack_stack.isEmpty

/-- A call a parser makes on the decoder: `scan`, `push_expression_indented_block` or
`pop_expression_indented_block`. -/
inductive Call where
  | scan | push | pop
deriving DecidableEq, Repr

/-- The decoder after a call; the token a `scan` returns is dropped. -/
def Call.apply (d : GDScriptTokenizerBuffer) : Call → GDScriptTokenizerBuffer
  | .scan =>
    match d.scan with
    | some (_, d1) => d1
    | none => d
  | .push => d.push_expression_indented_block
  | .pop => d.pop_expression_indented_block

/-- The decoder after a sequence of calls. -/
def run_calls (calls : List Call) (d : GDScriptTokenizerBuffer) : GDScriptTokenizerBuffer :=
  calls.foldl Call.apply d

/-- The number of indented blocks left open by a sequence of calls that starts with
`open_blocks` of them open; `none` if a pop finds none of them open. -/
def open_blocks_after : Nat → List Call → Option Nat
  | open_blocks, [] => some open_blocks
  | open_blocks, .scan :: rest => open_blocks_after open_blocks rest
  | open_blocks, .push :: rest => open_blocks_after (open_blocks + 1) rest
  | 0, .pop :: _ => none
  | open_blocks + 1, .pop :: rest => open_blocks_after open_blocks rest

/-- The pushes and pops of the sequence are balanced: every pop closes a block the
sequence opened, and none is left open. -/
def balanced (calls : List Call) : Bool :=
  open_blocks_after 0 calls == some 0

/-- The value `current_column - 1` that `scan` compares with the indent stack at a line
change: the column of the position entry of the current record, minus one in
`uint32_t`. -/
def indent_column (d : GDScriptTokenizerBuffer) : Nat :=
  uint32_t (uint32_t (HashMap.get int_eq d.token_columns d.current 0) + 4294967295)

/-- A decoder at the end of its two records, the last of them read, with the indent
stack `[8, 4]` (8 on top). -/
def end_example : GDScriptTokenizerBuffer :=
  { tokens := [{ type := .OTHER 0 }, { type := .OTHER 1 }]
    current := 2
    current_line := 3
    indent_stack := [8, 4] }

/-- A decoder about to read record 1, which starts line 2 at the first column (the
1-based column 1), with an empty indent stack. -/
def first_column_example : GDScriptTokenizerBuffer :=
  { token_lines := [(1, 2)]
    token_columns := [(1, 1)]
    tokens := [{ type := .OTHER 0 }, { type := .OTHER 1 }]
    current := 1 }

/-- What can go wrong in a call of `scan` as the source has it: the calls of `scan`
that were allowed are used up, `tokens[current]` is read outside the vector, or
`indent_stack.pop_back()` is called on an empty list. -/
inductive ScanFault where
  | calls_used_up
  | tokens_out_of_range
  | pop_back_on_empty
deriving DecidableEq, Repr

/-- The loop `while (current_column - 1 < previous_indent)` of `scan`, as `dedent_loop`,
with every `indent_stack.pop_back()` checked: a pop of an empty list is a fault. -/
def dedent_loop_checked (column : Nat) : Nat → List Nat → Int → Except ScanFault (List Nat × Int)
  | previous_indent, indent_stack, pending_indents =>
    if column < previous_indent then
      match indent_stack with
      | [] => .error .pop_back_on_empty
      | _ :: popped =>
        match popped with
        | [] => .ok ([], pending_indents - 1)
        | back :: _ => dedent_loop_checked column back popped (pending_indents - 1)
    else .ok (indent_stack, pending_indents)

/-- The body of `scan`, as `scan_fuel`, with the accesses checked: the read of
`tokens[current]` is a fault outside the vector (no use is made of the test before
it), a pop of the empty indent stack is a fault, and so is a call beyond the `fuel`
calls of `scan` allowed.  A call that returns also hands back the number of calls of
`scan` it made to itself. -/
def scan_checked : Nat → GDScriptTokenizerBuffer →
    Except ScanFault (Token × GDScriptTokenizerBuffer × Nat)
  | 0, _ => .error .calls_used_up
  | fuel + 1, d =>
    -- Add final newline.
    if d.current ≥ d.tokens.length ∧ ¬ d.last_token_was_newline then
      .ok ({ type := .NEWLINE, start_line := d.current_line, end_line := d.current_line },
        { d with last_token_was_newline := true }, 0)
    -- Resolve pending indentation change.
    else if d.pending_indents > 0 then
      .ok ({ type := .INDENT, start_line := d.current_line, end_line := d.current_line },
        { d with pending_indents := d.pending_indents - 1 }, 0)
    else if d.pending_indents < 0 then
      .ok ({ type := .DEDENT, start_line := d.current_line, end_line := d.current_line },
        { d with pending_indents := d.pending_indents + 1 }, 0)
    else if d.current ≥ d.tokens.length then
      if ¬ d.indent_stack.isEmpty then
        match scan_checked fuel
          { d with pending_indents := d.pending_indents - d.indent_stack.length,
                   indent_stack := [] } with
        | .error e => .error e
        | .ok (token, d2, calls) => .ok (token, d2, calls + 1)
      else .ok ({ type := .TK_EOF }, d, 0)
    else
      let line_changed := !d.last_token_was_newline && HashMap.has int_eq d.token_lines d.current
      let current_line :=
        if line_changed then uint32_t (HashMap.get int_eq d.token_lines d.current 0)
        else d.current_line
      let token_columns :=
        if line_changed then HashMap.touch int_eq d.token_columns d.current 0
        else d.token_columns
      let current_column := uint32_t (HashMap.get int_eq d.token_columns d.current 0)
      if line_changed && !d.multiline_mode then
        -- Check if there's a need to indent/dedent.
        let column := uint32_t (current_column + 4294967295)
        let previous_indent := match d.indent_stack with
          | [] => 0
          | back :: _ => back
        let indented : Except ScanFault (List Nat × Int) :=
          if column > previous_indent then .ok (column :: d.indent_stack, d.pending_indents + 1)
          else dedent_loop_checked column previous_indent d.indent_stack d.pending_indents
        indented.map fun indented =>
          ({ type := .NEWLINE, start_line := current_line, end_line := current_line },
            { d with
              current_line := current_line
              token_columns := token_columns
              indent_stack := indented.1
              pending_indents := indented.2
              last_token_was_newline := true }, 0)
      else
        match d.tokens[d.current]? with
        | none => .error .tokens_out_of_range
        | some token =>
          .ok (token,
            { d with
              current_line := current_line
              token_columns := token_columns
              last_token_was_newline := false
              current := d.current + 1 }, 0)

/-- A call a client that leaves the indented blocks alone makes on the decoder:
`scan()` or `set_multiline_mode(p_state)`. -/
inductive Drive where
  | scan
  | set_multiline_mode (p_state : Bool)
deriving DecidableEq, Repr

/-- The decoder driven by a sequence of calls: the tokens the `scan` calls returned, in
order, each paired with whether the call advanced the record cursor (the token was read
from the store), and the decoder after the calls. -/
def drive : List Drive → GDScriptTokenizerBuffer → List (Token × Bool) × GDScriptTokenizerBuffer
  | [], d => ([], d)
  | .scan :: rest, d =>
    match d.scan with
    | none => ([], d)
    | some (t, d1) =>
      let r := drive rest d1
      ((t, d1.current != d.current) :: r.1, r.2)
  | .set_multiline_mode p_state :: rest, d => drive rest (d.set_multiline_mode p_state)

/-- The number of tokens of type `ty` among the tokens a run returned. -/
def emitted (ty : TokenType) (out : List (Token × Bool)) : Nat :=
  (out.map fun e => e.1.type).count ty

/-- The indentation changes queued and not yet handed out, less the depth of the indent
stack. -/
def indent_balance (d : GDScriptTokenizerBuffer) : Int :=
  d.pending_indents - (d.indent_stack.length : Int)

/-- No stored token is an INDENT, a DEDENT or an EOF: the tokens `parse_code_string`
stores come from a tokenizer in multiline mode, up to the EOF, which is not stored. -/
def stores_no_layout (d : GDScriptTokenizerBuffer) : Prop :=
  ∀ t ∈ d.tokens, t.type ≠ .INDENT ∧ t.type ≠ .DEDENT ∧ t.type ≠ .TK_EOF

/-- Six calls on a decoder: four of `scan`, a switch to multiline mode, and two more of
`scan`. -/
def sample_drive : List Drive :=
  [.scan, .scan, .scan, .scan, .set_multiline_mode true, .scan, .scan]

/-- The column of the position entry of record `k` as `scan` reads it:
`uint32_t current_column = token_columns[k]`. -/
def entry_column (d : GDScriptTokenizerBuffer) (k : Nat) : Nat :=
  uint32_t (HashMap.get int_eq d.token_columns k 0)

/-- Every position entry of the decoder has a column of at least 1. -/
def columns_from_one (d : GDScriptTokenizerBuffer) : Bool :=
  d.token_lines.all fun e => decide (1 ≤ entry_column d e.1)

/-- An indent stack (top first) holds strictly increasing values from bottom to top,
each above 0 and each the column, less one, of a position entry of the decoder `d`. -/
def increasing_from_entries (d : GDScriptTokenizerBuffer) (indent_stack : List Nat) : Prop :=
  indent_stack.Pairwise (fun upper lower => lower < upper) ∧
    ∀ x ∈ indent_stack, 0 < x ∧
      ∃ k, HashMap.has int_eq d.token_lines k = true ∧ x = entry_column d k - 1

/-- A decoder about to read record 1, which starts line 2 at column 0, with the indent
stack `[4]`. -/
def zero_column_example : GDScriptTokenizerBuffer :=
  { token_lines := [(1, 2)]
    token_columns := [(1, 0)]
    tokens := [{ type := .OTHER 0 }, { type := .OTHER 1 }]
    current := 1
    indent_stack := [4] }

end GDScriptTokenizerBuffer

/-! ### What the theorems on the encoder are stated with -/

/-- Modelled from the spec: `decode_uint32` (declared in `io/marshalls.h`) reads four
bytes, little-endian, as an integer. -/
def decode_uint32 (p_arr : List Nat) : Nat :=
  p_arr.getD 0 0 + 256 * p_arr.getD 1 0 + 65536 * p_arr.getD 2 0 + 16777216 * p_arr.getD 3 0

/-- The table index (`identifier_pos` or `constant_pos`) the `switch` of
`_token_to_binary` merges into the token word of `p_token`: the index the value is
stored under, or the table size if it is new.  Other token types have none (0). -/
def token_index (env : Collaborators) (p_token : Token)
    (r_identifiers_map : HashMap StringName Nat) (r_constants_map : HashMap Variant Nat) : Nat :=
  match p_token.type with
  | .ANNOTATION | .IDENTIFIER =>
    if HashMap.has name_eq r_identifiers_map p_token.get_identifier then
      HashMap.get name_eq r_identifiers_map p_token.get_identifier 0
    else r_identifiers_map.length
  | .ERROR | .LITERAL =>
    if HashMap.has env.variant_eq r_constants_map p_token.literal then
      HashMap.get env.variant_eq r_constants_map p_token.literal 0
    else r_constants_map.length
  | _ => 0

/-- The tokens the loop of `parse_code_string` processes: those the tokenizer returns
before the first `TK_EOF`. -/
def scanned_tokens (tokens : List Token) : List Token :=
  tokens.takeWhile fun t => t.type != .TK_EOF

/-- The position entries of a run of tokens, in the order in which the token loop adds
them: the ordinal and the token, for every token that is not the first of the source
and starts on a line after the end line of the token before it.  `counter` is the
ordinal of the first token of the run, `last_line` the end line of the token before it. -/
def recorded_positions : Nat → Nat → List Token → List (Nat × Token)
  | _, _, [] => []
  | counter, last_line, t :: rest =>
    (if counter > 0 ∧ t.start_line > last_line then [(counter, t)] else []) ++
      recorded_positions (counter + 1) t.end_line rest

/-- The tokens are in source order: every token starts on or after the line on which
the token before it ends (`last_line`, for the first token), and ends on or after the
line on which it starts. -/
def in_source_order : Nat → List Token → Bool
  | _, [] => true
  | last_line, t :: rest =>
    decide (last_line ≤ t.start_line) && decide (t.start_line ≤ t.end_line) &&
      in_source_order t.end_line rest

/-- The position index `(token_lines, token_columns)` that `parse_code_string`
serializes: the two maps the token loop builds, after "Remove continuation lines from
map". -/
def position_index (env : Collaborators) (lexed : Lexed) : HashMap Nat Nat × HashMap Nat Nat :=
  let st := token_loop env lexed.tokens {}
  remove_continuation_lines (reverse_token_lines st.token_lines) lexed.continuation_lines
    (st.token_lines, st.token_columns)

/-- A sample token stream, for concrete evaluations: the identifier `a` on line 1, a
punctuation token on the continuation line 2, the integer literal 7 on line 3, the
identifier `a` again on line 3, then `TK_EOF`. -/
def sample_lexed : Lexed :=
  { tokens := [
      { type := .IDENTIFIER, identifier := ⟨[97], [97]⟩, start_line := 1, end_line := 1,
        start_column := 1, end_column := 2 },
      { type := .OTHER 0, start_line := 2, end_line := 2, start_column := 5, end_column := 6 },
      { type := .LITERAL, literal := .INT 7, start_line := 3, end_line := 3, start_column := 1,
        end_column := 2 },
      { type := .IDENTIFIER, identifier := ⟨[97], [97]⟩, start_line := 3, end_line := 3,
        start_column := 3, end_column := 4 },
      { type := .TK_EOF, start_line := 4, end_line := 4 }]
    continuation_lines := [2] }

/-- The values of a sequence in the order in which they are first seen, each once:
a value equal (by `eq`) to one seen before is left out. -/
def first_seen {κ : Type} (eq : κ → κ → Bool) (seen : List κ) : List κ → List κ
  | [] => seen
  | k :: rest =>
    first_seen eq (if seen.any fun x => eq x k then seen else seen ++ [k]) rest

/-- The intern table that gives the values of `keys` the indices `n`, `n + 1`, ... in
order. -/
def indexed_from {κ : Type} : Nat → List κ → HashMap κ Nat
  | _, [] => []
  | n, k :: keys => (k, n) :: indexed_from (n + 1) keys

/-- The identifiers of the tokens that carry one (ANNOTATION, IDENTIFIER), in order. -/
def identifier_keys (tokens : List Token) : List StringName :=
  (tokens.filter fun t => t.type == .ANNOTATION || t.type == .IDENTIFIER).map
    Token.get_identifier

/-- The constants of the tokens that carry one (ERROR, LITERAL), in order. -/
def constant_keys (tokens : List Token) : List Variant :=
  (tokens.filter fun t => t.type == .ERROR || t.type == .LITERAL).map fun t => t.literal

/-- The stores made from cursor `c` on, up to cursor `c2`, left the memory below the
offset `p0` and its length as they were, and `c2` still points at or above `p0`. -/
def Cursor.frames (p0 : Nat) (c c2 : Cursor) : Prop :=
  (∀ b, c2.buf = some b → p0 ≤ b) ∧ c2.mem.length = c.mem.length ∧
    c2.mem.take p0 = c.mem.take p0

/-- The memory `r` hands back is `mem` below the offset `p0`, and as long. -/
def EncodeResult.keeps (p0 : Nat) (mem : List Nat) (r : EncodeResult) : Prop :=
  r.mem.length = mem.length ∧ r.mem.take p0 = mem.take p0

/-- `Cursor.frames`, or `EncodeResult.keeps` for a run that ends in a return. -/
def Cursor.frames_outcome (p0 : Nat) (c : Cursor) : Except EncodeResult Cursor → Prop
  | .error e => e.keeps p0 c.mem
  | .ok c2 => c.frames p0 c2

/-- The identifier entry the format describes: the number of code points, then every
code point as four little-endian bytes, each XORed with `0xb6`. -/
def identifier_entry (id : StringName) : List Nat :=
  encode_uint32 id.chars.length ++
    id.chars.flatMap fun c => (encode_uint32 c).map fun b => b ^^^ 0xb6

/-- The packed pairs the format describes for one table of the position index: key and
value of every entry, each as four little-endian bytes. -/
def position_pairs (m : HashMap Nat Nat) : List Nat :=
  m.flatMap fun e => encode_uint32 e.1 ++ encode_uint32 e.2

/-- The payload of `sample_lexed` in the host's single-precision build: the header
(1 identifier, 1 constant, 1 position entry, 4 tokens), the identifier `a`, the
constant 7, the line pair and the column pair of token 2, and four 8-byte records. -/
def sample_payload : List Nat :=
  [1, 0, 0, 0, 1, 0, 0, 0, 1, 0, 0, 0, 0, 0, 0, 0, 4, 0, 0, 0,
   1, 0, 0, 0, 215, 182, 182, 182,
   2, 0, 0, 0, 7, 0, 0, 0,
   2, 0, 0, 0, 3, 0, 0, 0, 2, 0, 0, 0, 1, 0, 0, 0,
   130, 0, 0, 0, 1, 0, 0, 0, 132, 0, 0, 0, 2, 0, 0, 0,
   131, 0, 0, 0, 3, 0, 0, 0, 130, 0, 0, 0, 3, 0, 0, 0]

/-- The bytes of a string as the format describes them: the little-endian 32-bit
number of UTF-8 bytes, the UTF-8 bytes, and zero bytes up to the next multiple of 4. -/
def encoded_string (utf8 : List Nat) : List Nat :=
  encode_uint32 utf8.length ++ utf8 ++ List.replicate ((4 - utf8.length % 4) % 4) 0

/-! ## `gdscript/char_utils.h` -/

/-- Modelled from the spec: an entry of a character-class table, a range of code points
with both ends included (the tables and their element type come from `char_range.inc`;
`BSEARCH_CHAR_RANGE` reads the fields `start` and `end`). -/
structure CharRange where
  start : Nat
  end_ : Nat
  deriving DecidableEq, Repr

/-- A C `int`: 32 bits, two's complement. -/
def int_t (x : Int) : Int := (x + 2147483648) % 4294967296 - 2147483648

/-- The `while` loop of `BSEARCH_CHAR_RANGE`, with `low` and `high` as they stand at
the loop test. `none` is a run that reads outside the table or that the fuel cuts
short. -/
def bsearch_loop (m_array : List CharRange) (c : Nat) : Nat → Int → Int → Option Bool
  | 0, _, _ => none
  | fuel + 1, low, high =>
    if low ≤ high then
      let middle := int_t (Int.tdiv (int_t (low + high)) 2)
      if middle < 0 then none
      else
        match m_array[middle.toNat]? with
        | none => none
        | some r =>
          if c < r.start then bsearch_loop m_array c fuel low (int_t (middle - 1))
          else if c > r.end_ then bsearch_loop m_array c fuel (int_t (middle + 1)) high
          else some true
    else some false

/-- Body `BSEARCH_CHAR_RANGE(m_array)` of a function of the code point `c`: `low` starts
at 0 and `high` at the number of entries minus one. Every turn of the loop that does not
return moves `low` up or `high` down, so a fuel of the number of entries plus one is
never used up on a table whose indexes fit an `int`. -/
def BSEARCH_CHAR_RANGE (m_array : List CharRange) (c : Nat) : Option Bool :=
  bsearch_loop m_array c (m_array.length + 1) 0 (int_t ((m_array.length : Int) - 1))

/-- Function `is_unicode_identifier_start`, over the table `xid_start`. -/
def is_unicode_identifier_start (xid_start : List CharRange) (c : Nat) : Option Bool :=
  BSEARCH_CHAR_RANGE xid_start c

/-- Function `is_unicode_identifier_continue`, over the table `xid_continue`. -/
def is_unicode_identifier_continue (xid_continue : List CharRange) (c : Nat) : Option Bool :=
  BSEARCH_CHAR_RANGE xid_continue c

/-- Function `is_unicode_upper_case`, over the table `uppercase_letter`. -/
def is_unicode_upper_case (uppercase_letter : List CharRange) (c : Nat) : Option Bool :=
  BSEARCH_CHAR_RANGE uppercase_letter c

/-- Function `is_unicode_lower_case`, over the table `lowercase_letter`. -/
def is_unicode_lower_case (lowercase_letter : List CharRange) (c : Nat) : Option Bool :=
  BSEARCH_CHAR_RANGE lowercase_letter c

/-- Function `is_unicode_letter`, over the table `unicode_letter`. -/
def is_unicode_letter (unicode_letter : List CharRange) (c : Nat) : Option Bool :=
  BSEARCH_CHAR_RANGE unicode_letter c

/-- A table is sorted and pairwise disjoint: each range has `start ≤ end` and ends
before the next one starts. -/
def sorted_disjoint : List CharRange → Bool
  | [] => true
  | [r] => decide (r.start ≤ r.end_)
  | r :: s :: rest => decide (r.start ≤ r.end_) && decide (r.end_ < s.start) &&
      sorted_disjoint (s :: rest)

/-- Some range of the table contains the code point. -/
def in_some_range (table : List CharRange) (c : Nat) : Bool :=
  table.any fun r => decide (r.start ≤ c) && decide (c ≤ r.end_)

/-- A table of three ranges: the digits, the capital letters and the small letters. -/
def sample_ranges : List CharRange := [⟨48, 57⟩, ⟨65, 90⟩, ⟨97, 122⟩]

/-- The typed-array field of the header as the format describes it: 0 for an untyped
array; for a typed one 3 (script) when the element type is a valid script and full
objects are encoded, 2 (class name) when it is a valid script and they are not, or
when there is no script but a class name, and 1 (built-in) otherwise. -/
def array_type_field (array : ArrayTyping) (p_full_objects : Bool) : Nat :=
  if array.is_typed = false then 0
  else if array.typed_script.isSome ∧ p_full_objects = true then 3
  else if array.typed_script.isSome ∨ array.typed_class_name.chars ≠ [] then 2
  else 1

/-- The type descriptor each value of the typed-array field announces: nothing for 0,
the built-in type tag as a 32-bit number for 1, a name as a string for 2 (the class
name with full objects, the stand-in class `EncodedObjectAsID` without), the path of
the script as a string for 3. -/
def array_type_descriptor (array : ArrayTyping) (p_full_objects : Bool) : List Nat :=
  match array_type_field array p_full_objects with
  | 0 => []
  | 1 => encode_uint32 array.typed_builtin
  | 2 => encoded_string
      (if p_full_objects then array.typed_class_name else ENCODED_OBJECT_ID_NAME).utf8
  | _ => encoded_string
      (match array.typed_script with
        | some res => res.path
        | none => GString.ascii "").utf8

/-- An array typed by the class `Node`, holding the integers 1 and 2. -/
def sample_typed_array : Variant :=
  .ARRAY ⟨true, none, GString.ascii "Node", 0⟩ [.INT 1, .INT 2]

/-- The cursor `c` of a call that was handed the offset `p` and the memory `m0` is in
step: `buf` stands `r_len` bytes past `p`, and the memory from there on is as it was. -/
def Cursor.in_step (p : Nat) (m0 : List Nat) (c : Cursor) : Prop :=
  c.buf = some (p + c.r_len) ∧ c.mem.drop (p + c.r_len) = m0.drop (p + c.r_len)

/-- A call that was handed the offset `p` and the memory `m0`, and returned `OK`, left
the memory from `r_len` bytes past `p` on as it was. -/
def EncodeResult.below (p : Nat) (m0 : List Nat) (r : EncodeResult) : Prop :=
  r.err = .OK → r.mem.drop (p + r.r_len) = m0.drop (p + r.r_len)

/-- `Cursor.in_step` for a run that goes on; a run that ends in a return hands back an
error. -/
def Cursor.in_step_outcome (p : Nat) (m0 : List Nat) : Except EncodeResult Cursor → Prop
  | .error e => e.err ≠ .OK
  | .ok c => c.in_step p m0

/-- An untyped array whose sole element is an array typed by a script that has no path. -/
def sample_unsaved_script_array : Variant :=
  .ARRAY .untyped [.ARRAY ⟨true, some ⟨GString.ascii ""⟩, GString.ascii "", 0⟩ []]

/-! ## Theorems -/

/-! ### `encode_variant`: alignment -/

@[simp] theorem Cursor.store_r_len (c : Cursor) (off : Nat) (bytes : List Nat) :
    (c.store off bytes).r_len = c.r_len := by
  unfold Cursor.store
  cases c.buf <;> rfl

@[simp] theorem Cursor.advance_r_len (c : Cursor) (n : Nat) : (c.advance n).r_len = c.r_len := rfl

@[simp] theorem Cursor.add_len_r_len (c : Cursor) (n : Nat) :
    (c.add_len n).r_len = c.r_len + n := rfl

@[simp] theorem Cursor.ok_err (c : Cursor) : c.ok.err = .OK := rfl

@[simp] theorem Cursor.ok_r_len (c : Cursor) : c.ok.r_len = c.r_len := rfl

@[simp] theorem Cursor.fail_err (c : Cursor) (e : Error) : (c.fail e).err = e := rfl

theorem pad_loop_r_len (fuel : Nat) : ∀ c : Cursor,
    (pad_loop fuel c).r_len = c.r_len + min fuel ((4 - c.r_len % 4) % 4) := by
  induction fuel with
  | zero => intro c; simp [pad_loop]
  | succ fuel ih =>
    intro c
    rw [pad_loop]
    split
    · rw [ih]
      simp only [Cursor.advance_r_len, Cursor.store_r_len, Cursor.add_len_r_len]
      omega
    · omega

/-- Three iterations finish the padding loop: it leaves `r_len` a multiple of 4. -/
theorem pad_loop_aligned (c : Cursor) : (pad_loop 3 c).r_len % 4 = 0 := by
  rw [pad_loop_r_len]
  omega

theorem _encode_string_aligned (s : GString) (c : Cursor) : (_encode_string s c).r_len % 4 = 0 := by
  unfold _encode_string
  exact pad_loop_aligned _

theorem encode_node_path_strings_aligned (strs : List GString) : ∀ c : Cursor,
    c.r_len % 4 = 0 → (encode_node_path_strings strs c).r_len % 4 = 0 := by
  induction strs with
  | nil => intro c h; exact h
  | cons str rest ih =>
    intro c h
    rw [encode_node_path_strings]
    apply ih
    simp only [Cursor.advance_r_len, Cursor.store_r_len, Cursor.add_len_r_len]
    split <;> omega

theorem encode_packed_strings_aligned (strs : List GString) : ∀ c : Cursor,
    c.r_len % 4 = 0 → (encode_packed_strings strs c).r_len % 4 = 0 := by
  induction strs with
  | nil => intro c h; exact h
  | cons str rest ih =>
    intro c _
    rw [encode_packed_strings]
    exact ih _ (pad_loop_aligned _)

theorem encode_array_typing_error {array : ArrayTyping} {p_full_objects : Bool} {c : Cursor}
    {e : EncodeResult} (h : encode_array_typing array p_full_objects c = .error e) :
    e.err = .ERR_UNAVAILABLE := by
  unfold encode_array_typing at h
  split at h
  · split at h
    · split at h
      · split at h
        · injection h with h; subst h; rfl
        · cases h
      · cases h
    · split at h <;> cases h
  · cases h

theorem encode_array_typing_aligned {array : ArrayTyping} {p_full_objects : Bool} {c c2 : Cursor}
    (hc : c.r_len % 4 = 0) (h : encode_array_typing array p_full_objects c = .ok c2) :
    c2.r_len % 4 = 0 := by
  unfold encode_array_typing at h
  split at h
  · split at h
    · split at h
      · split at h
        · cases h
        · injection h with h; subst h; exact _encode_string_aligned _ _
      · injection h with h; subst h; exact _encode_string_aligned _ _
    · split at h
      · injection h with h; subst h; exact _encode_string_aligned _ _
      · injection h with h; subst h
        simp only [Cursor.add_len_r_len, Cursor.advance_r_len, Cursor.store_r_len]
        omega
  · injection h with h; subst h; exact hc

theorem after_nested_aligned {c c2 : Cursor} {r : EncodeResult} (hc : c.r_len % 4 = 0)
    (h : after_nested c r = .ok c2) : c2.r_len % 4 = 0 := by
  unfold after_nested at h
  simp only at h
  split at h
  · cases h
  · split at h
    · cases h
    · rename_i h4
      injection h with h
      subst h
      simp only [Cursor.advance_r_len, Cursor.add_len_r_len]
      omega

theorem encode_array_elements_aligned (enc : Variant → Option Nat → List Nat → EncodeResult)
    (elems : List Variant) : ∀ c c2 : Cursor, c.r_len % 4 = 0 →
    encode_array_elements enc elems c = .ok c2 → c2.r_len % 4 = 0 := by
  induction elems with
  | nil =>
    intro c c2 hc h
    rw [encode_array_elements] at h
    injection h with h
    subst h
    exact hc
  | cons var rest ih =>
    intro c c2 hc h
    rw [encode_array_elements] at h
    split at h
    · cases h
    · rename_i c1 h1
      exact ih c1 c2 (after_nested_aligned hc h1) h

theorem encode_dictionary_pairs_aligned (enc : Variant → Option Nat → List Nat → EncodeResult)
    (d : List (Variant × Variant)) : ∀ c c2 : Cursor, c.r_len % 4 = 0 →
    encode_dictionary_pairs enc d c = .ok c2 → c2.r_len % 4 = 0 := by
  induction d with
  | nil =>
    intro c c2 hc h
    rw [encode_dictionary_pairs] at h
    injection h with h
    subst h
    exact hc
  | cons kv rest ih =>
    intro c c2 hc h
    obtain ⟨E, v⟩ := kv
    rw [encode_dictionary_pairs] at h
    split at h
    · cases h
    · rename_i c1 h1
      split at h
      · cases h
      · rename_i c3 h3
        exact ih c3 c2 (after_nested_aligned (after_nested_aligned hc h1) h3) h

theorem encode_object_properties_aligned (enc : Variant → Option Nat → List Nat → EncodeResult)
    (script : Option ScriptRef) (props : List (PropertyInfo × Variant)) : ∀ c c2 : Cursor,
    c.r_len % 4 = 0 →
    encode_object_properties enc script props c = .ok c2 → c2.r_len % 4 = 0 := by
  induction props with
  | nil =>
    intro c c2 hc h
    rw [encode_object_properties] at h
    injection h with h
    subst h
    exact hc
  | cons p rest ih =>
    intro c c2 hc h
    obtain ⟨E, got⟩ := p
    unfold encode_object_properties at h
    split at h
    · exact ih c c2 hc h
    · simp only at h
      split at h
      · cases h
      · split at h
        · cases h
        · rename_i c1 h1
          exact ih c1 c2 (after_nested_aligned (_encode_string_aligned _ _) h1) h

theorem after_nested_error {c : Cursor} {r e : EncodeResult} (h : after_nested c r = .error e) :
    e.err ≠ .OK := by
  unfold after_nested at h
  simp only at h
  split at h
  · rename_i hr
    injection h with h
    subst h
    exact hr
  · split at h
    · injection h with h
      subst h
      simp
    · cases h

theorem encode_array_elements_error (enc : Variant → Option Nat → List Nat → EncodeResult)
    (elems : List Variant) : ∀ (c : Cursor) (e : EncodeResult),
    encode_array_elements enc elems c = .error e → e.err ≠ .OK := by
  induction elems with
  | nil => intro c e h; rw [encode_array_elements] at h; cases h
  | cons var rest ih =>
    intro c e h
    rw [encode_array_elements] at h
    split at h
    · rename_i e1 h1
      injection h with h
      subst h
      exact after_nested_error h1
    · rename_i c1 h1
      exact ih c1 e h

theorem encode_dictionary_pairs_error (enc : Variant → Option Nat → List Nat → EncodeResult)
    (d : List (Variant × Variant)) : ∀ (c : Cursor) (e : EncodeResult),
    encode_dictionary_pairs enc d c = .error e → e.err ≠ .OK := by
  induction d with
  | nil => intro c e h; rw [encode_dictionary_pairs] at h; cases h
  | cons kv rest ih =>
    intro c e h
    obtain ⟨E, v⟩ := kv
    rw [encode_dictionary_pairs] at h
    split at h
    · rename_i e1 h1
      injection h with h
      subst h
      exact after_nested_error h1
    · rename_i c1 h1
      split at h
      · rename_i e3 h3
        injection h with h
        subst h
        exact after_nested_error h3
      · rename_i c3 h3
        exact ih c3 e h

theorem encode_object_properties_error (enc : Variant → Option Nat → List Nat → EncodeResult)
    (script : Option ScriptRef) (props : List (PropertyInfo × Variant)) :
    ∀ (c : Cursor) (e : EncodeResult),
    encode_object_properties enc script props c = .error e → e.err ≠ .OK := by
  induction props with
  | nil => intro c e h; rw [encode_object_properties] at h; cases h
  | cons p rest ih =>
    intro c e h
    obtain ⟨E, got⟩ := p
    unfold encode_object_properties at h
    split at h
    · exact ih c e h
    · simp only at h
      split at h
      · rename_i e1 h1
        injection h with h
        subst h
        simp only [Cursor.fail_err]
        revert h1
        split
        · split
          · split
            · intro h1; injection h1 with h1; subst h1; simp
            · intro h1; cases h1
          · intro h1; cases h1
        · intro h1; cases h1
      · split at h
        · rename_i e1 h1
          injection h with h
          subst h
          exact after_nested_error h1
        · rename_i c1 h1
          exact ih c1 e h

theorem sizeof_real_t_cases (cfg : BuildConfig) : sizeof_real_t cfg = 4 ∨ sizeof_real_t cfg = 8 := by
  unfold sizeof_real_t
  split
  · exact Or.inr rfl
  · exact Or.inl rfl

theorem encode_variant_fuel_aligned (cfg : BuildConfig) (fuel : Nat) (p_variant : Variant)
    (r_buffer : Option Nat) (mem : List Nat) (r_len : Nat) (p_full_objects : Bool) (p_depth : Nat)
    (h : (encode_variant_fuel cfg fuel p_variant r_buffer mem r_len p_full_objects p_depth).err = .OK) :
    (encode_variant_fuel cfg fuel p_variant r_buffer mem r_len p_full_objects p_depth).r_len % 4
      = 0 := by
  cases fuel with
  | zero => rw [encode_variant_fuel] at h; cases h
  | succ fuel =>
    have hreal := sizeof_real_t_cases cfg
    rw [encode_variant_fuel] at h ⊢
    split at h
    · cases h
    · rename_i hd
      rw [if_neg hd]
      generalize encode_header cfg p_variant p_full_objects = oh at h ⊢
      cases oh with
      | none => simp
      | some header =>
        simp only at h ⊢
        cases p_variant
        case NODE_PATH np =>
          exact encode_node_path_strings_aligned _ _ (by simp)
        case PACKED_STRING_ARRAY data =>
          exact encode_packed_strings_aligned _ _ (by simp)
        case SIGNAL s =>
          simp only [Cursor.ok_r_len, Cursor.add_len_r_len, Cursor.store_r_len]
          have := _encode_string_aligned s.name
            ((((Cursor.mk r_buffer 0 mem).store 0 (encode_uint32 header)).advance 4).add_len 4)
          omega
        case DICTIONARY d =>
          simp only at h ⊢
          split at h
          · rename_i e he
            exact absurd h (encode_dictionary_pairs_error _ _ _ _ he)
          · rename_i c he
            exact encode_dictionary_pairs_aligned _ _ _ _ (by simp) he
        case ARRAY typing elems =>
          simp only at h ⊢
          split at h
          · rename_i e he
            rw [encode_array_typing_error he] at h
            cases h
          · rename_i c0 hc0
            have hal : c0.r_len % 4 = 0 := encode_array_typing_aligned (by simp) hc0
            split at h
            · rename_i e he
              exact absurd h (encode_array_elements_error _ _ _ _ he)
            · rename_i c he
              exact encode_array_elements_aligned _ _ _ _ (by simp [hal]) he
        case OBJECT obj =>
          cases p_full_objects
          · simp
          · cases obj with
            | none => simp
            | some o =>
              simp only [if_true] at h ⊢
              by_cases hci : o.can_instantiate = true
              · have hn : ¬ ¬ o.can_instantiate = true := not_not.mpr hci
                rw [if_neg hn] at h ⊢
                split at h
                · rename_i e he
                  exact absurd h (encode_object_properties_error _ _ _ _ _ he)
                · rename_i c he
                  exact encode_object_properties_aligned _ _ _ _ _
                    (by simp [_encode_string_aligned]) he
              · rw [if_pos hci] at h
                simp at h
        all_goals
          rcases hreal with hr | hr <;> simp only [hr] at h ⊢ <;>
          first
          | (simp [pad_loop_aligned, _encode_string_aligned]; done)
          | (simp [pad_loop_aligned, _encode_string_aligned]; omega)
          | (split <;> simp)

theorem encode_variant_r_len_mod (cfg : BuildConfig) (p_variant : Variant)
    (r_buffer : Option Nat) (mem : List Nat) (r_len : Nat) (p_full_objects : Bool) (p_depth : Nat)
    (h : (encode_variant cfg p_variant r_buffer mem r_len p_full_objects p_depth).err = .OK) :
    (encode_variant cfg p_variant r_buffer mem r_len p_full_objects p_depth).r_len % 4 = 0 :=
  encode_variant_fuel_aligned cfg _ p_variant r_buffer mem r_len p_full_objects p_depth h

/-- C2. Alignment invariant: whenever `encode_variant` returns `OK`, for any value, any
object mode, any depth and with or without a buffer, the byte length it reports in
`r_len` is a multiple of 4. -/
theorem encode_variant_aligned (cfg : BuildConfig) (p_variant : Variant)
    (r_buffer : Option Nat) (mem : List Nat) (r_len : Nat) (p_full_objects : Bool) (p_depth : Nat)
    (h : (encode_variant cfg p_variant r_buffer mem r_len p_full_objects p_depth).err = .OK) :
    (encode_variant cfg p_variant r_buffer mem r_len p_full_objects p_depth).r_len % 4 = 0 :=
  encode_variant_fuel_aligned cfg _ p_variant r_buffer mem r_len p_full_objects p_depth h

/-- A witness of `encode_variant_aligned`: the string "hello" encodes in 16 bytes. -/
theorem encode_variant_aligned_witness :
    (encode_variant host_config (.STRING (GString.ascii "hello")) none [] 0 false 0).err = .OK ∧
    (encode_variant host_config (.STRING (GString.ascii "hello")) none [] 0 false 0).r_len % 4
      = 0 :=
  ⟨by decide, encode_variant_aligned host_config (.STRING (GString.ascii "hello")) none [] 0 false 0
    (by decide)⟩

/-! ### `encode_variant`: the outcome does not depend on the buffer -/

theorem pad_loop_r_len_congr {c c2 : Cursor} (fuel : Nat) (h : c.r_len = c2.r_len) :
    (pad_loop fuel c).r_len = (pad_loop fuel c2).r_len := by
  rw [pad_loop_r_len, pad_loop_r_len, h]

theorem _encode_string_r_len_congr (s : GString) {c d : Cursor} (h : c.r_len = d.r_len) :
    (_encode_string s c).r_len = (_encode_string s d).r_len := by
  unfold _encode_string
  apply pad_loop_r_len_congr
  simp [h]

theorem encode_node_path_strings_r_len_congr (strs : List GString) : ∀ {c c2 : Cursor},
    c.r_len = c2.r_len →
    (encode_node_path_strings strs c).r_len = (encode_node_path_strings strs c2).r_len := by
  induction strs with
  | nil => intro c c2 h; exact h
  | cons str rest ih =>
    intro c c2 h
    rw [encode_node_path_strings, encode_node_path_strings]
    apply ih
    simp [h]

theorem encode_packed_strings_r_len_congr (strs : List GString) : ∀ {c c2 : Cursor},
    c.r_len = c2.r_len →
    (encode_packed_strings strs c).r_len = (encode_packed_strings strs c2).r_len := by
  induction strs with
  | nil => intro c c2 h; exact h
  | cons str rest ih =>
    intro c c2 h
    rw [encode_packed_strings, encode_packed_strings]
    apply ih
    apply pad_loop_r_len_congr
    simp [h]

theorem after_nested_code {c d : Cursor} {r s : EncodeResult} (hc : c.r_len = d.r_len)
    (hr : r.code = s.code) : loop_code (after_nested c r) = loop_code (after_nested d s) := by
  have herr : r.err = s.err := congrArg Prod.fst hr
  have hlen : r.r_len = s.r_len := congrArg Prod.snd hr
  unfold after_nested
  simp only [herr, hlen]
  split
  · simp [loop_code, EncodeResult.code, Cursor.fail, hc]
  · split
    · simp [loop_code, EncodeResult.code, Cursor.fail, hc]
    · simp [loop_code, hc]

theorem after_nested_ok_r_len {c c2 c3 c4 : Cursor} {r r2 : EncodeResult}
    (h : loop_code (after_nested c r) = loop_code (after_nested c2 r2))
    (h3 : after_nested c r = .ok c3) (h4 : after_nested c2 r2 = .ok c4) :
    c3.r_len = c4.r_len := by
  rw [h3, h4] at h
  simpa [loop_code] using h

theorem encode_array_elements_code (enc : Variant → Option Nat → List Nat → EncodeResult)
    (henc : ∀ x b m b2 m2, (enc x b m).code = (enc x b2 m2).code) (elems : List Variant) :
    ∀ c c2 : Cursor, c.r_len = c2.r_len →
    loop_code (encode_array_elements enc elems c) =
      loop_code (encode_array_elements enc elems c2) := by
  induction elems with
  | nil =>
    intro c c2 h
    simp [encode_array_elements, loop_code, h]
  | cons var rest ih =>
    intro c c2 h
    have hstep := after_nested_code (r := enc var c.buf c.mem) (s := enc var c2.buf c2.mem) h
      (henc _ _ _ _ _)
    rw [encode_array_elements, encode_array_elements]
    cases h1 : after_nested c (enc var c.buf c.mem) with
    | error e =>
      cases h2 : after_nested c2 (enc var c2.buf c2.mem) with
      | error e2 => rw [h1, h2] at hstep; simpa using hstep
      | ok c4 => rw [h1, h2] at hstep; simp [loop_code] at hstep
    | ok c3 =>
      cases h2 : after_nested c2 (enc var c2.buf c2.mem) with
      | error e2 => rw [h1, h2] at hstep; simp [loop_code] at hstep
      | ok c4 =>
        rw [h1, h2] at hstep
        exact ih c3 c4 (by simpa [loop_code] using hstep)

theorem encode_dictionary_pairs_eq (enc : Variant → Option Nat → List Nat → EncodeResult)
    (d : List (Variant × Variant)) : ∀ c : Cursor,
    encode_dictionary_pairs enc d c =
      encode_array_elements enc (d.flatMap fun kv => [kv.1, kv.2]) c := by
  induction d with
  | nil => intro c; rfl
  | cons kv rest ih =>
    intro c
    obtain ⟨E, v⟩ := kv
    rw [encode_dictionary_pairs]
    simp only [List.flatMap_cons, List.cons_append, List.nil_append, encode_array_elements]
    cases after_nested c (enc E c.buf c.mem) with
    | error e => rfl
    | ok c1 =>
      simp only
      cases after_nested c1 (enc v c1.buf c1.mem) with
      | error e => rfl
      | ok c2 => exact ih c2

theorem encode_object_properties_code (enc : Variant → Option Nat → List Nat → EncodeResult)
    (henc : ∀ x b m b2 m2, (enc x b m).code = (enc x b2 m2).code) (script : Option ScriptRef)
    (props : List (PropertyInfo × Variant)) :
    ∀ c c2 : Cursor, c.r_len = c2.r_len →
    loop_code (encode_object_properties enc script props c) =
      loop_code (encode_object_properties enc script props c2) := by
  induction props with
  | nil =>
    intro c c2 h
    simp [encode_object_properties, loop_code, h]
  | cons p rest ih =>
    intro c c2 h
    obtain ⟨E, got⟩ := p
    unfold encode_object_properties
    split
    · exact ih c c2 h
    · simp only
      have hs := _encode_string_r_len_congr E.name h
      split
      · simp [loop_code, EncodeResult.code, Cursor.fail, hs]
      · rename_i value _
        have hstep := after_nested_code
          (r := enc value (_encode_string E.name c).buf (_encode_string E.name c).mem)
          (s := enc value (_encode_string E.name c2).buf (_encode_string E.name c2).mem) hs
          (henc _ _ _ _ _)
        cases h1 : after_nested (_encode_string E.name c)
            (enc value (_encode_string E.name c).buf (_encode_string E.name c).mem) with
        | error e =>
          cases h2 : after_nested (_encode_string E.name c2)
              (enc value (_encode_string E.name c2).buf (_encode_string E.name c2).mem) with
          | error e2 => rw [h1, h2] at hstep; simpa using hstep
          | ok c4 => rw [h1, h2] at hstep; simp [loop_code] at hstep
        | ok c3 =>
          cases h2 : after_nested (_encode_string E.name c2)
              (enc value (_encode_string E.name c2).buf (_encode_string E.name c2).mem) with
          | error e2 => rw [h1, h2] at hstep; simp [loop_code] at hstep
          | ok c4 =>
            rw [h1, h2] at hstep
            exact ih c3 c4 (by simpa [loop_code] using hstep)

theorem encode_array_typing_code (array : ArrayTyping) (p_full_objects : Bool) {c d : Cursor}
    (h : c.r_len = d.r_len) :
    loop_code (encode_array_typing array p_full_objects c) =
      loop_code (encode_array_typing array p_full_objects d) := by
  unfold encode_array_typing
  split
  · split
    · split
      · split
        · simp [loop_code, EncodeResult.code, Cursor.fail, h]
        · simp only [loop_code]
          rw [_encode_string_r_len_congr _ h]
      · simp only [loop_code]
        rw [_encode_string_r_len_congr _ h]
    · split
      · simp only [loop_code]
        rw [_encode_string_r_len_congr _ h]
      · simp [loop_code, h]
  · simp [loop_code, h]

theorem loop_code_result {a b : Except EncodeResult Cursor} (h : loop_code a = loop_code b) :
    (match a with
      | .error e => e
      | .ok c => c.ok).code =
    (match b with
      | .error e => e
      | .ok c => c.ok).code := by
  cases a <;> cases b <;> simp [loop_code, EncodeResult.code, Cursor.ok] at h ⊢ <;> exact h

/-- The returned error and the reported length of `encode_variant` do not depend on
the buffer: a call with any buffer agrees with the call on any other. -/
theorem encode_variant_fuel_code (cfg : BuildConfig) (fuel : Nat) :
    ∀ (p_variant : Variant) (b : Option Nat) (m : List Nat) (b2 : Option Nat) (m2 : List Nat)
      (r_len : Nat) (p_full_objects : Bool) (p_depth : Nat),
    (encode_variant_fuel cfg fuel p_variant b m r_len p_full_objects p_depth).code =
      (encode_variant_fuel cfg fuel p_variant b2 m2 r_len p_full_objects p_depth).code := by
  induction fuel with
  | zero => intros; rfl
  | succ fuel ih =>
    intro p_variant b m b2 m2 r_len p_full_objects p_depth
    have henc : ∀ (x : Variant) (b : Option Nat) (m : List Nat) (b2 : Option Nat) (m2 : List Nat),
        (encode_variant_fuel cfg fuel x b m 0 p_full_objects (p_depth + 1)).code =
        (encode_variant_fuel cfg fuel x b2 m2 0 p_full_objects (p_depth + 1)).code :=
      fun x b m b2 m2 => ih x b m b2 m2 0 p_full_objects (p_depth + 1)
    rw [encode_variant_fuel, encode_variant_fuel]
    split
    · rfl
    · generalize encode_header cfg p_variant p_full_objects = oh
      cases oh with
      | none => simp [EncodeResult.code]
      | some header =>
        simp only
        cases p_variant
        case NODE_PATH np =>
          simp only [EncodeResult.code, Cursor.ok_err, Cursor.ok_r_len, Prod.mk.injEq, true_and]
          exact encode_node_path_strings_r_len_congr _ (by simp)
        case PACKED_STRING_ARRAY data =>
          simp only [EncodeResult.code, Cursor.ok_err, Cursor.ok_r_len, Prod.mk.injEq, true_and]
          exact encode_packed_strings_r_len_congr _ (by simp)
        case STRING s =>
          simp only [EncodeResult.code, Cursor.ok_err, Cursor.ok_r_len, Prod.mk.injEq, true_and]
          exact _encode_string_r_len_congr _ (by simp)
        case STRING_NAME s =>
          simp only [EncodeResult.code, Cursor.ok_err, Cursor.ok_r_len, Prod.mk.injEq, true_and]
          exact _encode_string_r_len_congr _ (by simp)
        case SIGNAL s =>
          simp only [EncodeResult.code, Cursor.ok_err, Cursor.ok_r_len, Prod.mk.injEq, true_and,
            Cursor.add_len_r_len, Cursor.store_r_len]
          rw [_encode_string_r_len_congr s.name (c := (((Cursor.mk b 0 m).store 0
            (encode_uint32 header)).advance 4).add_len 4) (d := (((Cursor.mk b2 0 m2).store 0
            (encode_uint32 header)).advance 4).add_len 4) (by simp)]
        case PACKED_BYTE_ARRAY data =>
          simp only [EncodeResult.code, Cursor.ok_err, Cursor.ok_r_len, Prod.mk.injEq, true_and]
          exact pad_loop_r_len_congr _ (by simp)
        case DICTIONARY d =>
          simp only
          apply loop_code_result
          rw [encode_dictionary_pairs_eq, encode_dictionary_pairs_eq]
          exact encode_array_elements_code _ henc _ _ _ (by simp)
        case ARRAY typing elems =>
          simp only
          have ht := encode_array_typing_code typing p_full_objects
            (c := (((Cursor.mk b 0 m).store 0 (encode_uint32 header)).advance 4).add_len 4)
            (d := (((Cursor.mk b2 0 m2).store 0 (encode_uint32 header)).advance 4).add_len 4)
            (by simp)
          cases h1 : encode_array_typing typing p_full_objects
              ((((Cursor.mk b 0 m).store 0 (encode_uint32 header)).advance 4).add_len 4) with
          | error e =>
            cases h2 : encode_array_typing typing p_full_objects
                ((((Cursor.mk b2 0 m2).store 0 (encode_uint32 header)).advance 4).add_len 4) with
            | error e2 => rw [h1, h2] at ht; simpa [loop_code] using ht
            | ok c4 => rw [h1, h2] at ht; simp [loop_code] at ht
          | ok c3 =>
            cases h2 : encode_array_typing typing p_full_objects
                ((((Cursor.mk b2 0 m2).store 0 (encode_uint32 header)).advance 4).add_len 4) with
            | error e2 => rw [h1, h2] at ht; simp [loop_code] at ht
            | ok c4 =>
              rw [h1, h2] at ht
              have h34 : c3.r_len = c4.r_len := by simpa [loop_code] using ht
              simp only
              apply loop_code_result
              exact encode_array_elements_code _ henc _ _ _ (by simp [h34])
        case OBJECT obj =>
          cases p_full_objects
          · simp [EncodeResult.code]
          · cases obj with
            | none => simp [EncodeResult.code]
            | some o =>
              simp only [if_true]
              split
              · simp [EncodeResult.code, Cursor.fail]
              · apply loop_code_result
                apply encode_object_properties_code _ henc
                simp only [Cursor.add_len_r_len, Cursor.advance_r_len, Cursor.store_r_len]
                rw [_encode_string_r_len_congr o.class_name (c := (((Cursor.mk b 0 m).store 0
                  (encode_uint32 header)).advance 4).add_len 4) (d := (((Cursor.mk b2 0 m2).store 0
                  (encode_uint32 header)).advance 4).add_len 4) (by simp)]
        case INT val =>
          by_cases hf : header &&& HEADER_DATA_FLAG_64 ≠ 0 <;> simp [hf, EncodeResult.code]
        case FLOAT val =>
          by_cases hf : header &&& HEADER_DATA_FLAG_64 ≠ 0 <;> simp [hf, EncodeResult.code]
        all_goals simp [EncodeResult.code]

/-! ### `encode_variant`: integers -/

theorem and_flag_of_le (n : Nat) (h : n ≤ 255) : n &&& (1 <<< 16) = 0 := by
  apply Nat.eq_of_testBit_eq
  intro i
  rw [Nat.testBit_and, Nat.zero_testBit]
  by_cases hi : i = 16
  · subst hi
    rw [Nat.testBit_lt_two_pow (by omega)]
    rfl
  · have : (1 <<< 16).testBit i = false := by
      rw [Nat.one_shiftLeft, Nat.testBit_two_pow]
      simp; omega
    rw [this]; simp

theorem or_flag_and (n : Nat) : (n ||| (1 <<< 16)) &&& (1 <<< 16) ≠ 0 := by
  intro h
  have h2 := congrArg (fun x => x.testBit 16) h
  have h3 : Nat.testBit (1 <<< 16) 16 = true := by decide
  simp only [Nat.testBit_and, Nat.testBit_or, h3, Bool.or_true, Bool.and_true,
    Nat.zero_testBit] at h2
  cases h2

theorem fuel_of_depth {p_depth : Nat} (h : p_depth ≤ VARIANT_MAX_RECURSION_DEPTH) :
    ∃ fuel, VARIANT_MAX_RECURSION_DEPTH + 1 - p_depth = fuel + 1 :=
  ⟨VARIANT_MAX_RECURSION_DEPTH - p_depth, by omega⟩

/-- C3. Integer width selection: at a depth the guard admits, and with the type tag
within the header's type byte, an integer outside the 32-bit signed range is encoded
with the 64-bit flag (bit 16) set in the header and an 8-byte little-endian payload,
12 bytes in all; an integer inside the range is encoded with the flag clear and the
4-byte little-endian two's complement of the value, 8 bytes in all. -/
theorem encode_variant_int_width (cfg : BuildConfig) (val : Int) (r_buffer : Option Nat)
    (mem : List Nat) (r_len : Nat) (p_full_objects : Bool) (p_depth : Nat)
    (htype : cfg.type_id .INT ≤ HEADER_TYPE_MASK)
    (hdepth : p_depth ≤ VARIANT_MAX_RECURSION_DEPTH) :
    (val > 2147483647 ∨ val < -2147483648 →
      (cfg.type_id .INT ||| HEADER_DATA_FLAG_64) &&& HEADER_DATA_FLAG_64 ≠ 0 ∧
      encode_variant cfg (.INT val) r_buffer mem r_len p_full_objects p_depth =
        ⟨.OK, 12, match r_buffer with
          | none => mem
          | some p =>
            poke (poke mem p (encode_uint32 (cfg.type_id .INT ||| HEADER_DATA_FLAG_64))) (p + 4)
              (encode_uint64 (to_uint64 val))⟩) ∧
    (¬ (val > 2147483647 ∨ val < -2147483648) →
      cfg.type_id .INT &&& HEADER_DATA_FLAG_64 = 0 ∧
      (to_uint32 val : Int) = (if 0 ≤ val then val else val + 4294967296) ∧
      encode_variant cfg (.INT val) r_buffer mem r_len p_full_objects p_depth =
        ⟨.OK, 8, match r_buffer with
          | none => mem
          | some p =>
            poke (poke mem p (encode_uint32 (cfg.type_id .INT))) (p + 4)
              (encode_uint32 (to_uint32 val))⟩) := by
  obtain ⟨fuel, hfuel⟩ := fuel_of_depth hdepth
  have hd : ¬ p_depth > VARIANT_MAX_RECURSION_DEPTH := by omega
  have hclear : cfg.type_id .INT &&& HEADER_DATA_FLAG_64 = 0 := and_flag_of_le _ htype
  have hset : (cfg.type_id .INT ||| HEADER_DATA_FLAG_64) &&& HEADER_DATA_FLAG_64 ≠ 0 :=
    or_flag_and _
  constructor
  · intro hv
    refine ⟨hset, ?_⟩
    have hv2 : val > INT_MAX ∨ val < INT_MIN := hv
    unfold encode_variant
    rw [hfuel, encode_variant_fuel, if_neg hd]
    simp only [encode_header, if_pos hv2, Variant.get_type, if_pos hset]
    cases r_buffer <;> rfl
  · intro hv
    refine ⟨hclear, ?_, ?_⟩
    · unfold to_uint32
      have h1 : -2147483648 ≤ val ∧ val ≤ 2147483647 := by omega
      split <;> omega
    · have hv2 : ¬ (val > INT_MAX ∨ val < INT_MIN) := hv
      have hclear2 : ¬ (cfg.type_id .INT &&& HEADER_DATA_FLAG_64 ≠ 0) := not_not.mpr hclear
      unfold encode_variant
      rw [hfuel, encode_variant_fuel, if_neg hd]
      simp only [encode_header, if_neg hv2, Variant.get_type, if_neg hclear2]
      cases r_buffer <;> rfl

/-- A witness of `encode_variant_int_width`: 2147483648 takes the 64-bit form. -/
theorem encode_variant_int_width_witness :
    encode_variant host_config (.INT 2147483648) (some 0) (List.replicate 12 0) 0 false 0 =
      ⟨.OK, 12, [2, 0, 1, 0, 0, 0, 0, 128, 0, 0, 0, 0]⟩ ∧
    encode_variant host_config (.INT 42) (some 0) (List.replicate 12 0) 0 false 0 =
      ⟨.OK, 8, [2, 0, 0, 0, 42, 0, 0, 0, 0, 0, 0, 0]⟩ :=
  ⟨((encode_variant_int_width host_config 2147483648 (some 0) (List.replicate 12 0) 0 false 0
      (by decide) (by decide)).1 (by decide)).2.trans (by decide),
   ((encode_variant_int_width host_config 42 (some 0) (List.replicate 12 0) 0 false 0
      (by decide) (by decide)).2 (by decide)).2.2.trans (by decide)⟩

/-! ### `encode_variant`: the depth guard -/

theorem nesting_elements_mem {elems : List Variant} {x : Variant} (h : x ∈ elems) :
    x.nesting + 1 ≤ nesting_elements elems := by
  induction elems with
  | nil => cases h
  | cons y rest ih =>
    rw [nesting_elements]
    rcases List.mem_cons.mp h with h | h
    · subst h; exact Nat.le_max_left _ _
    · exact Nat.le_trans (ih h) (Nat.le_max_right _ _)

theorem nesting_pairs_eq (d : List (Variant × Variant)) :
    nesting_pairs d = nesting_elements (d.flatMap fun kv => [kv.1, kv.2]) := by
  induction d with
  | nil => rfl
  | cons kv rest ih =>
    obtain ⟨k, v⟩ := kv
    have hflat : (((k, v) :: rest).flatMap fun kv => [kv.1, kv.2]) =
        k :: v :: rest.flatMap fun kv => [kv.1, kv.2] := by
      simp [List.flatMap_cons]
    rw [nesting_pairs, ih, hflat, nesting_elements, nesting_elements]
    exact max_assoc _ _ _

theorem after_nested_error_err {c : Cursor} {r e : EncodeResult}
    (h : after_nested c r = .error e) : e.err = .ERR_BUG ∨ e.err = r.err := by
  unfold after_nested at h
  simp only at h
  split at h
  · injection h with h; subst h; exact Or.inr rfl
  · split at h
    · injection h with h; subst h; exact Or.inl rfl
    · cases h

theorem encode_array_elements_error_err (enc : Variant → Option Nat → List Nat → EncodeResult)
    (elems : List Variant) : ∀ (c : Cursor) (e : EncodeResult),
    encode_array_elements enc elems c = .error e →
    e.err = .ERR_BUG ∨ ∃ x ∈ elems, ∃ b m, e.err = (enc x b m).err := by
  induction elems with
  | nil => intro c e h; rw [encode_array_elements] at h; cases h
  | cons var rest ih =>
    intro c e h
    rw [encode_array_elements] at h
    split at h
    · rename_i e1 h1
      injection h with h
      subst h
      rcases after_nested_error_err h1 with h2 | h2
      · exact Or.inl h2
      · exact Or.inr ⟨var, List.mem_cons_self _ _, _, _, h2⟩
    · rename_i c1 h1
      rcases ih c1 e h with h2 | ⟨x, hx, b, m, h2⟩
      · exact Or.inl h2
      · exact Or.inr ⟨x, List.mem_cons_of_mem _ hx, b, m, h2⟩

theorem encode_variant_fuel_depth_ok (cfg : BuildConfig) (fuel : Nat) :
    ∀ (p_variant : Variant) (b : Option Nat) (m : List Nat) (r_len : Nat) (p_full_objects : Bool)
      (p_depth : Nat),
    VARIANT_MAX_RECURSION_DEPTH + 1 ≤ p_depth + fuel →
    p_depth + p_variant.nesting ≤ VARIANT_MAX_RECURSION_DEPTH →
    (encode_variant_fuel cfg fuel p_variant b m r_len p_full_objects p_depth).err ≠
      .ERR_OUT_OF_MEMORY := by
  induction fuel with
  | zero =>
    intro p_variant b m r_len p_full_objects p_depth h1 h2
    omega
  | succ fuel ih =>
    intro p_variant b m r_len p_full_objects p_depth h1 h2
    have hd : ¬ p_depth > VARIANT_MAX_RECURSION_DEPTH := by omega
    have hloop : ∀ (elems : List Variant) (c : Cursor) (e : EncodeResult),
        nesting_elements elems ≤ p_variant.nesting →
        encode_array_elements
          (fun v b m => encode_variant_fuel cfg fuel v b m 0 p_full_objects (p_depth + 1))
          elems c = .error e → e.err ≠ .ERR_OUT_OF_MEMORY := by
      intro elems c e hn he hoom
      rcases encode_array_elements_error_err _ _ _ _ he with h3 | ⟨x, hx, b, m, h3⟩
      · rw [h3] at hoom; cases hoom
      · have hx2 := nesting_elements_mem hx
        exact ih x b m 0 p_full_objects (p_depth + 1) (by omega) (by omega) (h3 ▸ hoom)
    rw [encode_variant_fuel, if_neg hd]
    cases hh : encode_header cfg p_variant p_full_objects with
    | none => simp
    | some header =>
      simp only
      cases p_variant
      case DICTIONARY d =>
        simp only
        rw [encode_dictionary_pairs_eq]
        split
        · rename_i e he
          exact hloop _ _ e (by rw [Variant.nesting, nesting_pairs_eq]) he
        · simp
      case ARRAY typing elems =>
        simp only
        split
        · rename_i e he
          rw [encode_array_typing_error he]
          simp
        · split
          · rename_i e he
            exact hloop _ _ e (by rw [Variant.nesting]) he
          · simp
      case OBJECT obj =>
        cases obj with
        | some o => simp [encode_header] at hh
        | none => cases p_full_objects <;> simp
      case INT val =>
        by_cases hf : header &&& HEADER_DATA_FLAG_64 ≠ 0 <;> simp [hf]
      case FLOAT val =>
        by_cases hf : header &&& HEADER_DATA_FLAG_64 ≠ 0 <;> simp [hf]
      all_goals simp

theorem encode_variant_depth_exceeded (cfg : BuildConfig) (p_variant : Variant)
    (r_buffer : Option Nat) (mem : List Nat) (r_len : Nat) (p_full_objects : Bool) (p_depth : Nat)
    (h : p_depth > VARIANT_MAX_RECURSION_DEPTH) :
    encode_variant cfg p_variant r_buffer mem r_len p_full_objects p_depth =
      ⟨.ERR_OUT_OF_MEMORY, r_len, mem⟩ := by
  unfold encode_variant
  have : VARIANT_MAX_RECURSION_DEPTH + 1 - p_depth = 0 := by omega
  rw [this, encode_variant_fuel]

/-- C4. Depth ceiling: called with `p_depth > 1024`, `encode_variant` returns an error
for every value, object mode and buffer, and produces no encoding: `r_len` and the
memory are left as they were.  Called with `p_depth ≤ 1024` it does not fail on the
depth check: a value that leads to no nested call beyond depth 1024 (in particular
one that leads to no nested call at all) never gets the depth error. -/
theorem encode_variant_depth_ceiling (cfg : BuildConfig) (p_variant : Variant)
    (r_buffer : Option Nat) (mem : List Nat) (r_len : Nat) (p_full_objects : Bool)
    (p_depth : Nat) :
    (p_depth > 1024 →
      encode_variant cfg p_variant r_buffer mem r_len p_full_objects p_depth =
        ⟨.ERR_OUT_OF_MEMORY, r_len, mem⟩) ∧
    (p_depth + p_variant.nesting ≤ 1024 →
      (encode_variant cfg p_variant r_buffer mem r_len p_full_objects p_depth).err ≠
        .ERR_OUT_OF_MEMORY) := by
  constructor
  · intro h
    exact encode_variant_depth_exceeded cfg p_variant r_buffer mem r_len p_full_objects p_depth h
  · intro h
    have h2 : p_depth + p_variant.nesting ≤ VARIANT_MAX_RECURSION_DEPTH := h
    unfold encode_variant
    exact encode_variant_fuel_depth_ok cfg _ p_variant r_buffer mem r_len p_full_objects p_depth
      (by omega) h2

/-- A witness of `encode_variant_depth_ceiling`: a one-element array at depth 1025 and at
depth 1023. -/
theorem encode_variant_depth_ceiling_witness :
    encode_variant host_config (.ARRAY .untyped [.INT 1]) none [] 7 false 1025 =
      ⟨.ERR_OUT_OF_MEMORY, 7, []⟩ ∧
    (encode_variant host_config (.ARRAY .untyped [.INT 1]) none [] 7 false 1023).err ≠
      .ERR_OUT_OF_MEMORY :=
  ⟨(encode_variant_depth_ceiling host_config (.ARRAY .untyped [.INT 1]) none [] 7 false 1025).1
      (by decide),
   (encode_variant_depth_ceiling host_config (.ARRAY .untyped [.INT 1]) none [] 7 false 1023).2
      (by decide)⟩

theorem encode_variant_succ_depth (cfg : BuildConfig) (x : Variant) (b : Option Nat)
    (m : List Nat) (r_len : Nat) (p_full_objects : Bool) {p_depth fuel : Nat}
    (hfuel : VARIANT_MAX_RECURSION_DEPTH + 1 - p_depth = fuel + 1) :
    encode_variant_fuel cfg fuel x b m r_len p_full_objects (p_depth + 1) =
      encode_variant cfg x b m r_len p_full_objects (p_depth + 1) := by
  unfold encode_variant
  have : VARIANT_MAX_RECURSION_DEPTH + 1 - (p_depth + 1) = fuel := by omega
  rw [this]

theorem encode_nested_arrays_err (cfg : BuildConfig) (p_full_objects : Bool) (n : Nat) :
    ∀ (p_depth : Nat) (b : Option Nat) (m : List Nat) (r_len : Nat),
    (encode_variant cfg (nested_arrays n) b m r_len p_full_objects p_depth).err =
      if p_depth + n ≤ VARIANT_MAX_RECURSION_DEPTH then .OK else .ERR_OUT_OF_MEMORY := by
  induction n with
  | zero =>
    intro p_depth b m r_len
    by_cases hd : p_depth ≤ VARIANT_MAX_RECURSION_DEPTH
    · obtain ⟨fuel, hfuel⟩ := fuel_of_depth hd
      have hd2 : ¬ p_depth > VARIANT_MAX_RECURSION_DEPTH := by omega
      rw [if_pos (by omega)]
      unfold encode_variant
      rw [hfuel, encode_variant_fuel, if_neg hd2]
      simp [nested_arrays, encode_header, encode_array_typing, ArrayTyping.untyped,
        encode_array_elements]
    · rw [if_neg (by omega), encode_variant_depth_exceeded _ _ _ _ _ _ _ (by omega)]
  | succ n ih =>
    intro p_depth b m r_len
    by_cases hd : p_depth ≤ VARIANT_MAX_RECURSION_DEPTH
    · obtain ⟨fuel, hfuel⟩ := fuel_of_depth hd
      have hd2 : ¬ p_depth > VARIANT_MAX_RECURSION_DEPTH := by omega
      unfold encode_variant
      rw [hfuel, encode_variant_fuel, if_neg hd2]
      simp only [nested_arrays, encode_header, encode_array_typing, ArrayTyping.untyped,
        encode_array_elements, Bool.false_eq_true, if_false]
      rw [encode_variant_succ_depth cfg _ _ _ _ _ hfuel]
      generalize Cursor.buf _ = b1
      generalize Cursor.mem _ = m1
      have hih := ih (p_depth + 1) b1 m1 0
      have hal := encode_variant_r_len_mod cfg (nested_arrays n) b1 m1 0 p_full_objects (p_depth + 1)
      generalize encode_variant cfg (nested_arrays n) b1 m1 0 p_full_objects (p_depth + 1) = r
        at hih hal ⊢
      by_cases hn : p_depth + 1 + n ≤ VARIANT_MAX_RECURSION_DEPTH
      · rw [if_pos hn] at hih
        rw [if_pos (by omega)]
        simp [after_nested, hih, hal hih]
      · rw [if_neg hn] at hih
        rw [if_neg (by omega)]
        simp [after_nested, hih, Cursor.fail]
    · rw [if_neg (by omega), encode_variant_depth_exceeded _ _ _ _ _ _ _ (by omega)]

/-- C5 (as stated, refuted). 1025 arrays nested one in the other, the innermost empty,
encoded from the top level at depth 0, do not fail encoding: the call returns `OK`. -/
theorem nested_arrays_1025_levels_encode :
    (encode_variant host_config (nested_arrays 1024) none [] 0 false 0).err = .OK := by
  rw [encode_nested_arrays_err]
  decide

/-- C5 (amended). Depth guard on nesting: 1026 arrays nested one in the other, the
innermost empty, encoded from the top level at depth 0, fail encoding with the depth
error; 1025 arrays nested so are the boundary case and encode successfully, as do
1024. -/
theorem nested_arrays_depth_guard (cfg : BuildConfig) (r_buffer : Option Nat) (mem : List Nat)
    (r_len : Nat) (p_full_objects : Bool) :
    (encode_variant cfg (nested_arrays 1025) r_buffer mem r_len p_full_objects 0).err =
      .ERR_OUT_OF_MEMORY ∧
    (encode_variant cfg (nested_arrays 1024) r_buffer mem r_len p_full_objects 0).err = .OK ∧
    (encode_variant cfg (nested_arrays 1023) r_buffer mem r_len p_full_objects 0).err = .OK := by
  refine ⟨?_, ?_, ?_⟩ <;> rw [encode_nested_arrays_err] <;> decide

/-! ### `encode_variant`: errors of nested calls -/

theorem encode_variant_err_buffer (cfg : BuildConfig) (p_variant : Variant) (b : Option Nat)
    (m : List Nat) (b2 : Option Nat) (m2 : List Nat) (r_len : Nat) (p_full_objects : Bool)
    (p_depth : Nat) :
    (encode_variant cfg p_variant b m r_len p_full_objects p_depth).err =
      (encode_variant cfg p_variant b2 m2 r_len p_full_objects p_depth).err :=
  congrArg Prod.fst
    (encode_variant_fuel_code cfg _ p_variant b m b2 m2 r_len p_full_objects p_depth)

theorem encode_array_elements_first_error (enc : Variant → Option Nat → List Nat → EncodeResult)
    (x : Variant) (post : List Variant) (e : Error) (hx : ∀ b m, (enc x b m).err = e)
    (he : e ≠ .OK) (pre : List Variant) :
    (∀ y ∈ pre, ∀ b m, (enc y b m).err = .OK ∧ (enc y b m).r_len % 4 = 0) →
    ∀ c : Cursor, ∃ r, encode_array_elements enc (pre ++ x :: post) c = .error r ∧ r.err = e := by
  induction pre with
  | nil =>
    intro _ c
    refine ⟨({ c with mem := (enc x c.buf c.mem).mem } : Cursor).fail e, ?_, rfl⟩
    simp only [List.nil_append, encode_array_elements, after_nested, hx, ne_eq, he,
      not_false_eq_true, if_true]
  | cons y rest ih =>
    intro hpre c
    have hy := hpre y (List.mem_cons_self _ _) c.buf c.mem
    have hok : after_nested c (enc y c.buf c.mem) =
        .ok (({ c with mem := (enc y c.buf c.mem).mem }.add_len (enc y c.buf c.mem).r_len).advance
          (enc y c.buf c.mem).r_len) := by
      simp [after_nested, hy.1, hy.2]
    obtain ⟨r, hr, hre⟩ := ih (fun z hz => hpre z (List.mem_cons_of_mem _ hz))
      (({ c with mem := (enc y c.buf c.mem).mem }.add_len (enc y c.buf c.mem).r_len).advance
          (enc y c.buf c.mem).r_len)
    refine ⟨r, ?_, hre⟩
    rw [List.cons_append, encode_array_elements, hok]
    exact hr

theorem encode_array_typing_ok {array : ArrayTyping} {p_full_objects : Bool}
    (h : typed_script_path_invalid array p_full_objects = false) (c : Cursor) :
    ∃ c2, encode_array_typing array p_full_objects c = .ok c2 := by
  unfold encode_array_typing
  unfold typed_script_path_invalid at h
  split
  · rename_i ht
    split
    · rename_i res hres
      split
      · rename_i hf
        simp only [ht, hf, hres, Bool.and_self, Bool.true_and] at h
        simp [h]
      · exact ⟨_, rfl⟩
    · split <;> exact ⟨_, rfl⟩
  · exact ⟨_, rfl⟩

theorem encode_header_array (cfg : BuildConfig) (array : ArrayTyping) (elems : List Variant)
    (p_full_objects : Bool) :
    ∃ header, encode_header cfg (.ARRAY array elems) p_full_objects = some header := by
  unfold encode_header
  simp only
  split
  · split
    · exact ⟨_, rfl⟩
    · split <;> exact ⟨_, rfl⟩
  · exact ⟨_, rfl⟩

/-- C6. Error propagation through containers: when a call of `encode_variant` on an
array or a dictionary reaches its loop over the nested values (the elements; the keys,
each followed by its value), and the nested values before `x` in iteration order all
encode, at `p_depth + 1`, without error while `x` returns the error `e`, then the
enclosing call returns that same error `e`, and so not `OK`. -/
theorem encode_variant_propagates_nested_error (cfg : BuildConfig) (p_variant : Variant)
    (pre : List Variant) (x : Variant) (post : List Variant) (e : Error)
    (r_buffer : Option Nat) (mem : List Nat) (r_len : Nat) (p_full_objects : Bool) (p_depth : Nat)
    (hvalues : p_variant.nested_values = pre ++ x :: post)
    (htyped : ∀ array elems, p_variant = .ARRAY array elems →
      typed_script_path_invalid array p_full_objects = false)
    (hpre : ∀ y ∈ pre, (encode_variant cfg y none [] 0 p_full_objects (p_depth + 1)).err = .OK)
    (hx : (encode_variant cfg x none [] 0 p_full_objects (p_depth + 1)).err = e)
    (he : e ≠ .OK) :
    (encode_variant cfg p_variant r_buffer mem r_len p_full_objects p_depth).err = e := by
  by_cases hd : p_depth ≤ VARIANT_MAX_RECURSION_DEPTH
  · obtain ⟨fuel, hfuel⟩ := fuel_of_depth hd
    have hd2 : ¬ p_depth > VARIANT_MAX_RECURSION_DEPTH := by omega
    -- the nested call, as the loops make it
    have henc : (fun v b m => encode_variant_fuel cfg fuel v b m 0 p_full_objects (p_depth + 1)) =
        fun v b m => encode_variant cfg v b m 0 p_full_objects (p_depth + 1) := by
      funext v b m
      exact encode_variant_succ_depth cfg v b m 0 p_full_objects hfuel
    have hloop : ∀ c : Cursor, ∃ r,
        encode_array_elements
          (fun v b m => encode_variant_fuel cfg fuel v b m 0 p_full_objects (p_depth + 1))
          (pre ++ x :: post) c = .error r ∧ r.err = e := by
      rw [henc]
      apply encode_array_elements_first_error _ x post e _ he pre
      · intro y hy b m
        have hok : (encode_variant cfg y b m 0 p_full_objects (p_depth + 1)).err = .OK := by
          rw [encode_variant_err_buffer cfg y b m none []]
          exact hpre y hy
        exact ⟨hok, encode_variant_r_len_mod cfg y b m 0 p_full_objects (p_depth + 1) hok⟩
      · intro b m
        rw [encode_variant_err_buffer cfg x b m none []]
        exact hx
    unfold encode_variant
    rw [hfuel, encode_variant_fuel, if_neg hd2]
    cases p_variant with
    | ARRAY array elems =>
      obtain ⟨header, hh⟩ := encode_header_array cfg array elems p_full_objects
      rw [hh]
      simp only
      obtain ⟨c2, hc2⟩ := encode_array_typing_ok (htyped array elems rfl)
        ((((Cursor.mk r_buffer 0 mem).store 0 (encode_uint32 header)).advance 4).add_len 4)
      rw [hc2]
      simp only
      have hel : elems = pre ++ x :: post := hvalues
      obtain ⟨r, hr, hre⟩ := hloop (((c2.store 0 (encode_uint32 elems.length)).advance 4).add_len 4)
      rw [hel] at hr ⊢
      rw [hr]
      exact hre
    | DICTIONARY d =>
      have hh : encode_header cfg (.DICTIONARY d) p_full_objects =
          some (cfg.type_id VariantType.DICTIONARY) := rfl
      rw [hh]
      simp only
      have hel : (d.flatMap fun kv => [kv.1, kv.2]) = pre ++ x :: post := hvalues
      rw [encode_dictionary_pairs_eq, hel]
      obtain ⟨r, hr, hre⟩ := hloop (((((((Cursor.mk r_buffer 0 mem).store 0
        (encode_uint32 (cfg.type_id VariantType.DICTIONARY))).advance 4).add_len 4).store 0
        (encode_uint32 d.length)).advance 4).add_len 4)
      rw [hr]
      exact hre
    | _ => simp [Variant.nested_values] at hvalues
  · rw [encode_variant_depth_exceeded _ _ _ _ _ _ _ (by omega)]
    rw [encode_variant_depth_exceeded _ _ _ _ _ _ _ (by omega)] at hx
    exact hx

/-- A witness of `encode_variant_propagates_nested_error`: a dictionary at depth 1023
whose key encodes and whose value, an array with one element, runs into the depth
guard. -/
theorem encode_variant_propagates_nested_error_witness :
    (encode_variant host_config (.DICTIONARY [(.INT 1, .ARRAY .untyped [.NIL])]) none [] 0
      false 1023).err = .ERR_OUT_OF_MEMORY :=
  encode_variant_propagates_nested_error host_config
    (.DICTIONARY [(.INT 1, .ARRAY .untyped [.NIL])]) [.INT 1] (.ARRAY .untyped [.NIL]) []
    .ERR_OUT_OF_MEMORY none [] 0 false 1023 rfl (fun _ _ h => by cases h)
    (fun y hy => by
      rw [List.mem_singleton] at hy
      subst hy
      decide)
    (by decide) (by decide)

/-! ### `encode_variant`: objects -/

/-- C7 (the code at the failing input). A null object is not overridden to nil: with
object ids it is encoded in 12 bytes, the `OBJECT` header with the as-id flag and a
64-bit id 0; with full objects in 8 bytes, the `OBJECT` header and a 32-bit 0.  The nil
override is taken for a non-null object instead. -/
theorem encode_variant_null_object :
    encode_variant host_config (.OBJECT none) (some 0) (List.replicate 12 255) 0 false 0 =
      ⟨.OK, 12, [24, 0, 1, 0, 0, 0, 0, 0, 0, 0, 0, 0]⟩ ∧
    encode_variant host_config (.OBJECT none) (some 0) (List.replicate 12 255) 0 true 0 =
      ⟨.OK, 8, [24, 0, 0, 0, 0, 0, 0, 0, 255, 255, 255, 255]⟩ ∧
    encode_variant host_config
        (.OBJECT (some ⟨GString.ascii "Node", true, 77, none, []⟩)) (some 0)
        (List.replicate 12 255) 0 false 0 =
      ⟨.OK, 4, [0, 0, 0, 0, 255, 255, 255, 255, 255, 255, 255, 255]⟩ := by
  decide

/-! ### `parse_code_string`: the constant section -/

@[simp] theorem resize_length (v : List Nat) (n : Nat) : (resize v n).length = n := by
  unfold resize
  simp only [List.length_append, List.length_take, List.length_replicate]
  omega

@[simp] theorem poke_length (bs : List Nat) : ∀ (mem : List Nat) (off : Nat),
    (poke mem off bs).length = mem.length := by
  induction bs with
  | nil => intro mem off; rfl
  | cons b rest ih =>
    intro mem off
    rw [poke, ih, List.length_set]

theorem encode_variant_object_ok (cfg : BuildConfig) (obj : Option (ObjectData Variant))
    (b : Option Nat) (m : List Nat) (r_len : Nat) :
    (encode_variant cfg (.OBJECT obj) b m r_len false 0).err = .OK := by
  obtain ⟨fuel, hfuel⟩ := fuel_of_depth (Nat.zero_le VARIANT_MAX_RECURSION_DEPTH)
  have hd : ¬ 0 > VARIANT_MAX_RECURSION_DEPTH := by decide
  unfold encode_variant
  rw [hfuel, encode_variant_fuel, if_neg hd]
  cases obj <;> simp [encode_header]

theorem save_constants_none (cfg : BuildConfig) (vs : List Variant) :
    ∀ (contents : List Nat) (buf_pos : Nat),
    save_constants cfg vs contents buf_pos = none ↔
      ∃ v ∈ vs, (encode_variant cfg v none [] 0 false 0).err ≠ .OK := by
  induction vs with
  | nil => intro contents buf_pos; simp [save_constants]
  | cons v rest ih =>
    intro contents buf_pos
    rw [save_constants]
    simp only
    rw [encode_variant_err_buffer cfg v none contents none []]
    by_cases hv : (encode_variant cfg v none [] 0 false 0).err ≠ .OK
    · rw [if_pos hv]
      simp only [true_iff]
      exact ⟨v, List.mem_cons_self _ _, hv⟩
    · rw [if_neg hv, ih]
      constructor
      · rintro ⟨w, hw, hwe⟩
        exact ⟨w, List.mem_cons_of_mem _ hw, hwe⟩
      · rintro ⟨w, hw, hwe⟩
        rcases List.mem_cons.mp hw with h | h
        · subst h; exact absurd hwe hv
        · exact ⟨w, h, hwe⟩

theorem parse_code_string_contents_none (cfg : BuildConfig) (env : Collaborators)
    (lexed : Lexed) :
    parse_code_string_contents cfg env lexed = none ↔
      ∃ v ∈ interned_constants env lexed, (encode_variant cfg v none [] 0 false 0).err ≠ .OK := by
  unfold parse_code_string_contents interned_constants
  simp only
  rw [← save_constants_none cfg _
    (save_identifiers (reverse_map (⟨[], []⟩ : StringName)
      (token_loop env lexed.tokens {}).identifier_map)
      (poke (poke (poke (poke (resize [] 20) 0
        (encode_uint32 (token_loop env lexed.tokens {}).identifier_map.length)) 4
        (encode_uint32 (token_loop env lexed.tokens {}).constant_map.length)) 8
        (encode_uint32 (remove_continuation_lines
          (reverse_token_lines (token_loop env lexed.tokens {}).token_lines)
          lexed.continuation_lines
          ((token_loop env lexed.tokens {}).token_lines,
            (token_loop env lexed.tokens {}).token_columns)).1.length)) 16
        (encode_uint32 (token_loop env lexed.tokens {}).token_counter)) 20).1
    (save_identifiers (reverse_map (⟨[], []⟩ : StringName)
      (token_loop env lexed.tokens {}).identifier_map)
      (poke (poke (poke (poke (resize [] 20) 0
        (encode_uint32 (token_loop env lexed.tokens {}).identifier_map.length)) 4
        (encode_uint32 (token_loop env lexed.tokens {}).constant_map.length)) 8
        (encode_uint32 (remove_continuation_lines
          (reverse_token_lines (token_loop env lexed.tokens {}).token_lines)
          lexed.continuation_lines
          ((token_loop env lexed.tokens {}).token_lines,
            (token_loop env lexed.tokens {}).token_columns)).1.length)) 16
        (encode_uint32 (token_loop env lexed.tokens {}).token_counter)) 20).2]
  split <;> simp_all

theorem append_ne_nil_of_length {a : List Nat} (b : List Nat) {n : Nat} (h : a.length = n + 1) :
    a ++ b ≠ [] := by
  intro hab
  have := congrArg List.length hab
  simp only [List.length_append, List.length_nil, h] at this
  omega

/-- C8 (as stated, refuted). A token sequence whose only token is a LITERAL carrying an
object-typed value (the null object, or a live one) does not make `parse_code_string`
abort: in both compression modes it returns a buffer with the constant serialized. -/
theorem parse_code_string_object_constant_encodes :
    parse_code_string host_config sample_env
        ⟨[{ type := .LITERAL, literal := .OBJECT none, start_line := 1, end_line := 1 }], []⟩
        .COMPRESS_NONE =
      [71, 68, 83, 67, 100, 0, 0, 0, 0, 0, 0, 0,
       0, 0, 0, 0, 1, 0, 0, 0, 0, 0, 0, 0, 0, 0, 0, 0, 1, 0, 0, 0,
       24, 0, 1, 0, 0, 0, 0, 0, 0, 0, 0, 0,
       131, 0, 0, 0, 1, 0, 0, 0] ∧
    parse_code_string host_config sample_env
        ⟨[{ type := .LITERAL, literal := .OBJECT none, start_line := 1, end_line := 1 }], []⟩
        .COMPRESS_ZSTD ≠ [] ∧
    parse_code_string host_config sample_env
        ⟨[{ type := .LITERAL,
            literal := .OBJECT (some ⟨GString.ascii "Node", true, 77, none, []⟩),
            start_line := 1, end_line := 1 }], []⟩
        .COMPRESS_NONE ≠ [] := by
  decide

/-- C8 (amended). An object-typed constant is not fatal: `encode_variant` called as the
constant section calls it (`p_full_objects = false`, depth 0) returns `OK` on every
object-typed value.  `parse_code_string` aborts while serializing the constant section,
returning the empty vector and no partial buffer, exactly when `encode_variant` returns
an error for one of the interned constants; in `COMPRESS_ZSTD` mode it also returns the
empty vector when the compressor reports an error, and in no other case. -/
theorem parse_code_string_constant_errors (cfg : BuildConfig) (env : Collaborators)
    (lexed : Lexed) :
    (∀ (obj : Option (ObjectData Variant)) (b : Option Nat) (m : List Nat) (r_len : Nat),
      (encode_variant cfg (.OBJECT obj) b m r_len false 0).err = .OK) ∧
    (parse_code_string cfg env lexed .COMPRESS_NONE = [] ↔
      ∃ v ∈ interned_constants env lexed,
        (encode_variant cfg v none [] 0 false 0).err ≠ .OK) ∧
    (parse_code_string cfg env lexed .COMPRESS_ZSTD = [] ↔
      (∃ v ∈ interned_constants env lexed,
        (encode_variant cfg v none [] 0 false 0).err ≠ .OK) ∨
      ∃ contents, parse_code_string_contents cfg env lexed = some contents ∧
        (env.zstd_compress contents).1 < 0) := by
  refine ⟨encode_variant_object_ok cfg, ?_, ?_⟩
  · rw [← parse_code_string_contents_none]
    unfold parse_code_string
    cases parse_code_string_contents cfg env lexed with
    | none => simp
    | some contents =>
      simp only [reduceCtorEq, iff_false]
      exact append_ne_nil_of_length _ (n := 11) (by simp [HEADER_SIZE])
  · rw [← parse_code_string_contents_none]
    unfold parse_code_string
    cases parse_code_string_contents cfg env lexed with
    | none => simp
    | some contents =>
      simp only [reduceCtorEq, false_or, Option.some.injEq, exists_eq_left']
      by_cases hc : (env.zstd_compress contents).1 < 0
      · simp [hc]
      · simp only [hc, if_false, iff_false]
        exact append_ne_nil_of_length _ (n := 11) (by simp [HEADER_SIZE])

/-! ### `_token_to_binary`: the token record -/

theorem poke_append_right (A : List Nat) (bs : List Nat) : ∀ (B : List Nat) (off : Nat),
    A.length ≤ off → poke (A ++ B) off bs = A ++ poke B (off - A.length) bs := by
  induction bs with
  | nil => intro B off _; rfl
  | cons b rest ih =>
    intro B off h
    rw [poke, poke, List.set_append_right _ _ h, ih _ _ (by omega)]
    have : off + 1 - A.length = off - A.length + 1 := by omega
    rw [this]

theorem poke_zero (bs : List Nat) : ∀ X : List Nat, bs.length ≤ X.length →
    poke X 0 bs = bs ++ X.drop bs.length := by
  induction bs with
  | nil => intro X _; rfl
  | cons b rest ih =>
    intro X h
    cases X with
    | nil => simp at h
    | cons x X =>
      rw [poke, List.set_cons_zero]
      have h1 := poke_append_right [b] rest X 1 (by simp)
      simp only [List.singleton_append, List.length_singleton, Nat.sub_self] at h1
      rw [show (0 : Nat) + 1 = 1 from rfl, h1, ih X (by simpa using h)]
      simp

theorem resize_add (v : List Nat) (p k : Nat) :
    resize v (p + k) = resize v p ++ resize (v.drop p) k := by
  unfold resize
  by_cases h : p ≤ v.length
  · have h1 : p - v.length = 0 := by omega
    have h2 : p + k - v.length = k - (v.drop p).length := by simp; omega
    rw [h1, h2, List.take_add]
    simp
  · have h1 : v.take (p + k) = v := List.take_of_length_le (by omega)
    have h2 : v.take p = v := List.take_of_length_le (by omega)
    have h3 : v.drop p = [] := List.drop_of_length_le (by omega)
    have h4 : p + k - v.length = (p - v.length) + k := by omega
    rw [h1, h2, h3, h4, List.replicate_add]
    simp

theorem resize_take_old (v : List Nat) (p : Nat) :
    (resize v p).take (min p v.length) = v.take (min p v.length) := by
  unfold resize
  rw [List.take_append_of_le_length (by simp), List.take_take]
  congr 1
  omega

theorem encode_uint32_length (x : Nat) : (encode_uint32 x).length = 4 := rfl

theorem token_mask_eq : TOKEN_MASK = 2 ^ 7 - 1 := by decide

theorem token_word_and_mask (a i : Nat) :
    ((a &&& TOKEN_MASK) ||| (i <<< TOKEN_BITS)) &&& TOKEN_MASK = a &&& TOKEN_MASK := by
  apply Nat.eq_of_testBit_eq
  intro j
  simp only [Nat.testBit_and, Nat.testBit_or, Nat.testBit_shiftLeft, token_mask_eq,
    Nat.testBit_two_pow_sub_one, TOKEN_BITS]
  by_cases hj : j < 7
  · have : ¬ j ≥ 8 := by omega
    simp [hj, this]
  · simp [hj]

theorem token_word_mod (a i : Nat) :
    ((a &&& TOKEN_MASK) ||| (i <<< TOKEN_BITS)) % 256 = a &&& TOKEN_MASK := by
  apply Nat.eq_of_testBit_eq
  intro j
  rw [show (256 : Nat) = 2 ^ 8 from rfl, Nat.testBit_mod_two_pow]
  simp only [Nat.testBit_and, Nat.testBit_or, Nat.testBit_shiftLeft, token_mask_eq,
    Nat.testBit_two_pow_sub_one, TOKEN_BITS]
  by_cases hj : j < 7
  · have h1 : ¬ j ≥ 8 := by omega
    have h2 : j < 8 := by omega
    simp [hj, h1, h2]
  · by_cases h8 : j < 8
    · have h1 : ¬ j ≥ 8 := by omega
      simp [hj, h1]
    · simp [hj, h8]

theorem byte_mask_set (x : Nat) : (x ||| TOKEN_BYTE_MASK) % 256 &&& 0x80 ≠ 0 := by
  intro h
  have h2 := congrArg (fun y => y.testBit 7) h
  have h3 : Nat.testBit 128 7 = true := by decide
  simp only [show (256 : Nat) = 2 ^ 8 from rfl, Nat.testBit_and, Nat.testBit_mod_two_pow,
    Nat.testBit_or, TOKEN_BYTE_MASK, h3, Bool.or_true, Bool.and_true, Nat.zero_testBit] at h2
  simp at h2

theorem intern_token_word (env : Collaborators) (p_token : Token) (token_type : Nat)
    (ids : HashMap StringName Nat) (consts : HashMap Variant Nat) :
    ∃ i, (intern_token env p_token token_type ids consts).1 =
      token_type ||| (i <<< TOKEN_BITS) := by
  unfold intern_token
  split
  · simp only; split <;> exact ⟨_, rfl⟩
  · simp only; split <;> exact ⟨_, rfl⟩
  · split <;> exact ⟨_, rfl⟩
  · split <;> exact ⟨_, rfl⟩
  · exact ⟨0, by simp⟩

theorem poke_record8 (A W L : List Nat) (v : List Nat) (p : Nat) (hA : A.length = p)
    (hW : W.length = 4) (hL : L.length = 4) :
    poke (poke (A ++ resize v 8) p W) (p + 4) L = A ++ W ++ L := by
  subst hA
  rw [poke_append_right A W _ _ (Nat.le_refl _), Nat.sub_self,
    poke_zero W _ (by simp [hW]), hW,
    poke_append_right A L _ _ (by omega)]
  have h4 : A.length + 4 - A.length = W.length := by omega
  rw [h4, poke_append_right W L _ _ (Nat.le_refl _), Nat.sub_self,
    poke_zero L _ (by simp [hL])]
  have : (List.drop 4 (resize v 8)).drop L.length = [] := by
    apply List.drop_of_length_le
    simp [hL]
  rw [this]
  simp

theorem poke_record5 (A L : List Nat) (b : Nat) (v : List Nat) (p : Nat) (hA : A.length = p)
    (hL : L.length = 4) :
    poke ((A ++ resize v 5).set p b) (p + 1) L = A ++ [b] ++ L := by
  subst hA
  rw [List.set_append_right _ _ (Nat.le_refl _), Nat.sub_self]
  have hlen : (resize v 5).length = 5 := resize_length _ _
  cases hr : resize v 5 with
  | nil => rw [hr] at hlen; simp at hlen
  | cons x X =>
    rw [hr] at hlen
    rw [List.set_cons_zero, poke_append_right A L _ _ (by omega)]
    have h1 : A.length + 1 - A.length = [b].length := by simp
    rw [h1]
    have h2 := poke_append_right [b] L X [b].length (Nat.le_refl _)
    rw [List.singleton_append] at h2
    rw [h2, Nat.sub_self, poke_zero L X (by simp at hlen; omega)]
    have : X.drop L.length = [] := by
      apply List.drop_of_length_le
      simp at hlen
      omega
    rw [this]
    simp

theorem token_to_binary_len (env : Collaborators) (p_token : Token) (r_buffer : List Nat)
    (p_start : Nat) (ids : HashMap StringName Nat) (consts : HashMap Variant Nat) :
    (_token_to_binary env p_token r_buffer p_start ids consts).token_len =
      if env.token_code p_token.type &&& TOKEN_MASK ≠ 0 then 8 else 5 := by
  unfold _token_to_binary
  simp only
  obtain ⟨i, hi⟩ := intern_token_word env p_token (env.token_code p_token.type &&& TOKEN_MASK)
    ids consts
  rw [hi, token_word_and_mask]
  split <;> rfl

/-- C9 (the code at the failing input). The width `_token_to_binary` chooses does not
depend on whether an index was embedded: the record has 8 bytes exactly when the low
seven bits of the type tag are not all zero, for every token.  A punctuation token
without an index, tag 4, gets the 8-byte record `84 00 00 00` and its line. -/
theorem token_to_binary_width_ignores_index :
    (∀ (env : Collaborators) (p_token : Token) (r_buffer : List Nat) (p_start : Nat)
        (ids : HashMap StringName Nat) (consts : HashMap Variant Nat),
      (_token_to_binary env p_token r_buffer p_start ids consts).token_len =
        if env.token_code p_token.type &&& TOKEN_MASK ≠ 0 then 8 else 5) ∧
    (_token_to_binary sample_env { type := .OTHER 0, start_line := 1 } [] 0 [] []).token_len = 8 ∧
    (_token_to_binary sample_env { type := .OTHER 0, start_line := 1 } [] 0 [] []).r_buffer =
      [132, 0, 0, 0, 1, 0, 0, 0] :=
  ⟨token_to_binary_len, by decide, by decide⟩

/-- C10. Self-describing record width: the buffer `_token_to_binary` leaves is the old
buffer resized to `p_start`, then the tag part of the record, then the four
little-endian bytes of the start line; the tag part is 4 bytes in the 8-byte record
and 1 byte in the 5-byte record, and its first byte has the high bit `0x80` set exactly
in the 8-byte record; the buffer length is `p_start` plus the returned length, and the
old bytes before `p_start` are unchanged. -/
theorem token_to_binary_record (env : Collaborators) (p_token : Token) (r_buffer : List Nat)
    (p_start : Nat) (ids : HashMap StringName Nat) (consts : HashMap Variant Nat) :
    ∃ tag : List Nat,
      (_token_to_binary env p_token r_buffer p_start ids consts).r_buffer =
        resize r_buffer p_start ++ tag ++ encode_uint32 p_token.start_line ∧
      (((_token_to_binary env p_token r_buffer p_start ids consts).token_len = 8 ∧
          tag.length = 4) ∨
        ((_token_to_binary env p_token r_buffer p_start ids consts).token_len = 5 ∧
          tag.length = 1)) ∧
      (tag.headD 0 &&& 0x80 ≠ 0 ↔
        (_token_to_binary env p_token r_buffer p_start ids consts).token_len = 8) ∧
      (_token_to_binary env p_token r_buffer p_start ids consts).r_buffer.length =
        p_start + (_token_to_binary env p_token r_buffer p_start ids consts).token_len ∧
      (_token_to_binary env p_token r_buffer p_start ids consts).r_buffer.take
          (min p_start r_buffer.length) =
        r_buffer.take (min p_start r_buffer.length) := by
  have hold : ∀ tag : List Nat,
      (resize r_buffer p_start ++ tag ++ encode_uint32 p_token.start_line).take
        (min p_start r_buffer.length) = r_buffer.take (min p_start r_buffer.length) := by
    intro tag
    rw [List.append_assoc, List.take_append_of_le_length (by simp)]
    exact resize_take_old _ _
  unfold _token_to_binary
  simp only
  obtain ⟨i, hi⟩ := intern_token_word env p_token (env.token_code p_token.type &&& TOKEN_MASK)
    ids consts
  rw [hi]
  by_cases hc : ((env.token_code p_token.type &&& TOKEN_MASK) ||| (i <<< TOKEN_BITS)) &&&
      TOKEN_MASK ≠ 0
  · rw [if_pos hc]
    have hrec : poke (poke (resize r_buffer (p_start + 8)) p_start
        (encode_uint32 (((env.token_code p_token.type &&& TOKEN_MASK) ||| (i <<< TOKEN_BITS)) |||
          TOKEN_BYTE_MASK))) (p_start + 4) (encode_uint32 p_token.start_line) =
        resize r_buffer p_start ++ encode_uint32 (((env.token_code p_token.type &&& TOKEN_MASK) |||
          (i <<< TOKEN_BITS)) ||| TOKEN_BYTE_MASK) ++ encode_uint32 p_token.start_line := by
      rw [resize_add]
      exact poke_record8 _ _ _ _ p_start (resize_length _ _) (encode_uint32_length _)
        (encode_uint32_length _)
    simp only [hrec]
    refine ⟨_, rfl, Or.inl ⟨trivial, encode_uint32_length _⟩, ?_, ?_, hold _⟩
    · simp only [encode_uint32, List.headD_cons, iff_true]
      exact byte_mask_set _
    · simp [encode_uint32]
  · rw [if_neg hc]
    have hrec : poke ((resize r_buffer (p_start + 5)).set p_start
        (((env.token_code p_token.type &&& TOKEN_MASK) ||| (i <<< TOKEN_BITS)) % 256))
        (p_start + 1) (encode_uint32 p_token.start_line) =
        resize r_buffer p_start ++
          [((env.token_code p_token.type &&& TOKEN_MASK) ||| (i <<< TOKEN_BITS)) % 256] ++
          encode_uint32 p_token.start_line := by
      rw [resize_add]
      exact poke_record5 _ _ _ _ p_start (resize_length _ _) (encode_uint32_length _)
    simp only [hrec]
    refine ⟨_, rfl, Or.inr ⟨trivial, rfl⟩, ?_, ?_, hold _⟩
    · rw [token_word_and_mask] at hc
      have h0 : env.token_code p_token.type &&& TOKEN_MASK = 0 := not_not.mp hc
      rw [token_word_mod, h0]
      simp
    · simp [encode_uint32]

/-! ### The decoder replays the stored tokens -/

namespace GDScriptTokenizerBuffer

theorem run_nil (d : GDScriptTokenizerBuffer) : Run d [] d := rfl

theorem run_cons {d d1 d2 : GDScriptTokenizerBuffer} {t : Token} {out : List (Token × Bool)}
    (h : scan d = some (t, d1)) (hr : Run d1 out d2) :
    Run d ((t, d1.current != d.current) :: out) d2 := by
  unfold Run at *
  simp only [List.length_cons, scan_calls, h, hr]

theorem run_trans {d d1 d2 : GDScriptTokenizerBuffer} {o1 o2 : List (Token × Bool)}
    (h1 : Run d o1 d1) (h2 : Run d1 o2 d2) : Run d (o1 ++ o2) d2 := by
  induction o1 generalizing d with
  | nil =>
    have : d1 = d := by
      have := h1
      simp only [Run, List.length_nil, scan_calls, Prod.mk.injEq, true_and] at this
      exact this.symm
    subst this
    simpa using h2
  | cons e o1 ih =>
    unfold Run at h1
    simp only [List.length_cons, scan_calls] at h1
    cases hs : scan d with
    | none => simp [hs] at h1
    | some p =>
      obtain ⟨t, dn⟩ := p
      simp only [hs, Prod.mk.injEq, List.cons.injEq] at h1
      obtain ⟨⟨he, ho⟩, hd⟩ := h1
      have hr : Run dn o1 d1 := by
        unfold Run
        exact Prod.ext ho hd
      have := run_cons hs (ih hr)
      rw [he] at this
      simpa using this

theorem scan_final_newline (d : GDScriptTokenizerBuffer) (h1 : d.tokens.length ≤ d.current)
    (h2 : d.last_token_was_newline = false) :
    scan d = some ({ type := .NEWLINE, start_line := d.current_line, end_line := d.current_line },
      { d with last_token_was_newline := true }) := by
  simp [scan, scan_fuel, h1, h2]

theorem scan_indent (d : GDScriptTokenizerBuffer)
    (h : d.current < d.tokens.length ∨ d.last_token_was_newline = true)
    (hp : 0 < d.pending_indents) :
    scan d = some ({ type := .INDENT, start_line := d.current_line, end_line := d.current_line },
      { d with pending_indents := d.pending_indents - 1 }) := by
  have h0 : ¬ (d.current ≥ d.tokens.length ∧ ¬ d.last_token_was_newline = true) := by
    rcases h with h | h
    · intro hh; omega
    · intro hh; exact hh.2 h
  unfold scan
  rw [scan_fuel, if_neg h0, if_pos hp]

theorem scan_dedent (d : GDScriptTokenizerBuffer)
    (h : d.current < d.tokens.length ∨ d.last_token_was_newline = true)
    (hp : d.pending_indents < 0) :
    scan d = some ({ type := .DEDENT, start_line := d.current_line, end_line := d.current_line },
      { d with pending_indents := d.pending_indents + 1 }) := by
  have h0 : ¬ (d.current ≥ d.tokens.length ∧ ¬ d.last_token_was_newline = true) := by
    rcases h with h | h
    · intro hh; omega
    · intro hh; exact hh.2 h
  have h1 : ¬ (0 < d.pending_indents) := by omega
  unfold scan
  rw [scan_fuel, if_neg h0, if_neg h1, if_pos hp]

theorem scan_eof (d : GDScriptTokenizerBuffer) (h1 : d.tokens.length ≤ d.current)
    (h2 : d.last_token_was_newline = true) (h3 : d.pending_indents = 0)
    (h4 : d.indent_stack = []) :
    scan d = some ({ type := .TK_EOF }, d) := by
  simp [scan, scan_fuel, h1, h2, h3, h4]

theorem scan_end_dedent (d : GDScriptTokenizerBuffer) (h1 : d.tokens.length ≤ d.current)
    (h2 : d.last_token_was_newline = true) (h3 : d.pending_indents = 0)
    (h4 : d.indent_stack ≠ []) :
    scan d = some ({ type := .DEDENT, start_line := d.current_line, end_line := d.current_line },
      { d with pending_indents := -(d.indent_stack.length : Int) + 1, indent_stack := [] }) := by
  have hlen : 0 < d.indent_stack.length := List.length_pos.mpr h4
  have hneg : ¬ (0 < -(d.indent_stack.length : Int)) := by omega
  have hneg2 : -(d.indent_stack.length : Int) < 0 := by omega
  simp [scan, scan_fuel, h1, h2, h3, h4, hneg, hneg2]

theorem scan_newline (d : GDScriptTokenizerBuffer) (h1 : d.current < d.tokens.length)
    (h3 : d.pending_indents = 0)
    (hc : (!d.last_token_was_newline && HashMap.has int_eq d.token_lines d.current) = true)
    (hm : d.multiline_mode = false) :
    ∃ t d1, scan d = some (t, d1) ∧ t.type = .NEWLINE ∧ d1.current = d.current ∧
      d1.tokens = d.tokens ∧ d1.last_token_was_newline = true := by
  have h0 : ¬ (d.current ≥ d.tokens.length ∧ ¬ d.last_token_was_newline = true) := by
    intro hh; omega
  have hp1 : ¬ (d.pending_indents > 0) := by omega
  have hp2 : ¬ (d.pending_indents < 0) := by omega
  have hge : ¬ (d.current ≥ d.tokens.length) := by omega
  unfold scan
  rw [scan_fuel, if_neg h0, if_neg hp1, if_neg hp2, dif_neg hge]
  simp only [hc, hm, Bool.not_false, Bool.and_self, if_true]
  refine ⟨_, _, rfl, ?_⟩
  exact ⟨rfl, rfl, rfl, rfl⟩

theorem scan_stored (d : GDScriptTokenizerBuffer) (h1 : d.current < d.tokens.length)
    (h3 : d.pending_indents = 0)
    (hc : (!d.last_token_was_newline && HashMap.has int_eq d.token_lines d.current) = false ∨
      d.multiline_mode = true) :
    ∃ d1, scan d = some (d.tokens[d.current], d1) ∧ d1.current = d.current + 1 ∧
      d1.tokens = d.tokens := by
  have h0 : ¬ (d.current ≥ d.tokens.length ∧ ¬ d.last_token_was_newline = true) := by
    intro hh; omega
  have hp1 : ¬ (d.pending_indents > 0) := by omega
  have hp2 : ¬ (d.pending_indents < 0) := by omega
  have hge : ¬ (d.current ≥ d.tokens.length) := by omega
  have hcond : ((!d.last_token_was_newline && HashMap.has int_eq d.token_lines d.current) &&
      !d.multiline_mode) = false := by
    rcases hc with hc | hc
    · rw [hc]; rfl
    · rw [hc]; simp
  unfold scan
  rw [scan_fuel, if_neg h0, if_neg hp1, if_neg hp2, dif_neg hge]
  simp only [hcond, Bool.false_eq_true, if_false]
  refine ⟨_, rfl, ?_⟩
  exact ⟨rfl, rfl⟩

/-- `scan` always returns: the two calls `scan_fuel` is given are enough. -/
theorem scan_total (d : GDScriptTokenizerBuffer) : ∃ t d2, scan d = some (t, d2) := by
  by_cases hend : d.tokens.length ≤ d.current
  · cases hn : d.last_token_was_newline with
    | false => exact ⟨_, _, scan_final_newline d hend hn⟩
    | true =>
      rcases lt_trichotomy d.pending_indents 0 with hp | hp | hp
      · exact ⟨_, _, scan_dedent d (Or.inr hn) hp⟩
      · by_cases hs : d.indent_stack = []
        · exact ⟨_, _, scan_eof d hend hn hp hs⟩
        · exact ⟨_, _, scan_end_dedent d hend hn hp hs⟩
      · exact ⟨_, _, scan_indent d (Or.inr hn) hp⟩
  · have hlt : d.current < d.tokens.length := by omega
    rcases lt_trichotomy d.pending_indents 0 with hp | hp | hp
    · exact ⟨_, _, scan_dedent d (Or.inl hlt) hp⟩
    · cases hc : (!d.last_token_was_newline && HashMap.has int_eq d.token_lines d.current) with
      | false =>
        obtain ⟨d2, h, _⟩ := scan_stored d hlt hp (Or.inl hc)
        exact ⟨_, _, h⟩
      | true =>
        cases hm : d.multiline_mode with
        | true =>
          obtain ⟨d2, h, _⟩ := scan_stored d hlt hp (Or.inr hm)
          exact ⟨_, _, h⟩
        | false =>
          obtain ⟨t, d2, h, _⟩ := scan_newline d hlt hp hc hm
          exact ⟨_, _, h⟩
    · exact ⟨_, _, scan_indent d (Or.inl hlt) hp⟩

theorem synthesized_nil : Synthesized [] := by
  intro e he; cases he

theorem synthesized_append {o1 o2 : List (Token × Bool)} (h1 : Synthesized o1)
    (h2 : Synthesized o2) : Synthesized (o1 ++ o2) := by
  intro e he
  rcases List.mem_append.mp he with h | h
  · exact h1 e h
  · exact h2 e h

theorem synthesized_stored {out : List (Token × Bool)} (h : Synthesized out) :
    stored_tokens out = [] := by
  unfold stored_tokens
  rw [List.map_eq_nil_iff, List.filter_eq_nil_iff]
  intro e he
  simp [(h e he).1]

theorem stored_tokens_append (o1 o2 : List (Token × Bool)) :
    stored_tokens (o1 ++ o2) = stored_tokens o1 ++ stored_tokens o2 := by
  simp [stored_tokens, List.filter_append]

theorem run_drain (k : Nat) : ∀ d : GDScriptTokenizerBuffer, d.pending_indents.natAbs = k →
    (d.current < d.tokens.length ∨ d.last_token_was_newline = true) →
    ∃ out, Run d out { d with pending_indents := 0 } ∧ Synthesized out := by
  induction k with
  | zero =>
    intro d hk _
    have h0 : d.pending_indents = 0 := Int.natAbs_eq_zero.mp hk
    refine ⟨[], ?_, synthesized_nil⟩
    have : ({ d with pending_indents := 0 } : GDScriptTokenizerBuffer) = d := by
      cases d; simp only at h0; subst h0; rfl
    rw [this]
    exact run_nil d
  | succ k ih =>
    intro d hk hc
    rcases lt_trichotomy d.pending_indents 0 with hp | hp | hp
    · have hs := scan_dedent d hc hp
      obtain ⟨out, hr, ho⟩ := ih { d with pending_indents := d.pending_indents + 1 }
        (by simp only; omega) hc
      refine ⟨_, run_cons hs hr, ?_⟩
      intro e he
      rcases List.mem_cons.mp he with h | h
      · subst h; simp
      · exact ho e h
    · rw [hp] at hk; simp at hk
    · have hs := scan_indent d hc hp
      obtain ⟨out, hr, ho⟩ := ih { d with pending_indents := d.pending_indents - 1 }
        (by simp only; omega) hc
      refine ⟨_, run_cons hs hr, ?_⟩
      intro e he
      rcases List.mem_cons.mp he with h | h
      · subst h; simp
      · exact ho e h

theorem run_end (d : GDScriptTokenizerBuffer) (h : d.tokens.length ≤ d.current) :
    ∃ out d2, Run d out d2 ∧ Synthesized out ∧ d2.tokens = d.tokens ∧ AtEof d2 := by
  -- the final NEWLINE
  have hA : ∃ out dA, Run d out dA ∧ Synthesized out ∧ dA.tokens = d.tokens ∧
      dA.current = d.current ∧ dA.last_token_was_newline = true := by
    cases hn : d.last_token_was_newline with
    | true => exact ⟨[], d, run_nil d, synthesized_nil, rfl, rfl, hn⟩
    | false =>
      have hs := scan_final_newline d h hn
      refine ⟨_, _, run_cons hs (run_nil _), ?_, rfl, rfl, rfl⟩
      intro e he
      rcases List.mem_cons.mp he with h | h
      · subst h; simp
      · cases h
  obtain ⟨outA, dA, hrA, hsA, htA, hcA, hnA⟩ := hA
  -- the pending INDENT/DEDENT tokens
  obtain ⟨outB, hrB, hsB⟩ := run_drain _ dA rfl (Or.inr hnA)
  have hendB : dA.tokens.length ≤ dA.current := by rw [htA, hcA]; exact h
  by_cases hst : dA.indent_stack = []
  · refine ⟨outA ++ outB, _, run_trans hrA hrB, synthesized_append hsA hsB, htA, hendB, hnA, rfl, hst⟩
  · -- the DEDENT tokens of the remaining indent stack
    have hs := scan_end_dedent { dA with pending_indents := 0 } hendB hnA rfl hst
    obtain ⟨outD, hrD, hsD⟩ := run_drain _
      { dA with pending_indents := -(dA.indent_stack.length : Int) + 1, indent_stack := [] }
      rfl (Or.inr hnA)
    have hsC : Synthesized
        (({ type := .DEDENT, start_line := dA.current_line, end_line := dA.current_line },
          (dA.current != dA.current)) :: outD) := by
      intro e he
      rcases List.mem_cons.mp he with h | h
      · subst h; simp
      · exact hsD e h
    refine ⟨outA ++ (outB ++ _), _, run_trans hrA (run_trans hrB (run_cons hs hrD)),
      synthesized_append hsA (synthesized_append hsB hsC), htA, hendB, hnA, rfl, rfl⟩

theorem run_advance (d : GDScriptTokenizerBuffer) (h : d.current < d.tokens.length) :
    ∃ out d2, Run d out d2 ∧ stored_tokens out = [d.tokens[d.current]] ∧
      (∀ e ∈ out, e.2 = false →
        e.1.type = .NEWLINE ∨ e.1.type = .INDENT ∨ e.1.type = .DEDENT) ∧
      d2.tokens = d.tokens ∧ d2.current = d.current + 1 := by
  obtain ⟨out1, hr1, hs1⟩ := run_drain _ d rfl (Or.inl h)
  cases hc : (!d.last_token_was_newline && HashMap.has int_eq d.token_lines d.current) &&
      !d.multiline_mode with
  | false =>
    have hc2 : (!d.last_token_was_newline && HashMap.has int_eq d.token_lines d.current) = false ∨
        d.multiline_mode = true := by
      revert hc
      cases (!d.last_token_was_newline && HashMap.has int_eq d.token_lines d.current) <;>
        cases d.multiline_mode <;> simp
    obtain ⟨d2, hs, hcur, htok⟩ := scan_stored { d with pending_indents := 0 } h rfl hc2
    refine ⟨out1 ++ [_], d2, run_trans hr1 (run_cons hs (run_nil _)), ?_, ?_, htok, hcur⟩
    · rw [stored_tokens_append, synthesized_stored hs1, hcur]
      simp [stored_tokens]
    · intro e he hf
      rcases List.mem_append.mp he with h1 | h1
      · exact (hs1 e h1).2
      · simp only [List.mem_singleton] at h1
        subst h1
        rw [hcur] at hf
        simp at hf
  | true =>
    have hc1 : (!d.last_token_was_newline && HashMap.has int_eq d.token_lines d.current) = true := by
      revert hc
      cases (!d.last_token_was_newline && HashMap.has int_eq d.token_lines d.current) <;> simp
    have hm : d.multiline_mode = false := by
      revert hc
      cases d.multiline_mode <;> simp
    obtain ⟨t, d2, hs2, htype, hcur2, htok2, hnl2⟩ :=
      scan_newline { d with pending_indents := 0 } h rfl hc1 hm
    have h2 : d2.current < d2.tokens.length := by rw [hcur2, htok2]; exact h
    obtain ⟨out3, hr3, hs3⟩ := run_drain _ d2 rfl (Or.inl h2)
    obtain ⟨d4, hs4, hcur4, htok4⟩ := scan_stored { d2 with pending_indents := 0 } h2 rfl
      (Or.inl (by simp [hnl2]))
    have hnew : Synthesized [(t, (d2.current != ({ d with pending_indents := 0 } :
        GDScriptTokenizerBuffer).current))] := by
      intro e he
      simp only [List.mem_singleton] at he
      subst he
      simp [hcur2, htype]
    have hsyn := synthesized_append hs1 (synthesized_append hnew hs3)
    have hrun := run_trans hr1 (run_trans (run_cons hs2 (run_nil _)) hr3)
    have hget : ({ d2 with pending_indents := 0 } : GDScriptTokenizerBuffer).tokens[
        ({ d2 with pending_indents := 0 } : GDScriptTokenizerBuffer).current] =
        d.tokens[d.current] := by
      simp only [hcur2, htok2]
    rw [hget] at hs4
    refine ⟨_ ++ [_], d4, run_trans hrun (run_cons hs4 (run_nil _)), ?_, ?_, ?_, ?_⟩
    · rw [stored_tokens_append, synthesized_stored hsyn, hcur4]
      simp [stored_tokens]
    · intro e he hf
      rcases List.mem_append.mp he with h1 | h1
      · exact (hsyn e h1).2
      · simp only [List.mem_singleton] at h1
        subst h1
        rw [hcur4] at hf
        simp at hf
    · rw [htok4]; exact htok2
    · rw [hcur4]; simp only [hcur2]

theorem run_to_eof (n : Nat) : ∀ d : GDScriptTokenizerBuffer, d.tokens.length - d.current = n →
    ∃ out d2, Run d out d2 ∧ stored_tokens out = d.tokens.drop d.current ∧
      (∀ e ∈ out, e.2 = false →
        e.1.type = .NEWLINE ∨ e.1.type = .INDENT ∨ e.1.type = .DEDENT) ∧
      AtEof d2 := by
  induction n with
  | zero =>
    intro d hn
    have hle : d.tokens.length ≤ d.current := by omega
    obtain ⟨out, d2, hr, hs, _, hfin⟩ := run_end d hle
    refine ⟨out, d2, hr, ?_, fun e he _ => (hs e he).2, hfin⟩
    rw [synthesized_stored hs, List.drop_eq_nil_of_le hle]
  | succ n ih =>
    intro d hn
    have hlt : d.current < d.tokens.length := by omega
    obtain ⟨out1, d1, hr1, hst1, hg1, htok1, hcur1⟩ := run_advance d hlt
    obtain ⟨out2, d2, hr2, hst2, hg2, hfin⟩ := ih d1 (by rw [htok1, hcur1]; omega)
    refine ⟨out1 ++ out2, d2, run_trans hr1 hr2, ?_, ?_, hfin⟩
    · rw [stored_tokens_append, hst1, hst2, htok1, hcur1]
      exact (List.drop_eq_getElem_cons hlt).symm
    · intro e he hf
      rcases List.mem_append.mp he with h | h
      · exact hg1 e h hf
      · exact hg2 e h hf

/-- C1. Replay round trip of the decoder: from a decoder built from a stored record
list `tokens` (cursor 0, empty indent stack, pending counter 0) and any position index,
some finite number `n` of `scan()` calls all return; the tokens among them that were
read from the store are exactly `tokens`, in order and unmodified; every other token
of those calls is a synthesized NEWLINE, INDENT or DEDENT; and the next call returns
the synthesized EOF token, leaving the decoder as it is. -/
theorem scan_replays_stored_tokens (tokens : List Token)
    (token_lines token_columns : HashMap Nat Nat) (current_line : Nat)
    (multiline_mode last_token_was_newline : Bool) (indent_stack_stack : List (List Nat)) :
    ∃ (n : Nat) (out : List (Token × Bool)) (d2 : GDScriptTokenizerBuffer),
      scan_calls n
        { tokens := tokens, token_lines := token_lines, token_columns := token_columns,
          current := 0, current_line := current_line, multiline_mode := multiline_mode,
          indent_stack := [], indent_stack_stack := indent_stack_stack, pending_indents := 0,
          last_token_was_newline := last_token_was_newline } = (out, d2) ∧
      out.length = n ∧
      stored_tokens out = tokens ∧
      (∀ e ∈ out, e.2 = false →
        e.1.type = .NEWLINE ∨ e.1.type = .INDENT ∨ e.1.type = .DEDENT) ∧
      scan d2 = some ({ type := .TK_EOF }, d2) := by
  obtain ⟨out, d2, hr, hst, hg, hfin⟩ := run_to_eof _
    { tokens := tokens, token_lines := token_lines, token_columns := token_columns,
      current := 0, current_line := current_line, multiline_mode := multiline_mode,
      indent_stack := [], indent_stack_stack := indent_stack_stack, pending_indents := 0,
      last_token_was_newline := last_token_was_newline } rfl
  exact ⟨out.length, out, d2, hr, rfl, by simpa using hst, hg,
    scan_eof d2 hfin.1 hfin.2.1 hfin.2.2.1 hfin.2.2.2⟩

/-! ### Indentation reconstruction -/

/-- C19 (counterexample): on `indent_example`, whose line changes are at the columns
0, 4, 4, 8, 0, seventeen calls of `scan` return the six stored records, ten structural
tokens between them and then EOF.  Every line change yields its own NEWLINE, and the
move to column 8 yields a second INDENT, so the structural tokens are not NEWLINE,
NEWLINE, INDENT, NEWLINE, DEDENT, DEDENT, NEWLINE. -/
theorem scan_indent_example_trace :
    ((scan_calls 17 indent_example).1.map fun e => e.1.type) =
        [.OTHER 0, .NEWLINE, .OTHER 1, .NEWLINE, .INDENT, .OTHER 2, .NEWLINE, .OTHER 3,
          .NEWLINE, .INDENT, .OTHER 4, .NEWLINE, .DEDENT, .DEDENT, .OTHER 5, .NEWLINE,
          .TK_EOF] ∧
      synthesized_types (scan_calls 16 indent_example).1 ≠
        [.NEWLINE, .NEWLINE, .INDENT, .NEWLINE, .DEDENT, .DEDENT, .NEWLINE] := by
  decide!

/-- C19 (amended): on `indent_example` the structural tokens synthesized before EOF
are, in order, NEWLINE (column 0), NEWLINE and INDENT (column 4), NEWLINE alone (column
4 again: no INDENT and no DEDENT), NEWLINE and INDENT (column 8), NEWLINE and two
DEDENTs (column 0), and the final NEWLINE; the next call returns EOF. -/
theorem scan_indent_example_structure :
    synthesized_types (scan_calls 16 indent_example).1 =
        [.NEWLINE, .NEWLINE, .INDENT, .NEWLINE, .NEWLINE, .INDENT, .NEWLINE, .DEDENT,
          .DEDENT, .NEWLINE] ∧
      ((scan (scan_calls 16 indent_example).2).map fun r => r.1.type) = some .TK_EOF := by
  decide!

/-! ### Multiline mode -/

/-- C20 (counterexample): `multiline_example` is in multiline mode with no pending
indentation change, its cursor is not at the end, the last token was not a NEWLINE and
record 1 has a position entry; `scan` returns the stored record 1, not a NEWLINE. -/
theorem scan_multiline_example_no_newline :
    multiline_example.multiline_mode = true ∧ multiline_example.pending_indents = 0 ∧
      multiline_example.current < multiline_example.tokens.length ∧
      multiline_example.last_token_was_newline = false ∧
      HashMap.has int_eq multiline_example.token_lines multiline_example.current = true ∧
      ((scan multiline_example).map fun r => r.1.type) = some (.OTHER 1) := by
  decide

/-- C20 (amended): in multiline mode, with no pending indentation change, the cursor
not at the end, the last token not a NEWLINE and a position entry for the current
record, `scan` takes the current line from that entry, returns the current stored
record (no NEWLINE is synthesized) and advances the cursor; the indent stack and the
pending-indent counter are left as they were. -/
theorem scan_multiline_line_change (d : GDScriptTokenizerBuffer)
    (hm : d.multiline_mode = true) (hp : d.pending_indents = 0)
    (hlt : d.current < d.tokens.length) (hn : d.last_token_was_newline = false)
    (hhas : HashMap.has int_eq d.token_lines d.current = true) :
    scan d = some (d.tokens[d.current],
      { d with
        current_line := uint32_t (HashMap.get int_eq d.token_lines d.current 0)
        token_columns := HashMap.touch int_eq d.token_columns d.current 0
        last_token_was_newline := false
        current := d.current + 1 }) := by
  have h0 : ¬ (d.current ≥ d.tokens.length ∧ ¬ d.last_token_was_newline = true) := by
    intro hh; omega
  have hp1 : ¬ (d.pending_indents > 0) := by omega
  have hp2 : ¬ (d.pending_indents < 0) := by omega
  have hge : ¬ (d.current ≥ d.tokens.length) := by omega
  unfold scan
  rw [scan_fuel, if_neg h0, if_neg hp1, if_neg hp2, dif_neg hge]
  simp only [hn, hhas, hm, Bool.not_false, Bool.not_true, Bool.and_true, Bool.and_false,
    Bool.false_eq_true, if_false, if_true]

theorem scan_multiline_line_change_witness :
    scan multiline_example = some (multiline_example.tokens[1],
      { multiline_example with
        current_line := uint32_t (HashMap.get int_eq multiline_example.token_lines 1 0)
        token_columns := HashMap.touch int_eq multiline_example.token_columns 1 0
        last_token_was_newline := false
        current := 2 }) :=
  scan_multiline_line_change multiline_example rfl rfl (by decide) rfl (by decide)

/-! ### The end of the stream -/

theorem scan_calls_succ {d d1 : GDScriptTokenizerBuffer} {t : Token} (n : Nat)
    (h : scan d = some (t, d1)) :
    scan_calls (n + 1) d =
      ((t, d1.current != d.current) :: (scan_calls n d1).1, (scan_calls n d1).2) := by
  simp only [scan_calls, h]

theorem scan_calls_dedents (k : Nat) : ∀ (d : GDScriptTokenizerBuffer),
    d.tokens.length ≤ d.current → d.last_token_was_newline = true → d.indent_stack = [] →
    d.pending_indents = -(k : Int) →
    scan_calls k d =
      (List.replicate k
        ({ type := .DEDENT, start_line := d.current_line, end_line := d.current_line }, false),
        { d with pending_indents := 0 }) := by
  induction k with
  | zero =>
    intro d _ _ _ hp
    have : ({ d with pending_indents := 0 } : GDScriptTokenizerBuffer) = d := by
      cases d; simp only [Nat.cast_zero, neg_zero] at hp; subst hp; rfl
    rw [this]
    rfl
  | succ k ih =>
    intro d hend hn hs hp
    have hneg : d.pending_indents < 0 := by rw [hp]; push_cast; omega
    rw [scan_calls_succ k (scan_dedent d (Or.inr hn) hneg),
      ih { d with pending_indents := d.pending_indents + 1 } hend hn hs
        (by simp only; rw [hp]; push_cast; omega)]
    simp [List.replicate_succ]

/-- The decoder the end-of-stream sequence ends in. -/
theorem scan_calls_end (d : GDScriptTokenizerBuffer) (hend : d.tokens.length ≤ d.current)
    (hn : d.last_token_was_newline = true) (hp : d.pending_indents = 0) :
    scan_calls d.indent_stack.length d =
      (List.replicate d.indent_stack.length
        ({ type := .DEDENT, start_line := d.current_line, end_line := d.current_line }, false),
        { d with indent_stack := [] }) := by
  cases hs : d.indent_stack with
  | nil =>
    have : ({ d with indent_stack := [] } : GDScriptTokenizerBuffer) = d := by
      cases d; simp only at hs; subst hs; rfl
    rw [this]
    rfl
  | cons x rest =>
    have hne : d.indent_stack ≠ [] := by rw [hs]; simp
    have h1 := scan_end_dedent d hend hn hp hne
    rw [List.length_cons, scan_calls_succ rest.length h1,
      scan_calls_dedents rest.length
        { d with pending_indents := -(d.indent_stack.length : Int) + 1, indent_stack := [] }
        hend hn rfl (by simp only; rw [hs, List.length_cons]; push_cast; omega)]
    simp only [bne_self_eq_false, List.replicate_succ, Prod.mk.injEq, true_and]
    cases d
    simp only at hp
    subst hp
    rfl

theorem scan_calls_eof (n : Nat) (d : GDScriptTokenizerBuffer) (hend : d.tokens.length ≤ d.current)
    (hn : d.last_token_was_newline = true) (hp : d.pending_indents = 0)
    (hs : d.indent_stack = []) :
    scan_calls n d = (List.replicate n ({ type := .TK_EOF }, false), d) := by
  induction n with
  | zero => rfl
  | succ n ih =>
    rw [scan_calls_succ n (scan_eof d hend hn hp hs), ih]
    simp [List.replicate_succ]

/-- C21. End-of-stream sequence: from a decoder whose cursor is at the end, with no
pending indentation change and an indent stack of depth `n`, the next calls of `scan`
return one NEWLINE exactly if the last token was not a NEWLINE, then `n` DEDENTs, none
of them read from the store; they leave the indent stack empty, the pending counter 0
and the newline flag set, and change nothing else; every call after them returns EOF
and leaves the decoder as it is. -/
theorem scan_end_of_stream (d : GDScriptTokenizerBuffer) (hend : d.tokens.length ≤ d.current)
    (hp : d.pending_indents = 0) :
    scan_calls ((if d.last_token_was_newline then 0 else 1) + d.indent_stack.length) d =
        ((if d.last_token_was_newline then []
          else [({ type := .NEWLINE, start_line := d.current_line,
                   end_line := d.current_line }, false)]) ++
          List.replicate d.indent_stack.length
            ({ type := .DEDENT, start_line := d.current_line, end_line := d.current_line }, false),
          { d with last_token_was_newline := true, indent_stack := [] }) ∧
      ∀ n, scan_calls n { d with last_token_was_newline := true, indent_stack := [] } =
        (List.replicate n ({ type := .TK_EOF }, false),
          { d with last_token_was_newline := true, indent_stack := [] }) := by
  constructor
  · cases hn : d.last_token_was_newline with
    | true =>
      simp only [if_true, Nat.zero_add, List.nil_append]
      rw [scan_calls_end d hend hn hp]
      cases d
      simp only at hn
      subst hn
      rfl
    | false =>
      simp only [Bool.false_eq_true, if_false]
      rw [Nat.add_comm, scan_calls_succ _ (scan_final_newline d hend hn)]
      exact congrArg₂ Prod.mk
        (by rw [scan_calls_end { d with last_token_was_newline := true } hend rfl hp]
            simp)
        (by rw [scan_calls_end { d with last_token_was_newline := true } hend rfl hp])
  · intro n
    exact scan_calls_eof n _ hend rfl hp rfl

theorem scan_end_of_stream_witness :
    scan_calls ((if end_example.last_token_was_newline then 0 else 1) +
          end_example.indent_stack.length) end_example =
        ((if end_example.last_token_was_newline then []
          else [({ type := .NEWLINE, start_line := end_example.current_line,
                   end_line := end_example.current_line }, false)]) ++
          List.replicate end_example.indent_stack.length
            ({ type := .DEDENT, start_line := end_example.current_line,
               end_line := end_example.current_line }, false),
          { end_example with last_token_was_newline := true, indent_stack := [] }) ∧
      ∀ n, scan_calls n { end_example with last_token_was_newline := true, indent_stack := [] } =
        (List.replicate n ({ type := .TK_EOF }, false),
          { end_example with last_token_was_newline := true, indent_stack := [] }) :=
  scan_end_of_stream end_example (by decide) rfl

/-! ### Indented blocks -/

/-- C22 (counterexample): `push_expression_indented_block` on a decoder whose indent
stack is `[8, 4]` saves that stack and leaves the indent stack as it is, not empty. -/
theorem push_expression_indented_block_keeps_stack :
    end_example.indent_stack = [8, 4] ∧
      (push_expression_indented_block end_example).indent_stack_stack = [[8, 4]] ∧
      (push_expression_indented_block end_example).indent_stack = [8, 4] ∧
      (push_expression_indented_block end_example).indent_stack ≠ [] := by
  decide

/-- C22 (amended): for every decoder, `push_expression_indented_block` pushes the
current indent stack onto the save stack and changes nothing else: the indent stack
itself stays as it is. -/
theorem push_expression_indented_block_saves (d : GDScriptTokenizerBuffer) :
    (push_expression_indented_block d).indent_stack_stack =
        d.indent_stack :: d.indent_stack_stack ∧
      (push_expression_indented_block d).indent_stack = d.indent_stack ∧
      push_expression_indented_block d =
        { d with indent_stack_stack := d.indent_stack :: d.indent_stack_stack } :=
  ⟨rfl, rfl, rfl⟩

theorem scan_fuel_stack_stack (fuel : Nat) : ∀ (d : GDScriptTokenizerBuffer) (t : Token)
    (d1 : GDScriptTokenizerBuffer), scan_fuel fuel d = some (t, d1) →
    d1.indent_stack_stack = d.indent_stack_stack := by
  induction fuel with
  | zero => intro d t d1 h; simp [scan_fuel] at h
  | succ fuel ih =>
    intro d t d1 h
    rw [scan_fuel] at h
    split at h
    · cases h; rfl
    · split at h
      · cases h; rfl
      · split at h
        · cases h; rfl
        · split at h
          · split at h
            · exact ih { d with
                pending_indents := d.pending_indents - d.indent_stack.length
                indent_stack := [] } t d1 h
            · cases h; rfl
          · simp only at h
            split at h <;> cases h <;> rfl

theorem call_apply_scan_stack_stack (d : GDScriptTokenizerBuffer) :
    (Call.apply d .scan).indent_stack_stack = d.indent_stack_stack := by
  unfold Call.apply
  cases h : d.scan with
  | none => rfl
  | some r =>
    obtain ⟨t, d1⟩ := r
    exact scan_fuel_stack_stack 2 d t d1 h

/-- The save stack after a sequence of calls that never pops a block it did not find
open: the blocks left open, on top of the part of the save stack below them. -/
theorem run_calls_stack_stack (calls : List Call) : ∀ (d : GDScriptTokenizerBuffer)
    (k k2 : Nat) (pre base : List (List Nat)), open_blocks_after k calls = some k2 →
    d.indent_stack_stack = pre ++ base → pre.length = k →
    ∃ pre2, pre2.length = k2 ∧ (run_calls calls d).indent_stack_stack = pre2 ++ base := by
  induction calls with
  | nil =>
    intro d k k2 pre base h hs hk
    simp only [open_blocks_after, Option.some.injEq] at h
    exact ⟨pre, hk.trans h, hs⟩
  | cons c rest ih =>
    intro d k k2 pre base h hs hk
    cases c with
    | scan =>
      rw [open_blocks_after] at h
      exact ih (Call.apply d .scan) k k2 pre base h
        ((call_apply_scan_stack_stack d).trans hs) hk
    | push =>
      rw [open_blocks_after] at h
      exact ih (Call.apply d .push) (k + 1) k2 (d.indent_stack :: pre) base h
        (by simp [Call.apply, push_expression_indented_block, hs]) (by simp [hk])
    | pop =>
      cases k with
      | zero => simp [open_blocks_after] at h
      | succ k =>
        rw [open_blocks_after] at h
        cases pre with
        | nil => simp at hk
        | cons top pre =>
          exact ih (Call.apply d .pop) k k2 pre base h
            (by simp [Call.apply, pop_expression_indented_block, hs])
            (by simpa using hk)

/-- C23. Save/restore of the indent stack: after `push_expression_indented_block`, any
sequence of `scan` calls and balanced pushes and pops, and then
`pop_expression_indented_block`, the indent stack and the save stack are what they were
before the push. -/
theorem indented_block_restores (d : GDScriptTokenizerBuffer) (calls : List Call)
    (h : balanced calls = true) :
    (pop_expression_indented_block
        (run_calls calls (push_expression_indented_block d))).indent_stack = d.indent_stack ∧
      (pop_expression_indented_block
        (run_calls calls (push_expression_indented_block d))).indent_stack_stack =
          d.indent_stack_stack := by
  have hb : open_blocks_after 0 calls = some 0 := by
    simpa [balanced] using h
  obtain ⟨pre2, hlen, hs⟩ := run_calls_stack_stack calls (push_expression_indented_block d) 0 0
    [] (d.indent_stack :: d.indent_stack_stack) hb rfl rfl
  have hnil : pre2 = [] := List.length_eq_zero.mp hlen
  subst hnil
  simp only [List.nil_append] at hs
  simp only [pop_expression_indented_block, hs, and_self]

theorem indented_block_restores_witness :
    (pop_expression_indented_block
        (run_calls [.scan, .push, .scan, .scan, .pop, .scan]
          (push_expression_indented_block end_example))).indent_stack =
        end_example.indent_stack ∧
      (pop_expression_indented_block
        (run_calls [.scan, .push, .scan, .scan, .pop, .scan]
          (push_expression_indented_block end_example))).indent_stack_stack =
          end_example.indent_stack_stack :=
  indented_block_restores end_example [.scan, .push, .scan, .scan, .pop, .scan] (by decide)

/-- C24. Exiting with nothing saved: on a decoder whose save stack is empty,
`pop_expression_indented_block` takes its error exit and leaves the decoder as it is,
every field unchanged. -/
theorem pop_expression_indented_block_nothing_saved (d : GDScriptTokenizerBuffer)
    (h : d.indent_stack_stack = []) :
    pop_expression_indented_block_fails d = true ∧ pop_expression_indented_block d = d := by
  simp [pop_expression_indented_block_fails, pop_expression_indented_block, h]

theorem pop_expression_indented_block_nothing_saved_witness :
    pop_expression_indented_block_fails end_example = true ∧
      pop_expression_indented_block end_example = end_example :=
  pop_expression_indented_block_nothing_saved end_example rfl

/-! ### The line-change rule -/

theorem dedent_loop_eq (column : Nat) (indent_stack : List Nat) : ∀ (pending_indents : Int),
    dedent_loop column (indent_stack.headD 0) indent_stack pending_indents =
      (indent_stack.dropWhile fun x => decide (column < x),
        pending_indents -
          ((indent_stack.length -
            (indent_stack.dropWhile fun x => decide (column < x)).length : Nat) : Int)) := by
  induction indent_stack with
  | nil =>
    intro p
    unfold dedent_loop
    simp
  | cons x rest ih =>
    intro p
    have hle : (rest.dropWhile fun x => decide (column < x)).length ≤ rest.length :=
      (List.dropWhile_sublist _).length_le
    unfold dedent_loop
    simp only [List.headD_cons]
    by_cases hx : column < x
    · rw [if_pos hx]
      cases rest with
      | nil => simp [List.dropWhile, hx]
      | cons back tail =>
        simp only
        have := ih (p - 1)
        simp only [List.headD_cons] at this
        rw [this]
        simp only [List.dropWhile_cons, hx, decide_True, if_true, List.length_cons] at hle ⊢
        refine Prod.ext rfl ?_
        simp only
        omega
    · rw [if_neg hx]
      simp [List.dropWhile_cons, hx]

/-- C27 (counterexample): `first_column_example` is not in multiline mode, has no
pending indentation change, its cursor is not at the end, the last token was not a
NEWLINE, its indent stack is empty and record 1 has the position entry (line 2,
column 1).  The column 1 is greater than 0, but `scan` pushes nothing and queues no
INDENT: it compares `indent_column`, which is `column - 1 = 0`. -/
theorem scan_first_column_no_indent :
    first_column_example.multiline_mode = false ∧ first_column_example.pending_indents = 0 ∧
      first_column_example.current < first_column_example.tokens.length ∧
      first_column_example.last_token_was_newline = false ∧
      first_column_example.indent_stack = [] ∧
      HashMap.get int_eq first_column_example.token_columns first_column_example.current 0 = 1 ∧
      ((scan first_column_example).map fun r =>
        (r.1.type, r.1.start_line, r.2.indent_stack, r.2.pending_indents, r.2.current)) =
        some (.NEWLINE, 2, [], 0, 1) := by
  decide

/-- C27 (amended): not in multiline mode, with no pending indentation change, the
cursor not at the end, the last token not a NEWLINE and a position entry for the
current record, `scan` compares the entry's column minus one (in `uint32_t`) with the
top of the indent stack (0 when it is empty): if it is greater, it is pushed and one
INDENT is queued; otherwise the stack is popped while its top is greater than it,
with one DEDENT queued for every pop (nothing when they are equal); in every case a
NEWLINE with the entry's line is returned, the newline flag is set and the cursor stays. -/
theorem scan_line_change (d : GDScriptTokenizerBuffer) (hm : d.multiline_mode = false)
    (hp : d.pending_indents = 0) (hlt : d.current < d.tokens.length)
    (hn : d.last_token_was_newline = false)
    (hhas : HashMap.has int_eq d.token_lines d.current = true) :
    scan d = some
      ({ type := .NEWLINE
         start_line := uint32_t (HashMap.get int_eq d.token_lines d.current 0)
         end_line := uint32_t (HashMap.get int_eq d.token_lines d.current 0) },
       { d with
         current_line := uint32_t (HashMap.get int_eq d.token_lines d.current 0)
         token_columns := HashMap.touch int_eq d.token_columns d.current 0
         indent_stack :=
           if indent_column d > d.indent_stack.headD 0 then indent_column d :: d.indent_stack
           else d.indent_stack.dropWhile fun x => decide (indent_column d < x)
         pending_indents :=
           if indent_column d > d.indent_stack.headD 0 then 1
           else -((d.indent_stack.length -
             (d.indent_stack.dropWhile fun x => decide (indent_column d < x)).length : Nat) : Int)
         last_token_was_newline := true }) := by
  have h0 : ¬ (d.current ≥ d.tokens.length ∧ ¬ d.last_token_was_newline = true) := by
    intro hh; omega
  have hp1 : ¬ (d.pending_indents > 0) := by omega
  have hp2 : ¬ (d.pending_indents < 0) := by omega
  have hge : ¬ (d.current ≥ d.tokens.length) := by omega
  unfold scan indent_column
  rw [scan_fuel, if_neg h0, if_neg hp1, if_neg hp2, dif_neg hge]
  simp only [hn, hhas, hm, Bool.not_false, Bool.and_self, if_true]
  generalize uint32_t (uint32_t (HashMap.get int_eq d.token_columns d.current 0) + 4294967295) =
    column
  have hloop := dedent_loop_eq column d.indent_stack 0
  cases hs : d.indent_stack with
  | nil =>
    rw [hs] at hloop
    simp only [List.headD_nil] at hloop ⊢
    by_cases hc : column > 0
    · simp only [if_pos hc, hp]
      rfl
    · simp only [if_neg hc, hloop, hp, zero_sub]
  | cons back tail =>
    rw [hs] at hloop
    simp only [List.headD_cons] at hloop ⊢
    by_cases hc : column > back
    · simp only [if_pos hc, hp]
      rfl
    · simp only [if_neg hc, hloop, hp, zero_sub]

theorem scan_line_change_witness :
    indent_column first_column_example = 0 ∧
      scan first_column_example = some
        ({ type := .NEWLINE, start_line := 2, end_line := 2 },
         { first_column_example with
           current_line := 2, indent_stack := [], pending_indents := 0,
           last_token_was_newline := true }) :=
  ⟨by decide, (scan_line_change first_column_example rfl rfl (by decide) rfl (by decide)).trans
    rfl⟩

/-! ### `scan` case by case -/

theorem scan_line_change_state (d : GDScriptTokenizerBuffer) (hm : d.multiline_mode = false)
    (hp : d.pending_indents = 0) (hlt : d.current < d.tokens.length)
    (hn : d.last_token_was_newline = false)
    (hhas : HashMap.has int_eq d.token_lines d.current = true) :
    scan d = some
      ({ type := .NEWLINE
         start_line := uint32_t (HashMap.get int_eq d.token_lines d.current 0)
         end_line := uint32_t (HashMap.get int_eq d.token_lines d.current 0) },
       { d with
         current_line := uint32_t (HashMap.get int_eq d.token_lines d.current 0)
         token_columns := HashMap.touch int_eq d.token_columns d.current 0
         indent_stack :=
           if indent_column d > d.indent_stack.headD 0 then indent_column d :: d.indent_stack
           else d.indent_stack.dropWhile fun x => decide (indent_column d < x)
         pending_indents :=
           if indent_column d > d.indent_stack.headD 0 then 1
           else -((d.indent_stack.length -
             (d.indent_stack.dropWhile fun x => decide (indent_column d < x)).length : Nat) : Int)
         last_token_was_newline := true }) := by
  have h0 : ¬ (d.current ≥ d.tokens.length ∧ ¬ d.last_token_was_newline = true) := by
    intro hh; omega
  have hp1 : ¬ (d.pending_indents > 0) := by omega
  have hp2 : ¬ (d.pending_indents < 0) := by omega
  have hge : ¬ (d.current ≥ d.tokens.length) := by omega
  unfold scan indent_column
  rw [scan_fuel, if_neg h0, if_neg hp1, if_neg hp2, dif_neg hge]
  simp only [hn, hhas, hm, Bool.not_false, Bool.and_self, if_true]
  generalize uint32_t (uint32_t (HashMap.get int_eq d.token_columns d.current 0) + 4294967295) =
    column
  have hloop := dedent_loop_eq column d.indent_stack 0
  cases hs : d.indent_stack with
  | nil =>
    rw [hs] at hloop
    simp only [List.headD_nil] at hloop ⊢
    by_cases hc : column > 0
    · simp only [if_pos hc, hp]
      rfl
    · simp only [if_neg hc, hloop, hp, zero_sub]
  | cons back tail =>
    rw [hs] at hloop
    simp only [List.headD_cons] at hloop ⊢
    by_cases hc : column > back
    · simp only [if_pos hc, hp]
      rfl
    · simp only [if_neg hc, hloop, hp, zero_sub]

theorem scan_stored_state (d : GDScriptTokenizerBuffer) (h1 : d.current < d.tokens.length)
    (h3 : d.pending_indents = 0)
    (hc : (!d.last_token_was_newline && HashMap.has int_eq d.token_lines d.current) = false ∨
      d.multiline_mode = true) :
    scan d = some (d.tokens[d.current],
      { d with
        current_line :=
          if (!d.last_token_was_newline && HashMap.has int_eq d.token_lines d.current) = true
          then uint32_t (HashMap.get int_eq d.token_lines d.current 0) else d.current_line
        token_columns :=
          if (!d.last_token_was_newline && HashMap.has int_eq d.token_lines d.current) = true
          then HashMap.touch int_eq d.token_columns d.current 0 else d.token_columns
        last_token_was_newline := false
        current := d.current + 1 }) := by
  have h0 : ¬ (d.current ≥ d.tokens.length ∧ ¬ d.last_token_was_newline = true) := by
    intro hh; omega
  have hp1 : ¬ (d.pending_indents > 0) := by omega
  have hp2 : ¬ (d.pending_indents < 0) := by omega
  have hge : ¬ (d.current ≥ d.tokens.length) := by omega
  have hcond : ((!d.last_token_was_newline && HashMap.has int_eq d.token_lines d.current) &&
      !d.multiline_mode) = false := by
    rcases hc with hc | hc
    · rw [hc]; rfl
    · rw [hc]; simp
  unfold scan
  rw [scan_fuel, if_neg h0, if_neg hp1, if_neg hp2, dif_neg hge]
  simp only [hcond, Bool.false_eq_true, if_false]

/-- The seven ways a call of `scan` goes, each with the token it returns and the decoder
it leaves: a property that holds of each of them holds of the call. -/
theorem scan_cases (d : GDScriptTokenizerBuffer)
    (P : Token → GDScriptTokenizerBuffer → Prop)
    (hnl : d.tokens.length ≤ d.current → d.last_token_was_newline = false →
      P { type := .NEWLINE, start_line := d.current_line, end_line := d.current_line }
        { d with last_token_was_newline := true })
    (hin : (d.current < d.tokens.length ∨ d.last_token_was_newline = true) →
      0 < d.pending_indents →
      P { type := .INDENT, start_line := d.current_line, end_line := d.current_line }
        { d with pending_indents := d.pending_indents - 1 })
    (hde : (d.current < d.tokens.length ∨ d.last_token_was_newline = true) →
      d.pending_indents < 0 →
      P { type := .DEDENT, start_line := d.current_line, end_line := d.current_line }
        { d with pending_indents := d.pending_indents + 1 })
    (heof : d.tokens.length ≤ d.current → d.last_token_was_newline = true →
      d.pending_indents = 0 → d.indent_stack = [] → P { type := .TK_EOF } d)
    (hend : d.tokens.length ≤ d.current → d.last_token_was_newline = true →
      d.pending_indents = 0 → d.indent_stack ≠ [] →
      P { type := .DEDENT, start_line := d.current_line, end_line := d.current_line }
        { d with pending_indents := -(d.indent_stack.length : Int) + 1, indent_stack := [] })
    (hline : d.current < d.tokens.length → d.pending_indents = 0 →
      d.last_token_was_newline = false → HashMap.has int_eq d.token_lines d.current = true →
      d.multiline_mode = false →
      P { type := .NEWLINE
          start_line := uint32_t (HashMap.get int_eq d.token_lines d.current 0)
          end_line := uint32_t (HashMap.get int_eq d.token_lines d.current 0) }
        { d with
          current_line := uint32_t (HashMap.get int_eq d.token_lines d.current 0)
          token_columns := HashMap.touch int_eq d.token_columns d.current 0
          indent_stack :=
            if indent_column d > d.indent_stack.headD 0 then indent_column d :: d.indent_stack
            else d.indent_stack.dropWhile fun x => decide (indent_column d < x)
          pending_indents :=
            if indent_column d > d.indent_stack.headD 0 then 1
            else -((d.indent_stack.length -
              (d.indent_stack.dropWhile fun x => decide (indent_column d < x)).length : Nat) : Int)
          last_token_was_newline := true })
    (hst : ∀ h : d.current < d.tokens.length, d.pending_indents = 0 →
      ((!d.last_token_was_newline && HashMap.has int_eq d.token_lines d.current) = false ∨
        d.multiline_mode = true) →
      P (d.tokens.get ⟨d.current, h⟩)
        { d with
          current_line :=
            if (!d.last_token_was_newline && HashMap.has int_eq d.token_lines d.current) = true
            then uint32_t (HashMap.get int_eq d.token_lines d.current 0) else d.current_line
          token_columns :=
            if (!d.last_token_was_newline && HashMap.has int_eq d.token_lines d.current) = true
            then HashMap.touch int_eq d.token_columns d.current 0 else d.token_columns
          last_token_was_newline := false
          current := d.current + 1 }) :
    ∃ t d2, scan d = some (t, d2) ∧ P t d2 := by
  by_cases hendc : d.tokens.length ≤ d.current
  · cases hn : d.last_token_was_newline with
    | false => exact ⟨_, _, scan_final_newline d hendc hn, hnl hendc hn⟩
    | true =>
      rcases lt_trichotomy d.pending_indents 0 with hp | hp | hp
      · exact ⟨_, _, scan_dedent d (Or.inr hn) hp, hde (Or.inr hn) hp⟩
      · by_cases hs : d.indent_stack = []
        · exact ⟨_, _, scan_eof d hendc hn hp hs, heof hendc hn hp hs⟩
        · exact ⟨_, _, scan_end_dedent d hendc hn hp hs, hend hendc hn hp hs⟩
      · exact ⟨_, _, scan_indent d (Or.inr hn) hp, hin (Or.inr hn) hp⟩
  · have hlt : d.current < d.tokens.length := by omega
    rcases lt_trichotomy d.pending_indents 0 with hp | hp | hp
    · exact ⟨_, _, scan_dedent d (Or.inl hlt) hp, hde (Or.inl hlt) hp⟩
    · cases hc : (!d.last_token_was_newline && HashMap.has int_eq d.token_lines d.current) with
      | false =>
        exact ⟨_, _, scan_stored_state d hlt hp (Or.inl hc), hst hlt hp (Or.inl hc)⟩
      | true =>
        cases hm : d.multiline_mode with
        | true =>
          exact ⟨_, _, scan_stored_state d hlt hp (Or.inr hm), hst hlt hp (Or.inr hm)⟩
        | false =>
          have hn : d.last_token_was_newline = false := by
            cases h : d.last_token_was_newline with
            | false => rfl
            | true => rw [h] at hc; cases hc
          have hhas : HashMap.has int_eq d.token_lines d.current = true := by
            rw [hn] at hc
            simpa using hc
          exact ⟨_, _, scan_line_change_state d hm hp hlt hn hhas, hline hlt hp hn hhas hm⟩
    · exact ⟨_, _, scan_indent d (Or.inl hlt) hp, hin (Or.inl hlt) hp⟩
/-! ### `scan` is total and in bounds -/

theorem dedent_loop_checked_eq (column : Nat) (indent_stack : List Nat) :
    ∀ (pending_indents : Int),
    dedent_loop_checked column (indent_stack.headD 0) indent_stack pending_indents =
      .ok (dedent_loop column (indent_stack.headD 0) indent_stack pending_indents) := by
  induction indent_stack with
  | nil =>
    intro p
    unfold dedent_loop_checked dedent_loop
    simp
  | cons x rest ih =>
    intro p
    unfold dedent_loop_checked dedent_loop
    simp only [List.headD_cons]
    by_cases hx : column < x
    · rw [if_pos hx, if_pos hx]
      cases rest with
      | nil => rfl
      | cons back tail =>
        simp only
        have := ih (p - 1)
        simp only [List.headD_cons] at this
        exact this
    · rw [if_neg hx, if_neg hx]

theorem scan_checked_eq (d : GDScriptTokenizerBuffer) (fuel : Nat) :
    ∃ t d2 n, scan_checked (fuel + 2) d = .ok (t, d2, n) ∧ n ≤ 1 ∧ scan d = some (t, d2) := by
  by_cases h0 : d.current ≥ d.tokens.length ∧ ¬ d.last_token_was_newline = true
  · refine ⟨_, _, 0, ?_, Nat.zero_le _, scan_final_newline d h0.1 (by simpa using h0.2)⟩
    rw [scan_checked, if_pos h0]
  have hor : d.current < d.tokens.length ∨ d.last_token_was_newline = true := by
    by_cases hlt : d.current < d.tokens.length
    · exact Or.inl hlt
    · refine Or.inr ?_
      by_contra hn
      exact h0 ⟨by omega, hn⟩
  by_cases hp1 : d.pending_indents > 0
  · refine ⟨_, _, 0, ?_, Nat.zero_le _, scan_indent d hor hp1⟩
    rw [scan_checked, if_neg h0, if_pos hp1]
  by_cases hp2 : d.pending_indents < 0
  · refine ⟨_, _, 0, ?_, Nat.zero_le _, scan_dedent d hor hp2⟩
    rw [scan_checked, if_neg h0, if_neg hp1, if_pos hp2]
  have hp : d.pending_indents = 0 := by omega
  by_cases hge : d.current ≥ d.tokens.length
  · have hn : d.last_token_was_newline = true := by
      by_contra hn
      exact h0 ⟨hge, hn⟩
    by_cases hs : d.indent_stack = []
    · refine ⟨_, _, 0, ?_, Nat.zero_le _, scan_eof d hge hn hp hs⟩
      rw [scan_checked, if_neg h0, if_neg hp1, if_neg hp2, if_pos hge]
      simp [hs]
    · have hlen : 0 < d.indent_stack.length := List.length_pos.mpr hs
      have hneg : ¬ (0 < -(d.indent_stack.length : Int)) := by omega
      have hneg2 : -(d.indent_stack.length : Int) < 0 := by omega
      refine ⟨_, _, 1, ?_, Nat.le_refl _, scan_end_dedent d hge hn hp hs⟩
      rw [scan_checked, if_neg h0, if_neg hp1, if_neg hp2, if_pos hge]
      simp [hs, scan_checked, hn, hp, hneg, hneg2]
  · have hlt : d.current < d.tokens.length := by omega
    cases hc : (!d.last_token_was_newline && HashMap.has int_eq d.token_lines d.current) with
    | false =>
      refine ⟨_, _, 0, ?_, Nat.zero_le _, scan_stored_state d hlt hp (Or.inl hc)⟩
      have hcond : ((!d.last_token_was_newline &&
          HashMap.has int_eq d.token_lines d.current) && !d.multiline_mode) = false := by
        rw [hc]; rfl
      rw [scan_checked, if_neg h0, if_neg hp1, if_neg hp2, if_neg hge]
      simp only [hcond, Bool.false_eq_true, if_false]
      rw [List.getElem?_eq_getElem hlt]
    | true =>
      cases hm : d.multiline_mode with
      | true =>
        refine ⟨_, _, 0, ?_, Nat.zero_le _, scan_stored_state d hlt hp (Or.inr hm)⟩
        have hcond : ((!d.last_token_was_newline &&
            HashMap.has int_eq d.token_lines d.current) && !d.multiline_mode) = false := by
          rw [hm]; simp
        rw [scan_checked, if_neg h0, if_neg hp1, if_neg hp2, if_neg hge]
        simp only [hcond, Bool.false_eq_true, if_false]
        rw [List.getElem?_eq_getElem hlt]
      | false =>
        have hn : d.last_token_was_newline = false := by
          cases h : d.last_token_was_newline with
          | false => rfl
          | true => rw [h] at hc; cases hc
        have hhas : HashMap.has int_eq d.token_lines d.current = true := by
          rw [hn] at hc
          simpa using hc
        refine ⟨_, _, 0, ?_, Nat.zero_le _, scan_line_change_state d hm hp hlt hn hhas⟩
        rw [scan_checked, if_neg h0, if_neg hp1, if_neg hp2, if_neg hge]
        simp only [hn, hhas, hm, Bool.not_false, Bool.and_self, if_true]
        unfold indent_column
        generalize uint32_t (uint32_t (HashMap.get int_eq d.token_columns d.current 0) +
          4294967295) = column
        have hck := dedent_loop_checked_eq column d.indent_stack 0
        have hloop := dedent_loop_eq column d.indent_stack 0
        cases hs : d.indent_stack with
        | nil =>
          rw [hs] at hloop hck
          simp only [List.headD_nil] at hloop hck ⊢
          by_cases hcl : column > 0
          · simp only [if_pos hcl, hp]
            rfl
          · simp only [if_neg hcl, hck, hloop, hp, zero_sub]
            rfl
        | cons back tail =>
          rw [hs] at hloop hck
          simp only [List.headD_cons] at hloop hck ⊢
          by_cases hcl : column > back
          · simp only [if_pos hcl, hp]
            rfl
          · simp only [if_neg hcl, hck, hloop, hp, zero_sub]
            rfl
/-- C34. `scan` is total and in bounds: on every decoder whose cursor is within
`0 .. tokens.size()`, the body of `scan` with every access checked returns a token
without a fault, whatever number of calls beyond two it is allowed: it makes at most one
call to itself, reads `tokens[current]` only inside the vector, pops no empty indent
stack, and returns what `scan` returns; the cursor stays or moves up by one, by one
exactly when the token was read from the store at the old cursor, and is still within
`0 .. tokens.size()`; the stored tokens are unchanged. -/
theorem scan_total_in_bounds (d : GDScriptTokenizerBuffer) (fuel : Nat)
    (h : d.current ≤ d.tokens.length) :
    ∃ t d2 n, scan_checked (fuel + 2) d = .ok (t, d2, n) ∧ n ≤ 1 ∧ scan d = some (t, d2) ∧
      d2.tokens = d.tokens ∧ d.current ≤ d2.current ∧ d2.current ≤ d.current + 1 ∧
      d2.current ≤ d2.tokens.length ∧
      (d2.current = d.current + 1 →
        ∃ hlt : d.current < d.tokens.length, t = d.tokens.get ⟨d.current, hlt⟩) := by
  obtain ⟨t, d2, n, hck, hn, hs⟩ := scan_checked_eq d fuel
  obtain ⟨t1, d1, hs1, hP⟩ := scan_cases d
    (fun t d2 => d2.tokens = d.tokens ∧ d.current ≤ d2.current ∧ d2.current ≤ d.current + 1 ∧
      d2.current ≤ d2.tokens.length ∧
      (d2.current = d.current + 1 →
        ∃ hlt : d.current < d.tokens.length, t = d.tokens.get ⟨d.current, hlt⟩))
    (fun _ _ => ⟨rfl, Nat.le_refl _, Nat.le_succ _, h, fun e => absurd e (by simp)⟩)
    (fun _ _ => ⟨rfl, Nat.le_refl _, Nat.le_succ _, h, fun e => absurd e (by simp)⟩)
    (fun _ _ => ⟨rfl, Nat.le_refl _, Nat.le_succ _, h, fun e => absurd e (by simp)⟩)
    (fun _ _ _ _ => ⟨rfl, Nat.le_refl _, Nat.le_succ _, h, fun e => absurd e (by simp)⟩)
    (fun _ _ _ _ => ⟨rfl, Nat.le_refl _, Nat.le_succ _, h, fun e => absurd e (by simp)⟩)
    (fun _ _ _ _ _ => ⟨rfl, Nat.le_refl _, Nat.le_succ _, h, fun e => absurd e (by simp)⟩)
    (fun hlt _ _ => ⟨rfl, Nat.le_succ _, Nat.le_refl _, hlt, fun _ => ⟨hlt, rfl⟩⟩)
  rw [hs] at hs1
  cases hs1
  exact ⟨t, d2, n, hck, hn, hs, hP⟩

theorem scan_total_in_bounds_witness :
    ∃ t d2 n, scan_checked 2 end_example = .ok (t, d2, n) ∧ n ≤ 1 ∧
      scan end_example = some (t, d2) ∧ d2.current ≤ d2.tokens.length := by
  obtain ⟨t, d2, n, h1, h2, h3, _, _, _, h4, _⟩ :=
    scan_total_in_bounds end_example 0 (by decide)
  exact ⟨t, d2, n, h1, h2, h3, h4⟩

/-! ### INDENT and DEDENT balance -/

theorem scan_balance (d : GDScriptTokenizerBuffer) :
    ∃ t d1, scan d = some (t, d1) ∧ d1.tokens = d.tokens ∧
      (((d1.current != d.current) = false ∧
          (t.type = .NEWLINE ∨ t.type = .INDENT ∨ t.type = .DEDENT ∨ t.type = .TK_EOF) ∧
          (t.type = .TK_EOF → d.pending_indents = 0 ∧ d.indent_stack = []) ∧
          ((if t.type = .INDENT then 1 else 0) - (if t.type = .DEDENT then 1 else 0) : Int) +
            indent_balance d1 = indent_balance d) ∨
        ((d1.current != d.current) = true ∧ t ∈ d.tokens ∧
          indent_balance d1 = indent_balance d)) := by
  apply scan_cases d
  · intro _ _
    exact ⟨rfl, Or.inl ⟨by simp, Or.inl rfl, (fun e => nomatch e), by simp [indent_balance]⟩⟩
  · intro _ _
    refine ⟨rfl, Or.inl ⟨by simp, Or.inr (Or.inl rfl), (fun e => nomatch e), ?_⟩⟩
    simp only [indent_balance, if_true, if_neg (by decide : ¬ TokenType.INDENT = .DEDENT)]
    omega
  · intro _ _
    refine ⟨rfl, Or.inl ⟨by simp, Or.inr (Or.inr (Or.inl rfl)), (fun e => nomatch e), ?_⟩⟩
    simp only [indent_balance, if_true, if_neg (by decide : ¬ TokenType.DEDENT = .INDENT)]
    omega
  · intro _ _ hp hs
    exact ⟨rfl, Or.inl ⟨by simp, Or.inr (Or.inr (Or.inr rfl)), fun _ => ⟨hp, hs⟩,
      by simp [indent_balance]⟩⟩
  · intro _ _ hp _
    refine ⟨rfl, Or.inl ⟨by simp, Or.inr (Or.inr (Or.inl rfl)), (fun e => nomatch e), ?_⟩⟩
    simp only [indent_balance, hp, if_true, if_neg (by decide : ¬ TokenType.DEDENT = .INDENT),
      List.length_nil]
    omega
  · intro _ hp _ _ _
    refine ⟨rfl, Or.inl ⟨by simp, Or.inl rfl, (fun e => nomatch e), ?_⟩⟩
    have hle : (d.indent_stack.dropWhile fun x => decide (indent_column d < x)).length ≤
        d.indent_stack.length := (List.dropWhile_sublist _).length_le
    simp only [indent_balance, hp, if_neg (by decide : ¬ TokenType.NEWLINE = .INDENT),
      if_neg (by decide : ¬ TokenType.NEWLINE = .DEDENT)]
    by_cases hc : indent_column d > d.indent_stack.headD 0
    · simp only [if_pos hc, List.length_cons]
      omega
    · simp only [if_neg hc]
      omega
  · intro hlt _ _
    exact ⟨rfl, Or.inr ⟨by simp, List.getElem_mem _, rfl⟩⟩
theorem drive_balance (calls : List Drive) : ∀ d : GDScriptTokenizerBuffer,
    (drive calls d).2.tokens = d.tokens ∧
      (((synthesized_types (drive calls d).1).count .INDENT : Nat) : Int) -
          (((synthesized_types (drive calls d).1).count .DEDENT : Nat) : Int) +
          indent_balance (drive calls d).2 = indent_balance d ∧
      (stores_no_layout d →
        emitted .INDENT (drive calls d).1 = (synthesized_types (drive calls d).1).count .INDENT ∧
          emitted .DEDENT (drive calls d).1 =
            (synthesized_types (drive calls d).1).count .DEDENT) := by
  induction calls with
  | nil =>
    intro d
    exact ⟨rfl, by simp [drive, synthesized_types], fun _ => ⟨rfl, rfl⟩⟩
  | cons c rest ih =>
    intro d
    cases c with
    | set_multiline_mode p_state =>
      rw [drive]
      exact ih (d.set_multiline_mode p_state)
    | scan =>
      obtain ⟨t, d1, hs, ht, hcase⟩ := scan_balance d
      obtain ⟨i1, i2, i3⟩ := ih d1
      rw [drive, hs]
      simp only
      refine ⟨i1.trans ht, ?_, ?_⟩
      · rcases hcase with ⟨hf, -, -, hb⟩ | ⟨hf, -, hb⟩
        · rw [hf]
          simp only [synthesized_types, List.filter_cons, Bool.not_false, if_true,
            List.map_cons, List.count_cons, beq_iff_eq] at i2 ⊢
          rw [← hb, ← i2]
          by_cases h1 : t.type = .INDENT <;> by_cases h2 : t.type = .DEDENT <;>
            simp only [h1, h2, if_true, if_false] <;> push_cast <;> omega
        · rw [hf]
          simp only [synthesized_types, List.filter_cons, Bool.not_true, Bool.false_eq_true,
            if_false] at i2 ⊢
          rw [← hb, ← i2]
      · intro hst
        have hst1 : stores_no_layout d1 := by
          unfold stores_no_layout
          rw [ht]
          exact hst
        obtain ⟨j1, j2⟩ := i3 hst1
        rcases hcase with ⟨hf, -, -, -⟩ | ⟨hf, hm, -⟩
        · rw [hf]
          simp only [emitted, synthesized_types, List.filter_cons, Bool.not_false, if_true,
            List.map_cons, List.count_cons] at j1 j2 ⊢
          rw [j1, j2]
          exact ⟨rfl, rfl⟩
        · obtain ⟨n1, n2, -⟩ := hst t hm
          rw [hf]
          simp only [emitted, synthesized_types, List.filter_cons, Bool.not_true,
            Bool.false_eq_true, if_false, List.map_cons, List.count_cons, beq_iff_eq, n1, n2]
            at j1 j2 ⊢
          exact ⟨j1, j2⟩

/-- C32. INDENT/DEDENT balance: for a decoder started with an empty indent stack and
the pending counter 0 and driven by `scan` and `set_multiline_mode` only, after every
call the number of INDENTs `scan` has synthesized, less the number of DEDENTs it has
synthesized, plus `pending_indents` equals the depth of the indent stack.  When no
stored token is an INDENT, a DEDENT or an EOF, these are the numbers of INDENT and
DEDENT tokens returned, and whenever the next call of `scan` returns EOF they are
equal. -/
theorem indent_dedent_balance (d : GDScriptTokenizerBuffer) (calls : List Drive)
    (hs : d.indent_stack = []) (hp : d.pending_indents = 0) :
    (((synthesized_types (drive calls d).1).count .INDENT : Nat) : Int) -
          (((synthesized_types (drive calls d).1).count .DEDENT : Nat) : Int) +
          (drive calls d).2.pending_indents = (drive calls d).2.indent_stack.length ∧
      (stores_no_layout d →
        ((emitted .INDENT (drive calls d).1 : Nat) : Int) -
            ((emitted .DEDENT (drive calls d).1 : Nat) : Int) +
            (drive calls d).2.pending_indents = (drive calls d).2.indent_stack.length ∧
          ∀ t d2, scan (drive calls d).2 = some (t, d2) → t.type = .TK_EOF →
            emitted .INDENT (drive calls d).1 = emitted .DEDENT (drive calls d).1) := by
  obtain ⟨h1, h2, h3⟩ := drive_balance calls d
  have h0 : indent_balance d = 0 := by simp [indent_balance, hs, hp]
  rw [h0] at h2
  have hbal : (((synthesized_types (drive calls d).1).count .INDENT : Nat) : Int) -
      (((synthesized_types (drive calls d).1).count .DEDENT : Nat) : Int) +
      (drive calls d).2.pending_indents = (drive calls d).2.indent_stack.length := by
    unfold indent_balance at h2
    omega
  refine ⟨hbal, fun hst => ?_⟩
  obtain ⟨e1, e2⟩ := h3 hst
  rw [e1, e2]
  refine ⟨hbal, fun t d2 hscan hty => ?_⟩
  obtain ⟨t1, d1, hs1, -, hcase⟩ := scan_balance (drive calls d).2
  rw [hscan] at hs1
  cases hs1
  rcases hcase with ⟨-, -, heof, -⟩ | ⟨-, hm, -⟩
  · obtain ⟨hp0, hs0⟩ := heof hty
    rw [hp0, hs0] at hbal
    simp only [List.length_nil, Int.add_zero, Nat.cast_zero] at hbal
    omega
  · rw [h1] at hm
    exact absurd hty (hst t hm).2.2

theorem indent_dedent_balance_witness :
    (((synthesized_types (drive sample_drive indent_example).1).count .INDENT : Nat) : Int) -
        (((synthesized_types (drive sample_drive indent_example).1).count .DEDENT : Nat) : Int) +
        (drive sample_drive indent_example).2.pending_indents =
      (drive sample_drive indent_example).2.indent_stack.length :=
  (indent_dedent_balance indent_example sample_drive rfl rfl).1

end GDScriptTokenizerBuffer

/-! ### The token word -/

theorem decode_encode_uint32 (x : Nat) : decode_uint32 (encode_uint32 x) = x % 4294967296 := by
  simp only [decode_uint32, encode_uint32, List.getD_cons_zero, List.getD_cons_succ]
  omega

theorem intern_token_index (env : Collaborators) (p_token : Token) (token_type : Nat)
    (ids : HashMap StringName Nat) (consts : HashMap Variant Nat) :
    (intern_token env p_token token_type ids consts).1 =
      token_type ||| (token_index env p_token ids consts <<< TOKEN_BITS) := by
  unfold intern_token token_index
  generalize p_token.type = ty
  cases ty <;> simp only [Nat.zero_shiftLeft, Nat.or_zero] <;> split <;> rfl

theorem token_to_binary_buffer8 (env : Collaborators) (p_token : Token) (r_buffer : List Nat)
    (p_start : Nat) (ids : HashMap StringName Nat) (consts : HashMap Variant Nat)
    (h : env.token_code p_token.type &&& TOKEN_MASK ≠ 0) :
    (_token_to_binary env p_token r_buffer p_start ids consts).r_buffer =
      resize r_buffer p_start ++
        encode_uint32 (((env.token_code p_token.type &&& TOKEN_MASK) |||
          (token_index env p_token ids consts <<< TOKEN_BITS)) ||| TOKEN_BYTE_MASK) ++
        encode_uint32 p_token.start_line := by
  unfold _token_to_binary
  simp only
  rw [intern_token_index, token_word_and_mask, if_pos h, resize_add]
  exact poke_record8 _ _ _ _ p_start (resize_length _ _) (encode_uint32_length _)
    (encode_uint32_length _)

theorem token_word_fields (t i : Nat) (ht : t ≤ 127) (hi : i < 2 ^ 23) :
    ((t &&& TOKEN_MASK) ||| (i <<< TOKEN_BITS)) ||| TOKEN_BYTE_MASK < 4294967296 ∧
      (((t &&& TOKEN_MASK) ||| (i <<< TOKEN_BITS)) ||| TOKEN_BYTE_MASK) &&& 0x7F = t ∧
      (((t &&& TOKEN_MASK) ||| (i <<< TOKEN_BITS)) ||| TOKEN_BYTE_MASK) >>> 8 = i ∧
      (((t &&& TOKEN_MASK) ||| (i <<< TOKEN_BITS)) ||| TOKEN_BYTE_MASK) &&& 0x80 = 0x80 ∧
      (i <<< TOKEN_BITS) &&& (TOKEN_MASK ||| TOKEN_BYTE_MASK) = 0 := by
  have ht7 : t < 2 ^ 7 := by omega
  have htm : t &&& TOKEN_MASK = t := by
    rw [token_mask_eq, Nat.and_pow_two_sub_one_eq_mod]
    exact Nat.mod_eq_of_lt ht7
  have h128 : ∀ j, Nat.testBit 128 j = decide (j = 7) := by
    intro j
    rw [show (128 : Nat) = 2 ^ 7 from rfl, Nat.testBit_two_pow]
    simp [eq_comm]
  have h127 : ∀ j, Nat.testBit 127 j = decide (j < 7) := by
    intro j
    rw [show (127 : Nat) = 2 ^ 7 - 1 from rfl, Nat.testBit_two_pow_sub_one]
  have h255 : ∀ j, Nat.testBit 255 j = decide (j < 8) := by
    intro j
    rw [show (255 : Nat) = 2 ^ 8 - 1 from rfl, Nat.testBit_two_pow_sub_one]
  have htb : ∀ j, 7 ≤ j → t.testBit j = false := by
    intro j hj
    apply Nat.testBit_lt_two_pow
    exact lt_of_lt_of_le ht7 (Nat.pow_le_pow_right (by decide) hj)
  rw [htm]
  refine ⟨?_, ?_, ?_, ?_, ?_⟩
  · have h1 : t < 2 ^ 32 := by omega
    have h2 : i <<< TOKEN_BITS < 2 ^ 32 := by
      rw [Nat.shiftLeft_eq, TOKEN_BITS]; omega
    have h3 : TOKEN_BYTE_MASK < 2 ^ 32 := by decide
    exact Nat.or_lt_two_pow (Nat.or_lt_two_pow h1 h2) h3
  · apply Nat.eq_of_testBit_eq
    intro j
    simp only [Nat.testBit_and, Nat.testBit_or, Nat.testBit_shiftLeft, TOKEN_BITS,
      TOKEN_BYTE_MASK, h128, h127]
    by_cases hj : j < 7
    · have h8 : ¬ j ≥ 8 := by omega
      have h7 : ¬ j = 7 := by omega
      simp [hj, h8, h7]
    · simp [hj, htb j (by omega)]
  · apply Nat.eq_of_testBit_eq
    intro j
    simp only [Nat.testBit_shiftRight, Nat.testBit_or, Nat.testBit_shiftLeft, TOKEN_BITS,
      TOKEN_BYTE_MASK, h128]
    have h7 : ¬ 8 + j = 7 := by omega
    simp [htb (8 + j) (by omega), h7]
  · apply Nat.eq_of_testBit_eq
    intro j
    simp only [Nat.testBit_and, Nat.testBit_or, Nat.testBit_shiftLeft, TOKEN_BITS,
      TOKEN_BYTE_MASK, h128]
    by_cases hj : j = 7
    · subst hj; simp
    · simp [hj]
  · rw [show TOKEN_MASK ||| TOKEN_BYTE_MASK = 255 from by decide]
    apply Nat.eq_of_testBit_eq
    intro j
    simp only [Nat.testBit_and, Nat.testBit_shiftLeft, TOKEN_BITS, h255, Nat.zero_testBit]
    by_cases hj : j ≥ 8
    · have h1 : ¬ j < 8 := by omega
      simp [h1]
    · simp [hj]

/-- C11. Token word round trip: for a token (of type IDENTIFIER, ANNOTATION, LITERAL or
ERROR, or of any other type, whose index is 0) whose type tag `t` has `1 ≤ t ≤ 127` and
whose table index `i` is below `2^23`, the record `_token_to_binary` writes at `p_start` has 8 bytes, and its first four bytes
decode little-endian to a word `w` with `w & 0x7F = t`, `w >> 8 = i` and the extended
bit `0x80` set; the shifted index has no bit in common with the tag bits or the
extended bit. -/
theorem token_word_round_trip (env : Collaborators) (p_token : Token) (r_buffer : List Nat)
    (p_start : Nat) (ids : HashMap StringName Nat) (consts : HashMap Variant Nat)
    (ht1 : 1 ≤ env.token_code p_token.type) (ht2 : env.token_code p_token.type ≤ 127)
    (hi : token_index env p_token ids consts < 2 ^ 23) :
    (_token_to_binary env p_token r_buffer p_start ids consts).token_len = 8 ∧
      decode_uint32
          (((_token_to_binary env p_token r_buffer p_start ids consts).r_buffer.drop
            p_start).take 4) &&& 0x7F = env.token_code p_token.type ∧
      decode_uint32
          (((_token_to_binary env p_token r_buffer p_start ids consts).r_buffer.drop
            p_start).take 4) >>> 8 = token_index env p_token ids consts ∧
      decode_uint32
          (((_token_to_binary env p_token r_buffer p_start ids consts).r_buffer.drop
            p_start).take 4) &&& 0x80 = 0x80 ∧
      (token_index env p_token ids consts <<< TOKEN_BITS) &&&
        (TOKEN_MASK ||| TOKEN_BYTE_MASK) = 0 := by
  obtain ⟨hlt, htag, hidx, hext, hdis⟩ :=
    token_word_fields (env.token_code p_token.type) (token_index env p_token ids consts) ht2 hi
  have hne : env.token_code p_token.type &&& TOKEN_MASK ≠ 0 := by
    rw [token_mask_eq, Nat.and_pow_two_sub_one_eq_mod, Nat.mod_eq_of_lt (by omega)]
    omega
  have hw : ((_token_to_binary env p_token r_buffer p_start ids consts).r_buffer.drop
      p_start).take 4 = encode_uint32 (((env.token_code p_token.type &&& TOKEN_MASK) |||
        (token_index env p_token ids consts <<< TOKEN_BITS)) ||| TOKEN_BYTE_MASK) := by
    rw [token_to_binary_buffer8 env p_token r_buffer p_start ids consts hne, List.append_assoc,
      List.drop_left' (resize_length _ _), List.take_left' (encode_uint32_length _)]
  rw [hw, decode_encode_uint32, Nat.mod_eq_of_lt hlt]
  refine ⟨?_, htag, hidx, hext, hdis⟩
  rw [token_to_binary_len, if_pos hne]

theorem token_word_round_trip_witness :
    (_token_to_binary sample_env { type := .IDENTIFIER, identifier := ⟨[97], [97]⟩ }
        [] 0 [(⟨[98], [98]⟩, 0)] []).token_len = 8 ∧
      decode_uint32
          (((_token_to_binary sample_env { type := .IDENTIFIER, identifier := ⟨[97], [97]⟩ }
            [] 0 [(⟨[98], [98]⟩, 0)] []).r_buffer.drop 0).take 4) &&& 0x7F = 2 ∧
      decode_uint32
          (((_token_to_binary sample_env { type := .IDENTIFIER, identifier := ⟨[97], [97]⟩ }
            [] 0 [(⟨[98], [98]⟩, 0)] []).r_buffer.drop 0).take 4) >>> 8 = 1 ∧
      decode_uint32
          (((_token_to_binary sample_env { type := .IDENTIFIER, identifier := ⟨[97], [97]⟩ }
            [] 0 [(⟨[98], [98]⟩, 0)] []).r_buffer.drop 0).take 4) &&& 0x80 = 0x80 ∧
      (1 <<< TOKEN_BITS) &&& (TOKEN_MASK ||| TOKEN_BYTE_MASK) = 0 :=
  token_word_round_trip sample_env { type := .IDENTIFIER, identifier := ⟨[97], [97]⟩ }
    [] 0 [(⟨[98], [98]⟩, 0)] [] (by decide) (by decide) (by decide)

/-! ### The position index -/

theorem token_loop_cons (env : Collaborators) (t : Token) (rest : List Token)
    (st : EncodePass) (h : t.type ≠ .TK_EOF) :
    token_loop env (t :: rest) st = token_loop env rest (token_step env t st) := by
  rw [token_loop, if_neg h]

theorem scanned_tokens_cons (t : Token) (rest : List Token) (h : t.type ≠ .TK_EOF) :
    scanned_tokens (t :: rest) = t :: scanned_tokens rest := by
  simp [scanned_tokens, List.takeWhile_cons, h]

theorem token_loop_scanned (env : Collaborators) (tokens : List Token) (st : EncodePass) :
    token_loop env tokens st = token_loop env (scanned_tokens tokens) st := by
  induction tokens generalizing st with
  | nil => rfl
  | cons t rest ih =>
    by_cases h : t.type = .TK_EOF
    · have hs : scanned_tokens (t :: rest) = [] := by
        simp [scanned_tokens, List.takeWhile_cons, h]
      rw [hs]
      simp only [token_loop, h, if_true]
    · rw [scanned_tokens_cons t rest h, token_loop_cons env t rest st h,
        token_loop_cons env t _ st h]
      exact ih _

theorem scanned_tokens_not_eof (tokens : List Token) :
    ∀ t ∈ scanned_tokens tokens, t.type ≠ .TK_EOF := by
  intro t ht
  have := List.mem_takeWhile_imp ht
  simpa using this

theorem HashMap.has_append {κ ν : Type} (eq : κ → κ → Bool) (a b : HashMap κ ν) (k : κ) :
    HashMap.has eq (a ++ b) k = (HashMap.has eq a k || HashMap.has eq b k) := by
  simp [HashMap.has]

theorem HashMap.has_false_iff {κ ν : Type} (eq : κ → κ → Bool) (m : HashMap κ ν) (k : κ) :
    HashMap.has eq m k = false ↔ ∀ e ∈ m, eq e.1 k = false := by
  simp [HashMap.has]

theorem HashMap.set_new {κ ν : Type} (eq : κ → κ → Bool) (m : HashMap κ ν) (k : κ) (v : ν)
    (h : HashMap.has eq m k = false) : HashMap.set eq m k v = m ++ [(k, v)] := by
  simp [HashMap.set, h]

theorem HashMap.get_append_left {κ ν : Type} (eq : κ → κ → Bool) (a b : HashMap κ ν) (k : κ)
    (d : ν) (h : HashMap.has eq a k = true) :
    HashMap.get eq (a ++ b) k d = HashMap.get eq a k d := by
  unfold HashMap.get
  rw [List.find?_append]
  cases hf : a.find? fun e => eq e.1 k with
  | some e => rfl
  | none =>
    rw [List.find?_eq_none] at hf
    simp only [HashMap.has, List.any_eq_true] at h
    obtain ⟨e, he, hk⟩ := h
    exact absurd hk (hf e he)

theorem HashMap.get_append_right {κ ν : Type} (eq : κ → κ → Bool) (a b : HashMap κ ν) (k : κ)
    (d : ν) (h : HashMap.has eq a k = false) :
    HashMap.get eq (a ++ b) k d = HashMap.get eq b k d := by
  unfold HashMap.get
  rw [List.find?_append]
  have hf : (a.find? fun e => eq e.1 k) = none := by
    rw [List.find?_eq_none]
    intro e he
    rw [HashMap.has_false_iff] at h
    simp [h e he]
  rw [hf]
  rfl

theorem int_eq_false_of_ne {a b : Nat} (h : a ≠ b) : int_eq a b = false := by
  simp [int_eq, h]

theorem recorded_positions_keys (counter last_line : Nat) (toks : List Token) :
    ∀ e ∈ recorded_positions counter last_line toks,
      0 < e.1 ∧ counter ≤ e.1 ∧ e.1 < counter + toks.length := by
  induction toks generalizing counter last_line with
  | nil => intro e he; simp [recorded_positions] at he
  | cons t rest ih =>
    intro e he
    rw [recorded_positions, List.mem_append] at he
    rcases he with he | he
    · split at he
      · rename_i hc
        simp only [List.mem_singleton] at he
        subst he
        simp only [List.length_cons]
        omega
      · simp at he
    · have := ih _ _ e he
      simp only [List.length_cons]
      omega

theorem recorded_positions_append (counter last_line : Nat) (a : List Token) (p : Token)
    (b : List Token) :
    recorded_positions counter last_line (a ++ p :: b) =
      recorded_positions counter last_line (a ++ [p]) ++
        recorded_positions (counter + a.length + 1) p.end_line b := by
  induction a generalizing counter last_line with
  | nil => simp [recorded_positions]
  | cons x a ih =>
    rw [List.cons_append, List.cons_append, recorded_positions, recorded_positions, ih,
      List.append_assoc, List.length_cons]
    have : counter + 1 + a.length + 1 = counter + (a.length + 1) + 1 := by omega
    rw [this]

theorem token_step_positions (env : Collaborators) (t : Token) (st : EncodePass)
    (hl : ∀ e ∈ st.token_lines, e.1 < st.token_counter)
    (hc : ∀ e ∈ st.token_columns, e.1 < st.token_counter) :
    (token_step env t st).token_lines = st.token_lines ++
        (recorded_positions st.token_counter st.last_token_line [t]).map
          (fun e => (e.1, e.2.start_line)) ∧
      (token_step env t st).token_columns = st.token_columns ++
        (recorded_positions st.token_counter st.last_token_line [t]).map
          (fun e => (e.1, e.2.start_column)) ∧
      (token_step env t st).token_counter = st.token_counter + 1 ∧
      (token_step env t st).last_token_line = t.end_line := by
  have hnl : HashMap.has int_eq st.token_lines st.token_counter = false := by
    rw [HashMap.has_false_iff]
    intro e he
    exact int_eq_false_of_ne (Nat.ne_of_lt (hl e he))
  have hnc : HashMap.has int_eq st.token_columns st.token_counter = false := by
    rw [HashMap.has_false_iff]
    intro e he
    exact int_eq_false_of_ne (Nat.ne_of_lt (hc e he))
  simp only [token_step, HashMap.set_new _ _ _ _ hnl, HashMap.set_new _ _ _ _ hnc,
    recorded_positions, List.append_nil]
  by_cases hrec : st.token_counter > 0 ∧ t.start_line > st.last_token_line
  · simp only [if_pos hrec, List.map_cons, List.map_nil, and_self]
  · simp only [if_neg hrec, List.map_nil, List.append_nil, and_self]

theorem recorded_positions_cons (counter last_line : Nat) (t : Token) (rest : List Token) :
    recorded_positions counter last_line (t :: rest) =
      recorded_positions counter last_line [t] ++
        recorded_positions (counter + 1) t.end_line rest := by
  simp [recorded_positions]

theorem token_loop_positions (env : Collaborators) (toks : List Token) (st : EncodePass)
    (hne : ∀ t ∈ toks, t.type ≠ .TK_EOF)
    (hl : ∀ e ∈ st.token_lines, e.1 < st.token_counter)
    (hc : ∀ e ∈ st.token_columns, e.1 < st.token_counter) :
    (token_loop env toks st).token_lines = st.token_lines ++
        (recorded_positions st.token_counter st.last_token_line toks).map
          (fun e => (e.1, e.2.start_line)) ∧
      (token_loop env toks st).token_columns = st.token_columns ++
        (recorded_positions st.token_counter st.last_token_line toks).map
          (fun e => (e.1, e.2.start_column)) ∧
      (token_loop env toks st).token_counter = st.token_counter + toks.length := by
  induction toks generalizing st with
  | nil => simp [token_loop, recorded_positions]
  | cons t rest ih =>
    have ht : t.type ≠ .TK_EOF := hne t (List.mem_cons_self _ _)
    have hrest : ∀ t ∈ rest, t.type ≠ .TK_EOF := fun x hx => hne x (List.mem_cons_of_mem _ hx)
    obtain ⟨s1, s2, s3, s4⟩ := token_step_positions env t st hl hc
    have hkeys := recorded_positions_keys st.token_counter st.last_token_line [t]
    have hl2 : ∀ e ∈ (token_step env t st).token_lines,
        e.1 < (token_step env t st).token_counter := by
      intro e he
      rw [s1, List.mem_append, List.mem_map] at he
      rw [s3]
      rcases he with he | ⟨x, hx, rfl⟩
      · exact Nat.lt_succ_of_lt (hl e he)
      · exact (hkeys x hx).2.2
    have hc2 : ∀ e ∈ (token_step env t st).token_columns,
        e.1 < (token_step env t st).token_counter := by
      intro e he
      rw [s2, List.mem_append, List.mem_map] at he
      rw [s3]
      rcases he with he | ⟨x, hx, rfl⟩
      · exact Nat.lt_succ_of_lt (hc e he)
      · exact (hkeys x hx).2.2
    obtain ⟨h1, h2, h3⟩ := ih (token_step env t st) hrest hl2 hc2
    rw [token_loop_cons env t rest st ht, h1, h2, h3, s1, s2, s3, s4,
      recorded_positions_cons st.token_counter st.last_token_line t rest]
    simp only [List.map_append, List.append_assoc, List.length_cons, true_and]
    omega

theorem parse_positions (env : Collaborators) (tokens : List Token) :
    (token_loop env tokens {}).token_lines =
        (recorded_positions 0 0 (scanned_tokens tokens)).map (fun e => (e.1, e.2.start_line)) ∧
      (token_loop env tokens {}).token_columns =
        (recorded_positions 0 0 (scanned_tokens tokens)).map
          (fun e => (e.1, e.2.start_column)) ∧
      (token_loop env tokens {}).token_counter = (scanned_tokens tokens).length := by
  rw [token_loop_scanned]
  have h := token_loop_positions env (scanned_tokens tokens) {} (scanned_tokens_not_eof tokens)
    (by intro e he; simp at he) (by intro e he; simp at he)
  simpa using h

theorem HashMap.has_map_int (g : Token → Nat) (R : List (Nat × Token)) (k : Nat)
    (h : ∀ e ∈ R, e.1 ≠ k) :
    HashMap.has int_eq (R.map fun e => (e.1, g e.2)) k = false := by
  rw [HashMap.has_false_iff]
  intro e he
  rw [List.mem_map] at he
  obtain ⟨x, hx, rfl⟩ := he
  exact int_eq_false_of_ne (h x hx)

theorem positions_lookup (g : Token → Nat) (R1 M R2 : List (Nat × Token)) (k d : Nat)
    (h1 : ∀ e ∈ R1, e.1 ≠ k) (h2 : ∀ e ∈ R2, e.1 ≠ k) :
    HashMap.has int_eq ((R1 ++ (M ++ R2)).map fun e => (e.1, g e.2)) k =
        HashMap.has int_eq (M.map fun e => (e.1, g e.2)) k ∧
      HashMap.get int_eq ((R1 ++ (M ++ R2)).map fun e => (e.1, g e.2)) k d =
        HashMap.get int_eq (M.map fun e => (e.1, g e.2)) k d := by
  have f1 := HashMap.has_map_int g R1 k h1
  have f2 := HashMap.has_map_int g R2 k h2
  rw [List.map_append, List.map_append]
  constructor
  · rw [HashMap.has_append, HashMap.has_append, f1, f2]
    simp
  · rw [HashMap.get_append_right _ _ _ _ _ f1]
    cases hM : HashMap.has int_eq (M.map fun e => (e.1, g e.2)) k with
    | true => exact HashMap.get_append_left _ _ _ _ _ hM
    | false =>
      rw [HashMap.get_append_right _ _ _ _ _ hM]
      unfold HashMap.get
      have e1 : (List.find? (fun e => int_eq e.1 k) (List.map (fun e => (e.1, g e.2)) R2)) =
          none := by
        rw [List.find?_eq_none]
        intro e he
        rw [HashMap.has_false_iff] at f2
        simp [f2 e he]
      have e2 : (List.find? (fun e => int_eq e.1 k) (List.map (fun e => (e.1, g e.2)) M)) =
          none := by
        rw [List.find?_eq_none]
        intro e he
        rw [HashMap.has_false_iff] at hM
        simp [hM e he]
      rw [e1, e2]

theorem recorded_positions_split (pre : List Token) (p t : Token) (post : List Token) :
    recorded_positions 0 0 (pre ++ p :: t :: post) =
      recorded_positions 0 0 (pre ++ [p]) ++
        ((if t.start_line > p.end_line then [(pre.length + 1, t)] else []) ++
          recorded_positions (pre.length + 2) t.end_line post) := by
  rw [recorded_positions_append 0 0 pre p (t :: post), Nat.zero_add,
    recorded_positions_cons (pre.length + 1) p.end_line t post]
  simp [recorded_positions]

/-- C13. Position index recording rule: after the token loop (before continuation-line
removal) neither table has an entry for ordinal 0 or for an ordinal that is not a
token's; the token at ordinal `k ≥ 1` (`t`, after `p`) has an entry, in both tables,
exactly when its start line is greater than the end line of the token before it, which
for tokens in source order (`p.end_line ≤ t.start_line`) is exactly when the two lines
differ; that entry maps `k` to the token's start line and start column. -/
theorem position_index_recording (env : Collaborators) (tokens : List Token) :
    HashMap.has int_eq (token_loop env tokens {}).token_lines 0 = false ∧
      HashMap.has int_eq (token_loop env tokens {}).token_columns 0 = false ∧
      (∀ pre p t post, scanned_tokens tokens = pre ++ p :: t :: post →
        (HashMap.has int_eq (token_loop env tokens {}).token_lines (pre.length + 1) = true ↔
          t.start_line > p.end_line) ∧
        (HashMap.has int_eq (token_loop env tokens {}).token_columns (pre.length + 1) = true ↔
          t.start_line > p.end_line) ∧
        (p.end_line ≤ t.start_line →
          (HashMap.has int_eq (token_loop env tokens {}).token_lines (pre.length + 1) = true ↔
            t.start_line ≠ p.end_line)) ∧
        (t.start_line > p.end_line →
          HashMap.get int_eq (token_loop env tokens {}).token_lines (pre.length + 1) 0 =
            t.start_line ∧
          HashMap.get int_eq (token_loop env tokens {}).token_columns (pre.length + 1) 0 =
            t.start_column)) ∧
      (∀ k, (scanned_tokens tokens).length ≤ k →
        HashMap.has int_eq (token_loop env tokens {}).token_lines k = false ∧
        HashMap.has int_eq (token_loop env tokens {}).token_columns k = false) := by
  obtain ⟨hl, hc, _⟩ := parse_positions env tokens
  have hkeys := recorded_positions_keys 0 0 (scanned_tokens tokens)
  rw [hl, hc]
  refine ⟨?_, ?_, ?_, ?_⟩
  · exact HashMap.has_map_int _ _ _ fun e he => Nat.ne_of_gt (hkeys e he).1
  · exact HashMap.has_map_int _ _ _ fun e he => Nat.ne_of_gt (hkeys e he).1
  · intro pre p t post hs
    rw [hs, recorded_positions_split]
    have h1 : ∀ e ∈ recorded_positions 0 0 (pre ++ [p]), e.1 ≠ pre.length + 1 := by
      intro e he
      have := (recorded_positions_keys 0 0 (pre ++ [p]) e he).2.2
      simp only [List.length_append, List.length_singleton] at this
      omega
    have h2 : ∀ e ∈ recorded_positions (pre.length + 2) t.end_line post,
        e.1 ≠ pre.length + 1 := by
      intro e he
      have := (recorded_positions_keys _ _ post e he).2.1
      omega
    obtain ⟨a1, a2⟩ := positions_lookup (fun x => x.start_line) _
      (if t.start_line > p.end_line then [(pre.length + 1, t)] else []) _ (pre.length + 1) 0 h1 h2
    obtain ⟨b1, b2⟩ := positions_lookup (fun x => x.start_column) _
      (if t.start_line > p.end_line then [(pre.length + 1, t)] else []) _ (pre.length + 1) 0 h1 h2
    rw [a1, a2, b1, b2]
    by_cases hgt : t.start_line > p.end_line
    · simp only [if_pos hgt, List.map_cons, List.map_nil]
      have hh : ∀ v : Nat, HashMap.has int_eq [(pre.length + 1, v)] (pre.length + 1) = true := by
        intro v; simp [HashMap.has, int_eq]
      have hg : ∀ v : Nat, HashMap.get int_eq [(pre.length + 1, v)] (pre.length + 1) 0 = v := by
        intro v; simp [HashMap.get, int_eq]
      rw [hh, hh, hg, hg]
      refine ⟨by simp [hgt], by simp [hgt], ?_, fun _ => ⟨rfl, rfl⟩⟩
      intro _
      simp only [true_iff]
      omega
    · simp only [if_neg hgt, List.map_nil]
      have hh : HashMap.has int_eq ([] : HashMap Nat Nat) (pre.length + 1) = false := rfl
      rw [hh]
      refine ⟨by simp [hgt], by simp [hgt], ?_, fun h => absurd h hgt⟩
      intro hle
      simp only [Bool.false_eq_true, false_iff, not_not]
      omega
  · intro k hk
    constructor
    · exact HashMap.has_map_int _ _ _ fun e he => by
        have := (hkeys e he).2.2
        omega
    · exact HashMap.has_map_int _ _ _ fun e he => by
        have := (hkeys e he).2.2
        omega

/-! ### Continuation lines -/

theorem HashMap.has_set_int (m : HashMap Nat Nat) (k v q : Nat) :
    HashMap.has int_eq (HashMap.set int_eq m k v) q =
      (HashMap.has int_eq m q || decide (k = q)) := by
  unfold HashMap.set
  split
  · rename_i h
    have hk : HashMap.has int_eq (m.map fun e => if int_eq e.1 k then (e.1, v) else e) q =
        HashMap.has int_eq m q := by
      simp only [HashMap.has, List.any_map]
      congr 1
      funext e
      simp only [Function.comp]
      split <;> rfl
    rw [hk]
    by_cases hq : k = q
    · subst hq; simp [h]
    · simp [hq]
  · rw [HashMap.has_append]
    by_cases hq : k = q <;> simp [HashMap.has, int_eq, hq]

theorem HashMap.get_map_set_int (m : HashMap Nat Nat) (k v q d : Nat) :
    HashMap.get int_eq (m.map fun e => if int_eq e.1 k then (e.1, v) else e) q d =
      if k = q ∧ HashMap.has int_eq m q = true then v else HashMap.get int_eq m q d := by
  induction m with
  | nil => simp [HashMap.get, HashMap.has]
  | cons e m ih =>
    unfold HashMap.get at ih ⊢
    by_cases he : e.1 = q
    · by_cases hk : k = q
      · simp [List.find?_cons, int_eq, he, hk, HashMap.has]
      · have hk2 : ¬ q = k := fun h => hk h.symm
        simp [List.find?_cons, int_eq, he, hk, hk2, HashMap.has]
    · have hq : HashMap.has int_eq (e :: m) q = HashMap.has int_eq m q := by
        simp [HashMap.has, int_eq, he]
      have hee : int_eq e.1 q = false := int_eq_false_of_ne he
      have hfe : int_eq (if int_eq e.1 k = true then (e.1, v) else e).1 q = false := by
        split <;> exact hee
      rw [hq]
      simp only [List.map_cons, List.find?_cons, hfe, hee]
      exact ih

theorem HashMap.get_set_int (m : HashMap Nat Nat) (k v q d : Nat) :
    HashMap.get int_eq (HashMap.set int_eq m k v) q d =
      if k = q then v else HashMap.get int_eq m q d := by
  unfold HashMap.set
  split
  · rename_i h
    rw [HashMap.get_map_set_int]
    by_cases hq : k = q
    · subst hq; simp [h]
    · simp [hq]
  · rename_i h
    by_cases hq : k = q
    · subst hq
      have h2 : HashMap.has int_eq m k = false := by simpa using h
      rw [HashMap.get_append_right _ _ _ _ _ h2]
      simp [HashMap.get, int_eq]
    · cases hm : HashMap.has int_eq m q with
      | true => rw [HashMap.get_append_left _ _ _ _ _ hm, if_neg hq]
      | false =>
        rw [HashMap.get_append_right _ _ _ _ _ hm, if_neg hq]
        have h1 : (m.find? fun e => int_eq e.1 q) = none := by
          rw [List.find?_eq_none]
          intro e he
          rw [HashMap.has_false_iff] at hm
          simp [hm e he]
        unfold HashMap.get
        rw [h1]
        simp [List.find?_cons, int_eq, hq]

theorem reverse_token_lines_fold (tl acc : HashMap Nat Nat) (l : Nat)
    (h : HashMap.has int_eq (tl.foldl (fun rev E => HashMap.set int_eq rev E.2 E.1) acc) l =
      true) :
    (∃ e ∈ tl, e.2 = l ∧
        e.1 = HashMap.get int_eq (tl.foldl (fun rev E => HashMap.set int_eq rev E.2 E.1) acc) l 0) ∨
      (HashMap.has int_eq acc l = true ∧
        HashMap.get int_eq (tl.foldl (fun rev E => HashMap.set int_eq rev E.2 E.1) acc) l 0 =
          HashMap.get int_eq acc l 0) := by
  induction tl generalizing acc with
  | nil => exact Or.inr ⟨h, rfl⟩
  | cons x tl ih =>
    rw [List.foldl_cons] at h ⊢
    rcases ih _ h with ⟨e, he, h1, h2⟩ | ⟨h1, h2⟩
    · exact Or.inl ⟨e, List.mem_cons_of_mem _ he, h1, h2⟩
    · rw [HashMap.has_set_int] at h1
      rw [HashMap.get_set_int] at h2
      by_cases hx : x.2 = l
      · rw [if_pos hx] at h2
        exact Or.inl ⟨x, List.mem_cons_self _ _, hx, h2.symm⟩
      · rw [if_neg hx] at h2
        simp only [hx, decide_False, Bool.or_false] at h1
        exact Or.inr ⟨h1, h2⟩

theorem reverse_token_lines_has (tl acc : HashMap Nat Nat) (l : Nat)
    (h : HashMap.has int_eq acc l = true ∨ ∃ e ∈ tl, e.2 = l) :
    HashMap.has int_eq (tl.foldl (fun rev E => HashMap.set int_eq rev E.2 E.1) acc) l = true := by
  induction tl generalizing acc with
  | nil =>
    rcases h with h | ⟨e, he, _⟩
    · exact h
    · simp at he
  | cons x tl ih =>
    rw [List.foldl_cons]
    apply ih
    rcases h with h | ⟨e, he, hl⟩
    · left; rw [HashMap.has_set_int, h]; rfl
    · rw [List.mem_cons] at he
      rcases he with rfl | he
      · left; rw [HashMap.has_set_int]; simp [hl]
      · right; exact ⟨e, he, hl⟩

theorem reverse_token_lines_entry (tl : HashMap Nat Nat) (e : Nat × Nat) (he : e ∈ tl) :
    HashMap.has int_eq (reverse_token_lines tl) e.2 = true ∧
      ∃ x ∈ tl, x.2 = e.2 ∧ x.1 = HashMap.get int_eq (reverse_token_lines tl) e.2 0 := by
  have h1 : HashMap.has int_eq (reverse_token_lines tl) e.2 = true :=
    reverse_token_lines_has tl [] e.2 (Or.inr ⟨e, he, rfl⟩)
  refine ⟨h1, ?_⟩
  rcases reverse_token_lines_fold tl [] e.2 h1 with h | ⟨h, _⟩
  · exact h
  · simp [HashMap.has] at h

theorem remove_continuation_lines_filter (rev : HashMap Nat Nat) (cont : List Nat)
    (tl tc : HashMap Nat Nat) :
    remove_continuation_lines rev cont (tl, tc) =
      (tl.filter fun e => !(cont.any fun line =>
          HashMap.has int_eq rev line && int_eq e.1 (HashMap.get int_eq rev line 0)),
        tc.filter fun e => !(cont.any fun line =>
          HashMap.has int_eq rev line && int_eq e.1 (HashMap.get int_eq rev line 0))) := by
  induction cont generalizing tl tc with
  | nil => simp [remove_continuation_lines]
  | cons line rest ih =>
    rw [remove_continuation_lines]
    split
    · rename_i h
      rw [ih]
      simp only [HashMap.erase, List.filter_filter, List.any_cons, h, Bool.true_and,
        Bool.not_or]
      refine Prod.ext ?_ ?_ <;> simp only <;> congr 1 <;> funext e <;> rw [Bool.and_comm]
    · rename_i h
      rw [ih]
      simp only [List.any_cons, h, Bool.false_and, Bool.false_or]

theorem pairwise_lt_unique {α : Type} (f : α → Nat) (l : List α)
    (h : List.Pairwise (fun a b => f a < f b) l) :
    ∀ a ∈ l, ∀ b ∈ l, f a = f b → a = b := by
  induction l with
  | nil => intro a ha; simp at ha
  | cons x l ih =>
    rw [List.pairwise_cons] at h
    intro a ha b hb hab
    rw [List.mem_cons] at ha hb
    rcases ha with rfl | ha <;> rcases hb with rfl | hb
    · rfl
    · have := h.1 b hb; omega
    · have := h.1 a ha; omega
    · exact ih h.2 a ha b hb hab

theorem recorded_positions_lines (counter last_line : Nat) (toks : List Token)
    (h : in_source_order last_line toks = true) :
    (∀ e ∈ recorded_positions counter last_line toks, last_line < e.2.start_line) ∧
      List.Pairwise (fun a b => a.2.start_line < b.2.start_line)
        (recorded_positions counter last_line toks) := by
  induction toks generalizing counter last_line with
  | nil => simp [recorded_positions]
  | cons t rest ih =>
    simp only [in_source_order, Bool.and_eq_true, decide_eq_true_eq] at h
    obtain ⟨⟨h1, h2⟩, h3⟩ := h
    obtain ⟨i1, i2⟩ := ih (counter + 1) t.end_line h3
    rw [recorded_positions]
    constructor
    · intro e he
      rw [List.mem_append] at he
      rcases he with he | he
      · split at he
        · rename_i hc
          simp only [List.mem_singleton] at he
          subst he
          exact hc.2
        · simp at he
      · have := i1 e he
        omega
    · rw [List.pairwise_append]
      refine ⟨?_, i2, ?_⟩
      · split <;> simp
      · intro a ha b hb
        split at ha
        · simp only [List.mem_singleton] at ha
          subst ha
          have := i1 b hb
          show t.start_line < b.2.start_line
          omega
        · simp at ha

theorem recorded_positions_ordinals (counter last_line : Nat) (toks : List Token) :
    List.Pairwise (fun a b => a.1 < b.1) (recorded_positions counter last_line toks) := by
  induction toks generalizing counter last_line with
  | nil => simp [recorded_positions]
  | cons t rest ih =>
    rw [recorded_positions, List.pairwise_append]
    refine ⟨?_, ih _ _, ?_⟩
    · split <;> simp
    · intro a ha b hb
      split at ha
      · simp only [List.mem_singleton] at ha
        subst ha
        have := (recorded_positions_keys _ _ rest b hb).2.1
        show counter < b.1
        omega
      · simp at ha

theorem HashMap.get_map_of_mem (g : Token → Nat) (R : List (Nat × Token)) (r : Nat × Token)
    (d : Nat) (hu : ∀ a ∈ R, ∀ b ∈ R, a.1 = b.1 → a = b) (hr : r ∈ R) :
    HashMap.get int_eq (R.map fun e => (e.1, g e.2)) r.1 d = g r.2 := by
  induction R with
  | nil => simp at hr
  | cons x R ih =>
    by_cases hx : x.1 = r.1
    · have : x = r := hu x (List.mem_cons_self _ _) r hr hx
      subst this
      simp [HashMap.get, List.find?_cons, int_eq]
    · have hr2 : r ∈ R := by
        rw [List.mem_cons] at hr
        rcases hr with rfl | hr
        · exact absurd rfl hx
        · exact hr
      have := ih (fun a ha b hb => hu a (List.mem_cons_of_mem _ ha) b (List.mem_cons_of_mem _ hb))
        hr2
      unfold HashMap.get at this ⊢
      simp only [List.map_cons, List.find?_cons, int_eq_false_of_ne hx]
      exact this

theorem remove_continuation_lines_map (rev : HashMap Nat Nat) (cont : List Nat)
    (R : List (Nat × Token)) :
    remove_continuation_lines rev cont
        (R.map fun e => (e.1, e.2.start_line), R.map fun e => (e.1, e.2.start_column)) =
      ((R.filter fun r => !(cont.any fun line =>
          HashMap.has int_eq rev line && int_eq r.1 (HashMap.get int_eq rev line 0))).map
          (fun e => (e.1, e.2.start_line)),
        (R.filter fun r => !(cont.any fun line =>
          HashMap.has int_eq rev line && int_eq r.1 (HashMap.get int_eq rev line 0))).map
          (fun e => (e.1, e.2.start_column))) := by
  rw [remove_continuation_lines_filter, List.filter_map, List.filter_map]
  rfl

/-- The position index is the two projections of the position entries the removal
pass keeps. -/
theorem position_index_kept (env : Collaborators) (lexed : Lexed) :
    (position_index env lexed).1 =
        ((recorded_positions 0 0 (scanned_tokens lexed.tokens)).filter fun r =>
          !(lexed.continuation_lines.any fun line =>
            HashMap.has int_eq (reverse_token_lines (token_loop env lexed.tokens {}).token_lines)
                line &&
              int_eq r.1 (HashMap.get int_eq
                (reverse_token_lines (token_loop env lexed.tokens {}).token_lines) line 0))).map
          (fun e => (e.1, e.2.start_line)) ∧
      (position_index env lexed).2 =
        ((recorded_positions 0 0 (scanned_tokens lexed.tokens)).filter fun r =>
          !(lexed.continuation_lines.any fun line =>
            HashMap.has int_eq (reverse_token_lines (token_loop env lexed.tokens {}).token_lines)
                line &&
              int_eq r.1 (HashMap.get int_eq
                (reverse_token_lines (token_loop env lexed.tokens {}).token_lines) line 0))).map
          (fun e => (e.1, e.2.start_column)) := by
  unfold position_index
  obtain ⟨hl, hc, _⟩ := parse_positions env lexed.tokens
  simp only
  rw [hl, hc, remove_continuation_lines_map]
  exact ⟨rfl, rfl⟩

theorem continuation_entry_dropped (env : Collaborators) (lexed : Lexed)
    (h : in_source_order 0 (scanned_tokens lexed.tokens) = true)
    (r : Nat × Token) (hr : r ∈ recorded_positions 0 0 (scanned_tokens lexed.tokens))
    (hc : r.2.start_line ∈ lexed.continuation_lines) :
    (!(lexed.continuation_lines.any fun line =>
      HashMap.has int_eq (reverse_token_lines (token_loop env lexed.tokens {}).token_lines) line &&
        int_eq r.1 (HashMap.get int_eq
          (reverse_token_lines (token_loop env lexed.tokens {}).token_lines) line 0))) = false := by
  obtain ⟨hl, _, _⟩ := parse_positions env lexed.tokens
  have hmem : (r.1, r.2.start_line) ∈ (token_loop env lexed.tokens {}).token_lines := by
    rw [hl, List.mem_map]
    exact ⟨r, hr, rfl⟩
  obtain ⟨h1, x, hx, hx2, hx1⟩ := reverse_token_lines_entry _ _ hmem
  rw [hl, List.mem_map] at hx
  obtain ⟨r2, hr2, rfl⟩ := hx
  have huniq := pairwise_lt_unique (fun a : Nat × Token => a.2.start_line) _
    (recorded_positions_lines 0 0 _ h).2
  have heq : r2 = r := huniq r2 hr2 r hr hx2
  subst heq
  simp only [Bool.not_eq_false', List.any_eq_true, Bool.and_eq_true]
  refine ⟨r2.2.start_line, hc, h1, ?_⟩
  simp only at hx1
  rw [← hx1]
  simp [int_eq]

/-! ### Interning -/

theorem indexed_from_length {κ : Type} (n : Nat) (keys : List κ) :
    (indexed_from n keys).length = keys.length := by
  induction keys generalizing n with
  | nil => rfl
  | cons k keys ih => simp [indexed_from, ih]

theorem indexed_from_append {κ : Type} (n : Nat) (keys : List κ) (k : κ) :
    indexed_from n (keys ++ [k]) = indexed_from n keys ++ [(k, n + keys.length)] := by
  induction keys generalizing n with
  | nil => simp [indexed_from]
  | cons x keys ih =>
    rw [List.cons_append, indexed_from, indexed_from, ih, List.length_cons, List.cons_append]
    have : n + 1 + keys.length = n + (keys.length + 1) := by omega
    rw [this]

theorem has_indexed_from {κ : Type} (eq : κ → κ → Bool) (n : Nat) (keys : List κ) (k : κ) :
    HashMap.has eq (indexed_from n keys) k = keys.any fun x => eq x k := by
  induction keys generalizing n with
  | nil => rfl
  | cons x keys ih =>
    have := ih (n + 1)
    simp only [HashMap.has] at this
    simp only [HashMap.has, indexed_from, List.any_cons, this]

theorem get_indexed_from {κ : Type} (eq : κ → κ → Bool) (n : Nat) (keys : List κ) (k : κ)
    (d : Nat) (h : (keys.any fun x => eq x k) = true) :
    HashMap.get eq (indexed_from n keys) k d = n + keys.findIdx fun x => eq x k := by
  induction keys generalizing n with
  | nil => simp at h
  | cons x keys ih =>
    unfold HashMap.get at ih ⊢
    simp only [indexed_from, List.find?_cons, List.findIdx_cons]
    cases hx : eq x k with
    | true => simp
    | false =>
      simp only [List.any_cons, hx, Bool.false_or] at h
      simp only [cond_false]
      rw [ih (n + 1) h]
      omega

theorem reverse_indexed_from {κ : Type} (n : Nat) (keys : List κ) (L : List κ)
    (h : n + keys.length ≤ L.length) :
    (indexed_from n keys).foldl (fun rev E => rev.set E.2 E.1) L =
      L.take n ++ keys ++ L.drop (n + keys.length) := by
  induction keys generalizing n L with
  | nil => simp [indexed_from]
  | cons k keys ih =>
    simp only [List.length_cons] at h
    have hn : n < L.length := by omega
    rw [indexed_from, List.foldl_cons, ih (n + 1) (L.set n k) (by rw [List.length_set]; omega)]
    have h1 : (L.set n k).take (n + 1) = L.take n ++ [k] := by
      rw [List.take_succ, List.set_take, List.set_eq_of_length_le (by simp)]
      simp [hn]
    have h2 : (L.set n k).drop (n + 1 + keys.length) = L.drop (n + (keys.length + 1)) := by
      rw [List.drop_set_of_lt _ _ (by omega)]
      congr 1
      omega
    rw [h1, h2]
    simp

theorem reverse_map_indexed {κ : Type} (dflt : κ) (keys : List κ) :
    reverse_map dflt (indexed_from 0 keys) = keys := by
  unfold reverse_map
  rw [reverse_indexed_from 0 keys _ (by simp [indexed_from_length])]
  simp [indexed_from_length]

theorem first_seen_append {κ : Type} (eq : κ → κ → Bool) (seen a b : List κ) :
    first_seen eq seen (a ++ b) = first_seen eq (first_seen eq seen a) b := by
  induction a generalizing seen with
  | nil => rfl
  | cons k a ih => rw [List.cons_append, first_seen, first_seen, ih]

theorem first_seen_extends {κ : Type} (eq : κ → κ → Bool) (seen l : List κ) :
    ∃ s, first_seen eq seen l = seen ++ s := by
  induction l generalizing seen with
  | nil => exact ⟨[], by simp [first_seen]⟩
  | cons k l ih =>
    rw [first_seen]
    split
    · exact ih seen
    · obtain ⟨s, hs⟩ := ih (seen ++ [k])
      exact ⟨k :: s, by rw [hs]; simp⟩

theorem first_seen_pairwise {κ : Type} (eq : κ → κ → Bool) (seen l : List κ)
    (h : List.Pairwise (fun a b => eq a b = false) seen) :
    List.Pairwise (fun a b => eq a b = false) (first_seen eq seen l) := by
  induction l generalizing seen with
  | nil => exact h
  | cons k l ih =>
    rw [first_seen]
    split
    · exact ih seen h
    · rename_i hk
      apply ih
      rw [List.pairwise_append]
      refine ⟨h, by simp, ?_⟩
      intro a ha b hb
      simp only [List.mem_singleton] at hb
      subst hb
      simp only [List.any_eq_true, not_exists, not_and, Bool.not_eq_true] at hk
      exact hk a ha

theorem findIdx_append_of_any {κ : Type} (p : κ → Bool) (D s : List κ)
    (h : D.any p = true) : (D ++ s).findIdx p = D.findIdx p := by
  rw [List.findIdx_append]
  have : D.findIdx p < D.length := by
    apply List.findIdx_lt_length_of_exists
    simpa using h
  rw [if_pos this]

/-- The index a value gets when it is interned into the table of `seen`, and the place
of the value in the table afterwards. -/
theorem first_seen_index {κ : Type} (eq : κ → κ → Bool) (seen : List κ) (k : κ)
    (hrefl : eq k k = true) :
    ((first_seen eq seen [k]).any fun x => eq x k) = true ∧
      ((first_seen eq seen [k]).findIdx fun x => eq x k) =
        if seen.any fun x => eq x k then seen.findIdx fun x => eq x k else seen.length := by
  simp only [first_seen]
  split
  · rename_i h
    exact ⟨h, rfl⟩
  · rename_i h
    constructor
    · simp [hrefl]
    · rw [List.findIdx_append]
      have hnot : ∀ x ∈ seen, eq x k = false := by
        simpa using h
      rw [List.findIdx_eq_length_of_false hnot]
      simp [List.findIdx_cons, hrefl]

theorem token_to_binary_maps (env : Collaborators) (p_token : Token) (r_buffer : List Nat)
    (p_start : Nat) (ids : HashMap StringName Nat) (consts : HashMap Variant Nat) :
    (_token_to_binary env p_token r_buffer p_start ids consts).r_identifiers_map =
        (intern_token env p_token (env.token_code p_token.type &&& TOKEN_MASK) ids consts).2.1 ∧
      (_token_to_binary env p_token r_buffer p_start ids consts).r_constants_map =
        (intern_token env p_token (env.token_code p_token.type &&& TOKEN_MASK) ids consts).2.2 := by
  unfold _token_to_binary
  simp only
  split <;> exact ⟨rfl, rfl⟩

theorem intern_token_tables (env : Collaborators) (p_token : Token) (token_type : Nat)
    (D : List StringName) (C : List Variant) :
    (intern_token env p_token token_type (indexed_from 0 D) (indexed_from 0 C)).2.1 =
        indexed_from 0 (first_seen name_eq D (identifier_keys [p_token])) ∧
      (intern_token env p_token token_type (indexed_from 0 D) (indexed_from 0 C)).2.2 =
        indexed_from 0 (first_seen env.variant_eq C (constant_keys [p_token])) := by
  unfold intern_token identifier_keys constant_keys
  cases hty : p_token.type <;>
    simp only [hty, List.filter_cons, List.filter_nil, List.map_cons, List.map_nil, first_seen,
      has_indexed_from, indexed_from_length, Token.get_identifier, beq_self_eq_true,
      Bool.or_true, Bool.true_or, Bool.or_false, if_true, if_false, Bool.false_eq_true,
      reduceCtorEq, beq_iff_eq, decide_False, decide_True] <;>
    first
    | exact ⟨rfl, rfl⟩
    | exact ⟨trivial, trivial⟩
    | (split
       · exact ⟨rfl, rfl⟩
       · refine ⟨?_, ?_⟩ <;>
           first
           | rfl
           | (rw [indexed_from_append, HashMap.set_new _ _ _ _ (by rw [has_indexed_from]; exact Bool.eq_false_iff.mpr ‹_›)]
              simp [indexed_from_length]))

theorem token_loop_append (env : Collaborators) (a b : List Token) (st : EncodePass)
    (h : ∀ t ∈ a, t.type ≠ .TK_EOF) :
    token_loop env (a ++ b) st = token_loop env b (token_loop env a st) := by
  induction a generalizing st with
  | nil => rfl
  | cons t a ih =>
    have ht : t.type ≠ .TK_EOF := h t (List.mem_cons_self _ _)
    rw [List.cons_append, token_loop_cons env t _ st ht, token_loop_cons env t _ st ht]
    exact ih _ fun x hx => h x (List.mem_cons_of_mem _ hx)

theorem identifier_keys_append (a b : List Token) :
    identifier_keys (a ++ b) = identifier_keys a ++ identifier_keys b := by
  simp [identifier_keys]

theorem constant_keys_append (a b : List Token) :
    constant_keys (a ++ b) = constant_keys a ++ constant_keys b := by
  simp [constant_keys]

theorem token_step_tables (env : Collaborators) (t : Token) (st : EncodePass)
    (D : List StringName) (C : List Variant) (hD : st.identifier_map = indexed_from 0 D)
    (hC : st.constant_map = indexed_from 0 C) :
    (token_step env t st).identifier_map =
        indexed_from 0 (first_seen name_eq D (identifier_keys [t])) ∧
      (token_step env t st).constant_map =
        indexed_from 0 (first_seen env.variant_eq C (constant_keys [t])) := by
  obtain ⟨m1, m2⟩ := token_to_binary_maps env t st.token_buffer st.token_pos st.identifier_map
    st.constant_map
  obtain ⟨i1, i2⟩ := intern_token_tables env t (env.token_code t.type &&& TOKEN_MASK) D C
  simp only [token_step]
  rw [m1, m2, hD, hC]
  exact ⟨i1, i2⟩

theorem token_loop_tables (env : Collaborators) (toks : List Token) (st : EncodePass)
    (D : List StringName) (C : List Variant) (hne : ∀ t ∈ toks, t.type ≠ .TK_EOF)
    (hD : st.identifier_map = indexed_from 0 D) (hC : st.constant_map = indexed_from 0 C) :
    (token_loop env toks st).identifier_map =
        indexed_from 0 (first_seen name_eq D (identifier_keys toks)) ∧
      (token_loop env toks st).constant_map =
        indexed_from 0 (first_seen env.variant_eq C (constant_keys toks)) := by
  induction toks generalizing st D C with
  | nil => exact ⟨hD, hC⟩
  | cons t rest ih =>
    have ht : t.type ≠ .TK_EOF := hne t (List.mem_cons_self _ _)
    obtain ⟨s1, s2⟩ := token_step_tables env t st D C hD hC
    have := ih (token_step env t st) _ _ (fun x hx => hne x (List.mem_cons_of_mem _ hx)) s1 s2
    rw [token_loop_cons env t rest st ht]
    rw [show t :: rest = [t] ++ rest from rfl, identifier_keys_append, constant_keys_append,
      first_seen_append, first_seen_append]
    exact this

theorem parse_tables (env : Collaborators) (tokens : List Token) :
    (token_loop env tokens {}).identifier_map =
        indexed_from 0 (first_seen name_eq [] (identifier_keys (scanned_tokens tokens))) ∧
      (token_loop env tokens {}).constant_map =
        indexed_from 0 (first_seen env.variant_eq [] (constant_keys (scanned_tokens tokens))) := by
  rw [token_loop_scanned]
  exact token_loop_tables env _ {} [] [] (scanned_tokens_not_eof tokens) rfl rfl

theorem token_index_identifier (env : Collaborators) (t : Token) (D : List StringName)
    (C : List Variant) (ht : t.type = .ANNOTATION ∨ t.type = .IDENTIFIER) :
    identifier_keys [t] = [t.get_identifier] ∧
      token_index env t (indexed_from 0 D) (indexed_from 0 C) =
        (first_seen name_eq D [t.get_identifier]).findIdx fun x => name_eq x t.get_identifier := by
  have hrefl : name_eq t.get_identifier t.get_identifier = true := by simp [name_eq]
  obtain ⟨_, f2⟩ := first_seen_index name_eq D t.get_identifier hrefl
  rw [f2]
  unfold token_index identifier_keys
  rcases ht with ht | ht <;> rw [ht] <;> simp only [has_indexed_from, indexed_from_length] <;>
    refine ⟨by simp [ht], ?_⟩ <;> split <;>
    first
    | rfl
    | (rename_i h; rw [get_indexed_from name_eq 0 D _ 0 h, Nat.zero_add])

theorem token_index_constant (env : Collaborators) (t : Token) (D : List StringName)
    (C : List Variant) (ht : t.type = .ERROR ∨ t.type = .LITERAL)
    (hrefl : env.variant_eq t.literal t.literal = true) :
    constant_keys [t] = [t.literal] ∧
      token_index env t (indexed_from 0 D) (indexed_from 0 C) =
        (first_seen env.variant_eq C [t.literal]).findIdx fun x => env.variant_eq x t.literal := by
  obtain ⟨_, f2⟩ := first_seen_index env.variant_eq C t.literal hrefl
  rw [f2]
  unfold token_index constant_keys
  rcases ht with ht | ht <;> rw [ht] <;> simp only [has_indexed_from, indexed_from_length] <;>
    refine ⟨by simp [ht], ?_⟩ <;> split <;>
    first
    | rfl
    | (rename_i h; rw [get_indexed_from env.variant_eq 0 C _ 0 h, Nat.zero_add])

/-- The index a value gets in the middle of a pass is its place in the table at the end
of the pass. -/
theorem first_seen_findIdx_stable {κ : Type} (eq : κ → κ → Bool) (pre : List κ) (k : κ)
    (post : List κ) (hrefl : eq k k = true) :
    ((first_seen eq [] (pre ++ k :: post)).findIdx fun x => eq x k) =
      (first_seen eq (first_seen eq [] pre) [k]).findIdx fun x => eq x k := by
  rw [show pre ++ k :: post = pre ++ ([k] ++ post) from rfl, first_seen_append,
    first_seen_append]
  obtain ⟨s, hs⟩ := first_seen_extends eq (first_seen eq (first_seen eq [] pre) [k]) post
  rw [hs]
  exact findIdx_append_of_any _ _ _ (first_seen_index eq _ k hrefl).1

theorem token_index_in_pass_identifier (env : Collaborators) (pre : List Token) (t : Token)
    (post : List Token) (hne : ∀ x ∈ pre, x.type ≠ .TK_EOF)
    (ht : t.type = .ANNOTATION ∨ t.type = .IDENTIFIER) :
    token_index env t (token_loop env pre {}).identifier_map (token_loop env pre {}).constant_map =
      (first_seen name_eq [] (identifier_keys (pre ++ t :: post))).findIdx
        fun x => name_eq x t.get_identifier := by
  obtain ⟨h1, h2⟩ := token_loop_tables env pre {} [] [] hne rfl rfl
  obtain ⟨k1, k2⟩ := token_index_identifier env t
    (first_seen name_eq [] (identifier_keys pre))
    (first_seen env.variant_eq [] (constant_keys pre)) ht
  rw [h1, h2, k2, show pre ++ t :: post = pre ++ ([t] ++ post) from rfl, identifier_keys_append,
    identifier_keys_append, k1]
  exact (first_seen_findIdx_stable name_eq _ _ _ (by simp [name_eq])).symm

theorem token_index_in_pass_constant (env : Collaborators) (pre : List Token) (t : Token)
    (post : List Token) (hne : ∀ x ∈ pre, x.type ≠ .TK_EOF)
    (ht : t.type = .ERROR ∨ t.type = .LITERAL)
    (hrefl : env.variant_eq t.literal t.literal = true) :
    token_index env t (token_loop env pre {}).identifier_map (token_loop env pre {}).constant_map =
      (first_seen env.variant_eq [] (constant_keys (pre ++ t :: post))).findIdx
        fun x => env.variant_eq x t.literal := by
  obtain ⟨h1, h2⟩ := token_loop_tables env pre {} [] [] hne rfl rfl
  obtain ⟨k1, k2⟩ := token_index_constant env t
    (first_seen name_eq [] (identifier_keys pre))
    (first_seen env.variant_eq [] (constant_keys pre)) ht hrefl
  rw [h1, h2, k2, show pre ++ t :: post = pre ++ ([t] ++ post) from rfl, constant_keys_append,
    constant_keys_append, k1]
  exact (first_seen_findIdx_stable env.variant_eq _ _ _ hrefl).symm

/-- C12. Interning determinism: over one encode pass of a token sequence, with a key
equality of the constant map that is an equivalence, each map is the table of the
distinct values in first-seen order with the indices 0, 1, 2, ...: no two of its values
are equal, its size is their number, and the reversed table holds them in that order;
the index a token embeds is the place of its value in that table (the number of
distinct values first seen before it), so that tokens with equal values embed the
same index. -/
theorem interning_deterministic (env : Collaborators) (tokens : List Token)
    (hrefl : ∀ a, env.variant_eq a a = true)
    (hsymm : ∀ a b, env.variant_eq a b = true → env.variant_eq b a = true)
    (htrans : ∀ a b c, env.variant_eq a b = true → env.variant_eq b c = true →
      env.variant_eq a c = true) :
    (token_loop env tokens {}).identifier_map =
        indexed_from 0 (first_seen name_eq [] (identifier_keys (scanned_tokens tokens))) ∧
      (token_loop env tokens {}).constant_map =
        indexed_from 0 (first_seen env.variant_eq [] (constant_keys (scanned_tokens tokens))) ∧
      (token_loop env tokens {}).identifier_map.length =
        (first_seen name_eq [] (identifier_keys (scanned_tokens tokens))).length ∧
      (token_loop env tokens {}).constant_map.length =
        (first_seen env.variant_eq [] (constant_keys (scanned_tokens tokens))).length ∧
      reverse_map (⟨[], []⟩ : StringName) (token_loop env tokens {}).identifier_map =
        first_seen name_eq [] (identifier_keys (scanned_tokens tokens)) ∧
      reverse_map Variant.NIL (token_loop env tokens {}).constant_map =
        first_seen env.variant_eq [] (constant_keys (scanned_tokens tokens)) ∧
      List.Pairwise (fun a b => name_eq a b = false)
        (first_seen name_eq [] (identifier_keys (scanned_tokens tokens))) ∧
      List.Pairwise (fun a b => env.variant_eq a b = false)
        (first_seen env.variant_eq [] (constant_keys (scanned_tokens tokens))) ∧
      (∀ pre t post, scanned_tokens tokens = pre ++ t :: post →
        (t.type = .ANNOTATION ∨ t.type = .IDENTIFIER) →
        token_index env t (token_loop env pre {}).identifier_map
            (token_loop env pre {}).constant_map =
          (first_seen name_eq [] (identifier_keys (scanned_tokens tokens))).findIdx
            fun x => name_eq x t.get_identifier) ∧
      (∀ pre t post, scanned_tokens tokens = pre ++ t :: post →
        (t.type = .ERROR ∨ t.type = .LITERAL) →
        token_index env t (token_loop env pre {}).identifier_map
            (token_loop env pre {}).constant_map =
          (first_seen env.variant_eq [] (constant_keys (scanned_tokens tokens))).findIdx
            fun x => env.variant_eq x t.literal) ∧
      (∀ pre t post pre2 t2 post2, scanned_tokens tokens = pre ++ t :: post →
        scanned_tokens tokens = pre2 ++ t2 :: post2 →
        (t.type = .ANNOTATION ∨ t.type = .IDENTIFIER) →
        (t2.type = .ANNOTATION ∨ t2.type = .IDENTIFIER) →
        name_eq t.get_identifier t2.get_identifier = true →
        token_index env t (token_loop env pre {}).identifier_map
            (token_loop env pre {}).constant_map =
          token_index env t2 (token_loop env pre2 {}).identifier_map
            (token_loop env pre2 {}).constant_map) ∧
      (∀ pre t post pre2 t2 post2, scanned_tokens tokens = pre ++ t :: post →
        scanned_tokens tokens = pre2 ++ t2 :: post2 →
        (t.type = .ERROR ∨ t.type = .LITERAL) → (t2.type = .ERROR ∨ t2.type = .LITERAL) →
        env.variant_eq t.literal t2.literal = true →
        token_index env t (token_loop env pre {}).identifier_map
            (token_loop env pre {}).constant_map =
          token_index env t2 (token_loop env pre2 {}).identifier_map
            (token_loop env pre2 {}).constant_map) := by
  obtain ⟨h1, h2⟩ := parse_tables env tokens
  have hne := scanned_tokens_not_eof tokens
  have hidx : ∀ pre t post, scanned_tokens tokens = pre ++ t :: post →
      (t.type = .ANNOTATION ∨ t.type = .IDENTIFIER) →
      token_index env t (token_loop env pre {}).identifier_map
          (token_loop env pre {}).constant_map =
        (first_seen name_eq [] (identifier_keys (scanned_tokens tokens))).findIdx
          fun x => name_eq x t.get_identifier := by
    intro pre t post hs ht
    rw [hs]
    apply token_index_in_pass_identifier env pre t post _ ht
    intro x hx
    exact hne x (by rw [hs]; exact List.mem_append_left _ hx)
  have hcon : ∀ pre t post, scanned_tokens tokens = pre ++ t :: post →
      (t.type = .ERROR ∨ t.type = .LITERAL) →
      token_index env t (token_loop env pre {}).identifier_map
          (token_loop env pre {}).constant_map =
        (first_seen env.variant_eq [] (constant_keys (scanned_tokens tokens))).findIdx
          fun x => env.variant_eq x t.literal := by
    intro pre t post hs ht
    rw [hs]
    apply token_index_in_pass_constant env pre t post _ ht (hrefl _)
    intro x hx
    exact hne x (by rw [hs]; exact List.mem_append_left _ hx)
  refine ⟨h1, h2, ?_, ?_, ?_, ?_, first_seen_pairwise _ _ _ List.Pairwise.nil,
    first_seen_pairwise _ _ _ List.Pairwise.nil, hidx, hcon, ?_, ?_⟩
  · rw [h1, indexed_from_length]
  · rw [h2, indexed_from_length]
  · rw [h1, reverse_map_indexed]
  · rw [h2, reverse_map_indexed]
  · intro pre t post pre2 t2 post2 hs hs2 ht ht2 hab
    rw [hidx pre t post hs ht, hidx pre2 t2 post2 hs2 ht2]
    have : (fun x => name_eq x t.get_identifier) = fun x => name_eq x t2.get_identifier := by
      funext x
      simp only [name_eq, beq_iff_eq] at hab ⊢
      rw [hab]
    rw [this]
  · intro pre t post pre2 t2 post2 hs hs2 ht ht2 hab
    rw [hcon pre t post hs ht, hcon pre2 t2 post2 hs2 ht2]
    have : (fun x => env.variant_eq x t.literal) = fun x => env.variant_eq x t2.literal := by
      funext x
      cases hxa : env.variant_eq x t.literal with
      | true => exact (htrans x _ _ hxa hab).symm
      | false =>
        cases hxb : env.variant_eq x t2.literal with
        | true => rw [htrans x _ _ hxb (hsymm _ _ hab)] at hxa; cases hxa
        | false => rfl
    rw [this]

theorem interning_deterministic_witness :
    (token_loop sample_env sample_lexed.tokens {}).identifier_map =
        indexed_from 0
          (first_seen name_eq [] (identifier_keys (scanned_tokens sample_lexed.tokens))) ∧
      reverse_map Variant.NIL (token_loop sample_env sample_lexed.tokens {}).constant_map =
        first_seen sample_env.variant_eq [] (constant_keys (scanned_tokens sample_lexed.tokens)) :=
  have h := interning_deterministic sample_env sample_lexed.tokens
    (fun a => by simp [sample_env, sample_variant_eq])
    (fun a b hab => by
      simp only [sample_env, sample_variant_eq, beq_iff_eq] at hab ⊢
      exact hab.symm)
    (fun a b c hab hbc => by
      simp only [sample_env, sample_variant_eq, beq_iff_eq] at hab hbc ⊢
      exact hab.trans hbc)
  ⟨h.1, h.2.2.2.2.2.1⟩

/-! ### `encode_variant`: the stores stay inside the buffer -/

theorem poke_take (mem : List Nat) (off : Nat) (bs : List Nat) (p0 : Nat) (h : p0 ≤ off) :
    (poke mem off bs).take p0 = mem.take p0 := by
  induction bs generalizing mem off with
  | nil => rfl
  | cons b bs ih =>
    rw [poke, ih _ _ (by omega), List.set_take, List.set_eq_of_length_le]
    rw [List.length_take]
    omega

theorem Cursor.frames_refl (p0 : Nat) (c : Cursor) (h : ∀ b, c.buf = some b → p0 ≤ b) :
    c.frames p0 c := ⟨h, rfl, rfl⟩

theorem Cursor.frames_trans {p0 : Nat} {c c2 c3 : Cursor} (h1 : c.frames p0 c2)
    (h2 : c2.frames p0 c3) : c.frames p0 c3 :=
  ⟨h2.1, h2.2.1.trans h1.2.1, h2.2.2.trans h1.2.2⟩

theorem Cursor.store_frames {p0 : Nat} {c d : Cursor} (h : c.frames p0 d) (off : Nat)
    (bytes : List Nat) : c.frames p0 (d.store off bytes) := by
  obtain ⟨h1, h2, h3⟩ := h
  unfold Cursor.store
  cases hb : d.buf with
  | none => simp only; exact ⟨fun b hb2 => h1 b hb2, h2, h3⟩
  | some p =>
    simp only
    refine ⟨fun b hb2 => h1 b (hb.trans hb2), ?_, ?_⟩
    · rw [poke_length]; exact h2
    · rw [poke_take _ _ _ _ (by have := h1 p hb; omega)]; exact h3

theorem Cursor.advance_frames {p0 : Nat} {c d : Cursor} (h : c.frames p0 d) (n : Nat) :
    c.frames p0 (d.advance n) := by
  obtain ⟨h1, h2, h3⟩ := h
  refine ⟨?_, h2, h3⟩
  intro b hb
  simp only [Cursor.advance, Option.map_eq_some'] at hb
  obtain ⟨a, ha, rfl⟩ := hb
  have := h1 a ha
  omega

theorem Cursor.add_len_frames {p0 : Nat} {c d : Cursor} (h : c.frames p0 d) (n : Nat) :
    c.frames p0 (d.add_len n) := h

theorem pad_loop_frames {p0 : Nat} {c : Cursor} (fuel : Nat) {d : Cursor}
    (h : c.frames p0 d) : c.frames p0 (pad_loop fuel d) := by
  induction fuel generalizing d with
  | zero => exact h
  | succ fuel ih =>
    rw [pad_loop]
    split
    · exact ih (Cursor.advance_frames (Cursor.store_frames (Cursor.add_len_frames h 1) 0 [0]) 1)
    · exact h

theorem _encode_string_frames {p0 : Nat} {c d : Cursor} (s : GString) (h : c.frames p0 d) :
    c.frames p0 (_encode_string s d) := by
  unfold _encode_string
  exact pad_loop_frames 3 (Cursor.add_len_frames (Cursor.advance_frames (Cursor.store_frames
    (Cursor.advance_frames (Cursor.store_frames h 0 _) 4) 0 _) _) _)

theorem encode_node_path_strings_frames {p0 : Nat} {c : Cursor} (strs : List GString)
    {d : Cursor} (h : c.frames p0 d) : c.frames p0 (encode_node_path_strings strs d) := by
  induction strs generalizing d with
  | nil => exact h
  | cons s rest ih =>
    rw [encode_node_path_strings]
    exact ih (Cursor.add_len_frames (Cursor.advance_frames (Cursor.store_frames
      (Cursor.advance_frames (Cursor.store_frames h 0 _) 4) 0 _) _) _)

theorem encode_packed_strings_frames {p0 : Nat} {c : Cursor} (strs : List GString)
    {d : Cursor} (h : c.frames p0 d) : c.frames p0 (encode_packed_strings strs d) := by
  induction strs generalizing d with
  | nil => exact h
  | cons s rest ih =>
    rw [encode_packed_strings]
    exact ih (pad_loop_frames 3 (Cursor.add_len_frames (Cursor.advance_frames
      (Cursor.store_frames (Cursor.advance_frames (Cursor.store_frames h 0 _) 4) 0 _) _) _))

theorem Cursor.frames_ok {p0 : Nat} {c d : Cursor} (h : c.frames p0 d) :
    d.ok.keeps p0 c.mem := ⟨h.2.1, h.2.2⟩

theorem Cursor.frames_fail {p0 : Nat} {c d : Cursor} (h : c.frames p0 d) (e : Error) :
    (d.fail e).keeps p0 c.mem := ⟨h.2.1, h.2.2⟩

theorem encode_array_typing_frames {p0 : Nat} {c d : Cursor} (array : ArrayTyping)
    (p_full_objects : Bool) (h : c.frames p0 d) :
    c.frames_outcome p0 (encode_array_typing array p_full_objects d) := by
  unfold encode_array_typing
  split
  · split
    · split
      · split
        · exact Cursor.frames_fail h _
        · exact _encode_string_frames _ h
      · exact _encode_string_frames _ h
    · split
      · exact _encode_string_frames _ h
      · exact Cursor.add_len_frames (Cursor.advance_frames (Cursor.store_frames h 0 _) 4) 4
  · exact h

theorem after_nested_frames {p0 : Nat} {c d : Cursor} (r : EncodeResult) (h : c.frames p0 d)
    (hr : r.keeps p0 d.mem) : c.frames_outcome p0 (after_nested d r) := by
  have hd : c.frames p0 { d with mem := r.mem } :=
    ⟨h.1, hr.1.trans h.2.1, hr.2.trans h.2.2⟩
  unfold after_nested
  simp only
  split
  · exact Cursor.frames_fail hd _
  · split
    · exact Cursor.frames_fail hd _
    · exact Cursor.advance_frames (Cursor.add_len_frames hd _) _

theorem encode_array_elements_frames {p0 : Nat} {c : Cursor}
    (enc : Variant → Option Nat → List Nat → EncodeResult)
    (henc : ∀ v b m, (∀ x, b = some x → p0 ≤ x) → (enc v b m).keeps p0 m)
    (elems : List Variant) {d : Cursor} (h : c.frames p0 d) :
    c.frames_outcome p0 (encode_array_elements enc elems d) := by
  induction elems generalizing d with
  | nil => exact h
  | cons v rest ih =>
    rw [encode_array_elements]
    have := after_nested_frames (enc v d.buf d.mem) h (henc v d.buf d.mem h.1)
    split
    · rename_i e he
      rw [he] at this
      exact this
    · rename_i d2 he
      rw [he] at this
      exact ih this

theorem encode_dictionary_pairs_frames {p0 : Nat} {c : Cursor}
    (enc : Variant → Option Nat → List Nat → EncodeResult)
    (henc : ∀ v b m, (∀ x, b = some x → p0 ≤ x) → (enc v b m).keeps p0 m)
    (pairs : List (Variant × Variant)) {d : Cursor} (h : c.frames p0 d) :
    c.frames_outcome p0 (encode_dictionary_pairs enc pairs d) := by
  induction pairs generalizing d with
  | nil => exact h
  | cons kv rest ih =>
    obtain ⟨k, v⟩ := kv
    rw [encode_dictionary_pairs]
    have h1 := after_nested_frames (enc k d.buf d.mem) h (henc k d.buf d.mem h.1)
    split
    · rename_i e he
      rw [he] at h1
      exact h1
    · rename_i d2 he
      rw [he] at h1
      have h2 := after_nested_frames (enc v d2.buf d2.mem) h1 (henc v d2.buf d2.mem h1.1)
      split
      · rename_i e he2
        rw [he2] at h2
        exact h2
      · rename_i d3 he2
        rw [he2] at h2
        exact ih h2

theorem encode_object_properties_frames {p0 : Nat} {c : Cursor}
    (enc : Variant → Option Nat → List Nat → EncodeResult)
    (henc : ∀ v b m, (∀ x, b = some x → p0 ≤ x) → (enc v b m).keeps p0 m)
    (script : Option ScriptRef) (props : List (PropertyInfo × Variant)) {d : Cursor}
    (h : c.frames p0 d) :
    c.frames_outcome p0 (encode_object_properties enc script props d) := by
  induction props generalizing d with
  | nil => exact h
  | cons p rest ih =>
    obtain ⟨E, got⟩ := p
    unfold encode_object_properties
    split
    · exact ih h
    · have hs := _encode_string_frames (c := c) E.name h
      simp only
      split
      · exact Cursor.frames_fail hs _
      · rename_i value hv
        have h1 := after_nested_frames (enc value _ _) hs (henc value _ _ hs.1)
        split
        · rename_i e he
          rw [he] at h1
          exact h1
        · rename_i d2 he
          rw [he] at h1
          exact ih h1

theorem Cursor.frames_outcome_ok {p0 : Nat} {c : Cursor} {o : Except EncodeResult Cursor}
    (h : c.frames_outcome p0 o) :
    (match o with
      | .error e => e
      | .ok c => c.ok).keeps p0 c.mem := by
  cases o with
  | error e => exact h
  | ok d => exact Cursor.frames_ok h

/-- The stores of `encode_variant` into a buffer at or above the offset `p0` leave the
memory below `p0`, and the length of the memory, as they were. -/
theorem encode_variant_fuel_keeps (cfg : BuildConfig) (p0 : Nat) (fuel : Nat) :
    ∀ (p_variant : Variant) (b : Option Nat) (m : List Nat) (r_len : Nat)
      (p_full_objects : Bool) (p_depth : Nat), (∀ x, b = some x → p0 ≤ x) →
    (encode_variant_fuel cfg fuel p_variant b m r_len p_full_objects p_depth).keeps p0 m := by
  induction fuel with
  | zero => intros; exact ⟨rfl, rfl⟩
  | succ fuel ih =>
    intro p_variant b m r_len p_full_objects p_depth hb
    have henc : ∀ (v : Variant) (b : Option Nat) (m : List Nat), (∀ x, b = some x → p0 ≤ x) →
        (encode_variant_fuel cfg fuel v b m 0 p_full_objects (p_depth + 1)).keeps p0 m :=
      fun v b m h => ih v b m 0 p_full_objects (p_depth + 1) h
    have h0 : (Cursor.mk b 0 m).frames p0 (Cursor.mk b 0 m) := Cursor.frames_refl p0 _ hb
    rw [encode_variant_fuel]
    split
    · exact ⟨rfl, rfl⟩
    · generalize encode_header cfg p_variant p_full_objects = oh
      cases oh with
      | none =>
        exact Cursor.frames_ok (c := ⟨b, 0, m⟩)
          (Cursor.add_len_frames (Cursor.store_frames h0 0 _) 4)
      | some header =>
        have h1 : (Cursor.mk b 0 m).frames p0
            ((((Cursor.mk b 0 m).store 0 (encode_uint32 header)).advance 4).add_len 4) :=
          Cursor.add_len_frames (Cursor.advance_frames (Cursor.store_frames h0 0 _) 4) 4
        simp only
        cases p_variant
        case DICTIONARY d =>
          exact Cursor.frames_outcome_ok (c := ⟨b, 0, m⟩) (encode_dictionary_pairs_frames _ henc d
            (Cursor.add_len_frames (Cursor.advance_frames (Cursor.store_frames h1 0 _) 4) 4))
        case ARRAY typing elems =>
          have ht := encode_array_typing_frames typing p_full_objects h1
          simp only
          split
          · rename_i e he
            rw [he] at ht
            exact ht
          · rename_i c0 hc0
            rw [hc0] at ht
            exact Cursor.frames_outcome_ok (c := ⟨b, 0, m⟩) (encode_array_elements_frames _ henc
              elems (Cursor.add_len_frames (Cursor.advance_frames
                (Cursor.store_frames ht 0 _) 4) 4))
        case OBJECT obj =>
          simp only
          split
          · split
            · exact Cursor.frames_ok (c := ⟨b, 0, m⟩)
                (Cursor.add_len_frames (Cursor.store_frames h1 0 _) 4)
            · split
              · exact Cursor.frames_fail (c := ⟨b, 0, m⟩) h1 _
              · exact Cursor.frames_outcome_ok (c := ⟨b, 0, m⟩)
                  (encode_object_properties_frames _ henc _ _
                    (Cursor.add_len_frames (Cursor.advance_frames (Cursor.store_frames
                      (_encode_string_frames _ h1) 0 _) 4) 4))
          · exact Cursor.frames_ok (c := ⟨b, 0, m⟩)
              (Cursor.add_len_frames (Cursor.store_frames h1 0 _) 8)
        all_goals
          simp only
          try split
          all_goals
            apply Cursor.frames_ok (c := ⟨b, 0, m⟩)
            repeat
              first
              | with_reducible exact h1
              | with_reducible apply Cursor.add_len_frames
              | with_reducible apply Cursor.store_frames
              | with_reducible apply Cursor.advance_frames
              | with_reducible apply pad_loop_frames
              | with_reducible apply _encode_string_frames
              | with_reducible apply encode_node_path_strings_frames
              | with_reducible apply encode_packed_strings_frames

theorem encode_variant_keeps (cfg : BuildConfig) (p_variant : Variant) (p : Nat)
    (m : List Nat) (r_len : Nat) (p_full_objects : Bool) (p_depth : Nat) :
    (encode_variant cfg p_variant (some p) m r_len p_full_objects p_depth).mem.length =
        m.length ∧
      (encode_variant cfg p_variant (some p) m r_len p_full_objects p_depth).mem.take p =
        m.take p :=
  encode_variant_fuel_keeps cfg p _ p_variant (some p) m r_len p_full_objects p_depth
    (fun x hx => by cases hx; exact Nat.le_refl _)

/-! ### The payload -/

theorem save_identifier_chars_layout (chars : List Nat) :
    ∀ (A Z : List Nat) (buf_pos : Nat), A.length = buf_pos → Z.length = 4 * chars.length →
    save_identifier_chars chars (A ++ Z) buf_pos =
      (A ++ chars.flatMap fun c => (encode_uint32 c).map fun b => b ^^^ 0xb6,
        buf_pos + 4 * chars.length) := by
  induction chars with
  | nil =>
    intro A Z buf_pos _ hZ
    have : Z = [] := List.length_eq_zero.mp (by simpa using hZ)
    simp [save_identifier_chars, this]
  | cons c rest ih =>
    intro A Z buf_pos hA hZ
    simp only [List.length_cons] at hZ
    have hlen : ((encode_uint32 c).map fun b => b ^^^ 0xb6).length = 4 := by
      simp [encode_uint32_length]
    rw [save_identifier_chars]
    rw [poke_append_right A _ Z buf_pos (by omega), hA, Nat.sub_self,
      poke_zero _ Z (by rw [hlen]; omega), hlen, ← List.append_assoc,
      ih (A ++ (encode_uint32 c).map fun b => b ^^^ 0xb6) (Z.drop 4) (buf_pos + 4)
        (by rw [List.length_append, hlen, hA]) (by rw [List.length_drop]; omega)]
    simp only [List.flatMap_cons, List.append_assoc, List.length_cons]
    congr 1
    omega

theorem xor_chars_length (chars : List Nat) :
    (chars.flatMap fun c => (encode_uint32 c).map fun b => b ^^^ 0xb6).length =
      4 * chars.length := by
  induction chars with
  | nil => rfl
  | cons c rest ih =>
    rw [List.flatMap_cons, List.length_append, ih, List.length_map, encode_uint32_length,
      List.length_cons]
    omega

theorem identifier_entry_length (id : StringName) :
    (identifier_entry id).length = 4 + 4 * id.chars.length := by
  rw [identifier_entry, List.length_append, encode_uint32_length, xor_chars_length]

theorem resize_extend (v : List Nat) (p k : Nat) (h : v.length = p) :
    resize v (p + k) = v ++ List.replicate k 0 := by
  unfold resize
  rw [List.take_of_length_le (by omega)]
  congr 2
  omega

theorem save_identifiers_layout (ids : List StringName) :
    ∀ (contents : List Nat) (buf_pos : Nat), contents.length = buf_pos →
    save_identifiers ids contents buf_pos =
      (contents ++ ids.flatMap identifier_entry,
        buf_pos + (ids.flatMap identifier_entry).length) := by
  induction ids with
  | nil => intro contents buf_pos _; simp [save_identifiers]
  | cons id rest ih =>
    intro contents buf_pos h
    rw [save_identifiers]
    simp only
    have hsplit : List.replicate ((id.chars.length + 1) * 4) 0 =
        List.replicate 4 0 ++ List.replicate (4 * id.chars.length) 0 := by
      rw [← List.replicate_add]
      congr 1
      omega
    rw [resize_extend contents buf_pos _ h, hsplit,
      poke_append_right contents _ _ buf_pos (by omega), h, Nat.sub_self,
      poke_zero _ _ (by simp [encode_uint32_length]), encode_uint32_length,
      List.drop_left' (by simp), ← List.append_assoc,
      save_identifier_chars_layout id.chars (contents ++ encode_uint32 id.chars.length) _
        (buf_pos + 4) (by rw [List.length_append, encode_uint32_length, h]) (by simp)]
    simp only
    rw [ih _ _ (by
      rw [List.length_append, List.length_append, encode_uint32_length, xor_chars_length, h])]
    have e1 : identifier_entry id = encode_uint32 id.chars.length ++
        id.chars.flatMap fun c => (encode_uint32 c).map fun b => b ^^^ 0xb6 := rfl
    rw [List.flatMap_cons, List.length_append, identifier_entry_length, e1]
    simp only [List.append_assoc, Prod.mk.injEq, true_and]
    omega

theorem save_pairs_layout (m : HashMap Nat Nat) :
    ∀ (A Z : List Nat) (buf_pos : Nat), A.length = buf_pos → 8 * m.length ≤ Z.length →
    save_pairs m (A ++ Z) buf_pos =
      (A ++ position_pairs m ++ Z.drop (8 * m.length), buf_pos + 8 * m.length) := by
  induction m with
  | nil => intro A Z buf_pos _ _; simp [save_pairs, position_pairs]
  | cons e rest ih =>
    intro A Z buf_pos hA hZ
    simp only [List.length_cons] at hZ
    rw [save_pairs]
    rw [poke_append_right A _ Z buf_pos (by omega), hA, Nat.sub_self,
      poke_zero _ Z (by rw [encode_uint32_length]; omega), encode_uint32_length,
      ← List.append_assoc,
      poke_append_right (A ++ encode_uint32 e.1) _ _ (buf_pos + 4)
        (by rw [List.length_append, encode_uint32_length, hA]),
      List.length_append, encode_uint32_length, hA, Nat.sub_self,
      poke_zero _ _ (by rw [encode_uint32_length, List.length_drop]; omega),
      encode_uint32_length, List.drop_drop, ← List.append_assoc,
      ih (A ++ encode_uint32 e.1 ++ encode_uint32 e.2) (Z.drop (4 + 4)) (buf_pos + 8)
        (by simp only [List.length_append, encode_uint32_length, hA])
        (by rw [List.length_drop]; omega)]
    simp only [position_pairs, List.flatMap_cons, List.append_assoc, List.drop_drop,
      List.length_cons, Prod.mk.injEq]
    constructor
    · have : 4 + 4 + 8 * rest.length = 8 * (rest.length + 1) := by omega
      rw [this]
    · omega

theorem encode_variant_entry_r_len (cfg : BuildConfig) (v : Variant) (b : Option Nat)
    (m : List Nat) (r1 r2 : Nat) (p_full_objects : Bool) :
    encode_variant cfg v b m r1 p_full_objects 0 =
      encode_variant cfg v b m r2 p_full_objects 0 := by
  obtain ⟨fuel, hfuel⟩ := fuel_of_depth (Nat.zero_le VARIANT_MAX_RECURSION_DEPTH)
  have hd : ¬ 0 > VARIANT_MAX_RECURSION_DEPTH := by decide
  unfold encode_variant
  rw [hfuel]
  rw [encode_variant_fuel, if_neg hd]
  conv_rhs => rw [encode_variant_fuel, if_neg hd]

theorem encode_variant_written_r_len (cfg : BuildConfig) (v : Variant) (p : Nat)
    (m : List Nat) (len : Nat) :
    (encode_variant cfg v (some p) m len false 0).r_len =
      (encode_variant cfg v none [] 0 false 0).r_len := by
  rw [encode_variant_entry_r_len cfg v (some p) m len 0]
  exact congrArg Prod.snd (encode_variant_fuel_code cfg _ v (some p) m none [] 0 false 0)

theorem save_constants_layout (cfg : BuildConfig) (vs : List Variant) :
    ∀ (contents : List Nat) (buf_pos : Nat) (c2 : List Nat) (p2 : Nat),
    contents.length = buf_pos → save_constants cfg vs contents buf_pos = some (c2, p2) →
    c2.length = p2 ∧ c2.take buf_pos = contents ∧
      p2 = buf_pos + (vs.map fun v => (encode_variant cfg v none [] 0 false 0).r_len).sum := by
  induction vs with
  | nil =>
    intro contents buf_pos c2 p2 h hs
    simp only [save_constants, Option.some.injEq, Prod.mk.injEq] at hs
    obtain ⟨rfl, rfl⟩ := hs
    exact ⟨h, by rw [← h, List.take_length], by simp⟩
  | cons v rest ih =>
    intro contents buf_pos c2 p2 h hs
    rw [save_constants] at hs
    simp only at hs
    split at hs
    · cases hs
    · have hlen : (encode_variant cfg v none contents 0 false 0).r_len =
          (encode_variant cfg v none [] 0 false 0).r_len :=
        congrArg Prod.snd (encode_variant_fuel_code cfg _ v none contents none [] 0 false 0)
      rw [hlen, encode_variant_written_r_len] at hs
      generalize hL : (encode_variant cfg v none [] 0 false 0).r_len = len at hs
      obtain ⟨k1, k2⟩ := encode_variant_keeps cfg v buf_pos (resize contents (buf_pos + len)) len
        false 0
      rw [resize_length] at k1
      obtain ⟨i1, i2, i3⟩ := ih _ _ c2 p2 k1 hs
      refine ⟨i1, ?_, ?_⟩
      · have : c2.take buf_pos = (c2.take (buf_pos + len)).take buf_pos := by
          rw [List.take_take, Nat.min_eq_left (by omega)]
        rw [this, i2, k2, resize_extend contents buf_pos len h,
          List.take_left' h]
      · rw [i3, List.map_cons, List.sum_cons, hL]
        omega

theorem header_layout (a b c d : Nat) :
    poke (poke (poke (poke (resize [] 20) 0 (encode_uint32 a)) 4 (encode_uint32 b)) 8
        (encode_uint32 c)) 16 (encode_uint32 d) =
      encode_uint32 a ++ encode_uint32 b ++ encode_uint32 c ++ [0, 0, 0, 0] ++ encode_uint32 d := by
  simp [resize, poke, encode_uint32, List.replicate]

theorem parse_code_string_contents_eq (cfg : BuildConfig) (env : Collaborators)
    (lexed : Lexed) :
    parse_code_string_contents cfg env lexed =
      match save_constants cfg (interned_constants env lexed)
          (save_identifiers
            (reverse_map (⟨[], []⟩ : StringName) (token_loop env lexed.tokens {}).identifier_map)
            (poke (poke (poke (poke (resize [] 20) 0
              (encode_uint32 (token_loop env lexed.tokens {}).identifier_map.length)) 4
              (encode_uint32 (token_loop env lexed.tokens {}).constant_map.length)) 8
              (encode_uint32 (position_index env lexed).1.length)) 16
              (encode_uint32 (token_loop env lexed.tokens {}).token_counter)) 20).1
          (save_identifiers
            (reverse_map (⟨[], []⟩ : StringName) (token_loop env lexed.tokens {}).identifier_map)
            (poke (poke (poke (poke (resize [] 20) 0
              (encode_uint32 (token_loop env lexed.tokens {}).identifier_map.length)) 4
              (encode_uint32 (token_loop env lexed.tokens {}).constant_map.length)) 8
              (encode_uint32 (position_index env lexed).1.length)) 16
              (encode_uint32 (token_loop env lexed.tokens {}).token_counter)) 20).2 with
      | none => none
      | some r =>
        some ((save_pairs (position_index env lexed).2
            (save_pairs (position_index env lexed).1
              (resize r.1 (r.2 + (position_index env lexed).1.length * 16)) r.2).1
            (save_pairs (position_index env lexed).1
              (resize r.1 (r.2 + (position_index env lexed).1.length * 16)) r.2).2).1 ++
          (token_loop env lexed.tokens {}).token_buffer) := by
  unfold parse_code_string_contents position_index interned_constants
  simp only
  split
  · rename_i h
    simp only [h]
  · rename_i c p h
    simp only [h]

theorem position_pairs_length (m : HashMap Nat Nat) :
    (position_pairs m).length = 8 * m.length := by
  induction m with
  | nil => rfl
  | cons e rest ih =>
    have : position_pairs (e :: rest) =
        encode_uint32 e.1 ++ encode_uint32 e.2 ++ position_pairs rest := by
      simp [position_pairs]
    rw [this, List.length_append, List.length_append, encode_uint32_length,
      encode_uint32_length, ih, List.length_cons]
    omega

theorem position_index_keys (env : Collaborators) (lexed : Lexed) :
    (position_index env lexed).1.map Prod.fst = (position_index env lexed).2.map Prod.fst := by
  obtain ⟨k1, k2⟩ := position_index_kept env lexed
  rw [k1, k2, List.map_map, List.map_map]
  rfl

theorem position_index_lengths (env : Collaborators) (lexed : Lexed) :
    (position_index env lexed).2.length = (position_index env lexed).1.length := by
  have := congrArg List.length (position_index_keys env lexed)
  simpa using this.symm

/-- The payload of `parse_code_string`, section by section. -/
theorem parse_code_string_contents_layout (cfg : BuildConfig) (env : Collaborators)
    (lexed : Lexed) (contents : List Nat)
    (h : parse_code_string_contents cfg env lexed = some contents) :
    ∃ reserved constants : List Nat, reserved.length = 4 ∧
      constants.length = ((interned_constants env lexed).map fun v =>
        (encode_variant cfg v none [] 0 false 0).r_len).sum ∧
      contents =
        encode_uint32 (token_loop env lexed.tokens {}).identifier_map.length ++
          encode_uint32 (token_loop env lexed.tokens {}).constant_map.length ++
          encode_uint32 (position_index env lexed).1.length ++ reserved ++
          encode_uint32 (token_loop env lexed.tokens {}).token_counter ++
          (reverse_map (⟨[], []⟩ : StringName)
            (token_loop env lexed.tokens {}).identifier_map).flatMap identifier_entry ++
          constants ++ position_pairs (position_index env lexed).1 ++
          position_pairs (position_index env lexed).2 ++
          (token_loop env lexed.tokens {}).token_buffer := by
  rw [parse_code_string_contents_eq, header_layout] at h
  generalize hH : encode_uint32 (token_loop env lexed.tokens {}).identifier_map.length ++
    encode_uint32 (token_loop env lexed.tokens {}).constant_map.length ++
    encode_uint32 (position_index env lexed).1.length ++ [0, 0, 0, 0] ++
    encode_uint32 (token_loop env lexed.tokens {}).token_counter = H at h
  have hHlen : H.length = 20 := by
    rw [← hH]
    simp [encode_uint32_length]
  rw [save_identifiers_layout _ H 20 hHlen] at h
  simp only at h
  generalize hI : (reverse_map (⟨[], []⟩ : StringName)
    (token_loop env lexed.tokens {}).identifier_map).flatMap identifier_entry = I at h
  cases hsc : save_constants cfg (interned_constants env lexed) (H ++ I) (20 + I.length) with
  | none => rw [hsc] at h; cases h
  | some r =>
    rw [hsc] at h
    simp only [Option.some.injEq] at h
    obtain ⟨c2, p2⟩ := r
    obtain ⟨l1, l2, l3⟩ := save_constants_layout cfg _ (H ++ I) (20 + I.length) c2 p2
      (by rw [List.length_append, hHlen]) hsc
    simp only at h
    have hc2 : c2 = H ++ I ++ c2.drop (20 + I.length) := by
      conv_lhs => rw [← List.take_append_drop (20 + I.length) c2, l2]
    have hn := position_index_lengths env lexed
    generalize (position_index env lexed).1 = tl at h hn hH ⊢
    generalize (position_index env lexed).2 = tc at h hn ⊢
    rw [resize_extend c2 p2 _ l1,
      save_pairs_layout tl c2 _ p2 l1 (by rw [List.length_replicate]; omega)] at h
    simp only at h
    rw [save_pairs_layout tc (c2 ++ position_pairs tl) _ (p2 + 8 * tl.length)
      (by rw [List.length_append, position_pairs_length, l1])
      (by rw [List.length_drop, List.length_replicate, hn]; omega)] at h
    simp only at h
    have hz : List.drop (8 * tc.length) (List.drop (8 * tl.length)
        (List.replicate (tl.length * 16) 0)) = [] := by
      apply List.drop_of_length_le
      rw [List.length_drop, List.length_replicate, hn]
      omega
    rw [hz, List.append_nil] at h
    refine ⟨[0, 0, 0, 0], c2.drop (20 + I.length), rfl, ?_, ?_⟩
    · rw [List.length_drop, l1, l3]
      omega
    · rw [← h, hH]
      conv_lhs => rw [hc2]

theorem interned_constants_eq (env : Collaborators) (lexed : Lexed) :
    interned_constants env lexed =
      first_seen env.variant_eq [] (constant_keys (scanned_tokens lexed.tokens)) := by
  unfold interned_constants
  rw [(parse_tables env lexed.tokens).2, reverse_map_indexed]

theorem take_four_append (W rest : List Nat) (h : W.length = 4) : (W ++ rest).take 4 = W := by
  rw [← h, List.take_left]

/-- C15. Payload header: a payload `parse_code_string` builds starts with the
little-endian 32-bit words, at the offsets 0, 4, 8 and 16, of the number of distinct
identifiers, the number of distinct constants, the number of entries of the position
index after the removal of continuation lines, and the number of tokens scanned before
`TK_EOF`; from offset 20 on follow the identifier section, the constant section (as
long as the encoded constants), the position section and the token records, in that
order. -/
theorem payload_header (cfg : BuildConfig) (env : Collaborators) (lexed : Lexed)
    (contents : List Nat) (h : parse_code_string_contents cfg env lexed = some contents) :
    contents.take 4 = encode_uint32
        (first_seen name_eq [] (identifier_keys (scanned_tokens lexed.tokens))).length ∧
      (contents.drop 4).take 4 = encode_uint32
        (first_seen env.variant_eq [] (constant_keys (scanned_tokens lexed.tokens))).length ∧
      (contents.drop 8).take 4 = encode_uint32 (position_index env lexed).1.length ∧
      (contents.drop 16).take 4 = encode_uint32 (scanned_tokens lexed.tokens).length ∧
      ∃ constants : List Nat,
        constants.length =
          ((first_seen env.variant_eq [] (constant_keys (scanned_tokens lexed.tokens))).map
            fun v => (encode_variant cfg v none [] 0 false 0).r_len).sum ∧
        contents.drop 20 =
          (first_seen name_eq [] (identifier_keys (scanned_tokens lexed.tokens))).flatMap
              identifier_entry ++
            constants ++
            (position_pairs (position_index env lexed).1 ++
              position_pairs (position_index env lexed).2) ++
            (token_loop env lexed.tokens {}).token_buffer := by
  obtain ⟨reserved, constants, hr, hc, hl⟩ := parse_code_string_contents_layout cfg env lexed
    contents h
  obtain ⟨t1, t2⟩ := parse_tables env lexed.tokens
  obtain ⟨_, _, t3⟩ := parse_positions env lexed.tokens
  rw [interned_constants_eq] at hc
  rw [t1, t2, t3, reverse_map_indexed, indexed_from_length, indexed_from_length] at hl
  rw [hl]
  simp only [List.append_assoc]
  refine ⟨take_four_append _ _ (encode_uint32_length _), ?_, ?_, ?_, constants, hc, ?_⟩
  · rw [List.drop_left' (encode_uint32_length _)]
    exact take_four_append _ _ (encode_uint32_length _)
  · rw [← List.append_assoc, List.drop_left' (by simp [encode_uint32_length])]
    exact take_four_append _ _ (encode_uint32_length _)
  · rw [← List.append_assoc, ← List.append_assoc, ← List.append_assoc,
      List.drop_left' (by simp [encode_uint32_length, hr])]
    exact take_four_append _ _ (encode_uint32_length _)
  · rw [← List.append_assoc, ← List.append_assoc, ← List.append_assoc, ← List.append_assoc,
      List.drop_left' (by simp [encode_uint32_length, hr])]

theorem payload_header_witness :
    sample_payload.take 4 = encode_uint32
        (first_seen name_eq [] (identifier_keys (scanned_tokens sample_lexed.tokens))).length ∧
      (sample_payload.drop 4).take 4 = encode_uint32
        (first_seen sample_env.variant_eq []
          (constant_keys (scanned_tokens sample_lexed.tokens))).length ∧
      (sample_payload.drop 8).take 4 =
        encode_uint32 (position_index sample_env sample_lexed).1.length ∧
      (sample_payload.drop 16).take 4 =
        encode_uint32 (scanned_tokens sample_lexed.tokens).length ∧
      ∃ constants : List Nat,
        constants.length =
          ((first_seen sample_env.variant_eq []
            (constant_keys (scanned_tokens sample_lexed.tokens))).map
            fun v => (encode_variant host_config v none [] 0 false 0).r_len).sum ∧
        sample_payload.drop 20 =
          (first_seen name_eq [] (identifier_keys (scanned_tokens sample_lexed.tokens))).flatMap
              identifier_entry ++
            constants ++
            (position_pairs (position_index sample_env sample_lexed).1 ++
              position_pairs (position_index sample_env sample_lexed).2) ++
            (token_loop sample_env sample_lexed.tokens {}).token_buffer :=
  payload_header host_config sample_env sample_lexed sample_payload (by decide)

/-- C16. Uncompressed wrapping: when every interned constant encodes without an error,
`parse_code_string` has a payload, and in `COMPRESS_NONE` mode returns the bytes
`G`, `D`, `S`, `C`, the little-endian 32-bit version (100), a 32-bit 0 and the payload
as it is; the result is 12 bytes longer than the payload. -/
theorem parse_code_string_uncompressed (cfg : BuildConfig) (env : Collaborators)
    (lexed : Lexed)
    (h : ∀ v ∈ interned_constants env lexed, (encode_variant cfg v none [] 0 false 0).err = .OK) :
    ∃ payload : List Nat, parse_code_string_contents cfg env lexed = some payload ∧
      parse_code_string cfg env lexed .COMPRESS_NONE =
        ['G'.toNat, 'D'.toNat, 'S'.toNat, 'C'.toNat] ++ encode_uint32 TOKENIZER_VERSION ++
          encode_uint32 0 ++ payload ∧
      TOKENIZER_VERSION = 100 ∧
      (parse_code_string cfg env lexed .COMPRESS_NONE).length = 12 + payload.length := by
  cases hp : parse_code_string_contents cfg env lexed with
  | none =>
    obtain ⟨v, hv, hne⟩ := (parse_code_string_contents_none cfg env lexed).mp hp
    exact absurd (h v hv) hne
  | some payload =>
    have hw : parse_code_string cfg env lexed .COMPRESS_NONE =
        ['G'.toNat, 'D'.toNat, 'S'.toNat, 'C'.toNat] ++ encode_uint32 TOKENIZER_VERSION ++
          encode_uint32 0 ++ payload := by
      unfold parse_code_string
      rw [hp]
      rfl
    refine ⟨payload, rfl, hw, rfl, ?_⟩
    rw [hw]
    simp [encode_uint32_length]
    omega

theorem parse_code_string_uncompressed_witness :
    ∃ payload : List Nat,
      parse_code_string_contents host_config sample_env sample_lexed = some payload ∧
      parse_code_string host_config sample_env sample_lexed .COMPRESS_NONE =
        ['G'.toNat, 'D'.toNat, 'S'.toNat, 'C'.toNat] ++ encode_uint32 TOKENIZER_VERSION ++
          encode_uint32 0 ++ payload ∧
      TOKENIZER_VERSION = 100 ∧
      (parse_code_string host_config sample_env sample_lexed .COMPRESS_NONE).length =
        12 + payload.length :=
  parse_code_string_uncompressed host_config sample_env sample_lexed (by decide)

theorem xor_byte (c s : Nat) (hK : (0xB6B6B6B6 >>> s) % 2 ^ 8 = 0xb6) :
    (c / 2 ^ s % 2 ^ 8) ^^^ 0xb6 = (c ^^^ 0xB6B6B6B6) / 2 ^ s % 2 ^ 8 := by
  apply Nat.eq_of_testBit_eq
  intro j
  have hk := congrArg (fun x => x.testBit j) hK
  simp only [Nat.testBit_mod_two_pow, Nat.testBit_shiftRight] at hk
  rw [← Nat.shiftRight_eq_div_pow, ← Nat.shiftRight_eq_div_pow, Nat.testBit_xor,
    Nat.testBit_mod_two_pow, Nat.testBit_mod_two_pow, Nat.testBit_shiftRight,
    Nat.testBit_shiftRight, Nat.testBit_xor]
  by_cases hj : j < 8
  · simp only [hj, decide_True, Bool.true_and] at hk ⊢
    rw [hk]
  · have h0 : Nat.testBit 0xb6 j = false := by
      apply Nat.testBit_lt_two_pow
      exact lt_of_lt_of_le (by decide : 0xb6 < 2 ^ 8) (Nat.pow_le_pow_right (by decide) (by omega))
    simp [hj, h0]

theorem encode_uint32_xor (c : Nat) :
    (encode_uint32 c).map (fun b => b ^^^ 0xb6) = encode_uint32 (c ^^^ 0xB6B6B6B6) := by
  have h0 := xor_byte c 0 (by decide)
  have h1 := xor_byte c 8 (by decide)
  have h2 := xor_byte c 16 (by decide)
  have h3 := xor_byte c 24 (by decide)
  simp only [Nat.pow_zero, Nat.div_one, Nat.reducePow] at h0 h1 h2 h3
  simp only [encode_uint32, List.map_cons, List.map_nil, h0, h1, h2, h3]

theorem xor_twice (b k : Nat) : (b ^^^ k) ^^^ k = b := by
  rw [Nat.xor_assoc, Nat.xor_self, Nat.xor_zero]

/-- C17. Identifier entry format: the loop "Save identifiers" appends, for every
identifier of the table, the entry `identifier_entry`, and the identifier section of a
payload is these entries; the entry of an identifier of `n` code points has `4 + 4n`
bytes: the little-endian 32-bit `n`, then for every code point `c` the bytes of its
little-endian encoding each XORed with `0xb6`, which are the little-endian encoding of
`c XOR 0xB6B6B6B6`; XORing the stored bytes with `0xb6` again gives back the encoding
of `c`, and so `c` itself when it fits 32 bits. -/
theorem identifier_entry_format :
    (∀ (ids : List StringName) (contents : List Nat),
      (save_identifiers ids contents contents.length).1 =
        contents ++ ids.flatMap identifier_entry) ∧
    (∀ (cfg : BuildConfig) (env : Collaborators) (lexed : Lexed) (contents : List Nat),
      parse_code_string_contents cfg env lexed = some contents →
      ∃ rest, contents.drop 20 =
        (reverse_map (⟨[], []⟩ : StringName)
          (token_loop env lexed.tokens {}).identifier_map).flatMap identifier_entry ++ rest) ∧
    (∀ id : StringName,
      (identifier_entry id).length = 4 + 4 * id.chars.length ∧
      identifier_entry id = encode_uint32 id.chars.length ++
        id.chars.flatMap fun c => encode_uint32 (c ^^^ 0xB6B6B6B6)) ∧
    (∀ c : Nat,
      (encode_uint32 c).map (fun b => b ^^^ 0xb6) = encode_uint32 (c ^^^ 0xB6B6B6B6) ∧
      ((encode_uint32 c).map fun b => b ^^^ 0xb6).map (fun b => b ^^^ 0xb6) = encode_uint32 c ∧
      (c < 4294967296 →
        decode_uint32 (((encode_uint32 c).map fun b => b ^^^ 0xb6).map fun b => b ^^^ 0xb6) =
          c)) := by
  have hx : ∀ c : Nat,
      ((encode_uint32 c).map fun b => b ^^^ 0xb6).map (fun b => b ^^^ 0xb6) = encode_uint32 c := by
    intro c
    rw [List.map_map]
    have : ((fun b => b ^^^ 0xb6) ∘ fun b => b ^^^ 0xb6) = (id : Nat → Nat) := by
      funext b
      exact xor_twice b 0xb6
    rw [this, List.map_id]
  refine ⟨?_, ?_, ?_, ?_⟩
  · intro ids contents
    rw [save_identifiers_layout ids contents contents.length rfl]
  · intro cfg env lexed contents h
    obtain ⟨reserved, constants, hr, _, hl⟩ := parse_code_string_contents_layout cfg env lexed
      contents h
    refine ⟨constants ++ position_pairs (position_index env lexed).1 ++
      position_pairs (position_index env lexed).2 ++
      (token_loop env lexed.tokens {}).token_buffer, ?_⟩
    rw [hl]
    simp only [List.append_assoc]
    rw [← List.append_assoc, ← List.append_assoc, ← List.append_assoc, ← List.append_assoc,
      List.drop_left' (by simp [encode_uint32_length, hr])]
  · intro id
    refine ⟨identifier_entry_length id, ?_⟩
    unfold identifier_entry
    congr 2
    funext c
    exact encode_uint32_xor c
  · intro c
    refine ⟨encode_uint32_xor c, hx c, ?_⟩
    intro hc
    rw [hx, decode_encode_uint32, Nat.mod_eq_of_lt hc]

/-- C18. Position section layout: the two tables of the position index hold the same
ordinals in the same order, so that they are equally long and the i-th line pair and
the i-th column pair belong to the same token; the position section of a payload is
the line pairs followed by the column pairs, each pair the little-endian 32-bit ordinal
and value, 16 bytes for every entry of the line table, and the token records follow
it. -/
theorem position_section_layout (cfg : BuildConfig) (env : Collaborators) (lexed : Lexed) :
    (position_index env lexed).1.map Prod.fst = (position_index env lexed).2.map Prod.fst ∧
      (position_index env lexed).2.length = (position_index env lexed).1.length ∧
      (position_pairs (position_index env lexed).1 ++
        position_pairs (position_index env lexed).2).length =
          16 * (position_index env lexed).1.length ∧
      (∀ m : HashMap Nat Nat,
        position_pairs m = m.flatMap fun e => encode_uint32 e.1 ++ encode_uint32 e.2) ∧
      (∀ contents, parse_code_string_contents cfg env lexed = some contents →
        ∃ front : List Nat,
          front.length = 20 +
            ((reverse_map (⟨[], []⟩ : StringName)
              (token_loop env lexed.tokens {}).identifier_map).flatMap identifier_entry).length +
            ((interned_constants env lexed).map fun v =>
              (encode_variant cfg v none [] 0 false 0).r_len).sum ∧
          contents = front ++
            (position_pairs (position_index env lexed).1 ++
              position_pairs (position_index env lexed).2) ++
            (token_loop env lexed.tokens {}).token_buffer) := by
  have hn := position_index_lengths env lexed
  refine ⟨position_index_keys env lexed, hn, ?_, fun _ => rfl, ?_⟩
  · rw [List.length_append, position_pairs_length, position_pairs_length, hn]
    omega
  · intro contents h
    obtain ⟨reserved, constants, hr, hc, hl⟩ := parse_code_string_contents_layout cfg env lexed
      contents h
    refine ⟨encode_uint32 (token_loop env lexed.tokens {}).identifier_map.length ++
      encode_uint32 (token_loop env lexed.tokens {}).constant_map.length ++
      encode_uint32 (position_index env lexed).1.length ++ reserved ++
      encode_uint32 (token_loop env lexed.tokens {}).token_counter ++
      (reverse_map (⟨[], []⟩ : StringName)
        (token_loop env lexed.tokens {}).identifier_map).flatMap identifier_entry ++
      constants, ?_, ?_⟩
    · simp only [List.length_append, encode_uint32_length, hr, hc]
    · rw [hl]
      simp only [List.append_assoc]

/-! ### Continuation lines are not serialized -/

/-- C14. Continuation-line suppression: for tokens in source order and every list of
continuation lines, after the removal pass no entry of the line table holds a line of
the list, and no entry of the column table belongs to an ordinal whose line (as the
token loop recorded it) is in the list; the position section of a payload is the
entries of these two tables and nothing else. -/
theorem continuation_lines_suppressed (cfg : BuildConfig) (env : Collaborators) (lexed : Lexed)
    (h : in_source_order 0 (scanned_tokens lexed.tokens) = true) :
    (∀ e ∈ (position_index env lexed).1, e.2 ∉ lexed.continuation_lines) ∧
      (∀ e ∈ (position_index env lexed).2,
        HashMap.get int_eq (token_loop env lexed.tokens {}).token_lines e.1 0 ∉
          lexed.continuation_lines) ∧
      (∀ contents, parse_code_string_contents cfg env lexed = some contents →
        ∃ front : List Nat,
          front.length = 20 +
            ((reverse_map (⟨[], []⟩ : StringName)
              (token_loop env lexed.tokens {}).identifier_map).flatMap identifier_entry).length +
            ((interned_constants env lexed).map fun v =>
              (encode_variant cfg v none [] 0 false 0).r_len).sum ∧
          contents = front ++
            (position_pairs (position_index env lexed).1 ++
              position_pairs (position_index env lexed).2) ++
            (token_loop env lexed.tokens {}).token_buffer) := by
  obtain ⟨k1, k2⟩ := position_index_kept env lexed
  obtain ⟨hl, _, _⟩ := parse_positions env lexed.tokens
  refine ⟨?_, ?_, ?_⟩
  · intro e he hc
    rw [k1, List.mem_map] at he
    obtain ⟨r, hr, rfl⟩ := he
    rw [List.mem_filter] at hr
    have := continuation_entry_dropped env lexed h r hr.1 hc
    rw [this] at hr
    exact absurd hr.2 (by decide)
  · intro e he hc
    rw [k2, List.mem_map] at he
    obtain ⟨r, hr, rfl⟩ := he
    rw [List.mem_filter] at hr
    have hu := pairwise_lt_unique (fun a : Nat × Token => a.1) _
      (recorded_positions_ordinals 0 0 (scanned_tokens lexed.tokens))
    rw [hl, HashMap.get_map_of_mem (fun t => t.start_line) _ r 0 hu hr.1] at hc
    have := continuation_entry_dropped env lexed h r hr.1 hc
    rw [this] at hr
    exact absurd hr.2 (by decide)
  · intro contents hp
    obtain ⟨reserved, constants, hr, hc, hlay⟩ := parse_code_string_contents_layout cfg env
      lexed contents hp
    refine ⟨encode_uint32 (token_loop env lexed.tokens {}).identifier_map.length ++
      encode_uint32 (token_loop env lexed.tokens {}).constant_map.length ++
      encode_uint32 (position_index env lexed).1.length ++ reserved ++
      encode_uint32 (token_loop env lexed.tokens {}).token_counter ++
      (reverse_map (⟨[], []⟩ : StringName)
        (token_loop env lexed.tokens {}).identifier_map).flatMap identifier_entry ++
      constants, ?_, ?_⟩
    · simp only [List.length_append, encode_uint32_length, hr, hc]
    · rw [hlay]
      simp only [List.append_assoc]

theorem continuation_lines_suppressed_witness :
    (∀ e ∈ (position_index sample_env sample_lexed).1, e.2 ∉ sample_lexed.continuation_lines) ∧
      (∀ e ∈ (position_index sample_env sample_lexed).2,
        HashMap.get int_eq (token_loop sample_env sample_lexed.tokens {}).token_lines e.1 0 ∉
          sample_lexed.continuation_lines) :=
  have h := continuation_lines_suppressed host_config sample_env sample_lexed (by decide)
  ⟨h.1, h.2.1⟩

/-! ### `encode_variant`: objects that are not null -/

/-- C30. Non-null objects always encode as nil: on an `OBJECT` value whose pointer is
not null, at a depth the guard admits and in either object mode, `encode_variant`
returns `OK` with `r_len = 4` after storing the nil type tag as the only word, whatever
the object is (its class, its properties and its script are not looked at); and no
`OBJECT` value at all, null or not, makes `encode_variant` return an error. -/
theorem encode_variant_object_as_nil (cfg : BuildConfig) (r_buffer : Option Nat)
    (mem : List Nat) (r_len : Nat) (p_full_objects : Bool) (p_depth : Nat)
    (hdepth : p_depth ≤ VARIANT_MAX_RECURSION_DEPTH) :
    (∀ o : ObjectData Variant,
      encode_variant cfg (.OBJECT (some o)) r_buffer mem r_len p_full_objects p_depth =
        ⟨.OK, 4, match r_buffer with
          | none => mem
          | some p => poke mem p (encode_uint32 (cfg.type_id .NIL))⟩) ∧
      (∀ obj : Option (ObjectData Variant),
        (encode_variant cfg (.OBJECT obj) r_buffer mem r_len p_full_objects p_depth).err =
          .OK) := by
  obtain ⟨fuel, hfuel⟩ := fuel_of_depth hdepth
  have hd : ¬ p_depth > VARIANT_MAX_RECURSION_DEPTH := by omega
  constructor
  · intro o
    unfold encode_variant
    rw [hfuel, encode_variant_fuel, if_neg hd]
    cases r_buffer <;> simp [encode_header, Cursor.ok, Cursor.store, Cursor.add_len]
  · intro obj
    unfold encode_variant
    rw [hfuel, encode_variant_fuel, if_neg hd]
    cases obj <;> cases p_full_objects <;> simp [encode_header]

theorem encode_variant_object_as_nil_witness :
    (∀ o : ObjectData Variant,
      encode_variant host_config (.OBJECT (some o)) (some 0) [9, 9, 9, 9] 0 true 0 =
        ⟨.OK, 4, match (some 0 : Option Nat) with
          | none => [9, 9, 9, 9]
          | some p => poke [9, 9, 9, 9] p (encode_uint32 (host_config.type_id .NIL))⟩) ∧
      (∀ obj : Option (ObjectData Variant),
        (encode_variant host_config (.OBJECT obj) (some 0) [9, 9, 9, 9] 0 true 0).err = .OK) :=
  encode_variant_object_as_nil host_config (some 0) [9, 9, 9, 9] 0 true 0 (by decide)
/-! ### `encode_variant`: strings -/

theorem poke_poke (xs : List Nat) : ∀ (m : List Nat) (off : Nat) (ys : List Nat),
    poke (poke m off xs) (off + xs.length) ys = poke m off (xs ++ ys) := by
  induction xs with
  | nil => intro m off ys; rfl
  | cons x xs ih =>
    intro m off ys
    rw [List.cons_append, poke, poke, ← ih, List.length_cons]
    congr 1
    omega

theorem poke_into (A bytes Z : List Nat) (h : bytes.length ≤ Z.length) :
    poke (A ++ Z) A.length bytes = A ++ bytes ++ Z.drop bytes.length := by
  rw [poke_append_right A bytes Z A.length (Nat.le_refl _), Nat.sub_self, poke_zero bytes Z h,
    List.append_assoc]

theorem pad_loop_eq (fuel : Nat) : ∀ c : Cursor, (4 - c.r_len % 4) % 4 ≤ fuel →
    pad_loop fuel c =
      ⟨c.buf.map (· + (4 - c.r_len % 4) % 4), c.r_len + (4 - c.r_len % 4) % 4,
        match c.buf with
        | none => c.mem
        | some b => poke c.mem b (List.replicate ((4 - c.r_len % 4) % 4) 0)⟩ := by
  induction fuel with
  | zero =>
    intro c h
    obtain ⟨buf, r_len, mem⟩ := c
    simp only at h ⊢
    have hk : (4 - r_len % 4) % 4 = 0 := by omega
    rw [hk, pad_loop]
    cases buf <;> simp [poke]
  | succ fuel ih =>
    intro c h
    obtain ⟨buf, r_len, mem⟩ := c
    simp only at h ⊢
    rw [pad_loop]
    by_cases hr : r_len % 4 ≠ 0
    · have hk : (4 - r_len % 4) % 4 = (4 - (r_len + 1) % 4) % 4 + 1 := by omega
      simp only
      rw [if_pos hr, ih _ (by simp only [Cursor.advance_r_len, Cursor.store_r_len,
        Cursor.add_len_r_len]; omega)]
      cases buf with
      | none =>
        simp only [Cursor.advance, Cursor.store, Cursor.add_len, Option.map_none',
          Cursor.mk.injEq, true_and, and_true]
        omega
      | some b =>
        simp only [Cursor.advance, Cursor.store, Cursor.add_len, Option.map_some',
          Cursor.mk.injEq, Option.some.injEq, Nat.add_zero]
        refine ⟨by omega, by omega, ?_⟩
        rw [hk, List.replicate_succ]
        rfl
    · have hk : (4 - r_len % 4) % 4 = 0 := by omega
      simp only
      rw [if_neg hr, hk]
      cases buf <;> simp [poke]

theorem encoded_string_length (utf8 : List Nat) :
    (encoded_string utf8).length = 4 + utf8.length + (4 - utf8.length % 4) % 4 := by
  simp only [encoded_string, List.length_append, encode_uint32_length, List.length_replicate]

theorem _encode_string_eq (s : GString) (c : Cursor) (h : c.r_len % 4 = 0) :
    _encode_string s c =
      ⟨c.buf.map (· + (encoded_string s.utf8).length),
        c.r_len + (encoded_string s.utf8).length,
        match c.buf with
        | none => c.mem
        | some b => poke c.mem b (encoded_string s.utf8)⟩ := by
  obtain ⟨buf, r_len, mem⟩ := c
  simp only at h ⊢
  have hk : (4 - (r_len + (4 + s.utf8.length)) % 4) % 4 = (4 - s.utf8.length % 4) % 4 := by
    omega
  unfold _encode_string
  rw [pad_loop_eq 3 _ (by omega)]
  cases buf with
  | none =>
    simp only [Cursor.advance, Cursor.store, Cursor.add_len, Option.map_none',
      encoded_string_length, hk, Cursor.mk.injEq, true_and, and_true]
    omega
  | some b =>
    simp only [Cursor.advance, Cursor.store, Cursor.add_len, Option.map_some',
      encoded_string_length, hk, Nat.add_zero, Cursor.mk.injEq, Option.some.injEq]
    refine ⟨by omega, by omega, ?_⟩
    have e1 := poke_poke (encode_uint32 s.utf8.length) mem b s.utf8
    rw [encode_uint32_length] at e1
    rw [e1]
    have e2 := poke_poke (encode_uint32 s.utf8.length ++ s.utf8) mem b
      (List.replicate ((4 - s.utf8.length % 4) % 4) 0)
    rw [List.length_append, encode_uint32_length] at e2
    have e3 : b + 4 + s.utf8.length = b + (4 + s.utf8.length) := by omega
    rw [e3, e2]
    rfl
theorem encode_variant_string_eq (cfg : BuildConfig) (s : GString) (r_buffer : Option Nat)
    (mem : List Nat) (r_len : Nat) (p_full_objects : Bool) (p_depth : Nat)
    (hdepth : p_depth ≤ VARIANT_MAX_RECURSION_DEPTH) :
    encode_variant cfg (.STRING s) r_buffer mem r_len p_full_objects p_depth =
        ⟨.OK, 4 + (encoded_string s.utf8).length, match r_buffer with
          | none => mem
          | some p => poke mem p (encode_uint32 (cfg.type_id .STRING) ++ encoded_string s.utf8)⟩ ∧
      encode_variant cfg (.STRING_NAME s) r_buffer mem r_len p_full_objects p_depth =
        ⟨.OK, 4 + (encoded_string s.utf8).length, match r_buffer with
          | none => mem
          | some p =>
            poke mem p (encode_uint32 (cfg.type_id .STRING_NAME) ++ encoded_string s.utf8)⟩ := by
  obtain ⟨fuel, hfuel⟩ := fuel_of_depth hdepth
  have hd : ¬ p_depth > VARIANT_MAX_RECURSION_DEPTH := by omega
  unfold encode_variant
  rw [hfuel]
  constructor <;>
  · rw [encode_variant_fuel, if_neg hd]
    simp only [encode_header, Variant.get_type]
    rw [_encode_string_eq s _ (by simp)]
    cases r_buffer with
    | none => simp [Cursor.ok, Cursor.store, Cursor.advance, Cursor.add_len]
    | some p =>
      have e := poke_poke (encode_uint32 (cfg.type_id (Variant.get_type (.STRING s)))) mem p
        (encoded_string s.utf8)
      have e2 := poke_poke (encode_uint32 (cfg.type_id (Variant.get_type (.STRING_NAME s)))) mem p
        (encoded_string s.utf8)
      rw [encode_uint32_length] at e e2
      simp only [Variant.get_type] at e e2
      simp [Cursor.ok, Cursor.store, Cursor.advance, Cursor.add_len, e, e2]

/-- C25. String encoding: at a depth the guard admits, `encode_variant` on a string or
an interned string whose UTF-8 form has `n` bytes returns `OK` and stores at the buffer
the 4-byte header (the type tag), the little-endian 32-bit `n`, the `n` UTF-8 bytes and
`(4 - n mod 4) mod 4` zero bytes, with nothing else touched in a buffer that has room
for them; the reported length is `8 + n` rounded up to a multiple of 4, with or without
a buffer. -/
theorem encode_variant_string (cfg : BuildConfig) (s : GString) (r_buffer : Option Nat)
    (mem : List Nat) (r_len : Nat) (p_full_objects : Bool) (p_depth : Nat)
    (hdepth : p_depth ≤ VARIANT_MAX_RECURSION_DEPTH) :
    encode_variant cfg (.STRING s) r_buffer mem r_len p_full_objects p_depth =
        ⟨.OK, (8 + s.utf8.length + 3) / 4 * 4, match r_buffer with
          | none => mem
          | some p => poke mem p (encode_uint32 (cfg.type_id .STRING) ++ encoded_string s.utf8)⟩ ∧
      encode_variant cfg (.STRING_NAME s) r_buffer mem r_len p_full_objects p_depth =
        ⟨.OK, (8 + s.utf8.length + 3) / 4 * 4, match r_buffer with
          | none => mem
          | some p =>
            poke mem p (encode_uint32 (cfg.type_id .STRING_NAME) ++ encoded_string s.utf8)⟩ ∧
      encoded_string s.utf8 = encode_uint32 s.utf8.length ++ s.utf8 ++
        List.replicate ((4 - s.utf8.length % 4) % 4) 0 ∧
      (∀ (tag : Nat) (A Z : List Nat), (8 + s.utf8.length + 3) / 4 * 4 ≤ Z.length →
        poke (A ++ Z) A.length (encode_uint32 tag ++ encoded_string s.utf8) =
          A ++ encode_uint32 tag ++ encode_uint32 s.utf8.length ++ s.utf8 ++
            List.replicate ((4 - s.utf8.length % 4) % 4) 0 ++
            Z.drop ((8 + s.utf8.length + 3) / 4 * 4)) := by
  have hlen : 4 + (encoded_string s.utf8).length = (8 + s.utf8.length + 3) / 4 * 4 := by
    rw [encoded_string_length]
    omega
  obtain ⟨h1, h2⟩ := encode_variant_string_eq cfg s r_buffer mem r_len p_full_objects p_depth
    hdepth
  rw [hlen] at h1 h2
  refine ⟨h1, h2, rfl, ?_⟩
  intro tag A Z hZ
  have hb : (encode_uint32 tag ++ encoded_string s.utf8).length =
      (8 + s.utf8.length + 3) / 4 * 4 := by
    rw [List.length_append, encode_uint32_length, hlen]
  rw [poke_into A _ Z (by rw [hb]; exact hZ), hb]
  simp only [encoded_string, List.append_assoc]

theorem encode_variant_string_witness :
    encode_variant host_config (.STRING (GString.ascii "hello")) (some 1)
        (List.replicate 18 255) 0 false 0 =
      ⟨.OK, 16, [255, 4, 0, 0, 0, 5, 0, 0, 0, 104, 101, 108, 108, 111, 0, 0, 0, 255]⟩ :=
  (encode_variant_string host_config (GString.ascii "hello") (some 1) (List.replicate 18 255)
    0 false 0 (by decide)).1.trans (by decide)

/-! ### Range tables -/

theorem int_t_eq (x : Int) (h1 : -2147483648 ≤ x) (h2 : x < 2147483648) : int_t x = x := by
  unfold int_t
  omega

theorem sorted_disjoint_tail : ∀ (r : CharRange) (t : List CharRange),
    sorted_disjoint (r :: t) = true → sorted_disjoint t = true := by
  intro r t h
  cases t with
  | nil => rfl
  | cons s rest =>
    simp only [sorted_disjoint, Bool.and_eq_true] at h
    exact h.2

theorem sorted_disjoint_head (r : CharRange) (t : List CharRange)
    (h : sorted_disjoint (r :: t) = true) : r.start ≤ r.end_ := by
  cases t with
  | nil => simpa [sorted_disjoint] using h
  | cons s rest =>
    simp only [sorted_disjoint, Bool.and_eq_true, decide_eq_true_eq] at h
    exact h.1.1

theorem sorted_disjoint_bounds : ∀ (t : List CharRange), sorted_disjoint t = true →
    ∀ r ∈ t, r.start ≤ r.end_ := by
  intro t
  induction t with
  | nil => intro _ r hr; cases hr
  | cons a t ih =>
    intro h r hr
    rcases List.mem_cons.1 hr with rfl | hr
    · exact sorted_disjoint_head _ _ h
    · exact ih (sorted_disjoint_tail _ _ h) r hr

theorem sorted_disjoint_pairwise : ∀ (t : List CharRange), sorted_disjoint t = true →
    t.Pairwise fun r s => r.end_ < s.start := by
  intro t
  induction t with
  | nil => intro _; exact List.Pairwise.nil
  | cons a t ih =>
    intro h
    have ht := sorted_disjoint_tail _ _ h
    have hp := ih ht
    refine List.Pairwise.cons ?_ hp
    cases t with
    | nil => intro s hs; cases hs
    | cons b rest =>
      simp only [sorted_disjoint, Bool.and_eq_true, decide_eq_true_eq] at h
      intro s hs
      rcases List.mem_cons.1 hs with rfl | hs
      · exact h.1.2
      · have h1 := (List.pairwise_cons.1 hp).1 s hs
        have h2 := sorted_disjoint_head _ _ ht
        omega
theorem bsearch_loop_eq (t : List CharRange) (c : Nat) (hs : sorted_disjoint t = true)
    (hn : t.length < 1073741824) :
    ∀ (fuel : Nat) (low high : Int), 0 ≤ low → high < t.length → low ≤ high + 1 →
      high + 1 - low < fuel →
      (∀ (i : Nat) (h : i < t.length), (i : Int) < low → t[i].end_ < c) →
      (∀ (i : Nat) (h : i < t.length), high < (i : Int) → c < t[i].start) →
      bsearch_loop t c fuel low high = some (in_some_range t c) := by
  have hpw := List.pairwise_iff_getElem.1 (sorted_disjoint_pairwise t hs)
  have hbd := sorted_disjoint_bounds t hs
  intro fuel
  induction fuel with
  | zero =>
    intro low high h0 hh hlh hf hlo hhi
    simp only [Nat.cast_zero] at hf
    omega
  | succ fuel ih =>
    intro low high h0 hh hlh hf hlo hhi
    rw [bsearch_loop]
    by_cases hle : low ≤ high
    · rw [if_pos hle]
      have hsum : int_t (low + high) = low + high := int_t_eq _ (by omega) (by omega)
      have hdiv : Int.tdiv (low + high) 2 = (low + high) / 2 :=
        Int.tdiv_eq_ediv (by omega) (by decide)
      have hmid : int_t (Int.tdiv (int_t (low + high)) 2) = (low + high) / 2 := by
        rw [hsum, hdiv]
        exact int_t_eq _ (by omega) (by omega)
      simp only [hmid]
      obtain ⟨m, hm⟩ : ∃ m : Nat, (low + high) / 2 = (m : Int) :=
        ⟨((low + high) / 2).toNat, by omega⟩
      rw [hm]
      have hml : low ≤ (m : Int) := by omega
      have hmh : (m : Int) ≤ high := by omega
      have hmt : m < t.length := by omega
      rw [if_neg (by omega), Int.toNat_ofNat, List.getElem?_eq_getElem hmt]
      simp only
      have hmb := hbd t[m] (List.getElem_mem _)
      by_cases h1 : c < t[m].start
      · rw [if_pos h1, int_t_eq _ (by omega) (by omega)]
        refine ih low (m - 1) h0 (by omega) (by omega) (by push_cast at hf ⊢; omega) hlo ?_
        intro i hi hgt
        by_cases him : i = m
        · subst him
          exact h1
        · have := hpw m i hmt hi (by omega)
          omega
      · rw [if_neg h1]
        by_cases h2 : c > t[m].end_
        · rw [if_pos h2, int_t_eq _ (by omega) (by omega)]
          refine ih (m + 1) high (by omega) hh (by omega) (by push_cast at hf ⊢; omega) ?_ hhi
          intro i hi hlt
          by_cases him : i = m
          · subst him
            exact h2
          · have := hpw i m hi hmt (by omega)
            omega
        · rw [if_neg h2]
          have htrue : in_some_range t c = true := by
            unfold in_some_range
            rw [List.any_eq_true]
            exact ⟨t[m], List.getElem_mem _, by
              simp only [Bool.and_eq_true, decide_eq_true_eq]; omega⟩
          rw [htrue]
    · rw [if_neg hle]
      have hfalse : in_some_range t c = false := by
        unfold in_some_range
        rw [List.any_eq_false]
        intro r hr
        obtain ⟨i, hi, rfl⟩ := List.mem_iff_getElem.1 hr
        simp only [Bool.and_eq_true, decide_eq_true_eq, not_and, not_le]
        intro h1
        by_cases hlt : (i : Int) < low
        · have := hlo i hi hlt
          omega
        · have := hhi i hi (by omega)
          omega
      rw [hfalse]

theorem BSEARCH_CHAR_RANGE_eq (t : List CharRange) (c : Nat) (hs : sorted_disjoint t = true)
    (hn : t.length < 1073741824) : BSEARCH_CHAR_RANGE t c = some (in_some_range t c) := by
  unfold BSEARCH_CHAR_RANGE
  rw [int_t_eq _ (by omega) (by omega)]
  exact bsearch_loop_eq t c hs hn _ 0 _ (le_refl _) (by omega) (by omega) (by push_cast; omega)
    (fun i _ h => by omega) (fun i hi h => by omega)

/-- C28. Range-table membership: on a table that is sorted and pairwise disjoint (each
`start ≤ end`, each `end` before the next `start`) and whose indexes fit the `int`
arithmetic of the search, the binary search of `is_unicode_identifier_start`,
`is_unicode_identifier_continue`, `is_unicode_upper_case`, `is_unicode_lower_case` and
`is_unicode_letter` returns, and it returns `true` exactly when some range of the table
has `start ≤ c ≤ end`; on the empty table it returns `false`. -/
theorem bsearch_char_range_membership (table : List CharRange) (c : Nat)
    (hs : sorted_disjoint table = true) (hn : table.length < 1073741824) :
    (∃ found : Bool, BSEARCH_CHAR_RANGE table c = some found ∧
        (found = true ↔ ∃ r ∈ table, r.start ≤ c ∧ c ≤ r.end_) ∧
        is_unicode_identifier_start table c = some found ∧
        is_unicode_identifier_continue table c = some found ∧
        is_unicode_upper_case table c = some found ∧
        is_unicode_lower_case table c = some found ∧
        is_unicode_letter table c = some found) ∧
      BSEARCH_CHAR_RANGE [] c = some false := by
  have h := BSEARCH_CHAR_RANGE_eq table c hs hn
  refine ⟨⟨in_some_range table c, h, ?_, h, h, h, h, h⟩,
    BSEARCH_CHAR_RANGE_eq [] c rfl (by decide)⟩
  unfold in_some_range
  rw [List.any_eq_true]
  simp only [Bool.and_eq_true, decide_eq_true_eq]

theorem bsearch_char_range_membership_witness :
    sorted_disjoint sample_ranges = true ∧
      BSEARCH_CHAR_RANGE sample_ranges 70 = some true ∧
      BSEARCH_CHAR_RANGE sample_ranges 95 = some false ∧
      ((∃ found : Bool, BSEARCH_CHAR_RANGE sample_ranges 70 = some found ∧
        (found = true ↔ ∃ r ∈ sample_ranges, r.start ≤ 70 ∧ 70 ≤ r.end_) ∧
        is_unicode_identifier_start sample_ranges 70 = some found ∧
        is_unicode_identifier_continue sample_ranges 70 = some found ∧
        is_unicode_upper_case sample_ranges 70 = some found ∧
        is_unicode_lower_case sample_ranges 70 = some found ∧
        is_unicode_letter sample_ranges 70 = some found) ∧
      BSEARCH_CHAR_RANGE [] 70 = some false) :=
  ⟨by decide, by decide, by decide,
    bsearch_char_range_membership sample_ranges 70 (by decide) (by decide)⟩

/-! ### `encode_variant`: typed arrays -/

theorem typed_field_bits (t f : Nat) (ht : t ≤ HEADER_TYPE_MASK) (hf : f < 4) :
    ((t ||| (f <<< 16)) >>> 16) &&& 3 = f := by
  have ht2 : t < 2 ^ 16 := lt_of_le_of_lt ht (by decide)
  have e : (t ||| (f <<< 16)) >>> 16 = f := by
    apply Nat.eq_of_testBit_eq
    intro i
    have hlt : t < 2 ^ (16 + i) :=
      lt_of_lt_of_le ht2 (Nat.pow_le_pow_right (by decide) (by omega))
    rw [Nat.testBit_shiftRight, Nat.testBit_or, Nat.testBit_lt_two_pow hlt,
      Nat.testBit_shiftLeft]
    simp
  rw [e]
  interval_cases f <;> rfl

theorem encode_header_array_field (cfg : BuildConfig) (array : ArrayTyping) (elems : List Variant)
    (p_full_objects : Bool) :
    encode_header cfg (.ARRAY array elems) p_full_objects =
      some (cfg.type_id .ARRAY ||| (array_type_field array p_full_objects <<< 16)) := by
  obtain ⟨typed, script, cls, builtin⟩ := array
  cases typed <;> cases script <;> cases p_full_objects <;>
    by_cases hc : cls.chars = [] <;>
    simp [encode_header, array_type_field, Variant.get_type, hc,
      HEADER_DATA_FIELD_TYPED_ARRAY_SCRIPT, HEADER_DATA_FIELD_TYPED_ARRAY_CLASS_NAME,
      HEADER_DATA_FIELD_TYPED_ARRAY_BUILTIN]

theorem array_type_field_lt (array : ArrayTyping) (p_full_objects : Bool) :
    array_type_field array p_full_objects < 4 := by
  unfold array_type_field
  split_ifs <;> decide

theorem encode_array_typing_eq (array : ArrayTyping) (p_full_objects : Bool) (c : Cursor)
    (hc : c.r_len % 4 = 0) (hv : typed_script_path_invalid array p_full_objects = false) :
    encode_array_typing array p_full_objects c =
      .ok ⟨c.buf.map (· + (array_type_descriptor array p_full_objects).length),
        c.r_len + (array_type_descriptor array p_full_objects).length,
        match c.buf with
        | none => c.mem
        | some b => poke c.mem b (array_type_descriptor array p_full_objects)⟩ := by
  obtain ⟨typed, script, cls, builtin⟩ := array
  obtain ⟨buf, r_len, mem⟩ := c
  cases typed <;> cases script <;> cases p_full_objects <;>
    by_cases hcl : cls.chars = [] <;>
    simp [typed_script_path_invalid] at hv <;>
    simp [encode_array_typing, array_type_descriptor, array_type_field, hcl, hv,
      _encode_string_eq _ _ hc, poke, Cursor.store, Cursor.advance, Cursor.add_len,
      encode_uint32_length] <;>
    cases buf <;> simp [poke]
theorem encode_variant_array_written (cfg : BuildConfig) (array : ArrayTyping)
    (elems : List Variant) (p : Nat) (mem : List Nat) (r_len : Nat) (p_full_objects : Bool)
    (p_depth : Nat) (hdepth : p_depth ≤ VARIANT_MAX_RECURSION_DEPTH)
    (hv : typed_script_path_invalid array p_full_objects = false) :
    (encode_variant cfg (.ARRAY array elems) (some p) mem r_len p_full_objects p_depth).mem.take
        (p + (4 + (array_type_descriptor array p_full_objects).length + 4)) =
      (poke mem p
        (encode_uint32 (cfg.type_id .ARRAY ||| (array_type_field array p_full_objects <<< 16)) ++
          array_type_descriptor array p_full_objects ++ encode_uint32 elems.length)).take
        (p + (4 + (array_type_descriptor array p_full_objects).length + 4)) := by
  obtain ⟨fuel, hfuel⟩ := fuel_of_depth hdepth
  have hd : ¬ p_depth > VARIANT_MAX_RECURSION_DEPTH := by omega
  unfold encode_variant
  rw [hfuel, encode_variant_fuel, if_neg hd]
  simp only [encode_header_array_field]
  rw [encode_array_typing_eq _ _ _ (by simp [Cursor.store, Cursor.advance, Cursor.add_len]) hv]
  generalize hH : encode_uint32
    (cfg.type_id .ARRAY ||| (array_type_field array p_full_objects <<< 16)) = H
  generalize hD : array_type_descriptor array p_full_objects = D
  have hHl : H.length = 4 := by rw [← hH, encode_uint32_length]
  have e1 := poke_poke H mem p D
  have e2 := poke_poke (H ++ D) mem p (encode_uint32 elems.length)
  rw [hHl] at e1
  rw [List.length_append, hHl, ← e1] at e2
  simp only [Cursor.store, Cursor.advance, Cursor.add_len, Option.map_some', Nat.add_zero]
  have hmem : poke (poke (poke mem p H) (p + 4) D) (p + 4 + D.length) (encode_uint32 elems.length) =
      poke mem p (H ++ D ++ encode_uint32 elems.length) := by
    rw [← e2, Nat.add_assoc]
  rw [hmem]
  generalize hM : poke mem p (H ++ D ++ encode_uint32 elems.length) = M
  have hfr := @encode_array_elements_frames (p + (4 + D.length + 4))
    ⟨some (p + 4 + D.length + 4), 0 + 4 + D.length + 4, M⟩
    (fun v b m => encode_variant_fuel cfg fuel v b m 0 p_full_objects (p_depth + 1))
    (fun v b m hb => encode_variant_fuel_keeps cfg _ fuel v b m 0 p_full_objects (p_depth + 1) hb)
    elems ⟨some (p + 4 + D.length + 4), 0 + 4 + D.length + 4, M⟩
    ⟨fun b hb => by cases hb; omega, rfl, rfl⟩
  revert hfr
  cases encode_array_elements
    (fun v b m => encode_variant_fuel cfg fuel v b m 0 p_full_objects (p_depth + 1)) elems
    ⟨some (p + 4 + D.length + 4), 0 + 4 + D.length + 4, M⟩ with
  | error e => intro hfr; exact hfr.2
  | ok c => intro hfr; exact hfr.2.2
/-- C26. Typed-array header field: bits 16-17 of the header `encode_variant` stores for
an array are 00 when the array is untyped; for a typed array they are 11 when the
element type is a valid script and full objects are encoded, 10 when it is a valid
script and they are not, or when there is no script but a class name that is not empty,
and 01 otherwise.  Whenever the call gets past the check of the script path, the bytes
from the buffer up to the end of the element count are the header, the descriptor of
the kind the field announces (`array_type_descriptor`) and the count, also when an
element fails later. -/
theorem encode_variant_typed_array (cfg : BuildConfig) (array : ArrayTyping)
    (elems : List Variant) (p_full_objects : Bool) (p_depth : Nat)
    (htype : cfg.type_id .ARRAY ≤ HEADER_TYPE_MASK)
    (hdepth : p_depth ≤ VARIANT_MAX_RECURSION_DEPTH) :
    ∃ header : Nat, encode_header cfg (.ARRAY array elems) p_full_objects = some header ∧
      (header >>> 16) &&& 3 = array_type_field array p_full_objects ∧
      (array.is_typed = false → array_type_field array p_full_objects = 0) ∧
      (array.is_typed = true → array.typed_script.isSome = true → p_full_objects = true →
        array_type_field array p_full_objects = 3) ∧
      (array.is_typed = true → array.typed_script.isSome = true → p_full_objects = false →
        array_type_field array p_full_objects = 2) ∧
      (array.is_typed = true → array.typed_script = none →
        array.typed_class_name.chars ≠ [] → array_type_field array p_full_objects = 2) ∧
      (array.is_typed = true → array.typed_script = none →
        array.typed_class_name.chars = [] → array_type_field array p_full_objects = 1) ∧
      (∀ (p : Nat) (mem : List Nat) (r_len : Nat),
        typed_script_path_invalid array p_full_objects = false →
        (encode_variant cfg (.ARRAY array elems) (some p) mem r_len p_full_objects
            p_depth).mem.take
            (p + (4 + (array_type_descriptor array p_full_objects).length + 4)) =
          (poke mem p (encode_uint32 header ++ array_type_descriptor array p_full_objects ++
            encode_uint32 elems.length)).take
            (p + (4 + (array_type_descriptor array p_full_objects).length + 4))) := by
  refine ⟨_, encode_header_array_field cfg array elems p_full_objects,
    typed_field_bits _ _ htype (array_type_field_lt array p_full_objects), ?_, ?_, ?_, ?_, ?_,
    fun p mem r_len hv =>
      encode_variant_array_written cfg array elems p mem r_len p_full_objects p_depth hdepth hv⟩
  · intro h
    simp [array_type_field, h]
  · intro h1 h2 h3
    simp [array_type_field, h1, h2, h3]
  · intro h1 h2 h3
    simp [array_type_field, h1, h2, h3]
  · intro h1 h2 h3
    simp [array_type_field, h1, h2, h3]
  · intro h1 h2 h3
    simp [array_type_field, h1, h2, h3]

theorem encode_variant_typed_array_witness :
    ∃ header : Nat, encode_header host_config sample_typed_array true = some header ∧
      (header >>> 16) &&& 3 = 2 ∧
      (encode_variant host_config sample_typed_array (some 1) (List.replicate 18 255) 0 true
          0).mem.take 17 =
        [255] ++ encode_uint32 header ++ [4, 0, 0, 0, 78, 111, 100, 101] ++ [2, 0, 0, 0] := by
  obtain ⟨header, hh, hbits, -, -, -, h2, -, hw⟩ :=
    encode_variant_typed_array host_config ⟨true, none, GString.ascii "Node", 0⟩
      [.INT 1, .INT 2] true 0 (by decide) (by decide)
  refine ⟨header, hh, hbits.trans (h2 rfl rfl (by decide)), ?_⟩
  have hhdr : header = 131100 := by
    have : encode_header host_config sample_typed_array true = some 131100 := by decide
    exact Option.some.inj (hh.symm.trans this)
  subst hhdr
  exact (hw 1 (List.replicate 18 255) 0 (by decide)).trans (by decide)

/-! ### `encode_variant`: the stores stay below `r_len` -/

theorem poke_drop (bs : List Nat) : ∀ (m : List Nat) (off q : Nat), off + bs.length ≤ q →
    (poke m off bs).drop q = m.drop q := by
  induction bs with
  | nil => intros; rfl
  | cons b bs ih =>
    intro m off q h
    simp only [List.length_cons] at h
    rw [poke, ih _ _ _ (by omega), List.drop_set_of_lt _ _ (by omega)]

theorem drop_eq_of_le {m m0 : List Nat} {a b : Nat} (h : m.drop a = m0.drop a) (hab : a ≤ b) :
    m.drop b = m0.drop b := by
  obtain ⟨k, rfl⟩ := Nat.exists_eq_add_of_le hab
  rw [← List.drop_drop, ← List.drop_drop, h]

theorem Cursor.in_step_put {p : Nat} {m0 : List Nat} {c : Cursor} (h : c.in_step p m0)
    (bs : List Nat) (n : Nat) (hn : bs.length ≤ n) :
    (((c.store 0 bs).advance n).add_len n).in_step p m0 := by
  obtain ⟨buf, r_len, mem⟩ := c
  obtain ⟨hb, hm⟩ := h
  simp only at hb hm
  subst hb
  refine ⟨by simp [Cursor.store, Cursor.advance, Cursor.add_len, Nat.add_assoc], ?_⟩
  simp only [Cursor.store, Cursor.advance, Cursor.add_len, Nat.add_zero]
  rw [poke_drop _ _ _ _ (by omega)]
  exact drop_eq_of_le hm (by omega)

theorem Cursor.in_step_put2 {p : Nat} {m0 : List Nat} {c : Cursor} (h : c.in_step p m0)
    (a : List Nat) (k : Nat) (b : List Nat) (n m : Nat) (ha : a.length ≤ k)
    (hb : b.length ≤ n) (hm : m = k + n) :
    (((((c.store 0 a).advance k).store 0 b).advance n).add_len m).in_step p m0 := by
  obtain ⟨buf, r_len, mem⟩ := c
  obtain ⟨hbuf, hmem⟩ := h
  simp only at hbuf hmem
  subst hbuf
  subst hm
  refine ⟨by simp [Cursor.store, Cursor.advance, Cursor.add_len, Nat.add_assoc], ?_⟩
  simp only [Cursor.store, Cursor.advance, Cursor.add_len, Nat.add_zero, Option.map_some']
  rw [poke_drop _ _ _ _ (by omega), poke_drop _ _ _ _ (by omega)]
  exact drop_eq_of_le hmem (by omega)

theorem Cursor.in_step_put3 {p : Nat} {m0 : List Nat} {c : Cursor} (h : c.in_step p m0)
    (a b d : List Nat) (ha : a.length = 4) (hb : b.length = 4) (hd : d.length = 4) :
    (((((c.store 0 a).store 4 b).store 8 d).advance 12).add_len 12).in_step p m0 := by
  obtain ⟨buf, r_len, mem⟩ := c
  obtain ⟨hbuf, hmem⟩ := h
  simp only at hbuf hmem
  subst hbuf
  refine ⟨by simp [Cursor.store, Cursor.advance, Cursor.add_len, Nat.add_assoc], ?_⟩
  simp only [Cursor.store, Cursor.advance, Cursor.add_len, Nat.add_zero]
  rw [poke_drop _ _ _ _ (by omega), poke_drop _ _ _ _ (by omega),
    poke_drop _ _ _ _ (by omega)]
  exact drop_eq_of_le hmem (by omega)

theorem Cursor.in_step_ok {p : Nat} {m0 : List Nat} {c : Cursor} (h : c.in_step p m0) :
    c.ok.below p m0 := fun _ => h.2

theorem Cursor.in_step_last {p : Nat} {m0 : List Nat} {c : Cursor} (h : c.in_step p m0)
    (bs : List Nat) (n : Nat) (hn : bs.length ≤ n) :
    ((c.store 0 bs).add_len n).ok.below p m0 :=
  fun _ => (Cursor.in_step_put h bs n hn).2

theorem Cursor.in_step_last2 {p : Nat} {m0 : List Nat} {c : Cursor} (h : c.in_step p m0)
    (a : List Nat) (k : Nat) (b : List Nat) (m : Nat) (ha : a.length ≤ k)
    (hb : k + b.length ≤ m) :
    ((((c.store 0 a).advance k).store 0 b).add_len m).ok.below p m0 := by
  obtain ⟨buf, r_len, mem⟩ := c
  obtain ⟨hbuf, hmem⟩ := h
  simp only at hbuf hmem
  subst hbuf
  intro _
  simp only [Cursor.store, Cursor.advance, Cursor.add_len, Cursor.ok, Nat.add_zero,
    Option.map_some']
  rw [poke_drop _ _ _ _ (by omega), poke_drop _ _ _ _ (by omega)]
  exact drop_eq_of_le hmem (by omega)

theorem pad_loop_in_step {p : Nat} {m0 : List Nat} (fuel : Nat) {c : Cursor}
    (h : c.in_step p m0) : (pad_loop fuel c).in_step p m0 := by
  induction fuel generalizing c with
  | zero => exact h
  | succ fuel ih =>
    rw [pad_loop]
    split
    · apply ih
      obtain ⟨buf, r_len, mem⟩ := c
      obtain ⟨hbuf, hmem⟩ := h
      simp only at hbuf hmem
      subst hbuf
      refine ⟨by simp [Cursor.store, Cursor.advance, Cursor.add_len, Nat.add_assoc], ?_⟩
      simp only [Cursor.store, Cursor.advance, Cursor.add_len, Nat.add_zero]
      rw [poke_drop _ _ _ _ (by simp only [List.length_cons, List.length_nil]; omega)]
      exact drop_eq_of_le hmem (by omega)
    · exact h

theorem _encode_string_in_step {p : Nat} {m0 : List Nat} {c : Cursor} (s : GString)
    (h : c.in_step p m0) : (_encode_string s c).in_step p m0 := by
  unfold _encode_string
  exact pad_loop_in_step 3
    (Cursor.in_step_put2 h _ 4 _ _ _ (by rw [encode_uint32_length]) (le_refl _) rfl)

theorem encode_node_path_strings_in_step {p : Nat} {m0 : List Nat} (strs : List GString)
    {c : Cursor} (h : c.in_step p m0) : (encode_node_path_strings strs c).in_step p m0 := by
  induction strs generalizing c with
  | nil => exact h
  | cons s rest ih =>
    rw [encode_node_path_strings]
    exact ih (Cursor.in_step_put2 h _ 4 _ _ _ (by rw [encode_uint32_length]) (by omega)
      (by omega))

theorem encode_packed_strings_in_step {p : Nat} {m0 : List Nat} (strs : List GString)
    {c : Cursor} (h : c.in_step p m0) : (encode_packed_strings strs c).in_step p m0 := by
  induction strs generalizing c with
  | nil => exact h
  | cons s rest ih =>
    rw [encode_packed_strings]
    exact ih (pad_loop_in_step 3 (Cursor.in_step_put2 h _ 4 _ _ _
      (by rw [encode_uint32_length]) (by simp) (by omega)))
theorem encode_array_typing_in_step {p : Nat} {m0 : List Nat} {c : Cursor}
    (array : ArrayTyping) (p_full_objects : Bool) (h : c.in_step p m0) :
    Cursor.in_step_outcome p m0 (encode_array_typing array p_full_objects c) := by
  unfold encode_array_typing
  split
  · split
    · split
      · split
        · exact fun e => nomatch e
        · exact _encode_string_in_step _ h
      · exact _encode_string_in_step _ h
    · split
      · exact _encode_string_in_step _ h
      · exact Cursor.in_step_put h _ 4 (by rw [encode_uint32_length])
  · exact h

theorem after_nested_in_step {p : Nat} {m0 : List Nat} {c : Cursor} (r : EncodeResult)
    (h : c.in_step p m0) (hr : r.below (p + c.r_len) c.mem) :
    Cursor.in_step_outcome p m0 (after_nested c r) := by
  unfold after_nested
  simp only
  split
  · rename_i he
    exact he
  · rename_i he
    split
    · exact fun e => nomatch e
    · have hok : r.err = .OK := not_not.mp he
      refine ⟨by simp [Cursor.advance, Cursor.add_len, h.1, Nat.add_assoc], ?_⟩
      simp only [Cursor.advance, Cursor.add_len]
      rw [← Nat.add_assoc, hr hok]
      exact drop_eq_of_le h.2 (by omega)

theorem encode_array_elements_in_step {p : Nat} {m0 : List Nat}
    (enc : Variant → Option Nat → List Nat → EncodeResult)
    (henc : ∀ v q m, (enc v (some q) m).below q m)
    (elems : List Variant) {c : Cursor} (h : c.in_step p m0) :
    Cursor.in_step_outcome p m0 (encode_array_elements enc elems c) := by
  induction elems generalizing c with
  | nil => exact h
  | cons v rest ih =>
    rw [encode_array_elements]
    have := after_nested_in_step (enc v c.buf c.mem) h (by rw [h.1]; exact henc v _ _)
    split
    · rename_i e he
      rw [he] at this
      exact this
    · rename_i d2 he
      rw [he] at this
      exact ih this

theorem encode_dictionary_pairs_in_step {p : Nat} {m0 : List Nat}
    (enc : Variant → Option Nat → List Nat → EncodeResult)
    (henc : ∀ v q m, (enc v (some q) m).below q m)
    (pairs : List (Variant × Variant)) {c : Cursor} (h : c.in_step p m0) :
    Cursor.in_step_outcome p m0 (encode_dictionary_pairs enc pairs c) := by
  induction pairs generalizing c with
  | nil => exact h
  | cons kv rest ih =>
    obtain ⟨k, v⟩ := kv
    rw [encode_dictionary_pairs]
    have h1 := after_nested_in_step (enc k c.buf c.mem) h (by rw [h.1]; exact henc k _ _)
    split
    · rename_i e he
      rw [he] at h1
      exact h1
    · rename_i d2 he
      rw [he] at h1
      have h2 := after_nested_in_step (enc v d2.buf d2.mem) h1
        (by rw [h1.1]; exact henc v _ _)
      split
      · rename_i e he2
        rw [he2] at h2
        exact h2
      · rename_i d3 he2
        rw [he2] at h2
        exact ih h2

theorem encode_object_properties_in_step {p : Nat} {m0 : List Nat}
    (enc : Variant → Option Nat → List Nat → EncodeResult)
    (henc : ∀ v q m, (enc v (some q) m).below q m)
    (script : Option ScriptRef) (props : List (PropertyInfo × Variant)) {c : Cursor}
    (h : c.in_step p m0) :
    Cursor.in_step_outcome p m0 (encode_object_properties enc script props c) := by
  induction props generalizing c with
  | nil => exact h
  | cons pr rest ih =>
    obtain ⟨E, got⟩ := pr
    unfold encode_object_properties
    split
    · exact ih h
    · have hs := @_encode_string_in_step p m0 c E.name h
      simp only
      split
      · rename_i e he
        unfold Cursor.in_step_outcome
        simp only [Cursor.fail]
        revert he
        split
        · split
          · split
            · intro he
              cases he
              exact fun e => nomatch e
            · intro he; cases he
          · intro he; cases he
        · intro he; cases he
      · rename_i value hv
        have h1 := after_nested_in_step (enc value (_encode_string E.name c).buf
          (_encode_string E.name c).mem) hs (by rw [hs.1]; exact henc value _ _)
        split
        · rename_i e he
          rw [he] at h1
          exact h1
        · rename_i d2 he
          rw [he] at h1
          exact ih h1

theorem Cursor.in_step_outcome_ok {p : Nat} {m0 : List Nat}
    {o : Except EncodeResult Cursor} (h : Cursor.in_step_outcome p m0 o) :
    (match o with
      | .error e => e
      | .ok c => c.ok).below p m0 := by
  cases o with
  | error e => exact fun he => absurd he h
  | ok d => exact Cursor.in_step_ok h

theorem encode_uint64_length (x : Nat) : (encode_uint64 x).length = 8 := rfl

theorem encode_float_length (x : Nat) : (encode_float x).length = 4 := rfl

theorem encode_double_length (x : Nat) : (encode_double x).length = 8 := rfl

theorem encode_real_length (cfg : BuildConfig) (x : real_t) :
    (encode_real cfg x).length = sizeof_real_t cfg := by
  unfold encode_real sizeof_real_t
  split <;> rfl

theorem flatten_length_const {α : Type} (f : α → List Nat) (n : Nat)
    (h : ∀ x, (f x).length = n) (xs : List α) : (xs.map f).flatten.length = xs.length * n := by
  induction xs with
  | nil => simp
  | cons x rest ih =>
    rw [List.map_cons, List.flatten_cons, List.length_append, ih, h, List.length_cons,
      Nat.succ_mul, Nat.add_comm]

theorem encode_reals_length (cfg : BuildConfig) (xs : List real_t) :
    (encode_reals cfg xs).length = xs.length * sizeof_real_t cfg :=
  flatten_length_const _ _ (encode_real_length cfg) xs

theorem encode_int32s_length (xs : List Int) : (encode_int32s xs).length = xs.length * 4 :=
  flatten_length_const (fun x => encode_uint32 (to_uint32 x)) 4 (fun _ => rfl) xs
theorem encode_variant_fuel_below (cfg : BuildConfig) (fuel : Nat) :
    ∀ (p_variant : Variant) (p : Nat) (m : List Nat) (r_len : Nat)
      (p_full_objects : Bool) (p_depth : Nat),
    (encode_variant_fuel cfg fuel p_variant (some p) m r_len p_full_objects p_depth).below p m := by
  induction fuel with
  | zero => intros; exact fun e => nomatch e
  | succ fuel ih =>
    intro p_variant p m r_len p_full_objects p_depth
    have henc : ∀ (v : Variant) (q : Nat) (m : List Nat),
        (encode_variant_fuel cfg fuel v (some q) m 0 p_full_objects (p_depth + 1)).below q m :=
      fun v q m => ih v q m 0 p_full_objects (p_depth + 1)
    have h0 : (Cursor.mk (some p) 0 m).in_step p m := ⟨rfl, rfl⟩
    rw [encode_variant_fuel]
    split
    · exact fun e => nomatch e
    · generalize encode_header cfg p_variant p_full_objects = oh
      cases oh with
      | none => exact Cursor.in_step_last h0 _ 4 (by rw [encode_uint32_length])
      | some header =>
        have h1 : ((((Cursor.mk (some p) 0 m).store 0 (encode_uint32 header)).advance 4).add_len
            4).in_step p m := Cursor.in_step_put h0 _ 4 (by rw [encode_uint32_length])
        simp only
        cases p_variant
        case DICTIONARY d =>
          exact Cursor.in_step_outcome_ok (encode_dictionary_pairs_in_step _ henc d
            (Cursor.in_step_put h1 _ 4 (by rw [encode_uint32_length])))
        case ARRAY typing elems =>
          have ht := encode_array_typing_in_step typing p_full_objects h1
          simp only
          split
          · rename_i e he
            rw [he] at ht
            exact fun h => absurd h ht
          · rename_i c0 hc0
            rw [hc0] at ht
            exact Cursor.in_step_outcome_ok (encode_array_elements_in_step _ henc
              elems (Cursor.in_step_put ht _ 4 (by rw [encode_uint32_length])))
        case OBJECT obj =>
          simp only
          split
          · split
            · exact Cursor.in_step_last h1 _ 4 (by rw [encode_uint32_length])
            · split
              · exact fun e => nomatch e
              · exact Cursor.in_step_outcome_ok
                  (encode_object_properties_in_step _ henc _ _
                    (Cursor.in_step_put (_encode_string_in_step _ h1) _ 4
                      (by rw [encode_uint32_length])))
          · exact Cursor.in_step_last h1 _ 8 (by rw [encode_uint64_length])
        case NIL => exact Cursor.in_step_ok h1
        case CALLABLE => exact Cursor.in_step_ok h1
        case STRING s => exact Cursor.in_step_ok (_encode_string_in_step _ h1)
        case STRING_NAME s => exact Cursor.in_step_ok (_encode_string_in_step _ h1)
        case NODE_PATH np =>
          exact Cursor.in_step_ok (encode_node_path_strings_in_step _
            (Cursor.in_step_put3 h1 _ _ _ rfl rfl rfl))
        case SIGNAL signal =>
          exact Cursor.in_step_last (_encode_string_in_step _ h1) _ 8
            (by rw [encode_uint64_length])
        case PACKED_BYTE_ARRAY data =>
          exact Cursor.in_step_ok (pad_loop_in_step 3 (Cursor.in_step_put2 h1 _ 4 _ _ _
            (by rw [encode_uint32_length]) (le_refl _) (by omega)))
        case PACKED_STRING_ARRAY data =>
          exact Cursor.in_step_ok (encode_packed_strings_in_step _
            (Cursor.in_step_put h1 _ 4 (by rw [encode_uint32_length])))
        case PACKED_INT32_ARRAY data =>
          exact Cursor.in_step_last2 h1 _ 4 _ _ (by rw [encode_uint32_length])
            (by rw [encode_int32s_length])
        case PACKED_INT64_ARRAY data =>
          exact Cursor.in_step_last2 h1 _ 4 _ _ (by rw [encode_uint32_length])
            (by rw [flatten_length_const (fun x => encode_uint64 (to_uint64 x)) 8
              (fun _ => rfl)])
        case PACKED_FLOAT32_ARRAY data =>
          exact Cursor.in_step_last2 h1 _ 4 _ _ (by rw [encode_uint32_length])
            (by rw [flatten_length_const encode_float 4 (fun _ => rfl)])
        case PACKED_FLOAT64_ARRAY data =>
          exact Cursor.in_step_last2 h1 _ 4 _ _ (by rw [encode_uint32_length])
            (by rw [flatten_length_const encode_double 8 (fun _ => rfl)])
        case PACKED_VECTOR2_ARRAY data =>
          exact Cursor.in_step_last (Cursor.in_step_put h1 _ 4 (by rw [encode_uint32_length]))
            _ _ (by
              rw [flatten_length_const _ (2 * sizeof_real_t cfg)
                (fun v => by rw [encode_reals_length]; rfl)]
              exact Nat.le_of_eq (by ring))
        case PACKED_VECTOR3_ARRAY data =>
          exact Cursor.in_step_last (Cursor.in_step_put h1 _ 4 (by rw [encode_uint32_length]))
            _ _ (by
              rw [flatten_length_const _ (3 * sizeof_real_t cfg)
                (fun v => by rw [encode_reals_length]; rfl)]
              exact Nat.le_of_eq (by ring))
        case PACKED_VECTOR4_ARRAY data =>
          exact Cursor.in_step_last (Cursor.in_step_put h1 _ 4 (by rw [encode_uint32_length]))
            _ _ (by
              rw [flatten_length_const _ (4 * sizeof_real_t cfg)
                (fun v => by rw [encode_reals_length]; rfl)]
              exact Nat.le_of_eq (by ring))
        case PACKED_COLOR_ARRAY data =>
          exact Cursor.in_step_last (Cursor.in_step_put h1 _ 4 (by rw [encode_uint32_length]))
            _ _ (by
              rw [flatten_length_const (fun col : Color => encode_float col.r ++
                encode_float col.g ++ encode_float col.b ++ encode_float col.a) 16
                (fun _ => rfl)]
              exact Nat.le_of_eq (by ring))
        all_goals
          simp only
          try split
          all_goals
            apply Cursor.in_step_last h1
            first
            | exact Nat.le_of_eq rfl
            | (rw [encode_reals_length]; exact Nat.le_of_eq rfl)
theorem encode_variant_fuel_null (cfg : BuildConfig) (fuel : Nat) (p_variant : Variant)
    (m : List Nat) (r_len : Nat) (p_full_objects : Bool) (p_depth : Nat) :
    (encode_variant_fuel cfg fuel p_variant none m r_len p_full_objects p_depth).mem = m := by
  obtain ⟨h1, h2⟩ := encode_variant_fuel_keeps cfg m.length fuel p_variant none m r_len
    p_full_objects p_depth (fun x hx => nomatch hx)
  rw [List.take_length, ← h1, List.take_length] at h2
  exact h2

/-- C29 (counterexample). A writing call that returns an error may have stored bytes at
or above the `r_len` it hands back: three arrays nested one in the other, encoded from
depth 1023 into a buffer at offset 0, return the depth error with `r_len = 8` after the
second array has stored its header and count at offsets 8 to 15; an array whose element
is typed by a script without a path, encoded with full objects from depth 0, returns
`ERR_UNAVAILABLE` with `r_len = 8` after the header of the element was stored at offsets
8 to 11. -/
theorem encode_variant_error_stores_past_r_len :
    encode_variant host_config (nested_arrays 2) (some 0) (List.replicate 20 255) 0 false 1023 =
        ⟨.ERR_OUT_OF_MEMORY, 8,
          [28, 0, 0, 0, 1, 0, 0, 0, 28, 0, 0, 0, 1, 0, 0, 0, 255, 255, 255, 255]⟩ ∧
      encode_variant host_config (nested_arrays 2) none (List.replicate 20 255) 0 false 1023 =
        ⟨.ERR_OUT_OF_MEMORY, 8, List.replicate 20 255⟩ ∧
      encode_variant host_config sample_unsaved_script_array (some 0) (List.replicate 20 255) 0
          true 0 =
        ⟨.ERR_UNAVAILABLE, 8,
          [28, 0, 0, 0, 1, 0, 0, 0, 28, 0, 3, 0, 255, 255, 255, 255, 255, 255, 255, 255]⟩ ∧
      (encode_variant host_config (nested_arrays 2) (some 0) (List.replicate 20 255) 0 false
          1023).mem.drop 8 ≠ (List.replicate 20 255).drop 8 := by
  refine ⟨?_, ?_, ?_, ?_⟩ <;> decide

/-- C29 (amended). Sizing pass agrees with writing pass: for every value, object mode and
depth, `encode_variant` called with a null buffer and called with a real buffer at
offset `p` return the same error code and the same `r_len`; the sizing call stores
nothing, the writing call keeps the length of the memory and the bytes below `p`, and
when it returns `OK` it keeps the bytes from `p + r_len` on, so that it has stored
only at offsets below `r_len` of the buffer.  Hence, when the size query of
`parse_code_string` returns `OK` with length `len`, the call on the payload resized to
`buf_pos + len` returns `OK` with the same length and changes the payload only from
`buf_pos` on, inside the region the resize added. -/
theorem encode_variant_sizing_agrees (cfg : BuildConfig) (p_variant : Variant) (p : Nat)
    (mem : List Nat) (r_len : Nat) (p_full_objects : Bool) (p_depth : Nat) :
    (encode_variant cfg p_variant (some p) mem r_len p_full_objects p_depth).err =
        (encode_variant cfg p_variant none mem r_len p_full_objects p_depth).err ∧
      (encode_variant cfg p_variant (some p) mem r_len p_full_objects p_depth).r_len =
        (encode_variant cfg p_variant none mem r_len p_full_objects p_depth).r_len ∧
      (encode_variant cfg p_variant none mem r_len p_full_objects p_depth).mem = mem ∧
      (encode_variant cfg p_variant (some p) mem r_len p_full_objects p_depth).mem.length =
        mem.length ∧
      (encode_variant cfg p_variant (some p) mem r_len p_full_objects p_depth).mem.take p =
        mem.take p ∧
      ((encode_variant cfg p_variant (some p) mem r_len p_full_objects p_depth).err = .OK →
        (encode_variant cfg p_variant (some p) mem r_len p_full_objects p_depth).mem.drop
            (p + (encode_variant cfg p_variant (some p) mem r_len p_full_objects p_depth).r_len) =
          mem.drop
            (p + (encode_variant cfg p_variant (some p) mem r_len p_full_objects p_depth).r_len)) ∧
      (∀ (contents : List Nat) (buf_pos : Nat), contents.length = buf_pos →
        (encode_variant cfg p_variant none contents 0 false 0).err = .OK →
        (encode_variant cfg p_variant (some buf_pos)
            (resize contents (buf_pos + (encode_variant cfg p_variant none contents 0 false 0).r_len))
            (encode_variant cfg p_variant none contents 0 false 0).r_len false 0).err = .OK ∧
          (encode_variant cfg p_variant (some buf_pos)
            (resize contents (buf_pos + (encode_variant cfg p_variant none contents 0 false 0).r_len))
            (encode_variant cfg p_variant none contents 0 false 0).r_len false 0).r_len =
            (encode_variant cfg p_variant none contents 0 false 0).r_len ∧
          (encode_variant cfg p_variant (some buf_pos)
            (resize contents (buf_pos + (encode_variant cfg p_variant none contents 0 false 0).r_len))
            (encode_variant cfg p_variant none contents 0 false 0).r_len false 0).mem.length =
            buf_pos + (encode_variant cfg p_variant none contents 0 false 0).r_len ∧
          (encode_variant cfg p_variant (some buf_pos)
            (resize contents (buf_pos + (encode_variant cfg p_variant none contents 0 false 0).r_len))
            (encode_variant cfg p_variant none contents 0 false 0).r_len false 0).mem.take buf_pos =
            contents) := by
  have hcode := encode_variant_fuel_code cfg (VARIANT_MAX_RECURSION_DEPTH + 1 - p_depth)
    p_variant (some p) mem none mem r_len p_full_objects p_depth
  obtain ⟨k1, k2⟩ := encode_variant_keeps cfg p_variant p mem r_len p_full_objects p_depth
  refine ⟨congrArg Prod.fst hcode, congrArg Prod.snd hcode,
    encode_variant_fuel_null cfg _ p_variant mem r_len p_full_objects p_depth, k1, k2,
    encode_variant_fuel_below cfg _ p_variant p mem r_len p_full_objects p_depth, ?_⟩
  intro contents buf_pos hlen hok
  generalize hL : (encode_variant cfg p_variant none contents 0 false 0).r_len = len
  have hc2 := encode_variant_fuel_code cfg (VARIANT_MAX_RECURSION_DEPTH + 1 - 0)
    p_variant (some buf_pos) (resize contents (buf_pos + len)) none contents 0 false 0
  have hr := encode_variant_entry_r_len cfg p_variant (some buf_pos)
    (resize contents (buf_pos + len)) len 0 false
  obtain ⟨j1, j2⟩ := encode_variant_keeps cfg p_variant buf_pos
    (resize contents (buf_pos + len)) len false 0
  rw [resize_length] at j1
  refine ⟨?_, ?_, j1, ?_⟩
  · rw [hr]
    exact (congrArg Prod.fst hc2).trans hok
  · rw [hr]
    exact (congrArg Prod.snd hc2).trans hL
  · rw [j2, resize_extend contents buf_pos len hlen, List.take_left' hlen]

/-! ### The length field of the wrapper -/

theorem parse_code_string_contents_length (cfg : BuildConfig) (env : Collaborators)
    (lexed : Lexed) (contents : List Nat)
    (h : parse_code_string_contents cfg env lexed = some contents) : 20 ≤ contents.length := by
  obtain ⟨reserved, constants, hr, -, hl⟩ :=
    parse_code_string_contents_layout cfg env lexed contents h
  rw [hl]
  simp only [List.length_append, encode_uint32_length, hr]
  omega

theorem parse_code_string_compressed (cfg : BuildConfig) (env : Collaborators) (lexed : Lexed)
    (contents : List Nat) (h : parse_code_string_contents cfg env lexed = some contents)
    (hc : ¬ (env.zstd_compress contents).1 < 0) :
    parse_code_string cfg env lexed .COMPRESS_ZSTD =
      ['G'.toNat, 'D'.toNat, 'S'.toNat, 'C'.toNat] ++ encode_uint32 TOKENIZER_VERSION ++
        encode_uint32 contents.length ++
        resize (poke (resize [] (env.compress_bound contents.length)) 0
          (env.zstd_compress contents).2) (env.zstd_compress contents).1.toNat := by
  unfold parse_code_string
  rw [h]
  simp only [if_neg hc]
  rfl

theorem poke_zero_take (bs : List Nat) (X : List Nat) (n : Nat) (h1 : n ≤ bs.length)
    (h2 : n ≤ X.length) : (poke X 0 bs).take n = bs.take n := by
  have e : bs = bs.take n ++ bs.drop n := (List.take_append_drop n bs).symm
  have hl : (bs.take n).length = n := by rw [List.length_take]; omega
  have hp := poke_poke (bs.take n) X 0 (bs.drop n)
  rw [← e, Nat.zero_add] at hp
  rw [← hp, poke_take _ _ _ n (by omega), poke_zero _ X (by omega), hl,
    List.take_left' hl]
/-- C31. The length field is an unambiguous compression marker: for a call of
`parse_code_string` that succeeds (the payload was built, and in `COMPRESS_ZSTD` mode
the compressor reported no error) on a payload shorter than 2^32 bytes, the 32-bit field
at offset 8 of the result is 0 exactly in `COMPRESS_NONE` mode; the payload is at least
20 bytes long; in `COMPRESS_ZSTD` mode the field is the length of the uncompressed
payload, the result is 12 bytes longer than the size the compressor returned, and, when
the compressor stored at least as many bytes as it returned and no more than the bound
it was given room for, the bytes from offset 12 on are the first `compressed_size`
bytes it stored. -/
theorem parse_code_string_length_field (cfg : BuildConfig) (env : Collaborators)
    (lexed : Lexed) (p_compress_mode : CompressMode) (contents : List Nat)
    (h : parse_code_string_contents cfg env lexed = some contents)
    (hok : p_compress_mode = .COMPRESS_ZSTD → ¬ (env.zstd_compress contents).1 < 0)
    (hsize : contents.length < 4294967296) :
    parse_code_string cfg env lexed p_compress_mode ≠ [] ∧
      (decode_uint32 (((parse_code_string cfg env lexed p_compress_mode).drop 8).take 4) = 0 ↔
        p_compress_mode = .COMPRESS_NONE) ∧
      20 ≤ contents.length ∧
      (p_compress_mode = .COMPRESS_ZSTD →
        decode_uint32 (((parse_code_string cfg env lexed p_compress_mode).drop 8).take 4) =
            contents.length ∧
          (parse_code_string cfg env lexed p_compress_mode).length =
            12 + (env.zstd_compress contents).1.toNat ∧
          ((env.zstd_compress contents).1.toNat ≤ (env.zstd_compress contents).2.length →
            (env.zstd_compress contents).1.toNat ≤ env.compress_bound contents.length →
            (parse_code_string cfg env lexed p_compress_mode).drop 12 =
              (env.zstd_compress contents).2.take (env.zstd_compress contents).1.toNat)) := by
  have h20 := parse_code_string_contents_length cfg env lexed contents h
  cases p_compress_mode with
  | COMPRESS_NONE =>
    have hw : parse_code_string cfg env lexed .COMPRESS_NONE =
        (['G'.toNat, 'D'.toNat, 'S'.toNat, 'C'.toNat] ++ encode_uint32 TOKENIZER_VERSION) ++
          (encode_uint32 0 ++ contents) := by
      unfold parse_code_string
      rw [h]
      rfl
    refine ⟨?_, ?_, h20, fun e => nomatch e⟩
    · rw [hw]
      exact fun e => nomatch e
    · rw [hw, List.drop_left' (by rfl), take_four_append _ _ (encode_uint32_length _)]
      exact ⟨fun _ => rfl, fun _ => rfl⟩
  | COMPRESS_ZSTD =>
    have hw := parse_code_string_compressed cfg env lexed contents h (hok rfl)
    generalize hC : resize (poke (resize [] (env.compress_bound contents.length)) 0
      (env.zstd_compress contents).2) (env.zstd_compress contents).1.toNat = C at hw
    have hw2 : parse_code_string cfg env lexed .COMPRESS_ZSTD =
        (['G'.toNat, 'D'.toNat, 'S'.toNat, 'C'.toNat] ++ encode_uint32 TOKENIZER_VERSION) ++
          (encode_uint32 contents.length ++ C) := by
      rw [hw]
      simp only [List.append_assoc]
    have hw3 : parse_code_string cfg env lexed .COMPRESS_ZSTD =
        (['G'.toNat, 'D'.toNat, 'S'.toNat, 'C'.toNat] ++ encode_uint32 TOKENIZER_VERSION ++
          encode_uint32 contents.length) ++ C := hw
    have hfield : decode_uint32
        (((parse_code_string cfg env lexed .COMPRESS_ZSTD).drop 8).take 4) = contents.length := by
      rw [hw2, List.drop_left' (by rfl), take_four_append _ _ (encode_uint32_length _),
        decode_encode_uint32, Nat.mod_eq_of_lt hsize]
    have hCl : C.length = (env.zstd_compress contents).1.toNat := by
      rw [← hC, resize_length]
    refine ⟨?_, ?_, h20, fun _ => ⟨hfield, ?_, ?_⟩⟩
    · rw [hw]
      exact fun e => nomatch e
    · rw [hfield]
      exact ⟨fun e => by omega, fun e => nomatch e⟩
    · rw [hw3, List.length_append, hCl]
      rfl
    · intro h1 h2
      rw [hw3, List.drop_left' (by rfl), ← hC]
      unfold resize
      rw [poke_length, List.length_append, List.length_take, List.length_replicate]
      simp only [List.length_nil, List.take_nil, List.nil_append, Nat.sub_zero,
        Nat.min_zero, Nat.zero_add]
      rw [Nat.sub_eq_zero_of_le h2]
      simp only [List.replicate_zero, List.append_nil]
      exact poke_zero_take _ _ _ h1 (by rw [List.length_replicate]; exact h2)

theorem parse_code_string_length_field_witness :
    parse_code_string host_config sample_env sample_lexed .COMPRESS_ZSTD ≠ [] ∧
      (decode_uint32
        (((parse_code_string host_config sample_env sample_lexed .COMPRESS_ZSTD).drop 8).take 4) =
          0 ↔ CompressMode.COMPRESS_ZSTD = .COMPRESS_NONE) ∧
      20 ≤ sample_payload.length ∧
      (CompressMode.COMPRESS_ZSTD = .COMPRESS_ZSTD →
        decode_uint32
          (((parse_code_string host_config sample_env sample_lexed .COMPRESS_ZSTD).drop 8).take
            4) = sample_payload.length ∧
          (parse_code_string host_config sample_env sample_lexed .COMPRESS_ZSTD).length =
            12 + (sample_env.zstd_compress sample_payload).1.toNat ∧
          ((sample_env.zstd_compress sample_payload).1.toNat ≤
              (sample_env.zstd_compress sample_payload).2.length →
            (sample_env.zstd_compress sample_payload).1.toNat ≤
              sample_env.compress_bound sample_payload.length →
            (parse_code_string host_config sample_env sample_lexed .COMPRESS_ZSTD).drop 12 =
              (sample_env.zstd_compress sample_payload).2.take
                (sample_env.zstd_compress sample_payload).1.toNat)) :=
  parse_code_string_length_field host_config sample_env sample_lexed .COMPRESS_ZSTD
    sample_payload (by decide) (fun _ => by decide) (by decide)

/-! ### The indent stack is strictly increasing -/

namespace GDScriptTokenizerBuffer

theorem get_touch (m : HashMap Nat Nat) (k k2 : Nat) :
    HashMap.get int_eq (HashMap.touch int_eq m k 0) k2 0 = HashMap.get int_eq m k2 0 := by
  unfold HashMap.touch
  split
  · rfl
  · cases h : HashMap.has int_eq m k2 with
    | true => exact HashMap.get_append_left int_eq m _ k2 0 h
    | false =>
      rw [HashMap.get_append_right int_eq m _ k2 0 h]
      have h1 : HashMap.get int_eq m k2 0 = 0 := by
        unfold HashMap.get
        have hf : (m.find? fun e => int_eq e.1 k2) = none := by
          rw [List.find?_eq_none]
          intro e he
          rw [HashMap.has_false_iff] at h
          simp [h e he]
        rw [hf]
      rw [h1]
      unfold HashMap.get
      simp only [List.find?_cons, List.find?_nil]
      cases int_eq k k2 <;> rfl

theorem entry_column_touch (d : GDScriptTokenizerBuffer) (cl : Nat) (tc : Bool) (nl : Bool)
    (cur : Nat) (k : Nat) :
    entry_column { d with
        current_line := cl
        token_columns := if tc = true then HashMap.touch int_eq d.token_columns d.current 0
          else d.token_columns
        last_token_was_newline := nl
        current := cur } k = entry_column d k := by
  unfold entry_column
  cases tc
  · rfl
  · simp only [if_true]
    rw [get_touch]

theorem columns_from_one_has (d : GDScriptTokenizerBuffer) (h : columns_from_one d = true)
    (k : Nat) (hk : HashMap.has int_eq d.token_lines k = true) : 1 ≤ entry_column d k := by
  unfold HashMap.has at hk
  rw [List.any_eq_true] at hk
  obtain ⟨e, he, hek⟩ := hk
  unfold columns_from_one at h
  rw [List.all_eq_true] at h
  have := h e he
  have hk2 : e.1 = k := by simpa [int_eq] using hek
  rw [hk2] at this
  simpa using this

theorem le_head_of_pairwise (x : Nat) (s : List Nat)
    (h : (x :: s).Pairwise fun upper lower => lower < upper) : ∀ y ∈ x :: s, y ≤ x := by
  intro y hy
  rcases List.mem_cons.1 hy with rfl | hy
  · exact Nat.le_refl _
  · exact Nat.le_of_lt ((List.pairwise_cons.1 h).1 y hy)

theorem scan_keeps_increasing (d0 d : GDScriptTokenizerBuffer)
    (hcol : columns_from_one d0 = true)
    (hl : d.token_lines = d0.token_lines) (hc : ∀ k, entry_column d k = entry_column d0 k)
    (hst : increasing_from_entries d0 d.indent_stack) :
    ∃ t d1, scan d = some (t, d1) ∧ (d1.token_lines = d0.token_lines ∧
      (∀ k, entry_column d1 k = entry_column d0 k) ∧
      increasing_from_entries d0 d1.indent_stack) := by
  apply scan_cases d
  · intro _ _; exact ⟨hl, hc, hst⟩
  · intro _ _; exact ⟨hl, hc, hst⟩
  · intro _ _; exact ⟨hl, hc, hst⟩
  · intro _ _ _ _; exact ⟨hl, hc, hst⟩
  · intro _ _ _ _
    exact ⟨hl, hc, List.Pairwise.nil, fun x hx => nomatch hx⟩
  · intro _ _ _ hhas _
    refine ⟨hl, ?_, ?_⟩
    · intro k
      rw [← hc k]
      unfold entry_column
      simp only
      rw [get_touch]
    · simp only
      have h1 : 1 ≤ entry_column d0 d.current :=
        columns_from_one_has d0 hcol _ (by rw [← hl]; exact hhas)
      have hic : indent_column d = entry_column d0 d.current - 1 := by
        rw [← hc]
        rw [← hc] at h1
        unfold indent_column
        unfold entry_column uint32_t at h1 ⊢
        omega
      by_cases hgt : indent_column d > d.indent_stack.headD 0
      · rw [if_pos hgt]
        refine ⟨List.pairwise_cons.2 ⟨?_, hst.1⟩, ?_⟩
        · intro y hy
          cases hs : d.indent_stack with
          | nil => rw [hs] at hy; cases hy
          | cons top rest =>
            rw [hs] at hy hgt
            have := le_head_of_pairwise top rest (hs ▸ hst.1) y hy
            simp only [List.headD_cons] at hgt
            omega
        · intro x hx
          rcases List.mem_cons.1 hx with hx | hx
          · have hpos : 0 < x := by omega
            have hk : HashMap.has int_eq d0.token_lines d.current = true := by
              rw [← hl]; exact hhas
            exact ⟨hpos, d.current, hk, hx.trans hic⟩
          · exact hst.2 x hx
      · rw [if_neg hgt]
        exact ⟨hst.1.sublist (List.dropWhile_sublist _),
          fun x hx => hst.2 x ((List.dropWhile_sublist _).subset hx)⟩
  · intro _ _ _
    refine ⟨hl, ?_, hst⟩
    intro k
    rw [← hc k]
    exact entry_column_touch d _ _ false (d.current + 1) k

theorem scan_calls_keep_increasing (d0 : GDScriptTokenizerBuffer)
    (hcol : columns_from_one d0 = true) (n : Nat) : ∀ d : GDScriptTokenizerBuffer, d.token_lines = d0.token_lines →
    (∀ k, entry_column d k = entry_column d0 k) → increasing_from_entries d0 d.indent_stack →
    increasing_from_entries d0 (scan_calls n d).2.indent_stack := by
  induction n with
  | zero => intro d _ _ h; exact h
  | succ n ih =>
    intro d hl hc hst
    obtain ⟨t, d1, hs, h1, h2, h3⟩ := scan_keeps_increasing d0 d hcol hl hc hst
    rw [scan_calls, hs]
    exact ih d1 h1 h2 h3

/-- C33. The indent stack is strictly increasing: for a decoder started with an empty
indent stack whose position entries all have a column of at least 1, after any number
of calls of `scan` the indent stack holds strictly increasing values from bottom to top,
each above 0 and each the column, less one, of some position entry.  With a column of 0
at a line change, `current_column - 1` wraps to 2^32 - 1, and unless that value is on
top of the stack already it is pushed and an INDENT is queued, as for a deeper indent. -/
theorem indent_stack_increasing (d : GDScriptTokenizerBuffer) (n : Nat)
    (hs : d.indent_stack = []) (hcol : columns_from_one d = true) :
    ((scan_calls n d).2.indent_stack.Pairwise (fun upper lower => lower < upper) ∧
      ∀ x ∈ (scan_calls n d).2.indent_stack, 0 < x ∧
        ∃ k, HashMap.has int_eq d.token_lines k = true ∧ x = entry_column d k - 1) ∧
      ∀ e : GDScriptTokenizerBuffer, e.multiline_mode = false → e.pending_indents = 0 →
        e.current < e.tokens.length → e.last_token_was_newline = false →
        HashMap.has int_eq e.token_lines e.current = true → entry_column e e.current = 0 →
        indent_column e = 4294967295 ∧
          (e.indent_stack.headD 0 < 4294967295 →
            ∃ t e2, scan e = some (t, e2) ∧ t.type = .NEWLINE ∧
              e2.indent_stack = 4294967295 :: e.indent_stack ∧ e2.pending_indents = 1) := by
  refine ⟨scan_calls_keep_increasing d hcol n d rfl (fun _ => rfl)
    (by rw [hs]; exact ⟨List.Pairwise.nil, fun x hx => nomatch hx⟩), ?_⟩
  intro e hm hp hlt hn hhas hz
  have hic : indent_column e = 4294967295 := by
    unfold indent_column
    unfold entry_column at hz
    rw [hz]
    rfl
  refine ⟨hic, fun hlt2 => ?_⟩
  have hstate := scan_line_change_state e hm hp hlt hn hhas
  rw [hic] at hstate
  rw [if_pos hlt2, if_pos hlt2] at hstate
  exact ⟨_, _, hstate, rfl, rfl, rfl⟩

theorem indent_stack_increasing_witness :
    ((scan_calls 5 indent_example).2.indent_stack.Pairwise (fun upper lower => lower < upper) ∧
      ∀ x ∈ (scan_calls 5 indent_example).2.indent_stack, 0 < x ∧
        ∃ k, HashMap.has int_eq indent_example.token_lines k = true ∧
          x = entry_column indent_example k - 1) ∧
      (scan_calls 5 indent_example).2.indent_stack = [4] ∧
      (zero_column_example.indent_stack.headD 0 < 4294967295 →
        ∃ t e2, scan zero_column_example = some (t, e2) ∧ t.type = .NEWLINE ∧
          e2.indent_stack = 4294967295 :: zero_column_example.indent_stack ∧
          e2.pending_indents = 1) :=
  ⟨(indent_stack_increasing indent_example 5 rfl (by decide)).1, by decide,
    ((indent_stack_increasing indent_example 5 rfl (by decide)).2 zero_column_example rfl rfl
      (by decide) rfl (by decide) (by decide)).2⟩

end GDScriptTokenizerBuffer

end godot
